import Mathlib

/-! Particle ownership and mutation layer of ESPResSo (`src/core/particle_data.cpp`).

A shallow embedding of the particle storage of one rank (the particle lists of the
local cells and the id-to-slot table `local_particles`), of the id-to-rank table
`particle_node` kept on the head node, and of the operations defined in
`particle_data.cpp`, together with theorems about them.

Conventions of the embedding.

* A `double` (and a `Utils::Vector3d`) is a stored value on which `particle_data.cpp`
  performs no arithmetic; it is carried as an integer (a triple of integers) standing
  for its bit pattern.
* A `ParticleList` is the list of its `n` constructed records `part[0] .. part[n-1]`.
* A `Particle *` into the local cells is the pair (number of the list, slot in the list).
* `std::move` of a record is a copy; the moved-from slot is always overwritten or
  dropped by the code before it is read again.
* The build configuration is the one without optional features (no `ROTATION`, `MASS`,
  `ELECTROSTATICS`, ...), with `EXCLUSIONS`.
* The lists of a rank are its local cells; ghost cells are not part of the model.
* The head node is rank 0: it is the rank that calls the functions of the public
  interface, and the other ranks run the callbacks that `mpi_call` names.
* A function that can throw, or fail an assertion, returns the error or the value
  together with the state it leaves behind.
-/

namespace Espresso

/-! ## Data model -/

/-- Stored value of a `Utils::Vector3d`. -/
abbrev Vector3d := Int × Int × Int

/-- Stored value of a `Utils::Vector3i`. -/
abbrev Vector3i := Int × Int × Int

/-- The sub-struct `Particle::p` (base configuration). -/
structure ParticleProperties where
  identity : Int
  mol_id : Int
  type : Int
  deriving DecidableEq, Inhabited

/-- The sub-struct `Particle::r`. -/
structure ParticlePosition where
  p : Vector3d
  deriving DecidableEq, Inhabited

/-- The sub-struct `Particle::m`. -/
structure ParticleMomentum where
  v : Vector3d
  deriving DecidableEq, Inhabited

/-- The sub-struct `Particle::f`. -/
structure ParticleForce where
  f : Vector3d
  deriving DecidableEq, Inhabited

/-- The sub-struct `Particle::l`. -/
structure ParticleLocal where
  ghost : Bool
  i : Vector3i
  deriving DecidableEq, Inhabited

/-- A particle record: the five sub-structs, the bond list `bl` and the exclusion list `el`. -/
structure Particle where
  p : ParticleProperties
  r : ParticlePosition
  m : ParticleMomentum
  f : ParticleForce
  l : ParticleLocal
  bl : List Int
  el : List Int
  deriving DecidableEq, Inhabited

/-- The member function `Particle::identity()`. -/
def Particle.identity (part : Particle) : Int := part.p.identity

/-- The constructed records `part[0] .. part[n-1]` of a `ParticleList`. -/
abbrev ParticleList := List Particle

/-- A `Particle *` pointing into the local cells: `&cell->part[slot]`. -/
structure Ptr where
  cell : Nat
  slot : Nat
  deriving DecidableEq, Inhabited

/-- The particle storage of one rank: the particle lists of `cell_structure.local_cells()`
and the table `local_particles` from particle id to the address of its record. -/
structure LocalState where
  cells : List ParticleList
  local_particles : Int → Option Ptr

/-- The list `*l` (empty when `l` is not a list of the rank). -/
def LocalState.list (st : LocalState) (l : Nat) : ParticleList := st.cells.getD l []

/-- The member `l->n`. -/
def LocalState.n (st : LocalState) (l : Nat) : Nat := (st.list l).length

/-- The record `l->part[k]`, when `k < l->n`. -/
def LocalState.part (st : LocalState) (l k : Nat) : Option Particle := (st.list l)[k]?

/-- Overwrite the records of list `l`. -/
def LocalState.setList (st : LocalState) (l : Nat) (ps : ParticleList) : LocalState :=
  { st with cells := st.cells.set l ps }

/-- The record a pointer refers to. -/
def LocalState.deref (st : LocalState) (q : Ptr) : Option Particle := st.part q.cell q.slot

/-- Modelled from the spec: `get_local_particle_data` is declared in `particle_data.hpp`,
which is not among the sources; LocalIndex `get(id) -> slot|absent`. -/
def get_local_particle_data (st : LocalState) (id : Int) : Option Ptr :=
  st.local_particles id

/-- Modelled from the spec: `set_local_particle_data` is declared in `particle_data.hpp`,
which is not among the sources; LocalIndex `set(id, slot)`, and `erase(id)` when the
pointer is null. -/
def set_local_particle_data (st : LocalState) (id : Int) (q : Option Ptr) : LocalState :=
  { st with local_particles := fun j => if j = id then q else st.local_particles j }

/-! ## Organisational functions (`particle_data.cpp`, lines 499-599)

`ParticleList::resize` is declared in `ParticleList.hpp`, which is not among the sources.
It changes `n` and returns whether the storage was reallocated; that return value is an
input (`re`) of every function that calls it. -/

/-- The loop of `update_local_particles`, at slot `i` with the records `ps` still to visit. -/
def update_local_particles_loop (pl : Nat) : List Particle → Nat → LocalState → LocalState
  | [], _, st => st
  | p :: ps, i, st =>
    update_local_particles_loop pl ps (i + 1)
      (set_local_particle_data st p.p.identity (some ⟨pl, i⟩))

/-- The function `update_local_particles(pl)`. -/
def update_local_particles (st : LocalState) (pl : Nat) : LocalState :=
  update_local_particles_loop pl (st.list pl) 0 st

/-- The function `append_unindexed_particle(l, part)`. -/
def append_unindexed_particle (st : LocalState) (l : Nat) (part : Particle) :
    Option LocalState :=
  if l < st.cells.length then some (st.setList l (st.list l ++ [part])) else none

/-- The function `append_indexed_particle(l, part)`; `re` is the result of `l->resize(l->n + 1)`.
Returns the address of the new record. -/
def append_indexed_particle (st : LocalState) (l : Nat) (part : Particle) (re : Bool) :
    Option (Ptr × LocalState) :=
  if l < st.cells.length then
    -- l->resize(l->n + 1); p = new (&(l->part[l->n - 1])) Particle(std::move(part))
    let st1 := st.setList l (st.list l ++ [part])
    let p : Ptr := ⟨l, st1.n l - 1⟩
    let st2 :=
      if re then update_local_particles st1 l
      else set_local_particle_data st1 part.p.identity (some p)
    some (p, st2)
  else none

/-- The function `move_unindexed_particle(dl, sl, i)`. Fails when an assertion fails. -/
def move_unindexed_particle (st : LocalState) (dl sl i : Nat) : Option (Ptr × LocalState) :=
  if dl < st.cells.length then
    match st.part sl i with
    | none => none
    | some p =>
      -- dl->resize(dl->n + 1); dst = &dl->part[dl->n - 1]; new (dst) Particle(*src)
      let st1 := st.setList dl (st.list dl ++ [p])
      let dst : Ptr := ⟨dl, st1.n dl - 1⟩
      -- end = &sl->part[sl->n - 1]
      let endSlot := st1.n sl - 1
      let e := (st1.list sl).getLastD p
      let st2 := if i ≠ endSlot then st1.setList sl ((st1.list sl).set i e) else st1
      -- sl->resize(sl->n - 1)
      let st3 := st2.setList sl (st2.list sl).dropLast
      some (dst, st3)
  else none

/-- The function `move_indexed_particle(dl, sl, i)`; `re_dl` and `re_sl` are the results of the two
calls of `resize`. Fails when an assertion fails. -/
def move_indexed_particle (st : LocalState) (dl sl i : Nat) (re_dl re_sl : Bool) :
    Option (Ptr × LocalState) :=
  if dl < st.cells.length then
    match st.part sl i with
    | none => none
    | some p =>
      -- re = dl->resize(dl->n + 1); dst = &dl->part[dl->n - 1]; new (dst) Particle(*src)
      let st1 := st.setList dl (st.list dl ++ [p])
      let dst : Ptr := ⟨dl, st1.n dl - 1⟩
      let st2 :=
        if re_dl then update_local_particles st1 dl
        else set_local_particle_data st1 p.p.identity (some dst)
      -- end = &sl->part[sl->n - 1]
      let endSlot := st2.n sl - 1
      let e := (st2.list sl).getLastD p
      -- if (src != end) new (src) Particle(std::move(*end))
      let st3 := if i ≠ endSlot then st2.setList sl ((st2.list sl).set i e) else st2
      -- sl->resize(sl->n - 1)
      let st4 := st3.setList sl (st3.list sl).dropLast
      let st5 :=
        if re_sl then update_local_particles st4 sl
        else if i ≠ endSlot then set_local_particle_data st4 e.p.identity (some ⟨sl, i⟩)
        else st4
      some (dst, st5)
  else none

/-- The function `extract_indexed_particle(sl, i)`; `re` is the result of `sl->resize(sl->n - 1)`.
Fails when an assertion fails. -/
def extract_indexed_particle (st : LocalState) (sl i : Nat) (re : Bool) :
    Option (Particle × LocalState) :=
  match st.part sl i with
  | none => none
  | some p =>
    -- end = &sl->part[sl->n - 1]
    let endSlot := st.n sl - 1
    let e := (st.list sl).getLastD p
    let st1 := set_local_particle_data st p.p.identity none
    -- if (src != end) new (src) Particle(std::move(*end))
    let st2 := if i ≠ endSlot then st1.setList sl ((st1.list sl).set i e) else st1
    -- sl->resize(sl->n - 1)
    let st3 := st2.setList sl (st2.list sl).dropLast
    let st4 :=
      if re then update_local_particles st3 sl
      else if i ≠ endSlot then set_local_particle_data st3 e.p.identity (some ⟨sl, i⟩)
      else st3
    some (p, st4)


/-! ## Consistency of the index with the storage -/

/-- The index is right on the slots selected by `P`: the id of the record in such a slot is
mapped to the address of that slot. -/
def InvOn (st : LocalState) (P : Nat → Nat → Prop) : Prop :=
  ∀ c k q, st.part c k = some q → P c k → get_local_particle_data st q.p.identity = some ⟨c, k⟩

/-- LocalIndex/LocalStore consistency: the id of every stored record is mapped to the
address of the slot that holds the record. -/
def Consistent (st : LocalState) : Prop :=
  ∀ c k q, st.part c k = some q → get_local_particle_data st q.p.identity = some ⟨c, k⟩

/-- Some list of the rank stores a record with identity `id`. -/
def Stored (st : LocalState) (id : Int) : Prop :=
  ∃ c k q, st.part c k = some q ∧ q.p.identity = id

/-- Particle ids are unique: two slots holding records of the same identity coincide. -/
def UniqueIds (st : LocalState) : Prop :=
  ∀ c k q c' k' q', st.part c k = some q → st.part c' k' = some q' →
    q.p.identity = q'.p.identity → c = c' ∧ k = k'

/-- The statements shared by `append_indexed_particle` and `move_indexed_particle`:
construct `p` in a new last slot of `l` and index it. -/
def push_index (st : LocalState) (l : Nat) (p : Particle) (re : Bool) : LocalState :=
  let st1 := st.setList l (st.list l ++ [p])
  if re then update_local_particles st1 l
  else set_local_particle_data st1 p.p.identity (some ⟨l, st1.n l - 1⟩)

/-- The statements shared by `move_indexed_particle` and `extract_indexed_particle`:
fill slot `i` of `sl` from the last slot, shrink `sl` by one and repair the index. -/
def swap_remove_index (st : LocalState) (sl i : Nat) (p : Particle) (re : Bool) : LocalState :=
  let endSlot := st.n sl - 1
  let e := (st.list sl).getLastD p
  let st3 := if i ≠ endSlot then st.setList sl ((st.list sl).set i e) else st
  let st4 := st3.setList sl (st3.list sl).dropLast
  if re then update_local_particles st4 sl
  else if i ≠ endSlot then set_local_particle_data st4 e.p.identity (some ⟨sl, i⟩)
  else st4

/-- Swap-with-last removal of slot `i` from a list. -/
def swap_remove (l : List Particle) (i : Nat) : List Particle :=
  match l.getLast? with
  | none => l
  | some e => (if i ≠ l.length - 1 then l.set i e else l).dropLast

/-! ## Sequences of structural operations on the storage of one rank -/

/-- A call of one of the three indexed operations, with the results of its `resize` calls. -/
inductive Op where
  | append (l : Nat) (part : Particle) (re : Bool)
  | move (dl sl i : Nat) (re_dl re_sl : Bool)
  | extract (sl i : Nat) (re : Bool)

/-- Perform a call; the second component is the record an extraction returned. -/
def Op.step (st : LocalState) : Op → Option (LocalState × Option Particle)
  | .append l part re => (append_indexed_particle st l part re).map fun r => (r.2, none)
  | .move dl sl i re_dl re_sl =>
    (move_indexed_particle st dl sl i re_dl re_sl).map fun r => (r.2, none)
  | .extract sl i re => (extract_indexed_particle st sl i re).map fun r => (r.2, some r.1)

/-- The call respects the contract of the operation: the lists exist, the slot index is
valid, and a record that is appended has an id that no stored record has. -/
def Op.valid (st : LocalState) : Op → Prop
  | .append l part _ => l < st.cells.length ∧ ¬ Stored st part.p.identity
  | .move dl sl i _ _ => dl < st.cells.length ∧ sl < st.cells.length ∧ i < st.n sl
  | .extract sl i _ => sl < st.cells.length ∧ i < st.n sl

/-- Perform a sequence of calls; returns the final state and the extracted records. -/
def run : LocalState → List Op → Option (LocalState × List Particle)
  | st, [] => some (st, [])
  | st, op :: ops =>
    match op.step st with
    | none => none
    | some (st1, x) =>
      match run st1 ops with
      | none => none
      | some (st2, xs) => some (st2, x.toList ++ xs)

/-- Every call of the sequence is valid in the state it is made in. -/
def ValidRun : LocalState → List Op → Prop
  | _, [] => True
  | st, op :: ops => op.valid st ∧ ∀ st1 x, op.step st = some (st1, x) → ValidRun st1 ops

/-- Modelled from the spec: the default constructor of `Particle` (`Particle.hpp` is not
among the sources); a record with identity `-1`, zeroed fields and empty lists. -/
def Particle.init : Particle :=
  { p := { identity := -1, mol_id := 0, type := 0 }
    r := { p := (0, 0, 0) }
    m := { v := (0, 0, 0) }
    f := { f := (0, 0, 0) }
    l := { ghost := false, i := (0, 0, 0) }
    bl := []
    el := [] }

/-- A default-constructed record with the given identity. -/
def Particle.withId (id : Int) : Particle :=
  { Particle.init with p := { Particle.init.p with identity := id } }

/-- An example storage: two lists, the first with the records 0, 1, 2, the second with
record 3, consistently indexed. -/
def exampleStore : LocalState :=
  { cells := [[Particle.withId 0, Particle.withId 1, Particle.withId 2], [Particle.withId 3]]
    local_particles := fun id =>
      if id = 0 then some ⟨0, 0⟩ else if id = 1 then some ⟨0, 1⟩
      else if id = 2 then some ⟨0, 2⟩ else if id = 3 then some ⟨1, 0⟩ else none }

/-- Executable check of `Consistent`. -/
def LocalState.checkConsistent (st : LocalState) : Bool :=
  (List.range st.cells.length).all fun c =>
    (List.range (st.n c)).all fun k =>
      match st.part c k with
      | some q => decide (get_local_particle_data st q.p.identity = some ⟨c, k⟩)
      | none => true

/-- Executable check of `Stored`. -/
def LocalState.checkStored (st : LocalState) (id : Int) : Bool :=
  st.cells.any fun l => l.any fun q => decide (q.p.identity = id)

/-- An id is clean when it is stored or mapped to no slot. -/
def Clean (st : LocalState) (id : Int) : Prop :=
  ¬ Stored st id → get_local_particle_data st id = none

/-- Executable check of `Op.valid`. -/
def Op.checkValid (st : LocalState) : Op → Bool
  | .append l part _ => decide (l < st.cells.length) && !st.checkStored part.p.identity
  | .move dl sl i _ _ =>
    decide (dl < st.cells.length) && decide (sl < st.cells.length) && decide (i < st.n sl)
  | .extract sl i _ => decide (sl < st.cells.length) && decide (i < st.n sl)

/-- Executable check of `ValidRun`. -/
def checkValidRun : LocalState → List Op → Bool
  | _, [] => true
  | st, op :: ops =>
    op.checkValid st &&
      match op.step st with
      | none => true
      | some (st1, _) => checkValidRun st1 ops

/-- An example sequence of calls on `exampleStore`. -/
def exampleOps : List Op :=
  [.move 1 0 0 false false, .extract 0 0 true, .append 1 (Particle.withId 7) false,
   .move 0 0 0 true false]

/-! ## Bond lists (`particle_data.cpp`, lines 1008-1029 and 1122-1165)

A bond list is a concatenation of records `[type, partner_1, .., partner_k]` with
`k = bonded_ia_params[type].num`. The table `bonded_ia_params` is declared in
`bonded_interaction_data.hpp`, which is not among the sources; its column `num` is the
parameter `num` of the functions below. A read outside a list (undefined in C++) yields
`0`. -/

/-- The constant `ES_OK`. -/
def ES_OK : Int := 0

/-- The constant `ES_ERROR`. -/
def ES_ERROR : Int := 1

/-- The function `local_add_particle_bond(p, bond)`. -/
def local_add_particle_bond (p : Particle) (bond : List Int) : Particle :=
  { p with bl := p.bl ++ bond }

/-- The loop over the partners in `try_delete_bond`: started with `j = 1`, it returns the
value of `j` at which the loop is left, `partners + 1` when all partners match. -/
def try_delete_bond_partners (bond bl : List Int) (i partners : Nat) : Nat → Nat → Nat
  | 0, j => j
  | fuel + 1, j =>
    if j ≤ partners then
      if bond.getD j 0 ≠ bl.getD (i + j) 0 then j
      else try_delete_bond_partners bond bl i partners fuel (j + 1)
    else j

/-- The loop over the bond list in `try_delete_bond`, at index `i`; at most `fuel`
iterations. Returns the bond list after the erasure, or `none` when the loop ends
without a match. -/
def try_delete_bond_loop (num : Int → Nat) (bond bl : List Int) : Nat → Nat → Option (List Int)
  | 0, _ => none
  | fuel + 1, i =>
    if i < bl.length then
      let type := bl.getD i 0
      let partners := num type
      if type ≠ bond.getD 0 0 then try_delete_bond_loop num bond bl fuel (i + 1 + partners)
      else
        let j := try_delete_bond_partners bond bl i partners partners 1
        if j > partners then some (bl.take i ++ bl.drop (i + 1 + partners))
        else try_delete_bond_loop num bond bl fuel (i + 1 + partners)
    else none

/-- The function `try_delete_bond(part, bond)`; a null `bond` is `none`. Every iteration advances `i`
by at least one, so `bl.n` iterations exhaust the list. -/
def try_delete_bond (num : Int → Nat) (part : Particle) (bond : Option (List Int)) :
    Particle × Int :=
  match bond with
  | none => ({ part with bl := [] }, ES_OK)
  | some b =>
    match try_delete_bond_loop num b part.bl part.bl.length 0 with
    | some bl => ({ part with bl := bl }, ES_OK)
    | none => (part, ES_ERROR)

/-- The loop over the partners in `remove_all_bonds_to`: started with `j = 1`, it returns
the value of `j` at which the loop is left, `partners + 1` when `id` is no partner. -/
def remove_all_bonds_to_partners (bl : List Int) (id : Int) (i partners : Nat) : Nat → Nat → Nat
  | 0, j => j
  | fuel + 1, j =>
    if j ≤ partners then
      if bl.getD (i + j) 0 = id then j
      else remove_all_bonds_to_partners bl id i partners fuel (j + 1)
    else j

/-- The loop over the bond list in `remove_all_bonds_to`, at index `i`; at most `fuel`
iterations. Returns the bond list and the index at which the loop is left. -/
def remove_all_bonds_to_loop (num : Int → Nat) (id : Int) : Nat → List Int → Nat → List Int × Nat
  | 0, bl, i => (bl, i)
  | fuel + 1, bl, i =>
    if i < bl.length then
      let partners := num (bl.getD i 0)
      let j := remove_all_bonds_to_partners bl id i partners partners 1
      if j ≤ partners then
        remove_all_bonds_to_loop num id fuel (bl.take i ++ bl.drop (i + 1 + partners)) i
      else remove_all_bonds_to_loop num id fuel bl (i + 1 + partners)
    else (bl, i)

/-- The function `remove_all_bonds_to(p, id)`. Every iteration erases at least one entry or advances
`i` by at least one, so `bl.n` iterations suffice. The final `assert(i == bl->n)` is not
part of the result. -/
def remove_all_bonds_to (num : Int → Nat) (p : Particle) (id : Int) : Particle :=
  { p with bl := (remove_all_bonds_to_loop num id p.bl.length p.bl 0).1 }

/-! ## Update messages (`particle_data.cpp`, lines 66-321) -/

/-- The variant type `UpdatePropertyMessage`: the variants `UpdateProperty<int, &Prop::type>` and
`UpdateProperty<int, &Prop::mol_id>`. -/
inductive UpdatePropertyMessage where
  | type (value : Int)
  | mol_id (value : Int)
  deriving DecidableEq

/-- The variant type `UpdatePositionMessage`: the variant `UpdatePosition<Vector3d, &ParticlePosition::p>`. -/
inductive UpdatePositionMessage where
  | p (value : Vector3d)
  deriving DecidableEq

/-- The variant type `UpdateMomentumMessage`: the variant `UpdateMomentum<Vector3d, &ParticleMomentum::v>`. -/
inductive UpdateMomentumMessage where
  | v (value : Vector3d)
  deriving DecidableEq

/-- The variant type `UpdateForceMessage`: the variant `UpdateForce<Vector3d, &ParticleForce::f>`. -/
inductive UpdateForceMessage where
  | f (value : Vector3d)
  deriving DecidableEq

/-- The variant type `UpdateBondMessage`. -/
inductive UpdateBondMessage where
  | RemoveBond (bond : List Int)
  | RemoveBonds
  | AddBond (bond : List Int)
  deriving DecidableEq

/-- The variant type `UpdateMessage`, the top-level message. -/
inductive UpdateMessage where
  | property (msg : UpdatePropertyMessage)
  | position (msg : UpdatePositionMessage)
  | momentum (msg : UpdateMomentumMessage)
  | force (msg : UpdateForceMessage)
  | bond (msg : UpdateBondMessage)
  deriving DecidableEq

/-- The call operator `UpdateParticle::operator()` for the property variants: `(p.*s).*m = value`. -/
def UpdatePropertyMessage.apply (p : Particle) : UpdatePropertyMessage → Particle
  | .type value => { p with p := { p.p with type := value } }
  | .mol_id value => { p with p := { p.p with mol_id := value } }

/-- The call operator `UpdateParticle::operator()` for the position variant. -/
def UpdatePositionMessage.apply (p : Particle) : UpdatePositionMessage → Particle
  | .p value => { p with r := { p.r with p := value } }

/-- The call operator `UpdateParticle::operator()` for the momentum variant. -/
def UpdateMomentumMessage.apply (p : Particle) : UpdateMomentumMessage → Particle
  | .v value => { p with m := { p.m with v := value } }

/-- The call operator `UpdateParticle::operator()` for the force variant. -/
def UpdateForceMessage.apply (p : Particle) : UpdateForceMessage → Particle
  | .f value => { p with f := { p.f with f := value } }

/-- The pointer `bond.data()` of a `std::vector<int>`: null for a vector without
elements (it owns no storage when it is built from an empty range), otherwise the
elements. -/
def vector_data (bond : List Int) : Option (List Int) :=
  if bond.isEmpty then none else some bond

/-- The call operators of `RemoveBond`, `RemoveBonds` and `AddBond`. -/
def UpdateBondMessage.apply (num : Int → Nat) (p : Particle) : UpdateBondMessage → Particle
  | .RemoveBond bond => (try_delete_bond num p (vector_data bond)).1
  | .RemoveBonds => { p with bl := [] }
  | .AddBond bond => local_add_particle_bond p bond

/-- What `UpdateVisitor` does with the record once it has it: recurse into the
sub-variant and call the plain message. -/
def UpdateMessage.apply (num : Int → Nat) (p : Particle) : UpdateMessage → Particle
  | .property msg => msg.apply p
  | .position msg => msg.apply p
  | .momentum msg => msg.apply p
  | .force msg => msg.apply p
  | .bond msg => msg.apply num p

/-- The call `UpdateVisitor{id}(msg)` on the storage of a rank: `assert(get_local_particle_data(id))`,
then `msg(*get_local_particle_data(id))`. Fails when the assertion fails. -/
def UpdateVisitor (num : Int → Nat) (id : Int) (msg : UpdateMessage) (st : LocalState) :
    Option LocalState :=
  match get_local_particle_data st id with
  | none => none
  | some ptr =>
    match st.deref ptr with
    | none => none
    | some p => some (st.setList ptr.cell ((st.list ptr.cell).set ptr.slot (msg.apply num p)))

/-! ## The id-to-rank table `particle_node` (a `std::unordered_map<int, int>`) -/

/-- The entries of `particle_node`, in no particular order. -/
abbrev Directory := List (Int × Int)

/-- The expression `particle_node.find(id)`: the mapped rank, if any. -/
def Directory.find (d : Directory) (id : Int) : Option Int :=
  match d with
  | [] => none
  | (k, v) :: rest => if k = id then some v else Directory.find rest id

/-- The expression `particle_node.erase(id)`. -/
def Directory.erase (d : Directory) (id : Int) : Directory :=
  d.filter fun kv => decide (kv.1 ≠ id)

/-- The statement `particle_node[id] = node`. -/
def Directory.set (d : Directory) (id node : Int) : Directory :=
  (id, node) :: d.erase id

/-- The expression `particle_node.count(id)` as a `bool`. -/
def Directory.count (d : Directory) (id : Int) : Bool := (d.find id).isSome

/-- The expression `Utils::keys(particle_node)`. -/
def Directory.keys (d : Directory) : List Int := d.map Prod.fst

/-- The `boost::accumulate` of `get_maximal_particle_id`: the largest key, or `-1`. -/
def Directory.max_key (d : Directory) : Int :=
  d.foldl (fun m kv => max m kv.1) (-1)

/-! ## The fetch cache

`Utils::Cache` is declared in `utils/Cache.hpp`, which is not among the sources. -/

/-- Modelled from the spec: the state of a `Utils::Cache<int, Particle>` (RemoteCache);
"a bounded-capacity, recency-ordered cache of read-only particle snapshots". The entries
are listed most recently used first. -/
structure Cache where
  entries : List (Int × Particle)
  max_size : Nat

/-- Modelled from the spec: `Cache::has`; `has(id) -> bool`. -/
def Cache.has (c : Cache) (id : Int) : Bool :=
  c.entries.any fun kv => decide (kv.1 = id)

/-- Modelled from the spec: `Cache::get`; `get(id) -> value|absent`, which "on a miss
does not fetch automatically". A hit makes the entry the most recently used one. -/
def Cache.get (c : Cache) (id : Int) : Option Particle × Cache :=
  match c.entries.find? fun kv => decide (kv.1 = id) with
  | none => (none, c)
  | some kv =>
    (some kv.2, { c with entries := kv :: c.entries.filter fun e => decide (e.1 ≠ id) })

/-- Modelled from the spec: `Cache::put`; `put(id, value)` with "eviction policy:
least-recently-used" and the resident entries "bounded by a fixed maximum entry count". -/
def Cache.put (c : Cache) (id : Int) (value : Particle) : Cache :=
  { c with entries :=
      ((id, value) :: c.entries.filter fun e => decide (e.1 ≠ id)).take c.max_size }

/-- Modelled from the spec: `Cache::invalidate`; `invalidateAll()`. -/
def Cache.invalidate (c : Cache) : Cache := { c with entries := [] }

/-! ## The state of a rank and of the system -/

/-- The global variables of `particle_data.cpp` in one process, with the particle storage
of that rank. -/
structure RankState where
  store : LocalState
  particle_node : Directory
  particle_fetch_cache : Cache
  max_seen_particle : Int
  n_part : Int
  type_list_enable : Bool
  particle_type_map : List (Int × List Int)

/-- The callbacks that `mpi_call` runs on the other ranks. -/
inductive Callback where
  | mpi_who_has_slave
  | mpi_update_particle_slave
  | mpi_get_particles_slave
  | mpi_remove_particle_slave
  | mpi_place_particle_slave
  | mpi_place_new_particle_slave
  | get_particle_data_local
  deriving DecidableEq

/-- A transport operation issued by the head node. -/
inductive Comm where
  | call (cb : Callback)
  | send (dest : Int)
  | recv (source : Int)
  | gather
  | scatter
  | gatherv
  | bcast
  deriving DecidableEq

/-- The system: the head node (rank 0, the only rank that calls the functions of the
public interface), the other ranks (`slaves[r]` is rank `r + 1`), and the transport
operations the head node has issued so far, oldest first. -/
structure System where
  master : RankState
  slaves : List RankState
  trace : List Comm

/-- The variable `n_nodes`, which is `comm_cart.size()`. -/
def System.n_nodes (sys : System) : Nat := sys.slaves.length + 1

/-- The state of rank `r`. -/
def System.rank (sys : System) (r : Nat) : Option RankState :=
  match r with
  | 0 => some sys.master
  | r + 1 => sys.slaves[r]?

/-- Record a transport operation. -/
def System.log (sys : System) (c : Comm) : System := { sys with trace := sys.trace ++ [c] }

/-- The errors that end a call: the two `std::runtime_error`s of `get_particle_node`,
a failed assertion, and a transport operation that cannot complete. -/
inductive Err where
  | InvalidId
  | UnknownId (id : Int)
  | assertion
  | transport
  deriving DecidableEq

/-- The result of a call on the head node: a value or an error, and the system state the
call leaves behind. -/
abbrev Result (α : Type) := Except Err α × System

/-- The function `invalidate_fetch_cache()`. -/
def invalidate_fetch_cache (rs : RankState) : RankState :=
  { rs with particle_fetch_cache := rs.particle_fetch_cache.invalidate }

/-- Modelled from the spec: `on_particle_change` is defined in `event.cpp`, which is not
among the sources; the "particle changed" notification hook, "consumed by
physics/cache-invalidation code outside this core". Of its effects the model keeps the
one on the state of `particle_data.cpp`: the call of `invalidate_fetch_cache`, the
"explicit invalidation hook" of the RemoteCache. -/
def on_particle_change (rs : RankState) : RankState := invalidate_fetch_cache rs

/-- Modelled from the spec: `cells_get_n_particles()` is defined in `cells.cpp`, which is
not among the sources; the number of records in the local cells. -/
def cells_get_n_particles (st : LocalState) : Nat := (st.cells.map List.length).sum

/-- The identities of `cell_structure.local_cells().particles()`, in the order of the
range. -/
def local_ids (st : LocalState) : List Int := st.cells.flatten.map fun p => p.p.identity

/-! ## Building and querying the directory (`particle_data.cpp`, lines 418-493, 1439-1463) -/

/-- The function `mpi_who_has_slave` on a rank: the number of particles it reports in the gather and
the identities it sends when that number is not zero. -/
def mpi_who_has_slave (rs : RankState) : Nat × List Int :=
  let n_part := cells_get_n_particles rs.store
  if n_part = 0 then (n_part, []) else (n_part, local_ids rs.store)

/-- The loop over `pnode` in `mpi_who_has` for the ranks other than the head node: from a
rank that reported particles the identities are received and entered into the table. -/
def mpi_who_has_loop : Nat → List RankState → Directory × List Comm → Directory × List Comm
  | _, [], acc => acc
  | pnode, rs :: rest, (d, tr) =>
    let (size, pdata) := mpi_who_has_slave rs
    if size > 0 then
      mpi_who_has_loop (pnode + 1) rest
        (pdata.foldl (fun d id => d.set id pnode) d, tr ++ [Comm.recv pnode])
    else mpi_who_has_loop (pnode + 1) rest (d, tr)

/-- The function `mpi_who_has(particles)` on the head node (`this_node = 0`): only the table of the
head node is written. -/
def mpi_who_has (sys : System) : System :=
  let sys1 := (sys.log (.call .mpi_who_has_slave)).log .gather
  let d0 := (local_ids sys1.master.store).foldl (fun d id => d.set id 0)
    sys1.master.particle_node
  let (d, tr) := mpi_who_has_loop 1 sys1.slaves (d0, sys1.trace)
  { sys1 with master := { sys1.master with particle_node := d }, trace := tr }

/-- The function `build_particle_node()`. -/
def build_particle_node (sys : System) : System := mpi_who_has sys

/-- The function `clear_particle_node()`. -/
def clear_particle_node (sys : System) : System :=
  { sys with master := { sys.master with particle_node := [] } }

/-- The statement `if (particle_node.empty()) build_particle_node();`. -/
def build_if_empty (sys : System) : System :=
  if sys.master.particle_node.isEmpty then build_particle_node sys else sys

/-- The function `particle_exists(part_id)`. -/
def particle_exists (sys : System) (part_id : Int) : Bool × System :=
  let sys1 := build_if_empty sys
  (sys1.master.particle_node.count part_id, sys1)

/-- The function `get_maximal_particle_id()`. -/
def get_maximal_particle_id (sys : System) : Int × System :=
  let sys1 := build_if_empty sys
  (sys1.master.particle_node.max_key, sys1)

/-- The function `get_particle_node(id)`. The second operand of `or` is evaluated only when the
first is false. -/
def get_particle_node (sys : System) (id : Int) : Result Int :=
  if id < 0 then (.error .InvalidId, sys)
  else
    let (maxid, sys1) := get_maximal_particle_id sys
    if id > maxid then (.error .InvalidId, sys1)
    else
      let sys2 := build_if_empty sys1
      match sys2.master.particle_node.find id with
      | none => (.error (.UnknownId id), sys2)
      | some node => (.ok node, sys2)

/-! ## Sending an update message (`particle_data.cpp`, lines 323-381) -/

/-- Run a callback on the ranks other than the head node; the first argument of the
callback is the rank. Fails when the callback fails on some rank. -/
def mapSlaves (f : Int → RankState → Option RankState) :
    Nat → List RankState → Option (List RankState)
  | _, [] => some []
  | rank, rs :: rest =>
    match f rank rs with
    | none => none
    | some rs1 => (mapSlaves f (rank + 1) rest).map fun l => rs1 :: l

/-- The function `mpi_update_particle_slave(node, id)` on rank `this_node`; `msg` is the message that
`comm_cart.recv(0, SOME_TAG, msg)` delivers, which is the one the head node sends to
rank `node`. Fails when the assertion of the visitor fails. -/
def mpi_update_particle_slave (num : Int → Nat) (msg : UpdateMessage) (node id : Int)
    (this_node : Int) (rs : RankState) : Option RankState :=
  if node = this_node then
    match UpdateVisitor num id msg rs.store with
    | none => none
    | some st => some (on_particle_change { rs with store := st })
  else some (on_particle_change rs)

/-- The function `mpi_send_update_message(id, msg)` on the head node. `mpi_call` is defined in
`communication.cpp`, which is not among the sources; it makes every other rank run the
callback with the two arguments. -/
def mpi_send_update_message (num : Int → Nat) (sys : System) (id : Int)
    (msg : UpdateMessage) : Result Unit :=
  match get_particle_node sys id with
  | (.error e, s1) => (.error e, s1)
  | (.ok pnode, s1) =>
    -- mpi_call(mpi_update_particle_slave, pnode, id)
    let s2 := s1.log (.call .mpi_update_particle_slave)
    match mapSlaves (mpi_update_particle_slave num msg pnode id) 1 s2.slaves with
    | none => (.error .assertion, s2)
    | some slaves =>
      let s3 := { s2 with slaves := slaves }
      if pnode ≠ 0 then
        -- comm_cart.send(pnode, SOME_TAG, msg)
        if 0 < pnode ∧ pnode < sys.n_nodes then
          (.ok (), { s3.log (.send pnode) with master := on_particle_change s3.master })
        else (.error .transport, s3)
      else
        -- boost::apply_visitor(UpdateVisitor{id}, msg)
        match UpdateVisitor num id msg s3.master.store with
        | none => (.error .assertion, s3)
        | some st =>
          (.ok (), { s3 with master := on_particle_change { s3.master with store := st } })

/-- The five instances of `UpdateParticle<S, s, T, m>` of the base configuration, with
the value to store. -/
inductive FieldUpdate where
  | type (value : Int)
  | mol_id (value : Int)
  | p (value : Vector3d)
  | v (value : Vector3d)
  | f (value : Vector3d)
  deriving DecidableEq

/-- The statement `MessageType msg = UpdateParticle<S, s, T, m>{value}` of
`mpi_update_particle`, converted to the top-level message. -/
def FieldUpdate.message : FieldUpdate → UpdateMessage
  | .type value => .property (.type value)
  | .mol_id value => .property (.mol_id value)
  | .p value => .position (.p value)
  | .v value => .momentum (.v value)
  | .f value => .force (.f value)

/-- The addressed field of the record has the value of the update. -/
def FieldUpdate.holds (part : Particle) : FieldUpdate → Prop
  | .type value => part.p.type = value
  | .mol_id value => part.p.mol_id = value
  | .p value => part.r.p = value
  | .v value => part.m.v = value
  | .f value => part.f.f = value

/-- The function `mpi_update_particle<S, s, T, m>(id, value)`. -/
def mpi_update_particle (num : Int → Nat) (sys : System) (id : Int) (u : FieldUpdate) :
    Result Unit :=
  mpi_send_update_message num sys id u.message

/-- The function `set_particle_v(part, v)`. -/
def set_particle_v (num : Int → Nat) (sys : System) (part : Int) (v : Vector3d) : Result Unit :=
  mpi_update_particle num sys part (.v v)

/-- The function `set_particle_f(part, F)`. -/
def set_particle_f (num : Int → Nat) (sys : System) (part : Int) (F : Vector3d) : Result Unit :=
  mpi_update_particle num sys part (.f F)

/-- The function `set_particle_mol_id(part, mid)`. -/
def set_particle_mol_id (num : Int → Nat) (sys : System) (part : Int) (mid : Int) :
    Result Unit :=
  mpi_update_particle num sys part (.mol_id mid)

/-! ## Reading a particle (`particle_data.cpp`, lines 601-641) -/

/-- The function `get_particle_data_local(id)` on a rank. -/
def get_particle_data_local (rs : RankState) (id : Int) : Option Particle :=
  match get_local_particle_data rs.store id with
  | none => none
  | some ptr =>
    match rs.store.deref ptr with
    | none => none
    | some p => if !p.l.ghost then some p else none

/-- Modelled from the spec: the call `mpiCallbacks().call(Result::one_rank, f, id)` is
defined in `MpiCallbacks.hpp`, which is not among the sources; "a single-rank synchronous
fetch RPC": every rank evaluates the callback and the one rank that has a result returns
it. Fails unless exactly one rank has a result. -/
def call_one_rank (f : RankState → Option Particle) (sys : System) : Option Particle :=
  match (sys.master :: sys.slaves).filterMap f with
  | [p] => some p
  | _ => none

/-- The function `get_particle_data(part)` on the head node (`this_node = 0`). -/
def get_particle_data (sys : System) (part : Int) : Result Particle :=
  match get_particle_node sys part with
  | (.error e, s1) => (.error e, s1)
  | (.ok pnode, s1) =>
    if pnode = 0 then
      match get_local_particle_data s1.master.store part with
      | none => (.error .assertion, s1)
      | some ptr =>
        match s1.master.store.deref ptr with
        | none => (.error .assertion, s1)
        | some p => (.ok p, s1)
    else
      -- query the cache
      match s1.master.particle_fetch_cache.get part with
      | (some p, c) => (.ok p, { s1 with master := { s1.master with particle_fetch_cache := c } })
      | (none, _) =>
        -- cache miss: fetch the particle and put it into the cache
        let s2 := s1.log (.call .get_particle_data_local)
        match call_one_rank (fun rs => get_particle_data_local rs part) s2 with
        | none => (.error .assertion, s2)
        | some p =>
          (.ok p, { s2 with master :=
            { s2.master with
              particle_fetch_cache := s2.master.particle_fetch_cache.put part p } })

/-! ## Removing a particle (`particle_data.cpp`, lines 981-1056, 1085-1102, 1320-1335) -/

/-- The function `remove_id_from_map(part_id, type)`. -/
def remove_id_from_map (m : List (Int × List Int)) (part_id type : Int) : List (Int × List Int) :=
  m.map fun e => if e.1 = type then (e.1, e.2.filter fun x => decide (x ≠ part_id)) else e

/-- The function `add_id_to_type_map(part_id, type)`. -/
def add_id_to_type_map (m : List (Int × List Int)) (part_id type : Int) : List (Int × List Int) :=
  m.map fun e =>
    if e.1 = type then (e.1, if e.2.contains part_id then e.2 else e.2 ++ [part_id]) else e

/-- The inner loop of `local_remove_particle` over the slots of cell `c`, at slot `i`:
the last slot whose record has identity `part` is kept in `position`. -/
def local_remove_particle_find_in (part : Int) (c : Nat) :
    List Particle → Nat → Option Ptr → Option Ptr
  | [], _, position => position
  | p :: ps, i, position =>
    if p.identity = part then local_remove_particle_find_in part c ps (i + 1) (some ⟨c, i⟩)
    else local_remove_particle_find_in part c ps (i + 1) position

/-- The outer loop of `local_remove_particle` over the cells, at cell `c`. -/
def local_remove_particle_find (part : Int) : List ParticleList → Nat → Option Ptr → Option Ptr
  | [], _, position => position
  | l :: ls, c, position =>
    local_remove_particle_find part ls (c + 1) (local_remove_particle_find_in part c l 0 position)

/-- The function `local_remove_particle(part)`; `re` is the result of the `resize` in
`extract_indexed_particle`. Fails when the assertion fails. -/
def local_remove_particle (num : Int → Nat) (st : LocalState) (part : Int) (re : Bool) :
    Option LocalState :=
  -- the loop: every record other than `part` loses its bonds to `part`
  let st1 : LocalState :=
    { st with cells := st.cells.map (fun l =>
        l.map (fun p => if p.identity = part then p else remove_all_bonds_to num p part)) }
  -- assert(cell && (position >= 0))
  match local_remove_particle_find part st.cells 0 none with
  | none => none
  | some position => (extract_indexed_particle st1 position.cell position.slot re).map Prod.snd

/-- The function `remove_all_bonds_to(identity)` on all records of the local cells. -/
def remove_all_bonds_to_all (num : Int → Nat) (st : LocalState) (identity : Int) : LocalState :=
  { st with cells := st.cells.map (fun l => l.map (fun p => remove_all_bonds_to num p identity)) }

/-- The function `local_remove_all_particles()`. -/
def local_remove_all_particles (rs : RankState) : RankState :=
  { rs with
    n_part := 0
    max_seen_particle := -1
    store := { cells := rs.store.cells.map (fun _ => []), local_particles := fun _ => none } }

/-- Modelled from the spec: `mpi_remove_particle_slave` is defined in `communication.cpp`,
which is not among the sources; the "explicit remove operation that erases it from
LocalStore, LocalIndex". On the owner `local_remove_particle(part)`, on every other rank
`remove_all_bonds_to(part)`, for `part == -1` `local_remove_all_particles()`, and on every
rank the notification hook. -/
def mpi_remove_particle_slave (num : Int → Nat) (re : Bool) (pnode part : Int)
    (this_node : Int) (rs : RankState) : Option RankState :=
  if part ≠ -1 then
    let rs1 := { rs with n_part := rs.n_part - 1 }
    if pnode = this_node then
      match local_remove_particle num rs1.store part re with
      | none => none
      | some st => some (on_particle_change { rs1 with store := st })
    else
      some (on_particle_change { rs1 with store := remove_all_bonds_to_all num rs1.store part })
  else some (on_particle_change (local_remove_all_particles rs))

/-- Modelled from the spec: `mpi_remove_particle` is defined in `communication.cpp`, which
is not among the sources; the callback is run on every other rank and on the head node. -/
def mpi_remove_particle (num : Int → Nat) (re : Bool) (sys : System) (pnode part : Int) :
    Result Unit :=
  let s1 := sys.log (.call .mpi_remove_particle_slave)
  match mapSlaves (mpi_remove_particle_slave num re pnode part) 1 s1.slaves with
  | none => (.error .assertion, s1)
  | some slaves =>
    match mpi_remove_particle_slave num re pnode part 0 s1.master with
    | none => (.error .assertion, { s1 with slaves := slaves })
    | some master => (.ok (), { s1 with slaves := slaves, master := master })

/-- Modelled from the spec: `mpi_bcast_parameter(FIELD_MAXPART)` is defined in
`communication.cpp`, which is not among the sources; the value of `max_seen_particle` on
the head node is sent to every rank. -/
def mpi_bcast_parameter_maxpart (sys : System) : System :=
  { sys.log .bcast with
    slaves := sys.slaves.map (fun rs =>
      { rs with max_seen_particle := sys.master.max_seen_particle }) }

/-- The function `remove_particle(p_id)`; `re` is the result of the `resize` on the owner. -/
def remove_particle (num : Int → Nat) (re : Bool) (sys : System) (p_id : Int) : Result Int :=
  match get_particle_data sys p_id with
  | (.error e, s1) => (.error e, s1)
  | (.ok cur_par, s1) =>
    let s2 : System :=
      if s1.master.type_list_enable then
        { s1 with master := { s1.master with
            particle_type_map :=
              remove_id_from_map s1.master.particle_type_map p_id cur_par.p.type } }
      else s1
    match get_particle_node s2 p_id with
    | (.error e, s3) => (.error e, s3)
    | (.ok pnode, s3) =>
      -- particle_node[p_id] = -1
      let s4 : System :=
        { s3 with master := { s3.master with
            particle_node := s3.master.particle_node.set p_id (-1) } }
      match mpi_remove_particle num re s4 pnode p_id with
      | (.error e, s5) => (.error e, s5)
      | (.ok _, s5) =>
        -- particle_node.erase(p_id)
        let s6 : System :=
          { s5 with master := { s5.master with
              particle_node := s5.master.particle_node.erase p_id } }
        let (maxid, s7) := get_maximal_particle_id s6
        if p_id = maxid then
          (.ok ES_OK, mpi_bcast_parameter_maxpart
            { s7 with master := { s7.master with
                max_seen_particle := s7.master.max_seen_particle - 1 } })
        else (.ok ES_OK, s7)

/-! ## Placing a particle (`particle_data.cpp`, lines 736-747, 1058-1083, 1114-1120) -/

/-- The constant `ES_PART_OK`. -/
def ES_PART_OK : Int := 0

/-- The constant `ES_PART_CREATED`. -/
def ES_PART_CREATED : Int := 1

/-- The external collaborators of `local_place_particle`: `fold_position` (`grid.hpp`)
and `cell_structure.particle_to_cell` on each rank, which selects the local cell of a
particle or no cell when the particle does not belong to the rank. -/
structure Decomposition where
  fold_position : Vector3d → Vector3d × Vector3i
  particle_to_cell : Int → Particle → Option Nat

/-- The function `added_particle(part)`. -/
def added_particle (rs : RankState) (part : Int) : RankState :=
  { rs with
    n_part := rs.n_part + 1
    max_seen_particle := if part > rs.max_seen_particle then part else rs.max_seen_particle }

/-- The record `new_part` of `local_place_particle`: a default-constructed particle with
`p.identity = id`, `r.p = pp` and `l.i = i`, where `pp` and `i` are the folded position
and the image box. -/
def new_particle (dec : Decomposition) (id : Int) (pos : Vector3d) : Particle :=
  { Particle.init with
    p := { Particle.init.p with identity := id }
    r := { Particle.init.r with p := (dec.fold_position pos).1 }
    l := { Particle.init.l with i := (dec.fold_position pos).2 } }

/-- The function `local_place_particle(id, pos, _new)` on rank `this_node`; the inner `none` is the
null pointer. Fails on a null pointer dereference. -/
def local_place_particle (dec : Decomposition) (re : Bool) (this_node : Int) (st : LocalState)
    (id : Int) (pos : Vector3d) (_new : Bool) : Option (Option Ptr × LocalState) :=
  let pp := (dec.fold_position pos).1
  let i := (dec.fold_position pos).2
  if _new then
    let new_part := new_particle dec id pos
    -- allocate particle anew
    match dec.particle_to_cell this_node new_part with
    | none => some (none, st)
    | some cell => (append_indexed_particle st cell new_part re).map fun r => (some r.1, r.2)
  else
    match get_local_particle_data st id with
    | none => none
    | some pt =>
      match st.deref pt with
      | none => none
      | some p =>
        some (some pt, st.setList pt.cell ((st.list pt.cell).set pt.slot
          { p with r := { p.r with p := pp }, l := { p.l with i := i } }))

/-- Modelled from the spec: `mpi_place_particle` is defined in `communication.cpp`, which
is not among the sources; the position of an existing particle is set on its owner by
`local_place_particle(part, pos, 0)`, and every rank runs the notification hook. -/
def mpi_place_particle_slave (dec : Decomposition) (re : Bool) (pnode part : Int)
    (pos : Vector3d) (this_node : Int) (rs : RankState) : Option RankState :=
  if pnode = this_node then
    match local_place_particle dec re this_node rs.store part pos false with
    | none => none
    | some r => some (on_particle_change { rs with store := r.2 })
  else some (on_particle_change rs)

/-- Modelled from the spec: see `mpi_place_particle_slave`. -/
def mpi_place_particle (dec : Decomposition) (re : Bool) (sys : System) (pnode part : Int)
    (pos : Vector3d) : Result Unit :=
  let s1 := sys.log (.call .mpi_place_particle_slave)
  match mapSlaves (mpi_place_particle_slave dec re pnode part pos) 1 s1.slaves with
  | none => (.error .assertion, s1)
  | some slaves =>
    match mpi_place_particle_slave dec re pnode part pos 0 s1.master with
    | none => (.error .assertion, { s1 with slaves := slaves })
    | some master => (.ok (), { s1 with slaves := slaves, master := master })

/-- Modelled from the spec: `mpi_place_new_particle` is defined in `communication.cpp`,
which is not among the sources; "a ParticleRecord is created by an explicit place
operation on some rank", "in the bucket selected by the external decomposition". Every
rank runs `added_particle(part)`, `local_place_particle(part, pos, 1)` and the
notification hook. -/
def mpi_place_new_particle_slave (dec : Decomposition) (re : Bool) (part : Int)
    (pos : Vector3d) (this_node : Int) (rs : RankState) : Option RankState :=
  let rs1 := added_particle rs part
  match local_place_particle dec re this_node rs1.store part pos true with
  | none => none
  | some r => some (on_particle_change { rs1 with store := r.2 })

/-- The ranks, counted from `rank`, on which `local_place_particle(part, pos, 1)` returns
a record. -/
def placing_ranks (dec : Decomposition) (re : Bool) (part : Int) (pos : Vector3d) :
    Nat → List RankState → List Int
  | _, [] => []
  | rank, rs :: rest =>
    match local_place_particle dec re rank (added_particle rs part).store part pos true with
    | some (some _, _) => (rank : Int) :: placing_ranks dec re part pos (rank + 1) rest
    | _ => placing_ranks dec re part pos (rank + 1) rest

/-- Modelled from the spec: see `mpi_place_new_particle_slave`; the result is the rank on
which the record was created. Fails unless exactly one rank created it. -/
def mpi_place_new_particle (dec : Decomposition) (re : Bool) (sys : System) (part : Int)
    (pos : Vector3d) : Result Int :=
  let s1 := sys.log (.call .mpi_place_new_particle_slave)
  match mapSlaves (mpi_place_new_particle_slave dec re part pos) 1 s1.slaves with
  | none => (.error .assertion, s1)
  | some slaves =>
    match mpi_place_new_particle_slave dec re part pos 0 s1.master with
    | none => (.error .assertion, { s1 with slaves := slaves })
    | some master =>
      match placing_ranks dec re part pos 0 (s1.master :: s1.slaves) with
      | [r] => (.ok r, { s1 with slaves := slaves, master := master })
      | _ => (.error .assertion, { s1 with slaves := slaves, master := master })

/-- The function `place_particle(part, pos)`. -/
def place_particle (dec : Decomposition) (re : Bool) (sys : System) (part : Int)
    (pos : Vector3d) : Result Int :=
  match particle_exists sys part with
  | (true, s1) =>
    match get_particle_node s1 part with
    | (.error e, s2) => (.error e, s2)
    | (.ok pnode, s2) =>
      match mpi_place_particle dec re s2 pnode part pos with
      | (.error e, s3) => (.error e, s3)
      | (.ok _, s3) => (.ok ES_PART_OK, s3)
  | (false, s1) =>
    match mpi_place_new_particle dec re s1 part pos with
    | (.error e, s2) => (.error e, s2)
    | (.ok node, s2) =>
      (.ok ES_PART_CREATED,
        { s2 with master := { s2.master with
            particle_node := s2.master.particle_node.set part node } })

/-! ## Well-formed systems -/

/-- The storage of a rank is well formed: the index is consistent with the lists, an id
that is not stored is mapped to no slot, and the local cells hold no ghost and no record
with a negative identity. -/
def RankWF (rs : RankState) : Prop :=
  Consistent rs.store ∧ (∀ id, Clean rs.store id) ∧
    ∀ c k q, rs.store.part c k = some q → q.l.ghost = false ∧ 0 ≤ q.p.identity

/-- The ranks hold disjoint sets of particle ids. -/
def DisjointIds (sys : System) : Prop :=
  ∀ r1 r2 rs1 rs2 id, sys.rank r1 = some rs1 → sys.rank r2 = some rs2 →
    Stored rs1.store id → Stored rs2.store id → r1 = r2

/-- The directory of the head node is sound: every entry maps its id to the rank that
stores the record. -/
def DirectorySound (sys : System) : Prop :=
  ∀ id node, sys.master.particle_node.find id = some node →
    ∃ (r : Nat) (rs : RankState), node = (r : Int) ∧ sys.rank r = some rs ∧
      Stored rs.store id

/-- A well-formed system. -/
def SystemWF (sys : System) : Prop :=
  (∀ r rs, sys.rank r = some rs → RankWF rs) ∧ DisjointIds sys ∧ DirectorySound sys

/-- A rank state with the given storage and directory, an empty fetch cache for four
records and no type map. -/
def exampleRank (st : LocalState) (d : Directory) (cache : List (Int × Particle)) : RankState :=
  { store := st
    particle_node := d
    particle_fetch_cache := { entries := cache, max_size := 4 }
    max_seen_particle := 5
    n_part := 6
    type_list_enable := false
    particle_type_map := [] }

/-- An example storage for a second rank: one list with the records 4 and 5. -/
def exampleStore1 : LocalState :=
  { cells := [[Particle.withId 4, Particle.withId 5]]
    local_particles := fun id =>
      if id = 4 then some ⟨0, 0⟩ else if id = 5 then some ⟨0, 1⟩ else none }

/-- A system of two ranks: the head node stores the particles 0 to 3, rank 1 the
particles 4 and 5; the directory and the fetch cache of the head node are as given. -/
def twoRanks (d : Directory) (cache : List (Int × Particle)) : System :=
  { master := exampleRank exampleStore d cache
    slaves := [exampleRank exampleStore1 [] []]
    trace := [] }

/-- An example system of two ranks with the directory built and a snapshot of particle 5
in the fetch cache of the head node. -/
def exampleSystem : System :=
  twoRanks [(0, 0), (1, 0), (2, 0), (3, 0), (4, 1), (5, 1)] [(5, Particle.withId 5)]

/-- The two ranks with an empty directory. -/
def emptyDirSystem : System := twoRanks [] []

/-- The two ranks with a directory that holds one stale entry, for an id that is stored
nowhere. -/
def staleSystem : System := twoRanks [(9, 0)] []

/-- The table `bonded_ia_params[type].num` of the examples: type 0 has one partner,
every other type two. -/
def exampleNum : Int → Nat := fun type => if type = 0 then 1 else 2

/-- Executable check that the local cells hold no ghost and no negative identity. -/
def LocalState.checkNoGhost (st : LocalState) : Bool :=
  st.cells.all fun l => l.all fun q => !q.l.ghost && decide (0 ≤ q.p.identity)

/-! ## The claims on `build_particle_node` as the specification states them -/

/-- Every rank holds the id-to-rank map of the head node. -/
def SameMapOnEveryRank (sys : System) : Prop :=
  ∀ r rs id, sys.rank r = some rs →
    rs.particle_node.find id = sys.master.particle_node.find id

/-- The map of the head node sends an id to rank `r` exactly when the local cells of rank
`r` hold a record with that identity. -/
def MapIsOwnership (sys : System) : Prop :=
  ∀ (id : Int) (r : Nat), sys.master.particle_node.find id = some (r : Int) ↔
    ∃ rs, sys.rank r = some rs ∧ Stored rs.store id

/-- The decomposition places a new particle `id` at `pos` on rank `r` and on no other
rank, in a cell that rank `r` has. -/
def PlacedOn (dec : Decomposition) (sys : System) (id : Int) (pos : Vector3d) (r : Nat) : Prop :=
  (∃ rs cell, sys.rank r = some rs ∧
    dec.particle_to_cell r (new_particle dec id pos) = some cell ∧
    cell < rs.store.cells.length) ∧
  ∀ r1 : Nat, r1 ≠ r → r1 < sys.n_nodes →
    dec.particle_to_cell r1 (new_particle dec id pos) = none

/-- The decomposition collaborator of the examples: no folding, and a particle belongs to
cell 0 of the rank that is the parity of the first coordinate of its position. -/
def exampleDec : Decomposition :=
  { fold_position := fun p => (p, (0, 0, 0))
    particle_to_cell := fun r part => if part.r.p.1 % 2 = r then some 0 else none }

/-- Apply a function to every record of the local cells. -/
def mapRecords (f : Particle → Particle) (st : LocalState) : LocalState :=
  { st with cells := st.cells.map (fun l => l.map f) }

/-- Two system states have the same particle storage on every rank. -/
def StoreEquiv (s s1 : System) : Prop :=
  ∀ r, (s1.rank r).map (fun rs => rs.store) = (s.rank r).map (fun rs => rs.store)

/-! ## The claims on the errors as the specification states them -/

/-- The call `get_particle_node(id)` raises `InvalidId` exactly when `id` is negative or above
`highest`. -/
def InvalidIdExactlyAbove (sys : System) (highest id : Int) : Prop :=
  (get_particle_node sys id).1 = .error .InvalidId ↔ (id < 0 ∨ id > highest)

/-- A system of one rank with one empty cell and no particle. -/
def oneRank : System :=
  { master :=
      { store := { cells := [[]], local_particles := fun _ => none }
        particle_node := []
        particle_fetch_cache := { entries := [], max_size := 4 }
        max_seen_particle := -1
        n_part := 0
        type_list_enable := false
        particle_type_map := [] }
    slaves := []
    trace := [] }

/-- The decomposition of a system of one rank: every particle belongs to cell 0 of
rank 0. -/
def allOnHead : Decomposition :=
  { fold_position := fun p => (p, (0, 0, 0))
    particle_to_cell := fun r _ => if r = 0 then some 0 else none }

/-- The system of one rank after the particles 0 and 1 were placed. -/
def placedTwo : System :=
  (place_particle allOnHead false (place_particle allOnHead false oneRank 0 (0, 0, 0)).2
    1 (0, 0, 0)).2

/-- The system of one rank after the particles 0 and 1 were placed and particle 1, the
one with the highest id, was removed again. -/
def removedHighest : System := (remove_particle exampleNum false placedTwo 1).2

/-! ## The directory queries (`particle_data.cpp`, lines 476-493, 1439-1463) -/

/-- The function `get_particle_ids()`. -/
def get_particle_ids (sys : System) : List Int × System :=
  let sys1 := build_if_empty sys
  (sys1.master.particle_node.keys.insertionSort (fun a b => a ≤ b), sys1)

/-- A call of one of the four functions that query the directory. -/
inductive DirectoryQuery where
  | get_particle_node (id : Int)
  | particle_exists (id : Int)
  | get_particle_ids
  | get_maximal_particle_id
  deriving DecidableEq

/-- The state after a directory query. -/
def DirectoryQuery.run (sys : System) : DirectoryQuery → System
  | .get_particle_node id => (Espresso.get_particle_node sys id).2
  | .particle_exists id => (Espresso.particle_exists sys id).2
  | .get_particle_ids => (Espresso.get_particle_ids sys).2
  | .get_maximal_particle_id => (Espresso.get_maximal_particle_id sys).2

/-- The query reaches a statement `if (particle_node.empty()) build_particle_node();`:
every query but `get_particle_node` with a negative id, which throws before it. -/
def DirectoryQuery.reaches_build : DirectoryQuery → Bool
  | .get_particle_node id => decide (0 ≤ id)
  | _ => true

/-- The number of calls of `build_particle_node()` so far: each one issues one
`mpi_call(mpi_who_has_slave, -1, 0)`, and nothing else does. -/
def n_builds (sys : System) : Nat := sys.trace.count (.call .mpi_who_has_slave)

/-- Some rank stores a particle. -/
def HoldsParticle (sys : System) : Prop :=
  ∃ (r : Nat) (rs : RankState) (id : Int), sys.rank r = some rs ∧ Stored rs.store id

/-- No rank stores a particle. -/
def HoldsNoParticle (sys : System) : Prop :=
  ∀ (r : Nat) (rs : RankState), sys.rank r = some rs → local_ids rs.store = []

/-- The claim on the lazy rebuild as the specification states it: after
`clear_particle_node()` the query `q` performs exactly one `build_particle_node()`, and
the further queries `qs` perform none. -/
def RebuildsOnce (sys : System) (q : DirectoryQuery) (qs : List DirectoryQuery) : Prop :=
  n_builds (q.run (clear_particle_node sys)) = n_builds (clear_particle_node sys) + 1 ∧
    n_builds (qs.foldl DirectoryQuery.run (q.run (clear_particle_node sys))) =
      n_builds (q.run (clear_particle_node sys))

/-- The claim on the invalidation as the specification states it: the id-to-rank map of
the head node is empty. -/
def DirectoryCleared (sys : System) : Prop := sys.master.particle_node.isEmpty = true

/-! ## Fetching many particles (`particle_data.cpp`, lines 643-700) -/

/-- The lambda of the `std::transform` calls in `mpi_get_particles` and
`mpi_get_particles_slave`: `*get_local_particle_data(id)`. Fails when the assertion fails. -/
def copy_local_particle (rs : RankState) (id : Int) : Option Particle :=
  match get_local_particle_data rs.store id with
  | none => none
  | some ptr => rs.store.deref ptr

/-- The function `mpi_get_particles_slave` on a rank: `ids` is what the scatter delivers, the result
is the buffer `parts` that the rank hands to the gather. -/
def mpi_get_particles_slave (rs : RankState) : List Int → Option (List Particle)
  | [] => some []
  | id :: ids =>
    match copy_local_particle rs id with
    | none => none
    | some p => (mpi_get_particles_slave rs ids).map fun parts => p :: parts

/-- The loop `for (auto const &id : ids)` of `mpi_get_particles`, which groups the ids per node. An
exception of `get_particle_node` ends the call; `node_ids[pnode]` outside the vector has
no defined behaviour and ends the call with `Err.assertion`. -/
def group_ids_per_node : List Int → System → List (List Int) → Result (List (List Int))
  | [], sys, node_ids => (.ok node_ids, sys)
  | id :: ids, sys, node_ids =>
    match get_particle_node sys id with
    | (.error e, s1) => (.error e, s1)
    | (.ok pnode, s1) =>
      if 0 ≤ pnode ∧ pnode.toNat < node_ids.length then
        -- node_ids[pnode].push_back(id)
        group_ids_per_node ids s1
          (node_ids.set pnode.toNat (node_ids.getD pnode.toNat [] ++ [id]))
      else (.error .assertion, s1)

/-- Modelled from the spec: `Utils::Mpi::gatherv` is defined in `utils/mpi/gatherv.hpp`,
which is not among the sources; "each rank gathers its locally owned subset; a single
gather step collects all results back to the caller". Rank `r` receives `node_ids[r]` in
the scatter, copies its records, and the buffers are collected on the head node one
after the other, lowest rank first (the head node copies its own records to the start of
`parts`). Fails when an assertion fails on some rank. -/
def gather_parts : List RankState → List (List Int) → Option (List Particle)
  | rs :: ranks, ids :: node_ids =>
    match mpi_get_particles_slave rs ids with
    | none => none
    | some parts => (gather_parts ranks node_ids).map fun l => parts ++ l
  | _, _ => some []

/-- The function `mpi_get_particles(ids)` on the head node. -/
def mpi_get_particles (sys : System) (ids : List Int) : Result (List Particle) :=
  -- mpi_call(mpi_get_particles_slave, 0, 0)
  let s0 := sys.log (.call .mpi_get_particles_slave)
  match group_ids_per_node ids s0 (List.replicate s0.n_nodes []) with
  | (.error e, s1) => (.error e, s1)
  | (.ok node_ids, s1) =>
    -- boost::mpi::scatter(comm_cart, node_ids, ignore, 0)
    let s2 := s1.log .scatter
    match gather_parts (s2.master :: s2.slaves) node_ids with
    | none => (.error .assertion, s2)
    | some parts => (.ok parts, s2.log .gatherv)

/-- The claim on the id-validation errors as the specification states it: when the call
ends with one of the two errors of `get_particle_node`, it has issued no transport
operation. -/
def ErrorWithoutCommunication {α : Type} (sys : System) (res : Result α) : Prop :=
  ∀ e, res.1 = .error e → (e = .InvalidId ∨ ∃ id, e = .UnknownId id) →
    res.2.trace = sys.trace

/-! ## Prefetching (`particle_data.cpp`, lines 702-734) -/

/-- Modelled from the spec: the range overload of `Cache::put`; the batch fetch is
followed by "populating RemoteCache", one `put(id, value)` per record in the order of
the range. -/
def Cache.put_range (c : Cache) (kvs : List (Int × Particle)) : Cache :=
  kvs.foldl (fun c kv => c.put kv.1 kv.2) c

/-- The `std::remove_if` of `prefetch_particle_data` with the `erase`: the predicate is evaluated
once per id, first to last, and the ids for which it is false are kept in order. An
exception of `get_particle_node` ends the call. -/
def prefetch_remove_if : List Int → System → Result (List Int)
  | [], sys => (.ok [], sys)
  | id :: ids, sys =>
    match particle_exists sys id with
    | (false, s1) => prefetch_remove_if ids s1
    | (true, s1) =>
      match get_particle_node s1 id with
      | (.error e, s2) => (.error e, s2)
      | (.ok pnode, s2) =>
        if pnode = 0 ∨ s2.master.particle_fetch_cache.has id = true then
          prefetch_remove_if ids s2
        else
          match prefetch_remove_if ids s2 with
          | (.error e, s3) => (.error e, s3)
          | (.ok kept, s3) => (.ok (id :: kept), s3)

/-- The list `ids` of `prefetch_particle_data` at the call of `mpi_get_particles`, on more than one
rank: after the `remove_if` and the `resize`. -/
def prefetch_ids (sys : System) (ids : List Int) : Result (List Int) :=
  match prefetch_remove_if ids sys with
  | (.error e, s1) => (.error e, s1)
  | (.ok ids1, s1) =>
    if ids1.length > s1.master.particle_fetch_cache.max_size then
      (.ok (ids1.take s1.master.particle_fetch_cache.max_size), s1)
    else (.ok ids1, s1)

/-- The rest of `prefetch_particle_data` from the call of `mpi_get_particles` on: the records are
fetched and put into the cache under their identities. -/
def prefetch_fetch (sys : System) (ids : List Int) : Result Unit :=
  match mpi_get_particles sys ids with
  | (.error e, s1) => (.error e, s1)
  | (.ok parts, s1) =>
    let ids1 := parts.map Particle.identity
    (.ok (), { s1 with master := { s1.master with
      particle_fetch_cache := s1.master.particle_fetch_cache.put_range (ids1.zip parts) } })

/-- The function `prefetch_particle_data(ids)` on the head node. -/
def prefetch_particle_data (sys : System) (ids : List Int) : Result Unit :=
  -- Nothing to do on a single node.
  if sys.n_nodes = 1 then (.ok (), sys)
  else
    match prefetch_ids sys ids with
    | (.error e, s1) => (.error e, s1)
    | (.ok ids1, s1) => prefetch_fetch s1 ids1

/-- The predicate of the claim on `prefetch_particle_data`: the id exists, is not owned by the head
node and is not in the fetch cache. -/
def prefetch_keeps (sys : System) (id : Int) : Bool :=
  (build_if_empty sys).master.particle_node.count id &&
    !decide ((build_if_empty sys).master.particle_node.find id = some 0) &&
    !sys.master.particle_fetch_cache.has id

/-- The system with the fetch cache of the head node replaced. -/
def System.setFetchCache (sys : System) (c : Cache) : System :=
  { sys with master := { sys.master with particle_fetch_cache := c } }

/-- Two states in which the directory queries and the cache queries of the head node
give the same answers. -/
def SameView (s t : System) : Prop :=
  t.master.store = s.master.store ∧ t.slaves = s.slaves ∧
    t.master.particle_fetch_cache = s.master.particle_fetch_cache ∧
    (build_if_empty t).master.particle_node = (build_if_empty s).master.particle_node

/-! ## The bound of the fetch cache (`particle_data.cpp`, lines 601-605) -/

/-- The constant `max_cache_size`: "Limit cache to 100 MiB". The parameter is `sizeof(Particle)`,
which depends on the configuration and the platform; the operands are `unsigned long`
and the product is below `2^32`, so nothing wraps. -/
def max_cache_size (sizeof_Particle : Nat) : Nat := (100 * 1048576) / sizeof_Particle

/-- The variable `particle_fetch_cache` as it is constructed, with capacity `max_cache_size` and
no entry. -/
def particle_fetch_cache_init (sizeof_Particle : Nat) : Cache :=
  { entries := [], max_size := max_cache_size sizeof_Particle }

/-- The operations of `particle_data.cpp` on the fetch cache: the `get` and the single `put` of
`get_particle_data`, and the range `put` of `prefetch_particle_data`. -/
inductive CacheOp where
  | get (id : Int)
  | put (id : Int) (value : Particle)
  | put_range (kvs : List (Int × Particle))

/-- The cache after an operation. -/
def CacheOp.run (c : Cache) : CacheOp → Cache
  | .get id => (c.get id).2
  | .put id value => c.put id value
  | .put_range kvs => c.put_range kvs

/-- The ids an operation uses, latest first: the id of a hit, the id of a `put`, the ids
of a range `put`. A miss uses no entry. -/
def CacheOp.uses (c : Cache) : CacheOp → List Int
  | .get id => if c.has id then [id] else []
  | .put id _ => [id]
  | .put_range kvs => (kvs.map Prod.fst).reverse

/-- One operation on the cache and on the history of the ids used so far, latest first. -/
def CacheOp.step (s : Cache × List Int) (op : CacheOp) : Cache × List Int :=
  (op.run s.1, op.uses s.1 ++ s.2)

/-- The distinct ids of a use history (latest first), in the order of their latest use:
the most recently used id first. -/
def recency : List Int → List Int
  | [] => []
  | id :: hist => id :: (recency hist).filter fun x => decide (x ≠ id)

/-- The resident ids of the cache are the `max_size` most recently used ids of the
history, the most recently used first. -/
def CacheInv (s : Cache × List Int) : Prop :=
  s.1.entries.map Prod.fst = (recency s.2).take s.1.max_size

/-! ## Well-formed bond lists -/

/-- A record of a bond list: the bond type followed by the `bonded_ia_params[type].num`
partner ids of the bond. -/
def IsBondRecord (num : Int → Nat) (r : List Int) : Prop :=
  ∃ (type : Int) (partners : List Int), r = type :: partners ∧ partners.length = num type

/-- An example particle with four bonds: the bond list holds the records `[0, 5]`,
`[1, 2, 3]`, `[0, 5]` and `[1, 7, 8]`. -/
def bondedParticle : Particle :=
  { Particle.init with bl := [0, 5, 1, 2, 3, 0, 5, 1, 7, 8] }

/-! ## The class template `Utils::Factory` (`utils/Factory.hpp`) -/

/-- The ways in which `Factory::make` or a builder can fail: the exception
`std::out_of_range` (or one derived from it), the exception `std::domain_error` with its
message, a failed `assert`, and any other exception. -/
inductive Failure where
  | out_of_range
  | domain_error (what : String)
  | assertion
  | other (what : String)
  deriving DecidableEq

/-- The type `builder_type`, a `std::function<T *()>`: `none` is a function object without
target; a builder returns an instance or throws. -/
abbrev Builder (T : Type) := Option (Unit → Except Failure T)

/-- The class `Factory<T>`: its member `m_map`, a `std::unordered_map` from names to
builders, as the list of its entries. -/
structure Factory (T : Type) where
  m_map : List (String × Builder T)

/-- The factory as it is constructed, with an empty map. -/
def Factory.empty {T : Type} : Factory T := { m_map := [] }

/-- The expression `m_map.find(name)`: the mapped builder, if any. -/
def Factory.find {T : Type} (f : Factory T) (name : String) : Option (Builder T) :=
  (f.m_map.find? fun e => decide (e.1 = name)).map Prod.snd

/-- The member function `has_builder(name)`. -/
def Factory.has_builder {T : Type} (f : Factory T) (name : String) : Bool :=
  !(f.find name).isNone

/-- The member function `register_new(name, b)`: the statement `m_map[name] = b`. -/
def Factory.register_new {T : Type} (f : Factory T) (name : String) (b : Builder T) :
    Factory T :=
  { m_map := (name, b) :: f.m_map.filter fun e => decide (e.1 ≠ name) }

/-- The message of the `std::domain_error` of `make`. -/
def not_found (name : String) : Failure :=
  .domain_error ("Class \x27" ++ name ++ "\x27 not found.")

/-- The member function `make(name)`. The `try` block holds `m_map.at(name)`, which throws
`std::out_of_range` for a name without entry, the `assert(builder)` and the call of the
builder; the handler turns every `std::out_of_range` that leaves the block into the
`std::domain_error`. -/
def Factory.make {T : Type} (f : Factory T) (name : String) : Except Failure T :=
  let body : Except Failure T :=
    match f.find name with
    | none => .error .out_of_range
    | some none => .error .assertion
    | some (some builder) => builder ()
  match body with
  | .error .out_of_range => .error (not_found name)
  | r => r

/-- The factory after the calls `register_new(name, b)` for the pairs of `regs`, first to
last, on a new factory. -/
def Factory.registered {T : Type} (regs : List (String × Builder T)) : Factory T :=
  regs.foldl (fun f r => f.register_new r.1 r.2) Factory.empty

/-- An example factory: `"b"` is registered with a builder that returns `1`, `"c"` with
a builder that throws `std::out_of_range`. -/
def exampleFactory : Factory Nat :=
  Factory.registered
    [("b", some fun _ => .ok 1), ("c", some fun _ => .error .out_of_range)]

/-! ## The function template `Utils::int_pow` (`unit_tests/int_pow_test.cpp`) -/

/-- Modelled from the spec: `Utils::int_pow<n>(x)` is defined in `utils/math/int_pow.hpp`,
which is not among the sources; the squaring tree, in which "int_pow<2k> is the
square-based power of x*x and int_pow<2k+1> multiplies it by one more x", with
`int_pow<0>(x) = 1` and `int_pow<1>(x) = x`. The type of `x` has a product and a one, and
no law of them is used: the test checks "for bitwise identity on purpose: the function
should produce exactly the same expressions". -/
def int_pow {α : Type} [Mul α] [One α] (n : Nat) (x : α) : α :=
  if n = 0 then 1
  else if n = 1 then x
  else if n % 2 = 0 then int_pow (n / 2) (x * x)
  else int_pow ((n - 1) / 2) (x * x) * x
termination_by n
decreasing_by all_goals omega

/-- The fetch cache of the head node holds at most `max_size()` entries. -/
def CacheBounded (sys : System) : Prop :=
  sys.master.particle_fetch_cache.entries.length ≤ sys.master.particle_fetch_cache.max_size

/-! ## Exclusions (`particle_data.cpp`, lines 1196-1210) -/

/-- The loop of `try_add_exclusion`: whether some entry of the exclusion list equals `part2`. -/
def try_add_exclusion_loop (part2 : Int) : List Int → Bool
  | [] => false
  | e :: el => if e = part2 then true else try_add_exclusion_loop part2 el

/-- The function `try_add_exclusion(part, part2)`. -/
def try_add_exclusion (part : Particle) (part2 : Int) : Particle :=
  if try_add_exclusion_loop part2 part.el then part
  else { part with el := part.el ++ [part2] }

/-- The call `std::remove(el.begin(), el.end(), part2)` followed by the `erase` up to
`el.end()`: the entries other than `part2`, in their order. -/
def erase_remove (el : List Int) (part2 : Int) : List Int :=
  el.filter fun e => decide (e ≠ part2)

/-- The function `try_delete_exclusion(part, part2)`. -/
def try_delete_exclusion (part : Particle) (part2 : Int) : Particle :=
  if !part.el.isEmpty then { part with el := erase_remove part.el part2 } else part

/-! ## The cache of interpolation weights (`p3m_interpolation.hpp`, lines 14-85)

The weights are values of type `double`, which the functions below only copy; they are
values of an arbitrary type `α` here. -/

/-- The struct `InterpolationWeights<cao>`: the mesh index and the weights for the three
directions. An `Utils::Array<double, cao>` holds `cao` values. -/
structure InterpolationWeights (α : Type) where
  ind : Int
  w_x : List α
  w_y : List α
  w_z : List α

/-- The arrays of the struct hold `cao` values each, as the type `InterpolationWeights<cao>`
says. -/
def InterpolationWeights.hasOrder {α : Type} (w : InterpolationWeights α) (cao : Nat) : Prop :=
  w.w_x.length = cao ∧ w.w_y.length = cao ∧ w.w_z.length = cao

/-- The struct `p3m_interpolation_weights`. -/
structure p3m_interpolation_weights (α : Type) where
  m_cao : Nat
  ca_frac : List α
  ca_fmp : List Int

/-- The member function `size()`. -/
def p3m_interpolation_weights.size {α : Type} (c : p3m_interpolation_weights α) : Nat :=
  c.ca_fmp.length

/-- The member function `reset(cao)`, for an order that is not negative. -/
def p3m_interpolation_weights.reset {α : Type} (_c : p3m_interpolation_weights α)
    (cao : Nat) : p3m_interpolation_weights α :=
  { m_cao := cao, ca_frac := [], ca_fmp := [] }

/-- The member function `store<cao>(w)`. Fails when the assertion fails. -/
def p3m_interpolation_weights.store {α : Type} (cao : Nat) (c : p3m_interpolation_weights α)
    (w : InterpolationWeights α) : Option (p3m_interpolation_weights α) :=
  if cao = c.m_cao then
    some { c with ca_fmp := c.ca_fmp ++ [w.ind]
                  ca_frac := c.ca_frac ++ w.w_x ++ w.w_y ++ w.w_z }
  else none

/-- The values that `boost::copy(make_const_span(ca_frac.data() + offset, len), ...)`
reads; fails when a read is outside `ca_frac`. -/
def read_span {α : Type} (ca_frac : List α) (offset len : Nat) : Option (List α) :=
  if offset + len ≤ ca_frac.length then some ((ca_frac.drop offset).take len) else none

/-- The member function `load<cao>(i)`; the product `3 * i * m_cao` is computed in `std::size_t`.
Fails when an assertion fails or a read is outside its vector. -/
def p3m_interpolation_weights.load {α : Type} (cao : Nat) (c : p3m_interpolation_weights α)
    (i : Nat) : Option (InterpolationWeights α) :=
  if cao = c.m_cao ∧ i < c.size then
    match c.ca_fmp[i]? with
    | none => none
    | some ind =>
      let offset := (3 * i * c.m_cao) % 2 ^ 64
      match read_span c.ca_frac (offset + 0 * c.m_cao) c.m_cao,
          read_span c.ca_frac (offset + 1 * c.m_cao) c.m_cao,
          read_span c.ca_frac (offset + 2 * c.m_cao) c.m_cao with
      | some w_x, some w_y, some w_z => some { ind := ind, w_x := w_x, w_y := w_y, w_z := w_z }
      | _, _, _ => none
  else none

/-- The calls `store<cao>(w_0)`, ..., `store<cao>(w_{n-1})`, one after the other. -/
def store_all {α : Type} (cao : Nat) :
    p3m_interpolation_weights α → List (InterpolationWeights α) →
      Option (p3m_interpolation_weights α)
  | c, [] => some c
  | c, w :: ws =>
    match c.store cao w with
    | none => none
    | some c1 => store_all cao c1 ws

/-- The values that the calls `store<cao>(w)` for the structs of `ws` put at the back of
`ca_frac`, in the order of the calls. -/
def stored_weights {α : Type} : List (InterpolationWeights α) → List α
  | [] => []
  | w :: ws => w.w_x ++ w.w_y ++ w.w_z ++ stored_weights ws

/-! ## The type map (`particle_data.cpp`, lines 1325-1330) -/

/-- The ways in which a call of `get_random_p_id` can end: it returns an id, it throws the
`std::out_of_range` of `particle_type_map.at(type)`, it throws its own `std::runtime_error`,
or it runs into behaviour that C++ leaves undefined, where nothing is raised and nothing is
promised. -/
inductive TypeMapOutcome where
  | returns (id : Int)
  | throws_out_of_range
  | throws_runtime_error
  | undefined_behaviour
  deriving DecidableEq

/-- The function `get_random_p_id(type, random_index_in_type_map)`; the map is the list of its
entries and the set of a type is the list of its elements in iteration order. The sum
`random_index_in_type_map + 1` is an `int`, whose overflow is undefined, and it is converted to
`std::size_t` for the comparison with `size()`; `std::next` with a negative distance is
undefined for the forward iterator of a `std::unordered_set`. -/
def get_random_p_id (particle_type_map : List (Int × List Int)) (type : Int)
    (random_index_in_type_map : Int) : TypeMapOutcome :=
  if random_index_in_type_map + 1 ≥ 2 ^ 31 then .undefined_behaviour
  else
    match particle_type_map.find? fun e => decide (e.1 = type) with
    | none => .throws_out_of_range
    | some e =>
      if ((random_index_in_type_map + 1) % 2 ^ 64).toNat > e.2.length then
        .throws_runtime_error
      else if 0 ≤ random_index_in_type_map then
        match e.2[random_index_in_type_map.toNat]? with
        | some id => .returns id
        | none => .undefined_behaviour
      else .undefined_behaviour

/-- A type map that tracks type 0 with the two ids 7 and 8. -/
def exampleTypeMap : List (Int × List Int) := [(0, [7, 8])]

/-! ## The fields of a particle record -/

/-- The data members of a particle record of the base configuration, and its two lists. -/
inductive Field where
  | identity
  | mol_id
  | type
  | r_p
  | m_v
  | f_f
  | l_ghost
  | l_i
  | bl
  | el
  deriving DecidableEq

/-- The value of a data member. -/
inductive FieldValue where
  | int (x : Int)
  | vec (x : Vector3d)
  | bool (x : Bool)
  | list (x : List Int)
  deriving DecidableEq

/-- The value of a data member of a record. -/
def Field.get (p : Particle) : Field → FieldValue
  | .identity => .int p.p.identity
  | .mol_id => .int p.p.mol_id
  | .type => .int p.p.type
  | .r_p => .vec p.r.p
  | .m_v => .vec p.m.v
  | .f_f => .vec p.f.f
  | .l_ghost => .bool p.l.ghost
  | .l_i => .vec p.l.i
  | .bl => .list p.bl
  | .el => .list p.el

/-- The data member that an `UpdateParticle<S, s, T, m>` addresses. -/
def FieldUpdate.field : FieldUpdate → Field
  | .type _ => .type
  | .mol_id _ => .mol_id
  | .p _ => .r_p
  | .v _ => .m_v
  | .f _ => .f_f

/-! ## Bond lists as sequences of records -/

/-- The bond list `bl` is the sequence of the bond records `recs`. -/
def WellFormedBonds (num : Int → Nat) (bl : List Int) (recs : List (List Int)) : Prop :=
  (∀ r ∈ recs, IsBondRecord num r) ∧ bl = recs.flatten

/-- An example particle with id 0 and three bonds: the bond list holds the records
`[0, 1]`, `[1, 0, 2]` and `[1, 1, 2]`. -/
def bondedTo1 : Particle :=
  { Particle.withId 0 with bl := [0, 1, 1, 0, 2, 1, 1, 2] }

/-- A storage of one cell with the particle `bondedTo1` and the particle 1. -/
def bondedStore : LocalState :=
  { cells := [[bondedTo1, Particle.withId 1]]
    local_particles := fun id =>
      if id = 0 then some ⟨0, 0⟩ else if id = 1 then some ⟨0, 1⟩ else none }

/-! ## Automatic exclusions (`particle_data.cpp`, lines 1212-1302)

`partCfg()` is declared in `partCfg_global.hpp`, which is not among the sources: the
particles it ranges over, with their bond lists, are an input of the functions below. The
loops whose bound can change while they run take a number of iterations they may use and
fail when it does not suffice. -/

/-- The search loop of `add_partner`, `for (k = 0; k < il->n; k += 2)`: whether an entry at
an even position of `il` equals `j`. -/
def add_partner_loop (j : Int) : List Int → Bool
  | [] => false
  | [e] => decide (e = j)
  | e :: _ :: il => if e = j then true else add_partner_loop j il

/-- The function `add_partner(il, i, j, distance)`. -/
def add_partner (il : List Int) (i j distance : Int) : List Int :=
  if j = i then il
  else if add_partner_loop j il then il
  else il ++ [j, distance]

/-- The map `partners` of `auto_exclusions`: the interleaved list of partner ids and
distances of every particle id; `partners[id]` of an id without entry is an empty list. -/
abbrev PartnerMap := Int → List Int

/-- The list `partners[id]` after a call `f(&partners[id], ...)` that leaves it as `il`. -/
def PartnerMap.set (partners : PartnerMap) (id : Int) (il : List Int) : PartnerMap :=
  fun k => if k = id then il else partners k

/-- The partner ids of an interleaved list: its entries at the even positions. -/
def partner_ids : List Int → List Int
  | [] => []
  | [e] => [e]
  | e :: _ :: il => e :: partner_ids il

/-- The loop over the bond list of `part1` in `auto_exclusions`, at index `i`; at most `fuel`
iterations. -/
def initial_connectivity_loop (num : Int → Nat) (p1 : Int) (bl : List Int) :
    Nat → Nat → PartnerMap → Option PartnerMap
  | 0, i, partners => if i < bl.length then none else some partners
  | fuel + 1, i, partners =>
    if i < bl.length then
      -- ia_params = bonded_ia_params[part1.bl.e[i++]]
      let n := num (bl.getD i 0)
      if n = 1 then
        -- p2 = part1.bl.e[i++]
        let p2 := bl.getD (i + 1) 0
        if p2 ≠ p1 then
          let partners1 := partners.set p1 (add_partner (partners p1) p1 p2 1)
          let partners2 := partners1.set p2 (add_partner (partners1 p2) p2 p1 1)
          initial_connectivity_loop num p1 bl fuel (i + 2) partners2
        else initial_connectivity_loop num p1 bl fuel (i + 2) partners
      else initial_connectivity_loop num p1 bl fuel (i + 1 + n) partners
    else some partners

/-- The loop "determine initial connectivity" of `auto_exclusions` over `partCfg()`. Every
iteration of the loop over a bond list advances `i` by at least one, so `bl.n` iterations
exhaust the list. -/
def initial_connectivity (num : Int → Nat) : List Particle → PartnerMap → Option PartnerMap
  | [], partners => some partners
  | part1 :: partCfg, partners =>
    match initial_connectivity_loop num part1.p.identity part1.bl part1.bl.length 0
        partners with
    | none => none
    | some partners1 => initial_connectivity num partCfg partners1

/-- The loop over the partners of the partner `p2` in `auto_exclusions`, at index `j`; at
most `fuel` iterations. -/
def transient_partners_loop (distance p1 p2 dist1 : Int) :
    Nat → Nat → PartnerMap → Option PartnerMap
  | 0, j, partners => if j < (partners p2).length then none else some partners
  | fuel + 1, j, partners =>
    if j < (partners p2).length then
      let p3 := (partners p2).getD j 0
      let dist2 := dist1 + (partners p2).getD (j + 1) 0
      if dist2 > distance then
        transient_partners_loop distance p1 p2 dist1 fuel (j + 2) partners
      else
        let partners1 := partners.set p1 (add_partner (partners p1) p1 p3 dist2)
        let partners2 := partners1.set p3 (add_partner (partners1 p3) p3 p1 dist2)
        transient_partners_loop distance p1 p2 dist1 fuel (j + 2) partners2
    else some partners

/-- The loop over the partners of `p1` in `auto_exclusions`, at index `i`; at most `fuel`
iterations, and at most `inner` iterations of each loop inside. -/
def transient_loop (distance p1 : Int) (inner : Nat) :
    Nat → Nat → PartnerMap → Option PartnerMap
  | 0, i, partners => if i < (partners p1).length then none else some partners
  | fuel + 1, i, partners =>
    if i < (partners p1).length then
      let p2 := (partners p1).getD i 0
      let dist1 := (partners p1).getD (i + 1) 0
      if dist1 > distance then transient_loop distance p1 inner fuel (i + 2) partners
      else
        match transient_partners_loop distance p1 p2 dist1 inner 0 partners with
        | none => none
        | some partners1 => transient_loop distance p1 inner fuel (i + 2) partners1
    else some partners

/-- One pass of the loop over `partCfg()` in the transient connectivity. -/
def transient_pass (distance : Int) (fuel : Nat) : List Particle → PartnerMap → Option PartnerMap
  | [], partners => some partners
  | p :: partCfg, partners =>
    match transient_loop distance p.identity fuel fuel 0 partners with
    | none => none
    | some partners1 => transient_pass distance fuel partCfg partners1

/-- The loop `for (count = 1; count < distance; count++)` with `count` passes to go. -/
def transient_connectivity (distance : Int) (fuel : Nat) (partCfg : List Particle) :
    Nat → PartnerMap → Option PartnerMap
  | 0, partners => some partners
  | count + 1, partners =>
    match transient_pass distance fuel partCfg partners with
    | none => none
    | some partners1 => transient_connectivity distance fuel partCfg count partners1

/-- The loop `for (int j = 0; j < partners[id].n; j++)` of `auto_exclusions` over the entries
of `partners[id]` that are still to visit: the calls `change_exclusion(id, e, 0)` it issues,
as triples of the arguments. -/
def setup_exclusions_loop (id : Int) : List Int → List (Int × Int × Int)
  | [] => []
  | e :: il =>
    if id < e then (id, e, 0) :: setup_exclusions_loop id il
    else setup_exclusions_loop id il

/-- The loop "setup the exclusions" of `auto_exclusions` over `partCfg()`. -/
def setup_exclusions (partners : PartnerMap) : List Particle → List (Int × Int × Int)
  | [] => []
  | p :: partCfg => setup_exclusions_loop p.identity (partners p.identity) ++
      setup_exclusions partners partCfg

/-- The function `auto_exclusions(distance)`: the map `partners` before the last loop and the
calls of `change_exclusion` in the order in which they are issued. The loops of the
transient connectivity may use `fuel` iterations each. -/
def auto_exclusions (num : Int → Nat) (partCfg : List Particle) (distance : Int) (fuel : Nat) :
    Option (PartnerMap × List (Int × Int × Int)) :=
  match initial_connectivity num partCfg (fun _ => []) with
  | none => none
  | some partners1 =>
    match transient_connectivity distance fuel partCfg (distance - 1).toNat partners1 with
    | none => none
    | some partners2 => some (partners2, setup_exclusions partners2 partCfg)

/-- Three particles 0, 1 and 2 with one bond, of type 0, from particle 0 to particle 2. -/
def bondedCfg : List Particle :=
  [{ Particle.withId 0 with bl := [0, 2] }, Particle.withId 1, Particle.withId 2]

/-! ## The consistency invariant as the specification states it -/

/-- The call has valid list and slot indices; nothing is asked of an appended record. -/
def Op.validSlots (st : LocalState) : Op → Prop
  | .append l _ _ => l < st.cells.length
  | .move dl sl i _ _ => dl < st.cells.length ∧ sl < st.cells.length ∧ i < st.n sl
  | .extract sl i _ => sl < st.cells.length ∧ i < st.n sl

/-- Every call of the sequence has valid list and slot indices in the state it is made
in. -/
def ValidSlotsRun : LocalState → List Op → Prop
  | _, [] => True
  | st, op :: ops => op.validSlots st ∧ ∀ st1 x, op.step st = some (st1, x) → ValidSlotsRun st1 ops

/-- The sequence of calls runs to the end, every record stored afterwards is returned by
`get_local_particle_data(its id)` at its slot, and the id of every extracted record maps
to no slot. -/
def IndexedAndExtractedUnmapped (st : LocalState) (ops : List Op) : Prop :=
  ∃ st' extracted, run st ops = some (st', extracted) ∧
    (∀ c k q, st'.part c k = some q →
      get_local_particle_data st' q.p.identity = some ⟨c, k⟩) ∧
    (∀ x ∈ extracted, get_local_particle_data st' x.p.identity = none)

/-- The record of slot 0 of list 0 of the example storage is extracted and appended to
list 1. -/
def reinsertOps : List Op :=
  [.extract 0 0 false, .append 1 (Particle.withId 0) false]

/-- A record with the id 0, which list 0 of the example storage holds, is appended to
list 1. -/
def duplicateOps : List Op :=
  [.append 1 (Particle.withId 0) false]

/-! ## The claim on `place_particle` for an existing id as the specification states it -/

/-- For an id that exists, `place_particle(id, pos)` returns `ES_PART_OK` and leaves the
directory unchanged. -/
def PlaceExistingKeepsDirectory (dec : Decomposition) (re : Bool) (sys : System) (id : Int)
    (pos : Vector3d) : Prop :=
  (particle_exists sys id).1 = true →
    ∃ sys', place_particle dec re sys id pos = (.ok ES_PART_OK, sys') ∧
      sys'.master.particle_node = sys.master.particle_node

/-! ## The update messages with every feature switch on (`particle_data.cpp`, lines 89-266)

The variant types of the update messages gain alternatives under the feature switches
(`MASS`, `ROTATION`, `ELECTROSTATICS`, ...), and the struct `UpdateOrientation` exists under
`ROTATION` only. The definitions under `Full` are these variant types with every `#ifdef`
taken, on a record that has the members which the alternatives address; the variant types
of a build with fewer switches are a selection of these alternatives. The member types
`ParticleParametersSwimming` and `VirtualSitesRelativeParameters` are declared in
`Particle.hpp`, which is not among the sources, and the type of `gamma` and `gamma_rot` is
`double` or `Utils::Vector3d` (`PARTICLE_ANISOTROPY`): these three types are the
parameters `Swimming`, `VsRelative` and `Gamma`. A `double` is stored as an integer, as in
`Vector3d`, an `uint8_t` as a natural number and a `std::array` of `double` as a list. -/

/-- Stored value of a `Utils::Vector4d`. -/
abbrev Vector4d := Int × Int × Int × Int

/-- The sub-struct `Particle::p` with the members that the alternatives of
`UpdatePropertyMessage` address. -/
structure Full.ParticleProperties (Swimming VsRelative Gamma : Type) where
  identity : Int
  mol_id : Int
  type : Int
  mass : Int
  solvation : List Int
  rinertia : Vector3d
  rotation : Nat
  q : Int
  mu_E : Vector3d
  swim : Swimming
  dipm : Int
  is_virtual : Bool
  vs_relative : VsRelative
  T : Int
  gamma : Gamma
  gamma_rot : Gamma
  ext_flag : Nat
  ext_force : Vector3d
  ext_torque : Vector3d

/-- The sub-struct `Particle::r` with the orientation `quat`. -/
structure Full.ParticlePosition where
  p : Vector3d
  quat : Vector4d

/-- The sub-struct `Particle::m` with the angular velocity `omega`. -/
structure Full.ParticleMomentum where
  v : Vector3d
  omega : Vector3d

/-- The sub-struct `Particle::f` with the torque. -/
structure Full.ParticleForce where
  f : Vector3d
  torque : Vector3d

/-- A particle record with every feature switch on. -/
structure Full.Particle (Swimming VsRelative Gamma : Type) where
  p : Full.ParticleProperties Swimming VsRelative Gamma
  r : Full.ParticlePosition
  m : Full.ParticleMomentum
  f : Full.ParticleForce
  l : ParticleLocal
  bl : List Int
  el : List Int

/-- The variant type `UpdatePropertyMessage` with every alternative, in the order of the
source. -/
inductive Full.UpdatePropertyMessage (Swimming VsRelative Gamma : Type) where
  | type (value : Int)
  | mol_id (value : Int)
  | mass (value : Int)
  | solvation (value : List Int)
  | rinertia (value : Vector3d)
  | rotation (value : Nat)
  | q (value : Int)
  | mu_E (value : Vector3d)
  | swim (value : Swimming)
  | dipm (value : Int)
  | is_virtual (value : Bool)
  | vs_relative (value : VsRelative)
  | T (value : Int)
  | gamma (value : Gamma)
  | gamma_rot (value : Gamma)
  | ext_flag (value : Nat)
  | ext_force (value : Vector3d)
  | ext_torque (value : Vector3d)

/-- The variant type `UpdatePositionMessage` with both alternatives. -/
inductive Full.UpdatePositionMessage where
  | p (value : Vector3d)
  | quat (value : Vector4d)

/-- The variant type `UpdateMomentumMessage` with both alternatives. -/
inductive Full.UpdateMomentumMessage where
  | v (value : Vector3d)
  | omega (value : Vector3d)

/-- The variant type `UpdateForceMessage` with both alternatives. -/
inductive Full.UpdateForceMessage where
  | f (value : Vector3d)
  | torque (value : Vector3d)

/-- The struct `UpdateOrientation`. -/
structure Full.UpdateOrientation where
  axis : Vector3d
  angle : Int

/-- The variant type `UpdateMessage` with every alternative; the variant type
`UpdateBondMessage` is the same in every build. -/
inductive Full.UpdateMessage (Swimming VsRelative Gamma : Type) where
  | property (msg : Full.UpdatePropertyMessage Swimming VsRelative Gamma)
  | position (msg : Full.UpdatePositionMessage)
  | momentum (msg : Full.UpdateMomentumMessage)
  | force (msg : Full.UpdateForceMessage)
  | bond (msg : UpdateBondMessage)
  | orientation (msg : Full.UpdateOrientation)

/-- The call operator `UpdateParticle::operator()` for the property alternatives:
`(p.*s).*m = value`. -/
def Full.UpdatePropertyMessage.apply {Swimming VsRelative Gamma : Type}
    (p : Full.Particle Swimming VsRelative Gamma) :
    Full.UpdatePropertyMessage Swimming VsRelative Gamma → Full.Particle Swimming VsRelative Gamma
  | .type value => { p with p := { p.p with type := value } }
  | .mol_id value => { p with p := { p.p with mol_id := value } }
  | .mass value => { p with p := { p.p with mass := value } }
  | .solvation value => { p with p := { p.p with solvation := value } }
  | .rinertia value => { p with p := { p.p with rinertia := value } }
  | .rotation value => { p with p := { p.p with rotation := value } }
  | .q value => { p with p := { p.p with q := value } }
  | .mu_E value => { p with p := { p.p with mu_E := value } }
  | .swim value => { p with p := { p.p with swim := value } }
  | .dipm value => { p with p := { p.p with dipm := value } }
  | .is_virtual value => { p with p := { p.p with is_virtual := value } }
  | .vs_relative value => { p with p := { p.p with vs_relative := value } }
  | .T value => { p with p := { p.p with T := value } }
  | .gamma value => { p with p := { p.p with gamma := value } }
  | .gamma_rot value => { p with p := { p.p with gamma_rot := value } }
  | .ext_flag value => { p with p := { p.p with ext_flag := value } }
  | .ext_force value => { p with p := { p.p with ext_force := value } }
  | .ext_torque value => { p with p := { p.p with ext_torque := value } }

/-- The call operator `UpdateParticle::operator()` for the position alternatives. -/
def Full.UpdatePositionMessage.apply {Swimming VsRelative Gamma : Type}
    (p : Full.Particle Swimming VsRelative Gamma) :
    Full.UpdatePositionMessage → Full.Particle Swimming VsRelative Gamma
  | .p value => { p with r := { p.r with p := value } }
  | .quat value => { p with r := { p.r with quat := value } }

/-- The call operator `UpdateParticle::operator()` for the momentum alternatives. -/
def Full.UpdateMomentumMessage.apply {Swimming VsRelative Gamma : Type}
    (p : Full.Particle Swimming VsRelative Gamma) :
    Full.UpdateMomentumMessage → Full.Particle Swimming VsRelative Gamma
  | .v value => { p with m := { p.m with v := value } }
  | .omega value => { p with m := { p.m with omega := value } }

/-- The call operator `UpdateParticle::operator()` for the force alternatives. -/
def Full.UpdateForceMessage.apply {Swimming VsRelative Gamma : Type}
    (p : Full.Particle Swimming VsRelative Gamma) :
    Full.UpdateForceMessage → Full.Particle Swimming VsRelative Gamma
  | .f value => { p with f := { p.f with f := value } }
  | .torque value => { p with f := { p.f with torque := value } }

/-- The function `local_add_particle_bond(p, bond)` on the record with every feature. -/
def Full.local_add_particle_bond {Swimming VsRelative Gamma : Type}
    (p : Full.Particle Swimming VsRelative Gamma) (bond : List Int) :
    Full.Particle Swimming VsRelative Gamma :=
  { p with bl := p.bl ++ bond }

/-- The function `try_delete_bond(part, bond)` on the record with every feature; the loop
over the bond list is `try_delete_bond_loop`. -/
def Full.try_delete_bond {Swimming VsRelative Gamma : Type} (num : Int → Nat)
    (part : Full.Particle Swimming VsRelative Gamma) (bond : Option (List Int)) :
    Full.Particle Swimming VsRelative Gamma × Int :=
  match bond with
  | none => ({ part with bl := [] }, ES_OK)
  | some b =>
    match try_delete_bond_loop num b part.bl part.bl.length 0 with
    | some bl => ({ part with bl := bl }, ES_OK)
    | none => (part, ES_ERROR)

/-- The call operators of `RemoveBond`, `RemoveBonds` and `AddBond` on the record with
every feature. -/
def Full.UpdateBondMessage.apply {Swimming VsRelative Gamma : Type} (num : Int → Nat)
    (p : Full.Particle Swimming VsRelative Gamma) :
    UpdateBondMessage → Full.Particle Swimming VsRelative Gamma
  | .RemoveBond bond => (Full.try_delete_bond num p (vector_data bond)).1
  | .RemoveBonds => { p with bl := [] }
  | .AddBond bond => Full.local_add_particle_bond p bond

/-- Modelled from the spec: `local_rotate_particle` is declared in `rotation.hpp`, which is
not among the sources; "rotate orientation by axis+angle". The new orientation, computed
from the record, the axis and the angle, is the parameter `rotate`. -/
def Full.local_rotate_particle {Swimming VsRelative Gamma : Type}
    (rotate : Full.Particle Swimming VsRelative Gamma → Vector3d → Int → Vector4d)
    (p : Full.Particle Swimming VsRelative Gamma) (axis : Vector3d) (angle : Int) :
    Full.Particle Swimming VsRelative Gamma :=
  { p with r := { p.r with quat := rotate p axis angle } }

/-- The call operator of `UpdateOrientation`: `local_rotate_particle(p, axis, angle)`. -/
def Full.UpdateOrientation.apply {Swimming VsRelative Gamma : Type}
    (rotate : Full.Particle Swimming VsRelative Gamma → Vector3d → Int → Vector4d)
    (p : Full.Particle Swimming VsRelative Gamma) (msg : Full.UpdateOrientation) :
    Full.Particle Swimming VsRelative Gamma :=
  Full.local_rotate_particle rotate p msg.axis msg.angle

/-- What `UpdateVisitor` does with the record once it has it, with every alternative:
recurse into the sub-variant and call the plain message. -/
def Full.UpdateMessage.apply {Swimming VsRelative Gamma : Type} (num : Int → Nat)
    (rotate : Full.Particle Swimming VsRelative Gamma → Vector3d → Int → Vector4d)
    (p : Full.Particle Swimming VsRelative Gamma) :
    Full.UpdateMessage Swimming VsRelative Gamma → Full.Particle Swimming VsRelative Gamma
  | .property msg => msg.apply p
  | .position msg => msg.apply p
  | .momentum msg => msg.apply p
  | .force msg => msg.apply p
  | .bond msg => Full.UpdateBondMessage.apply num p msg
  | .orientation msg => msg.apply rotate p

/-- The data members of the record with every feature, and its two lists. -/
inductive Full.Field where
  | identity
  | mol_id
  | type
  | mass
  | solvation
  | rinertia
  | rotation
  | q
  | mu_E
  | swim
  | dipm
  | is_virtual
  | vs_relative
  | T
  | gamma
  | gamma_rot
  | ext_flag
  | ext_force
  | ext_torque
  | r_p
  | r_quat
  | m_v
  | m_omega
  | f_f
  | f_torque
  | l_ghost
  | l_i
  | bl
  | el
  deriving DecidableEq

/-- Two records have the same value in a data member. -/
def Full.Field.same {Swimming VsRelative Gamma : Type}
    (a b : Full.Particle Swimming VsRelative Gamma) : Full.Field → Prop
  | .identity => a.p.identity = b.p.identity
  | .mol_id => a.p.mol_id = b.p.mol_id
  | .type => a.p.type = b.p.type
  | .mass => a.p.mass = b.p.mass
  | .solvation => a.p.solvation = b.p.solvation
  | .rinertia => a.p.rinertia = b.p.rinertia
  | .rotation => a.p.rotation = b.p.rotation
  | .q => a.p.q = b.p.q
  | .mu_E => a.p.mu_E = b.p.mu_E
  | .swim => a.p.swim = b.p.swim
  | .dipm => a.p.dipm = b.p.dipm
  | .is_virtual => a.p.is_virtual = b.p.is_virtual
  | .vs_relative => a.p.vs_relative = b.p.vs_relative
  | .T => a.p.T = b.p.T
  | .gamma => a.p.gamma = b.p.gamma
  | .gamma_rot => a.p.gamma_rot = b.p.gamma_rot
  | .ext_flag => a.p.ext_flag = b.p.ext_flag
  | .ext_force => a.p.ext_force = b.p.ext_force
  | .ext_torque => a.p.ext_torque = b.p.ext_torque
  | .r_p => a.r.p = b.r.p
  | .r_quat => a.r.quat = b.r.quat
  | .m_v => a.m.v = b.m.v
  | .m_omega => a.m.omega = b.m.omega
  | .f_f => a.f.f = b.f.f
  | .f_torque => a.f.torque = b.f.torque
  | .l_ghost => a.l.ghost = b.l.ghost
  | .l_i => a.l.i = b.l.i
  | .bl => a.bl = b.bl
  | .el => a.el = b.el

/-- The data member that a property alternative `UpdateProperty<T, m>` addresses. -/
def Full.UpdatePropertyMessage.field {Swimming VsRelative Gamma : Type} :
    Full.UpdatePropertyMessage Swimming VsRelative Gamma → Full.Field
  | .type _ => .type
  | .mol_id _ => .mol_id
  | .mass _ => .mass
  | .solvation _ => .solvation
  | .rinertia _ => .rinertia
  | .rotation _ => .rotation
  | .q _ => .q
  | .mu_E _ => .mu_E
  | .swim _ => .swim
  | .dipm _ => .dipm
  | .is_virtual _ => .is_virtual
  | .vs_relative _ => .vs_relative
  | .T _ => .T
  | .gamma _ => .gamma
  | .gamma_rot _ => .gamma_rot
  | .ext_flag _ => .ext_flag
  | .ext_force _ => .ext_force
  | .ext_torque _ => .ext_torque

/-- The addressed member of the record has the value of the property update. -/
def Full.UpdatePropertyMessage.holds {Swimming VsRelative Gamma : Type}
    (part : Full.Particle Swimming VsRelative Gamma) :
    Full.UpdatePropertyMessage Swimming VsRelative Gamma → Prop
  | .type value => part.p.type = value
  | .mol_id value => part.p.mol_id = value
  | .mass value => part.p.mass = value
  | .solvation value => part.p.solvation = value
  | .rinertia value => part.p.rinertia = value
  | .rotation value => part.p.rotation = value
  | .q value => part.p.q = value
  | .mu_E value => part.p.mu_E = value
  | .swim value => part.p.swim = value
  | .dipm value => part.p.dipm = value
  | .is_virtual value => part.p.is_virtual = value
  | .vs_relative value => part.p.vs_relative = value
  | .T value => part.p.T = value
  | .gamma value => part.p.gamma = value
  | .gamma_rot value => part.p.gamma_rot = value
  | .ext_flag value => part.p.ext_flag = value
  | .ext_force value => part.p.ext_force = value
  | .ext_torque value => part.p.ext_torque = value

/-- The data member that a position alternative addresses. -/
def Full.UpdatePositionMessage.field : Full.UpdatePositionMessage → Full.Field
  | .p _ => .r_p
  | .quat _ => .r_quat

/-- The addressed member of the record has the value of the position update. -/
def Full.UpdatePositionMessage.holds {Swimming VsRelative Gamma : Type}
    (part : Full.Particle Swimming VsRelative Gamma) : Full.UpdatePositionMessage → Prop
  | .p value => part.r.p = value
  | .quat value => part.r.quat = value

/-- The data member that a momentum alternative addresses. -/
def Full.UpdateMomentumMessage.field : Full.UpdateMomentumMessage → Full.Field
  | .v _ => .m_v
  | .omega _ => .m_omega

/-- The addressed member of the record has the value of the momentum update. -/
def Full.UpdateMomentumMessage.holds {Swimming VsRelative Gamma : Type}
    (part : Full.Particle Swimming VsRelative Gamma) : Full.UpdateMomentumMessage → Prop
  | .v value => part.m.v = value
  | .omega value => part.m.omega = value

/-- The data member that a force alternative addresses. -/
def Full.UpdateForceMessage.field : Full.UpdateForceMessage → Full.Field
  | .f _ => .f_f
  | .torque _ => .f_torque

/-- The addressed member of the record has the value of the force update. -/
def Full.UpdateForceMessage.holds {Swimming VsRelative Gamma : Type}
    (part : Full.Particle Swimming VsRelative Gamma) : Full.UpdateForceMessage → Prop
  | .f value => part.f.f = value
  | .torque value => part.f.torque = value

/-- An example record with every feature: identity 3, mass 2, the exclusions 1 and 2 and the
four bonds of `bondedParticle`; the three parameter types are `Unit`. -/
def Full.exampleParticle : Full.Particle Unit Unit Unit :=
  { p := { identity := 3, mol_id := 0, type := 0, mass := 2, solvation := [],
           rinertia := (1, 1, 1), rotation := 14, q := 0, mu_E := (0, 0, 0), swim := (),
           dipm := 0, is_virtual := false, vs_relative := (), T := 0, gamma := (),
           gamma_rot := (), ext_flag := 0, ext_force := (0, 0, 0), ext_torque := (0, 0, 0) }
    r := { p := (0, 0, 0), quat := (1, 0, 0, 0) }
    m := { v := (0, 0, 0), omega := (0, 0, 0) }
    f := { f := (0, 0, 0), torque := (0, 0, 0) }
    l := { ghost := false, i := (0, 0, 0) }
    bl := [0, 5, 1, 2, 3, 0, 5, 1, 7, 8]
    el := [1, 2] }

/-! ## Theorems

Every definition of the development stands above this line, every theorem below it. -/

/-! ## Lemmas on the particle storage -/

theorem list_setList (st : LocalState) (l c : Nat) (ps : ParticleList) :
    (st.setList l ps).list c = if c = l ∧ l < st.cells.length then ps else st.list c := by
  unfold LocalState.setList LocalState.list
  simp only [List.getD_eq_getElem?_getD, List.getElem?_set]
  by_cases h : l = c
  · subst h
    by_cases h2 : l < st.cells.length
    · simp [h2]
    · simp [h2, List.getElem?_eq_none (Nat.le_of_not_lt h2)]
  · have h' : ¬ c = l := fun e => h e.symm
    simp [h, h']

theorem length_setList (st : LocalState) (l : Nat) (ps : ParticleList) :
    (st.setList l ps).cells.length = st.cells.length := by
  simp [LocalState.setList]

theorem local_particles_setList (st : LocalState) (l : Nat) (ps : ParticleList) :
    (st.setList l ps).local_particles = st.local_particles := rfl

theorem list_of_not_lt (st : LocalState) (c : Nat) (h : ¬ c < st.cells.length) :
    st.list c = [] := by
  unfold LocalState.list
  simp [List.getD_eq_getElem?_getD, List.getElem?_eq_none (Nat.le_of_not_lt h)]

theorem list_set_local (st : LocalState) (id : Int) (q : Option Ptr) (c : Nat) :
    (set_local_particle_data st id q).list c = st.list c := rfl

theorem cells_set_local (st : LocalState) (id : Int) (q : Option Ptr) :
    (set_local_particle_data st id q).cells = st.cells := rfl

theorem cells_update_loop (pl : Nat) (ps : List Particle) :
    ∀ (i : Nat) (st : LocalState), (update_local_particles_loop pl ps i st).cells = st.cells := by
  induction ps with
  | nil => intro i st; rfl
  | cons p ps ih => intro i st; simp [update_local_particles_loop, ih, cells_set_local]

theorem cells_update (st : LocalState) (pl : Nat) :
    (update_local_particles st pl).cells = st.cells := cells_update_loop pl _ 0 st

theorem list_update (st : LocalState) (pl c : Nat) :
    (update_local_particles st pl).list c = st.list c := by
  unfold LocalState.list; rw [cells_update]

/-- Ids that the loop of `update_local_particles` does not meet keep their entry. -/
theorem update_loop_other (pl : Nat) (ps : List Particle) (id : Int) :
    ∀ (i : Nat) (st : LocalState), (∀ q ∈ ps, q.p.identity ≠ id) →
      (update_local_particles_loop pl ps i st).local_particles id = st.local_particles id := by
  induction ps with
  | nil => intro i st _; rfl
  | cons p ps ih =>
    intro i st h
    have hp : p.p.identity ≠ id := h p (List.mem_cons_self _ _)
    have hrest : ∀ q ∈ ps, q.p.identity ≠ id := fun q hq => h q (List.mem_cons_of_mem _ hq)
    simp only [update_local_particles_loop]
    rw [ih _ _ hrest]
    simp [set_local_particle_data, Ne.symm hp]

/-- The last record with a given id that the loop of `update_local_particles` meets
determines the entry of that id. -/
theorem update_loop_last (pl : Nat) (ps : List Particle) :
    ∀ (i : Nat) (st : LocalState) (k : Nat) (q : Particle), ps[k]? = some q →
      (∀ j r, k < j → ps[j]? = some r → r.p.identity ≠ q.p.identity) →
      (update_local_particles_loop pl ps i st).local_particles q.p.identity
        = some ⟨pl, i + k⟩ := by
  induction ps with
  | nil => intro i st k q h; simp at h
  | cons p ps ih =>
    intro i st k q h hlater
    simp only [update_local_particles_loop]
    cases k with
    | zero =>
      simp at h
      subst h
      rw [update_loop_other]
      · simp [set_local_particle_data]
      · intro r hr
        obtain ⟨j, hj⟩ := List.getElem?_of_mem hr
        exact hlater (j + 1) r (Nat.succ_pos j) (by simpa using hj)
    | succ k =>
      have h' : ps[k]? = some q := by simpa using h
      have := ih (i + 1) (set_local_particle_data st p.p.identity (some ⟨pl, i⟩)) k q h'
        (fun j r hj hr => hlater (j + 1) r (by omega) (by simpa using hr))
      rw [this]
      congr 2
      omega

theorem append_indexed_eq (st : LocalState) (l : Nat) (part : Particle) (re : Bool) :
    append_indexed_particle st l part re =
      if l < st.cells.length then some (⟨l, st.n l⟩, push_index st l part re) else none := by
  unfold append_indexed_particle push_index
  by_cases h : l < st.cells.length
  · simp [h, LocalState.n, list_setList]
  · simp [h]

theorem move_indexed_eq (st : LocalState) (dl sl i : Nat) (re_dl re_sl : Bool) :
    move_indexed_particle st dl sl i re_dl re_sl =
      if dl < st.cells.length then
        (st.part sl i).map fun p =>
          (⟨dl, st.n dl⟩, swap_remove_index (push_index st dl p re_dl) sl i p re_sl)
      else none := by
  unfold move_indexed_particle
  by_cases h : dl < st.cells.length
  · simp only [h, if_true]
    cases hp : st.part sl i with
    | none => rfl
    | some p =>
      simp only [Option.map_some']
      congr 1
      simp [LocalState.n, list_setList, h, swap_remove_index, push_index]
  · simp [h]

theorem extract_indexed_eq (st : LocalState) (sl i : Nat) (re : Bool) :
    extract_indexed_particle st sl i re =
      (st.part sl i).map fun p =>
        (p, swap_remove_index (set_local_particle_data st p.p.identity none) sl i p re) := by
  unfold extract_indexed_particle
  cases hp : st.part sl i with
  | none => rfl
  | some p => rfl

theorem getElem?_swap_remove (l : List Particle) (i k : Nat) (hi : i < l.length) :
    (swap_remove l i)[k]? =
      if k < l.length - 1 then (if k = i then l[l.length - 1]? else l[k]?) else none := by
  unfold swap_remove
  have hlast : l.getLast? = l[l.length - 1]? := List.getLast?_eq_getElem? l
  have hlt : l.length - 1 < l.length := by omega
  have hsome : l[l.length - 1]? = some l[l.length - 1] := List.getElem?_eq_getElem hlt
  rw [hlast, hsome]
  simp only
  by_cases hk : k < l.length - 1
  · by_cases hie : i = l.length - 1
    · have hki : ¬ k = l.length - 1 := by omega
      simp [hie, List.getElem?_dropLast, hk, hki]
    · by_cases hki : k = i
      · subst hki
        simp [hie, List.getElem?_dropLast, hk, List.getElem?_set, hi]
      · have : ¬ i = k := fun e => hki e.symm
        simp [hie, List.getElem?_dropLast, hk, List.getElem?_set, hki, this]
  · by_cases hie : i = l.length - 1
    · simp [hie, List.getElem?_dropLast, hk]
    · simp [hie, List.getElem?_dropLast, hk]

theorem length_swap_remove (l : List Particle) (i : Nat) (hi : i < l.length) :
    (swap_remove l i).length = l.length - 1 := by
  unfold swap_remove
  have hlast : l.getLast? = l[l.length - 1]? := List.getLast?_eq_getElem? l
  have hlt : l.length - 1 < l.length := by omega
  have hsome : l[l.length - 1]? = some l[l.length - 1] := List.getElem?_eq_getElem hlt
  rw [hlast, hsome]
  by_cases hie : i = l.length - 1 <;> simp [hie]

theorem getLastD_eq (l : List Particle) (p : Particle) (h : 0 < l.length) :
    l.getLast? = some (l.getLastD p) := by
  cases l with
  | nil => simp at h
  | cons a as => simp [List.getLastD, List.getLast?_eq_getLast]

theorem list_push_index (st : LocalState) (l c : Nat) (p : Particle) (re : Bool) :
    (push_index st l p re).list c =
      if c = l ∧ l < st.cells.length then st.list l ++ [p] else st.list c := by
  unfold push_index
  cases re
  · simp [list_set_local, list_setList]
  · simp [list_update, list_setList]

theorem length_push_index (st : LocalState) (l : Nat) (p : Particle) (re : Bool) :
    (push_index st l p re).cells.length = st.cells.length := by
  unfold push_index
  cases re
  · simp [cells_set_local, length_setList]
  · simp [cells_update, length_setList]

theorem list_swap_remove_index (st : LocalState) (sl i c : Nat) (p x : Particle) (re : Bool)
    (hx : st.part sl i = some x) :
    (swap_remove_index st sl i p re).list c =
      if c = sl then swap_remove (st.list sl) i else st.list c := by
  have hi : i < (st.list sl).length := by
    unfold LocalState.part at hx
    exact (List.getElem?_eq_some.mp hx).1
  have hsl : sl < st.cells.length := by
    by_contra h
    rw [list_of_not_lt st sl h] at hi
    simp at hi
  have hlast := getLastD_eq (st.list sl) p (by omega)
  unfold swap_remove_index swap_remove
  rw [hlast]
  by_cases hie : i = st.n sl - 1
  · have hie' : i = (st.list sl).length - 1 := hie
    cases re <;> by_cases hc : c = sl <;>
      simp [hie, ← hie', list_update, list_setList, list_set_local, hsl, hc]
  · have hie' : ¬ i = (st.list sl).length - 1 := hie
    cases re <;> by_cases hc : c = sl <;>
      simp [hie, hie', list_update, list_setList, list_set_local, hsl, hc, length_setList]

theorem length_swap_remove_index (st : LocalState) (sl i : Nat) (p : Particle) (re : Bool) :
    (swap_remove_index st sl i p re).cells.length = st.cells.length := by
  unfold swap_remove_index
  by_cases hie : i = st.n sl - 1 <;> cases re <;>
    simp [hie, cells_update, cells_set_local, length_setList]

theorem part_eq_some_iff (st : LocalState) (c k : Nat) (q : Particle) :
    st.part c k = some q ↔ (st.list c)[k]? = some q := Iff.rfl

theorem mem_list_part (st : LocalState) (c : Nat) (r : Particle) (h : r ∈ st.list c) :
    ∃ j, st.part c j = some r := List.getElem?_of_mem h

/-- Where the index is right, ids are unique. -/
theorem InvOn_unique (st : LocalState) (P : Nat → Nat → Prop) (h : InvOn st P)
    (c k : Nat) (q : Particle) (c' k' : Nat) (q' : Particle)
    (hq : st.part c k = some q) (hP : P c k) (hq' : st.part c' k' = some q') (hP' : P c' k')
    (hid : q.p.identity = q'.p.identity) : c = c' ∧ k = k' := by
  have h1 := h c k q hq hP
  have h2 := h c' k' q' hq' hP'
  rw [hid, h2] at h1
  simp at h1
  exact ⟨h1.1.symm, h1.2.symm⟩

theorem Consistent_iff_InvOn (st : LocalState) : Consistent st ↔ InvOn st (fun _ _ => True) :=
  ⟨fun h c k q hq _ => h c k q hq, fun h c k q hq => h c k q hq trivial⟩

/-- A consistent index makes particle ids unique. -/
theorem Consistent.unique (st : LocalState) (h : Consistent st) : UniqueIds st :=
  fun c k q c' k' q' hq hq' hid =>
    InvOn_unique st _ ((Consistent_iff_InvOn st).mp h) c k q c' k' q' hq trivial hq' trivial hid

/-- Appending a record to list `l` and indexing it keeps the index right on every slot
other than `(c0, k0)`, when no other slot holds a record with the id of the new one. -/
theorem push_index_InvOn (st : LocalState) (l : Nat) (p : Particle) (re : Bool) (c0 k0 : Nat)
    (hinv : Consistent st) (hl : l < st.cells.length)
    (hp : ∀ c k q, st.part c k = some q → q.p.identity = p.p.identity → c = c0 ∧ k = k0) :
    InvOn (push_index st l p re) (fun c k => ¬ (c = c0 ∧ k = k0)) := by
  intro c k q hq hne
  unfold LocalState.part at hq
  rw [list_push_index] at hq
  unfold get_local_particle_data
  cases re with
  | false =>
    simp only [push_index, Bool.false_eq_true, if_false, set_local_particle_data,
      local_particles_setList, LocalState.n, list_setList, hl, and_self, if_true,
      List.length_append, List.length_singleton, Nat.add_sub_cancel]
    by_cases hc : c = l
    · subst hc
      simp only [hl, and_self, if_true] at hq
      by_cases hk : k < (st.list c).length
      · rw [List.getElem?_append_left hk] at hq
        have hq' : st.part c k = some q := hq
        have hid : ¬ q.p.identity = p.p.identity := fun e => hne (hp c k q hq' e)
        simp only [hid, if_false]
        exact hinv c k q hq'
      · rw [List.getElem?_append_right (Nat.le_of_not_lt hk)] at hq
        have hk0 : k - (st.list c).length = 0 := by
          by_contra h0
          rw [List.getElem?_eq_none (by simp; omega)] at hq
          exact Option.noConfusion hq
        rw [hk0] at hq
        simp at hq
        subst hq
        have : k = (st.list c).length := by omega
        simp [this]
    · simp only [hc, false_and, if_false] at hq
      have hq' : st.part c k = some q := hq
      have hid : ¬ q.p.identity = p.p.identity := fun e => hne (hp c k q hq' e)
      simp only [hid, if_false]
      exact hinv c k q hq'
  | true =>
    simp only [push_index, if_true, update_local_particles, list_setList, hl, and_self]
    by_cases hc : c = l
    · subst hc
      simp only [hl, and_self, if_true] at hq
      have := update_loop_last c (st.list c ++ [p]) 0 (st.setList c (st.list c ++ [p])) k q hq
      rw [Nat.zero_add] at this
      apply this
      intro j r hj hr hid
      by_cases hk : k < (st.list c).length
      · rw [List.getElem?_append_left hk] at hq
        have hq' : st.part c k = some q := hq
        by_cases hjl : j < (st.list c).length
        · rw [List.getElem?_append_left hjl] at hr
          have := (Consistent.unique st hinv) c j r c k q hr hq' hid
          omega
        · rw [List.getElem?_append_right (Nat.le_of_not_lt hjl)] at hr
          have hj0 : j - (st.list c).length = 0 := by
            by_contra h0
            rw [List.getElem?_eq_none (by simp; omega)] at hr
            exact Option.noConfusion hr
          rw [hj0] at hr
          simp at hr
          subst hr
          exact hne (hp c k q hq' hid.symm)
      · rw [List.getElem?_eq_none (by simp; omega)] at hr
        exact Option.noConfusion hr
    · simp only [hc, false_and, if_false] at hq
      have hq' : st.part c k = some q := hq
      rw [update_loop_other]
      · exact hinv c k q hq'
      · intro r hr hid
        rcases List.mem_append.mp hr with hr | hr
        · obtain ⟨j, hj⟩ := mem_list_part st l r hr
          have := (Consistent.unique st hinv) l j r c k q hj hq' hid
          exact hc this.1.symm
        · simp at hr
          subst hr
          exact hne (hp c k q hq' hid.symm)

/-- Every record of a swap-with-last removal comes from a slot other than the removed one:
from the same slot, or from the last slot when it fills the removed slot. -/
theorem swap_remove_source (l : List Particle) (i k : Nat) (q : Particle) (hi : i < l.length)
    (hq : (swap_remove l i)[k]? = some q) :
    ∃ k0, l[k0]? = some q ∧ k0 ≠ i ∧ k < l.length - 1 ∧
      ((k0 = k ∧ k ≠ i) ∨ (k = i ∧ k0 = l.length - 1)) := by
  rw [getElem?_swap_remove l i k hi] at hq
  by_cases hk : k < l.length - 1
  · simp only [hk, if_true] at hq
    by_cases hki : k = i
    · simp only [hki, if_true] at hq
      exact ⟨l.length - 1, hq, by omega, hk, Or.inr ⟨hki, rfl⟩⟩
    · simp only [hki, if_false] at hq
      exact ⟨k, hq, hki, hk, Or.inl ⟨rfl, hki⟩⟩
  · simp [hk] at hq

theorem swap_remove_index_realloc (st : LocalState) (sl i : Nat) (p x : Particle)
    (hx : st.part sl i = some x) :
    ∃ st4 : LocalState, st4.local_particles = st.local_particles ∧
      (swap_remove_index st sl i p true).local_particles =
        (update_local_particles_loop sl (swap_remove (st.list sl) i) 0 st4).local_particles := by
  have hi : i < (st.list sl).length := (List.getElem?_eq_some.mp hx).1
  have hsl : sl < st.cells.length := by
    by_contra h
    rw [list_of_not_lt st sl h] at hi
    simp at hi
  have hlast := getLastD_eq (st.list sl) p (by omega)
  by_cases hie : i = st.n sl - 1
  · subst hie
    refine ⟨st.setList sl (st.list sl).dropLast, rfl, ?_⟩
    have hl4 : (st.setList sl (st.list sl).dropLast).list sl
        = swap_remove (st.list sl) (st.n sl - 1) := by
      rw [list_setList]
      simp only [hsl, and_self, if_true]
      unfold swap_remove
      rw [hlast]
      simp [LocalState.n]
    rw [← hl4]
    simp [swap_remove_index, update_local_particles]
  · have hie' : ¬ i = (st.list sl).length - 1 := hie
    refine ⟨(st.setList sl ((st.list sl).set i ((st.list sl).getLastD p))).setList sl
        ((st.setList sl ((st.list sl).set i ((st.list sl).getLastD p))).list sl).dropLast,
        rfl, ?_⟩
    have hl4 : ((st.setList sl ((st.list sl).set i ((st.list sl).getLastD p))).setList sl
        ((st.setList sl ((st.list sl).set i ((st.list sl).getLastD p))).list sl).dropLast).list sl
        = swap_remove (st.list sl) i := by
      rw [list_setList, length_setList, list_setList]
      simp only [hsl, and_self, if_true]
      unfold swap_remove
      rw [hlast]
      simp [hie']
    rw [← hl4]
    simp [swap_remove_index, update_local_particles, hie]

/-- The shared tail of `move_indexed_particle` and `extract_indexed_particle` establishes
consistency from an index that is right on every slot but the removed one. -/
theorem swap_remove_index_Consistent (st : LocalState) (sl i : Nat) (p x : Particle) (re : Bool)
    (hinv : InvOn st (fun c k => ¬ (c = sl ∧ k = i))) (hx : st.part sl i = some x) :
    Consistent (swap_remove_index st sl i p re) := by
  have hi : i < (st.list sl).length := (List.getElem?_eq_some.mp hx).1
  have hsl : sl < st.cells.length := by
    by_contra h
    rw [list_of_not_lt st sl h] at hi
    simp at hi
  have hlast := getLastD_eq (st.list sl) p (by omega)
  have huniq := InvOn_unique st _ hinv
  intro c k q hq
  unfold LocalState.part at hq
  rw [list_swap_remove_index st sl i c p x re hx] at hq
  unfold get_local_particle_data
  -- the slot of `st` the record comes from
  have hsrc : ∃ k0, st.part c k0 = some q ∧ ¬ (c = sl ∧ k0 = i) ∧
      (c = sl → k < (st.list sl).length - 1 ∧
        ((k0 = k ∧ k ≠ i) ∨ (k = i ∧ k0 = (st.list sl).length - 1))) ∧ (c ≠ sl → k0 = k) := by
    by_cases hc : c = sl
    · subst hc
      simp only [if_true] at hq
      obtain ⟨k0, h1, h2, h3, h4⟩ := swap_remove_source _ i k q hi hq
      exact ⟨k0, h1, fun h => h2 h.2, fun _ => ⟨h3, h4⟩, fun h => absurd rfl h⟩
    · simp only [hc, if_false] at hq
      exact ⟨k, hq, fun h => hc h.1, fun h => absurd h hc, fun _ => rfl⟩
  obtain ⟨k0, hk0, hne, hsame, hother⟩ := hsrc
  have hidx := hinv c k0 q hk0 hne
  unfold get_local_particle_data at hidx
  cases re with
  | false =>
    by_cases hie : i = st.n sl - 1
    · have hlp : (swap_remove_index st sl i p false).local_particles = st.local_particles := by
        simp [swap_remove_index, hie, local_particles_setList]
      rw [hlp, hidx]
      by_cases hc : c = sl
      · obtain ⟨_, h | h⟩ := hsame hc
        · rw [h.1]
        · exfalso
          have : st.n sl = (st.list sl).length := rfl
          omega
      · rw [hother hc]
    · have hlp : (swap_remove_index st sl i p false).local_particles =
          fun j => if j = ((st.list sl).getLastD p).p.identity then some ⟨sl, i⟩
            else st.local_particles j := by
        simp [swap_remove_index, hie, local_particles_setList, set_local_particle_data]
      rw [hlp]
      have hn : st.n sl = (st.list sl).length := rfl
      have he : st.part sl ((st.list sl).length - 1) = some ((st.list sl).getLastD p) := by
        unfold LocalState.part
        rw [← List.getLast?_eq_getElem?, hlast]
      have hePne : ¬ (sl = sl ∧ (st.list sl).length - 1 = i) := fun h => hie (by omega)
      by_cases hid : q.p.identity = ((st.list sl).getLastD p).p.identity
      · have := huniq c k0 q sl _ _ hk0 hne he hePne hid
        obtain ⟨hc, hk0'⟩ := this
        obtain ⟨_, h | h⟩ := hsame hc
        · exfalso; omega
        · simp [hid, hc, h.1]
      · simp only [hid, if_false]
        rw [hidx]
        by_cases hc : c = sl
        · obtain ⟨_, h | h⟩ := hsame hc
          · rw [h.1]
          · exfalso
            apply hid
            rw [hc, h.2, he] at hk0
            exact congrArg (fun r => r.p.identity) (Option.some.inj hk0).symm
        · rw [hother hc]
  | true =>
    obtain ⟨st4, hst4, hres⟩ := swap_remove_index_realloc st sl i p x hx
    rw [hres]
    by_cases hc : c = sl
    · subst hc
      simp only [if_true] at hq
      have := update_loop_last c (swap_remove (st.list c) i) 0 st4 k q hq
      rw [Nat.zero_add] at this
      apply this
      intro j r hj hr hid
      obtain ⟨j0, hj0, hjne, hjlt, hjcase⟩ := swap_remove_source _ i j r hi hr
      have := huniq c j0 r c k0 q hj0 (fun h => hjne h.2) hk0 hne hid
      obtain ⟨hklt, hkcase⟩ := hsame rfl
      omega
    · simp only [hc, if_false] at hq
      rw [update_loop_other, hst4, hidx, hother hc]
      intro r hr hid
      obtain ⟨j, hj⟩ := List.getElem?_of_mem hr
      obtain ⟨j0, hj0, hjne, _, _⟩ := swap_remove_source _ i j r hi hj
      have := huniq sl j0 r c k0 q hj0 (fun h => hjne h.2) hk0 hne hid
      exact hc this.1.symm

/-- Every record in a slot other than the removed one survives a swap-with-last removal. -/
theorem swap_remove_keeps (l : List Particle) (i k0 : Nat) (q : Particle) (hi : i < l.length)
    (hq : l[k0]? = some q) (hne : k0 ≠ i) : ∃ k : Nat, (swap_remove l i)[k]? = some q := by
  have hk0 : k0 < l.length := (List.getElem?_eq_some.mp hq).1
  by_cases hlast : k0 = l.length - 1
  · refine ⟨i, ?_⟩
    rw [getElem?_swap_remove l i i hi]
    have : i < l.length - 1 := by omega
    rw [if_pos this, if_pos rfl, ← hlast, hq]
  · refine ⟨k0, ?_⟩
    rw [getElem?_swap_remove l i k0 hi]
    have : k0 < l.length - 1 := by omega
    simp [this, hne, hq]

theorem push_index_frame (st : LocalState) (l : Nat) (p : Particle) (re : Bool) (id : Int)
    (hl : l < st.cells.length) (hp : p.p.identity ≠ id)
    (hrest : ∀ r ∈ st.list l, r.p.identity ≠ id) :
    (push_index st l p re).local_particles id = st.local_particles id := by
  cases re with
  | false => simp [push_index, set_local_particle_data, local_particles_setList, Ne.symm hp]
  | true =>
    simp only [push_index, if_true, update_local_particles, list_setList, hl, and_self]
    rw [update_loop_other, local_particles_setList]
    intro r hr
    rcases List.mem_append.mp hr with hr | hr
    · exact hrest r hr
    · simp at hr
      subst hr
      exact hp

theorem swap_remove_index_frame (st : LocalState) (sl i : Nat) (p x : Particle) (re : Bool)
    (id : Int) (hx : st.part sl i = some x)
    (hrest : ∀ r ∈ swap_remove (st.list sl) i, r.p.identity ≠ id) :
    (swap_remove_index st sl i p re).local_particles id = st.local_particles id := by
  have hi : i < (st.list sl).length := (List.getElem?_eq_some.mp hx).1
  cases re with
  | true =>
    obtain ⟨st4, hst4, hres⟩ := swap_remove_index_realloc st sl i p x hx
    rw [hres, update_loop_other _ _ _ _ _ hrest, hst4]
  | false =>
    by_cases hie : i = st.n sl - 1
    · simp [swap_remove_index, hie, local_particles_setList]
    · have hlast := getLastD_eq (st.list sl) p (by omega)
      have hmem : (st.list sl).getLastD p ∈ swap_remove (st.list sl) i := by
        have hn : st.n sl = (st.list sl).length := rfl
        have hlt : i < (st.list sl).length - 1 := by omega
        have : (swap_remove (st.list sl) i)[i]? = some ((st.list sl).getLastD p) := by
          rw [getElem?_swap_remove _ _ _ hi, if_pos hlt, if_pos rfl,
            ← List.getLast?_eq_getElem?, hlast]
        exact List.getElem?_mem this
      have hne := hrest _ hmem
      have hlp : (swap_remove_index st sl i p false).local_particles =
          fun j => if j = ((st.list sl).getLastD p).p.identity then some ⟨sl, i⟩
            else st.local_particles j := by
        simp [swap_remove_index, hie, local_particles_setList, set_local_particle_data]
      rw [hlp]
      simp only
      rw [if_neg (Ne.symm hne)]

theorem Stored_push_index (st : LocalState) (l : Nat) (p : Particle) (re : Bool) (id : Int)
    (hl : l < st.cells.length) :
    Stored (push_index st l p re) id ↔ Stored st id ∨ p.p.identity = id := by
  constructor
  · rintro ⟨c, k, q, hq, hid⟩
    unfold LocalState.part at hq
    rw [list_push_index] at hq
    by_cases hc : c = l
    · subst hc
      simp only [hl, and_self, if_true] at hq
      by_cases hk : k < (st.list c).length
      · rw [List.getElem?_append_left hk] at hq
        exact Or.inl ⟨c, k, q, hq, hid⟩
      · have hmem : q ∈ st.list c ++ [p] := List.getElem?_mem hq
        rcases List.mem_append.mp hmem with h | h
        · obtain ⟨j, hj⟩ := mem_list_part st c q h
          exact Or.inl ⟨c, j, q, hj, hid⟩
        · simp at h
          subst h
          exact Or.inr hid
    · simp only [hc, false_and, if_false] at hq
      exact Or.inl ⟨c, k, q, hq, hid⟩
  · rintro (⟨c, k, q, hq, hid⟩ | hid)
    · refine ⟨c, k, q, ?_, hid⟩
      unfold LocalState.part
      rw [list_push_index]
      by_cases hc : c = l
      · subst hc
        simp only [hl, and_self, if_true]
        have hk : k < (st.list c).length := (List.getElem?_eq_some.mp hq).1
        rw [List.getElem?_append_left hk]
        exact hq
      · simp only [hc, false_and, if_false]
        exact hq
    · refine ⟨l, (st.list l).length, p, ?_, hid⟩
      unfold LocalState.part
      rw [list_push_index]
      simp [hl]

theorem Stored_swap_remove_index (st : LocalState) (sl i : Nat) (p x : Particle) (re : Bool)
    (id : Int) (hx : st.part sl i = some x) :
    Stored (swap_remove_index st sl i p re) id ↔
      ∃ c k q, st.part c k = some q ∧ q.p.identity = id ∧ ¬ (c = sl ∧ k = i) := by
  have hi : i < (st.list sl).length := (List.getElem?_eq_some.mp hx).1
  constructor
  · rintro ⟨c, k, q, hq, hid⟩
    unfold LocalState.part at hq
    rw [list_swap_remove_index st sl i c p x re hx] at hq
    by_cases hc : c = sl
    · subst hc
      simp only [if_true] at hq
      obtain ⟨k0, h1, h2, _, _⟩ := swap_remove_source _ i k q hi hq
      exact ⟨c, k0, q, h1, hid, fun h => h2 h.2⟩
    · simp only [hc, if_false] at hq
      exact ⟨c, k, q, hq, hid, fun h => hc h.1⟩
  · rintro ⟨c, k, q, hq, hid, hne⟩
    by_cases hc : c = sl
    · subst hc
      obtain ⟨k1, hk1⟩ := swap_remove_keeps _ i k q hi hq (fun h => hne ⟨rfl, h⟩)
      refine ⟨c, k1, q, ?_, hid⟩
      unfold LocalState.part
      rw [list_swap_remove_index st c i c p x re hx]
      simpa using hk1
    · refine ⟨c, k, q, ?_, hid⟩
      unfold LocalState.part
      rw [list_swap_remove_index st sl i c p x re hx]
      simpa [hc] using hq

theorem Stored_of_mem (st : LocalState) (c : Nat) (r : Particle) (h : r ∈ st.list c) :
    Stored st r.p.identity := by
  obtain ⟨j, hj⟩ := mem_list_part st c r h
  exact ⟨c, j, r, hj, rfl⟩

theorem part_lt_cells (st : LocalState) (c k : Nat) (q : Particle) (h : st.part c k = some q) :
    c < st.cells.length := by
  by_contra hc
  unfold LocalState.part at h
  rw [list_of_not_lt st c hc] at h
  simp at h

/-- The function `append_indexed_particle` of a record with a fresh id keeps the index consistent. -/
theorem append_indexed_Consistent (st : LocalState) (l : Nat) (part : Particle) (re : Bool)
    (hinv : Consistent st) (hl : l < st.cells.length) (hfresh : ¬ Stored st part.p.identity) :
    ∃ st', append_indexed_particle st l part re = some (⟨l, st.n l⟩, st') ∧ Consistent st' ∧
      (∀ c, st'.list c = if c = l then st.list l ++ [part] else st.list c) ∧
      (∀ id, Stored st' id ↔ Stored st id ∨ part.p.identity = id) ∧
      (∀ id, ¬ Stored st' id → st'.local_particles id = st.local_particles id) := by
  refine ⟨push_index st l part re, ?_, ?_, ?_, ?_, ?_⟩
  · rw [append_indexed_eq, if_pos hl]
  · have h := push_index_InvOn st l part re st.cells.length 0 hinv hl
      (fun c k q hq hid => absurd ⟨c, k, q, hq, hid⟩ hfresh)
    intro c k q hq
    apply h c k q hq
    have := part_lt_cells _ c k q hq
    rw [length_push_index] at this
    omega
  · intro c
    rw [list_push_index]
    simp [hl]
  · intro id
    exact Stored_push_index st l part re id hl
  · intro id hns
    have hns' := (not_congr (Stored_push_index st l part re id hl)).mp hns
    apply push_index_frame st l part re id hl
    · exact fun h => hns' (Or.inr h)
    · exact fun r hr h => hns' (Or.inl (h ▸ Stored_of_mem st l r hr))

/-- The function `extract_indexed_particle` keeps the index consistent and unmaps the extracted id. -/
theorem extract_indexed_Consistent (st : LocalState) (sl i : Nat) (p : Particle) (re : Bool)
    (hinv : Consistent st) (hp : st.part sl i = some p) :
    ∃ st', extract_indexed_particle st sl i re = some (p, st') ∧ Consistent st' ∧
      (∀ c, st'.list c = if c = sl then swap_remove (st.list sl) i else st.list c) ∧
      (∀ id, Stored st' id ↔ Stored st id ∧ id ≠ p.p.identity) ∧
      get_local_particle_data st' p.p.identity = none ∧
      (∀ id, ¬ Stored st' id → id ≠ p.p.identity →
        st'.local_particles id = st.local_particles id) := by
  have huniq := Consistent.unique st hinv
  have hp1 : (set_local_particle_data st p.p.identity none).part sl i = some p := hp
  have hstored : ∀ id, Stored (swap_remove_index (set_local_particle_data st p.p.identity none)
      sl i p re) id ↔ Stored st id ∧ id ≠ p.p.identity := by
    intro id
    rw [Stored_swap_remove_index _ sl i p p re id hp1]
    constructor
    · rintro ⟨c, k, q, hq, hid, hne⟩
      refine ⟨⟨c, k, q, hq, hid⟩, fun h => hne ?_⟩
      exact huniq c k q sl i p hq hp (hid.trans h)
    · rintro ⟨⟨c, k, q, hq, hid⟩, hne⟩
      refine ⟨c, k, q, hq, hid, fun h => hne ?_⟩
      rw [h.1, h.2] at hq
      have : p = q := Option.some.inj (hp.symm.trans hq)
      rw [← hid, this]
  have hframe : ∀ id, ¬ Stored (swap_remove_index (set_local_particle_data st p.p.identity none)
      sl i p re) id →
      (swap_remove_index (set_local_particle_data st p.p.identity none) sl i p re).local_particles id
        = (set_local_particle_data st p.p.identity none).local_particles id := by
    intro id hns
    apply swap_remove_index_frame _ sl i p p re id hp1
    intro r hr hid
    apply hns
    have := list_swap_remove_index (set_local_particle_data st p.p.identity none) sl i sl p p re hp1
    simp only [if_true] at this
    rw [← this] at hr
    exact hid ▸ Stored_of_mem _ sl r hr
  refine ⟨swap_remove_index (set_local_particle_data st p.p.identity none) sl i p re,
    ?_, ?_, ?_, hstored, ?_, ?_⟩
  · rw [extract_indexed_eq, hp]; rfl
  · apply swap_remove_index_Consistent _ sl i p p re _ hp1
    intro c k q hq hne
    have hq' : st.part c k = some q := hq
    have hid : ¬ q.p.identity = p.p.identity := fun h => hne (huniq c k q sl i p hq' hp h)
    have := hinv c k q hq'
    unfold get_local_particle_data at this ⊢
    simp [set_local_particle_data, hid, this]
  · intro c
    exact list_swap_remove_index _ sl i c p p re hp1
  · unfold get_local_particle_data
    rw [hframe]
    · simp [set_local_particle_data]
    · rw [hstored]
      exact fun h => h.2 rfl
  · intro id hns hne
    rw [hframe id hns]
    simp [set_local_particle_data, hne]

/-- The function `move_indexed_particle` keeps the index consistent, also when `dl` and `sl` are the
same list. -/
theorem move_indexed_Consistent (st : LocalState) (dl sl i : Nat) (p : Particle)
    (re_dl re_sl : Bool) (hinv : Consistent st) (hdl : dl < st.cells.length)
    (hp : st.part sl i = some p) :
    ∃ st', move_indexed_particle st dl sl i re_dl re_sl = some (⟨dl, st.n dl⟩, st') ∧
      Consistent st' ∧ (∀ id, Stored st' id ↔ Stored st id) ∧
      (∀ id, ¬ Stored st' id → st'.local_particles id = st.local_particles id) := by
  have huniq := Consistent.unique st hinv
  have hi : i < (st.list sl).length := (List.getElem?_eq_some.mp hp).1
  -- the source slot still holds the record after the record was appended to `dl`
  have hp2 : (push_index st dl p re_dl).part sl i = some p := by
    unfold LocalState.part
    rw [list_push_index]
    by_cases hc : sl = dl
    · subst hc
      simp only [hdl, and_self, if_true]
      rw [List.getElem?_append_left hi]
      exact hp
    · simp only [hc, false_and, if_false]
      exact hp
  have hdst : (push_index st dl p re_dl).part dl (st.list dl).length = some p := by
    unfold LocalState.part
    rw [list_push_index]
    simp [hdl]
  have hdstne : ¬ (dl = sl ∧ (st.list dl).length = i) := by
    rintro ⟨h1, h2⟩
    subst h1
    omega
  have hstored : ∀ id, Stored (swap_remove_index (push_index st dl p re_dl) sl i p re_sl) id ↔
      Stored st id := by
    intro id
    rw [Stored_swap_remove_index _ sl i p p re_sl id hp2]
    constructor
    · rintro ⟨c, k, q, hq, hid, _⟩
      have : Stored (push_index st dl p re_dl) id := ⟨c, k, q, hq, hid⟩
      rcases (Stored_push_index st dl p re_dl id hdl).mp this with h | h
      · exact h
      · exact ⟨sl, i, p, hp, h⟩
    · rintro ⟨c, k, q, hq, hid⟩
      by_cases hne : c = sl ∧ k = i
      · rw [hne.1, hne.2] at hq
        have : p = q := Option.some.inj (hp.symm.trans hq)
        exact ⟨dl, (st.list dl).length, p, hdst, this ▸ hid, hdstne⟩
      · refine ⟨c, k, q, ?_, hid, hne⟩
        unfold LocalState.part
        rw [list_push_index]
        by_cases hc : c = dl
        · subst hc
          simp only [hdl, and_self, if_true]
          have hk : k < (st.list c).length := (List.getElem?_eq_some.mp hq).1
          rw [List.getElem?_append_left hk]
          exact hq
        · simp only [hc, false_and, if_false]
          exact hq
  refine ⟨swap_remove_index (push_index st dl p re_dl) sl i p re_sl, ?_, ?_, hstored, ?_⟩
  · rw [move_indexed_eq, if_pos hdl, hp]; rfl
  · apply swap_remove_index_Consistent _ sl i p p re_sl _ hp2
    exact push_index_InvOn st dl p re_dl sl i hinv hdl
      (fun c k q hq hid => huniq c k q sl i p hq hp hid)
  · intro id hns
    have hns' : ¬ Stored st id := (not_congr (hstored id)).mp hns
    rw [swap_remove_index_frame _ sl i p p re_sl id hp2]
    · apply push_index_frame st dl p re_dl id hdl
      · exact fun h => hns' ⟨sl, i, p, hp, h⟩
      · exact fun r hr h => hns' (h ▸ Stored_of_mem st dl r hr)
    · intro r hr hid
      apply hns
      have := list_swap_remove_index (push_index st dl p re_dl) sl i sl p p re_sl hp2
      simp only [if_true] at this
      rw [← this] at hr
      exact hid ▸ Stored_of_mem _ sl r hr

theorem perm_set_cons (l : List Particle) (e : Particle) :
    ∀ (i : Nat) (x : Particle), l[i]? = some x → (x :: l.set i e).Perm (e :: l) := by
  induction l with
  | nil => intro i x h; simp at h
  | cons a as ih =>
    intro i x h
    cases i with
    | zero =>
      simp at h
      subst h
      simp only [List.set_cons_zero]
      exact List.Perm.swap e a as
    | succ i =>
      have h' : as[i]? = some x := by simpa using h
      simp only [List.set_cons_succ]
      have := ih i x h'
      exact (List.Perm.swap a x _).trans (((this.cons a)).trans (List.Perm.swap e a as))

theorem dropLast_set_eq (l : List Particle) (i : Nat) (e : Particle) :
    (l.set i e).dropLast = l.dropLast.set i e := by
  apply List.ext_getElem?
  intro k
  rw [List.getElem?_dropLast, List.getElem?_set, List.getElem?_set, List.length_set,
    List.length_dropLast, List.getElem?_dropLast]
  by_cases hk : k < l.length - 1
  · by_cases hik : i = k
    · subst hik
      have : i < l.length := by omega
      simp [hk, this]
    · simp [hk, hik]
  · by_cases hik : i = k
    · subst hik
      simp [hk]
    · simp [hk, hik]

/-- The removed record together with the swap-with-last removal is a rearrangement of
the list. -/
theorem perm_swap_remove (l : List Particle) (i : Nat) (x : Particle) (hx : l[i]? = some x) :
    (x :: swap_remove l i).Perm l := by
  have hi : i < l.length := (List.getElem?_eq_some.mp hx).1
  have hne : l ≠ [] := by
    intro h
    rw [h] at hi
    simp at hi
  have hsplit := List.dropLast_append_getLast hne
  have hlast : l.getLast? = some (l.getLast hne) := List.getLast?_eq_getLast l hne
  unfold swap_remove
  rw [hlast]
  simp only
  by_cases hie : i = l.length - 1
  · have hx' : x = l.getLast hne := by
      rw [hie, ← List.getLast?_eq_getElem?, hlast] at hx
      exact (Option.some.inj hx).symm
    rw [if_neg (not_not.mpr hie), hx']
    have := @List.perm_append_comm _ [l.getLast hne] l.dropLast
    rw [hsplit] at this
    exact this
  · rw [if_pos hie, dropLast_set_eq]
    have hi' : i < l.dropLast.length := by simp; omega
    have hx' : l.dropLast[i]? = some x := by
      rw [List.getElem?_dropLast, if_pos (by simpa using hi')]
      exact hx
    have h1 := perm_set_cons l.dropLast (l.getLast hne) i x hx'
    have h2 := @List.perm_append_comm _ [l.getLast hne] l.dropLast
    rw [hsplit] at h2
    exact h1.trans h2

theorem Consistent_of_check (st : LocalState) (h : st.checkConsistent = true) :
    Consistent st := by
  intro c k q hq
  have hc := part_lt_cells st c k q hq
  have hk : k < st.n c := (List.getElem?_eq_some.mp hq).1
  unfold LocalState.checkConsistent at h
  rw [List.all_eq_true] at h
  have h1 := h c (List.mem_range.mpr hc)
  rw [List.all_eq_true] at h1
  have h2 := h1 k (List.mem_range.mpr hk)
  rw [hq] at h2
  simpa using h2

theorem Stored_iff_check (st : LocalState) (id : Int) :
    Stored st id ↔ st.checkStored id = true := by
  unfold LocalState.checkStored
  simp only [List.any_eq_true, decide_eq_true_eq]
  constructor
  · rintro ⟨c, k, q, hq, hid⟩
    have hc := part_lt_cells st c k q hq
    refine ⟨st.list c, ?_, q, List.getElem?_mem hq, hid⟩
    unfold LocalState.list
    rw [List.getD_eq_getElem?_getD, List.getElem?_eq_getElem hc]
    exact List.getElem_mem hc
  · rintro ⟨l, hl, q, hq, hid⟩
    obtain ⟨c, hc⟩ := List.mem_iff_getElem?.mp hl
    obtain ⟨k, hk⟩ := List.mem_iff_getElem?.mp hq
    refine ⟨c, k, q, ?_, hid⟩
    unfold LocalState.part LocalState.list
    rw [List.getD_eq_getElem?_getD, hc]
    exact hk

/-- The lists after `move_indexed_particle`. -/
theorem move_indexed_lists (st : LocalState) (dl sl i : Nat) (p : Particle)
    (re_dl re_sl : Bool) (hne : dl ≠ sl) (hdl : dl < st.cells.length)
    (hp : st.part sl i = some p) :
    ∃ st', move_indexed_particle st dl sl i re_dl re_sl = some (⟨dl, st.n dl⟩, st') ∧
      ∀ c, st'.list c = if c = sl then swap_remove (st.list sl) i
        else if c = dl then st.list dl ++ [p] else st.list c := by
  have hp2 : (push_index st dl p re_dl).part sl i = some p := by
    unfold LocalState.part
    rw [list_push_index]
    simp only [Ne.symm hne, false_and, if_false]
    exact hp
  refine ⟨swap_remove_index (push_index st dl p re_dl) sl i p re_sl, ?_, ?_⟩
  · rw [move_indexed_eq, if_pos hdl, hp]; rfl
  · intro c
    rw [list_swap_remove_index _ sl i c p p re_sl hp2, list_push_index, list_push_index]
    by_cases hc : c = sl
    · simp [hc, Ne.symm hne]
    · simp [hc, hdl]

theorem part_of_lt (st : LocalState) (sl i : Nat) (hi : i < st.n sl) :
    ∃ p, st.part sl i = some p :=
  ⟨(st.list sl)[i], List.getElem?_eq_getElem hi⟩

/-! ## Claims C1 - C3: the storage of one rank -/

/-- C2: `extract_indexed_particle(sl, i)` on a list of `n > 0` records with `i < n`
returns the record that was at slot `i` and leaves a list of `n - 1` records in which
every slot `k ≠ i` holds the record it held before and, when `i < n - 1`, slot `i` holds
the record that was previously last. -/
theorem extract_indexed_particle_swap_with_last (st : LocalState) (sl i : Nat) (re : Bool)
    (hi : i < st.n sl) :
    ∃ p st', st.part sl i = some p ∧
      extract_indexed_particle st sl i re = some (p, st') ∧
      st'.n sl = st.n sl - 1 ∧
      (∀ k, k < st.n sl - 1 → k ≠ i → st'.part sl k = st.part sl k) ∧
      (i < st.n sl - 1 → st'.part sl i = st.part sl (st.n sl - 1)) := by
  obtain ⟨p, hp⟩ := part_of_lt st sl i hi
  have hp1 : (set_local_particle_data st p.p.identity none).part sl i = some p := hp
  have hlist := list_swap_remove_index _ sl i sl p p re hp1
  simp only [if_true] at hlist
  have hl1 : (set_local_particle_data st p.p.identity none).list sl = st.list sl := rfl
  rw [hl1] at hlist
  have hi' : i < (st.list sl).length := hi
  refine ⟨p, swap_remove_index (set_local_particle_data st p.p.identity none) sl i p re,
    hp, ?_, ?_, ?_, ?_⟩
  · rw [extract_indexed_eq, hp]; rfl
  · unfold LocalState.n
    rw [hlist, length_swap_remove _ _ hi']
  · intro k hk hki
    unfold LocalState.part
    rw [hlist, getElem?_swap_remove _ _ _ hi']
    have hk' : k < (st.list sl).length - 1 := hk
    simp [hk', hki]
  · intro hlt
    unfold LocalState.part
    rw [hlist, getElem?_swap_remove _ _ _ hi']
    have hk' : i < (st.list sl).length - 1 := hlt
    simp [hk', LocalState.n]

/-- Instance of C2 on the example storage: slot 0 of the three-record list. -/
theorem extract_indexed_particle_swap_with_last_witness :
    0 < exampleStore.n 0 ∧
    ∃ p st', exampleStore.part 0 0 = some p ∧
      extract_indexed_particle exampleStore 0 0 false = some (p, st') ∧
      st'.n 0 = exampleStore.n 0 - 1 ∧
      (∀ k, k < exampleStore.n 0 - 1 → k ≠ 0 → st'.part 0 k = exampleStore.part 0 k) ∧
      (0 < exampleStore.n 0 - 1 → st'.part 0 0 = exampleStore.part 0 (exampleStore.n 0 - 1)) :=
  ⟨by decide, extract_indexed_particle_swap_with_last exampleStore 0 0 false (by decide)⟩

/-- C3: `move_indexed_particle(dl, sl, i)` with `dl` and `sl` distinct lists and `i < sl.n`
preserves the moved record: the returned slot is the new last slot of `dl` and holds the
record formerly at `sl[i]` (equal in identity, every field, bond list and exclusion list);
the earlier records of `dl` are unchanged and in the same order, `sl` becomes the
swap-with-last removal of slot `i`, and the records of both lists together are a
rearrangement of those before the call. -/
theorem move_indexed_particle_preserves_record (st : LocalState) (dl sl i : Nat)
    (re_dl re_sl : Bool) (hne : dl ≠ sl) (hdl : dl < st.cells.length) (hi : i < st.n sl) :
    ∃ p dst st', st.part sl i = some p ∧
      move_indexed_particle st dl sl i re_dl re_sl = some (dst, st') ∧
      dst = ⟨dl, st'.n dl - 1⟩ ∧ st'.n dl = st.n dl + 1 ∧
      st'.deref dst = some p ∧
      (∀ k, k < st.n dl → st'.part dl k = st.part dl k) ∧
      st'.list dl = st.list dl ++ [p] ∧
      st'.n sl = st.n sl - 1 ∧
      (∀ k, k < st.n sl - 1 → k ≠ i → st'.part sl k = st.part sl k) ∧
      (i < st.n sl - 1 → st'.part sl i = st.part sl (st.n sl - 1)) ∧
      st'.list sl = swap_remove (st.list sl) i ∧
      (st'.list dl ++ st'.list sl).Perm (st.list dl ++ st.list sl) := by
  obtain ⟨p, hp⟩ := part_of_lt st sl i hi
  obtain ⟨st', hmove, hlists⟩ := move_indexed_lists st dl sl i p re_dl re_sl hne hdl hp
  have hldl : st'.list dl = st.list dl ++ [p] := by
    rw [hlists dl]; simp [hne]
  have hlsl : st'.list sl = swap_remove (st.list sl) i := by
    rw [hlists sl]; simp
  have hi' : i < (st.list sl).length := hi
  refine ⟨p, ⟨dl, st.n dl⟩, st', hp, hmove, ?_, ?_, ?_, ?_, hldl, ?_, ?_, ?_, hlsl, ?_⟩
  · simp [LocalState.n, hldl]
  · simp [LocalState.n, hldl]
  · simp [LocalState.deref, LocalState.part, hldl, LocalState.n]
  · intro k hk
    unfold LocalState.part
    rw [hldl, List.getElem?_append_left hk]
  · unfold LocalState.n
    rw [hlsl, length_swap_remove _ _ hi']
  · intro k hk hki
    unfold LocalState.part
    rw [hlsl, getElem?_swap_remove _ _ _ hi']
    have hk' : k < (st.list sl).length - 1 := hk
    simp [hk', hki]
  · intro hlt
    unfold LocalState.part
    rw [hlsl, getElem?_swap_remove _ _ _ hi']
    have hk' : i < (st.list sl).length - 1 := hlt
    simp [hk', LocalState.n]
  · rw [hldl, hlsl, List.append_assoc]
    apply List.Perm.append_left
    exact perm_swap_remove (st.list sl) i p hp

/-- Instance of C3 on the example storage: record 1 moves from list 0 to list 1. -/
theorem move_indexed_particle_preserves_record_witness :
    (1 ≠ 0 ∧ 1 < exampleStore.cells.length ∧ 1 < exampleStore.n 0) ∧
    ∃ p dst st', exampleStore.part 0 1 = some p ∧
      move_indexed_particle exampleStore 1 0 1 false true = some (dst, st') ∧
      dst = ⟨1, st'.n 1 - 1⟩ ∧ st'.n 1 = exampleStore.n 1 + 1 ∧
      st'.deref dst = some p ∧
      (∀ k, k < exampleStore.n 1 → st'.part 1 k = exampleStore.part 1 k) ∧
      st'.list 1 = exampleStore.list 1 ++ [p] ∧
      st'.n 0 = exampleStore.n 0 - 1 ∧
      (∀ k, k < exampleStore.n 0 - 1 → k ≠ 1 → st'.part 0 k = exampleStore.part 0 k) ∧
      (1 < exampleStore.n 0 - 1 → st'.part 0 1 = exampleStore.part 0 (exampleStore.n 0 - 1)) ∧
      st'.list 0 = swap_remove (exampleStore.list 0) 1 ∧
      (st'.list 1 ++ st'.list 0).Perm (exampleStore.list 1 ++ exampleStore.list 0) :=
  ⟨⟨by decide, by decide, by decide⟩,
    move_indexed_particle_preserves_record exampleStore 1 0 1 false true
      (by decide) (by decide) (by decide)⟩

theorem Op.valid_of_check (st : LocalState) (op : Op) (h : op.checkValid st = true) :
    op.valid st := by
  cases op with
  | append l part re =>
    simp only [Op.checkValid, Bool.and_eq_true, decide_eq_true_eq, Bool.not_eq_true'] at h
    refine ⟨h.1, fun hs => ?_⟩
    rw [Stored_iff_check, h.2] at hs
    exact Bool.noConfusion hs
  | move dl sl i re_dl re_sl =>
    simp only [Op.checkValid, Bool.and_eq_true, decide_eq_true_eq] at h
    exact ⟨h.1.1, h.1.2, h.2⟩
  | extract sl i re =>
    simp only [Op.checkValid, Bool.and_eq_true, decide_eq_true_eq] at h
    exact h

theorem ValidRun_of_check (ops : List Op) :
    ∀ st : LocalState, checkValidRun st ops = true → ValidRun st ops := by
  induction ops with
  | nil => intro st _; trivial
  | cons op ops ih =>
    intro st h
    simp only [checkValidRun, Bool.and_eq_true] at h
    refine ⟨Op.valid_of_check st op h.1, ?_⟩
    intro st1 x hstep
    have h2 := h.2
    rw [hstep] at h2
    exact ih st1 h2

/-- A valid call succeeds, keeps the index consistent, keeps clean ids clean and leaves
the id of an extracted record mapped to no slot. -/
theorem Op.step_Consistent (st : LocalState) (op : Op) (hinv : Consistent st)
    (hvalid : op.valid st) :
    ∃ st1 x, op.step st = some (st1, x) ∧ Consistent st1 ∧
      (∀ id, Clean st id → Clean st1 id) ∧
      (∀ p, x = some p → get_local_particle_data st1 p.p.identity = none) := by
  cases op with
  | append l part re =>
    obtain ⟨st', h1, h2, _, h4, h5⟩ :=
      append_indexed_Consistent st l part re hinv hvalid.1 hvalid.2
    refine ⟨st', none, ?_, h2, ?_, ?_⟩
    · simp [Op.step, h1]
    · intro id hclean hns
      have hns' : ¬ Stored st id := fun h => hns ((h4 id).mpr (Or.inl h))
      unfold get_local_particle_data
      rw [h5 id hns]
      exact hclean hns'
    · intro p hp
      exact Option.noConfusion hp
  | move dl sl i re_dl re_sl =>
    obtain ⟨p, hp⟩ := part_of_lt st sl i hvalid.2.2
    obtain ⟨st', h1, h2, h4, h5⟩ :=
      move_indexed_Consistent st dl sl i p re_dl re_sl hinv hvalid.1 hp
    refine ⟨st', none, ?_, h2, ?_, ?_⟩
    · simp [Op.step, h1]
    · intro id hclean hns
      have hns' : ¬ Stored st id := fun h => hns ((h4 id).mpr h)
      unfold get_local_particle_data
      rw [h5 id hns]
      exact hclean hns'
    · intro p hp
      exact Option.noConfusion hp
  | extract sl i re =>
    obtain ⟨p, hp⟩ := part_of_lt st sl i hvalid.2
    obtain ⟨st', h1, h2, _, h4, h5, h6⟩ := extract_indexed_Consistent st sl i p re hinv hp
    refine ⟨st', some p, ?_, h2, ?_, ?_⟩
    · simp [Op.step, h1]
    · intro id hclean hns
      by_cases hid : id = p.p.identity
      · rw [hid]; exact h5
      · have hns' : ¬ Stored st id := fun h => hns ((h4 id).mpr ⟨h, hid⟩)
        unfold get_local_particle_data
        rw [h6 id hns hid]
        exact hclean hns'
    · intro q hq
      have : p = q := Option.some.inj hq
      rw [← this]; exact h5

/-- A valid sequence of calls succeeds, keeps the index consistent, keeps clean ids clean
and leaves the id of every extracted record clean. -/
theorem run_Consistent (ops : List Op) :
    ∀ st : LocalState, Consistent st → ValidRun st ops →
      ∃ st' ex, run st ops = some (st', ex) ∧ Consistent st' ∧
        (∀ id, Clean st id → Clean st' id) ∧ (∀ x ∈ ex, Clean st' x.p.identity) := by
  induction ops with
  | nil =>
    intro st hinv _
    exact ⟨st, [], rfl, hinv, fun _ h => h, fun x hx => absurd hx (List.not_mem_nil x)⟩
  | cons op ops ih =>
    intro st hinv hvalid
    obtain ⟨st1, x, hstep, hinv1, hclean1, hx⟩ := Op.step_Consistent st op hinv hvalid.1
    obtain ⟨st', ex, hrun, hinv', hclean', hex⟩ := ih st1 hinv1 (hvalid.2 st1 x hstep)
    refine ⟨st', x.toList ++ ex, ?_, hinv', fun id h => hclean' id (hclean1 id h), ?_⟩
    · simp [run, hstep, hrun]
    · intro y hy
      rcases List.mem_append.mp hy with h | h
      · have hxy : x = some y := by
          cases x with
          | none => simp at h
          | some z => simp at h; rw [h]
        exact hclean' _ (fun _ => hx y hxy)
      · exact hex y h

/-- C1, amended: LocalIndex/LocalStore consistency is an invariant. Starting from a state
in which particle ids are unique and every record stored at slot `k` of every list is
indexed to exactly that slot, every finite sequence of `append_indexed_particle`,
`move_indexed_particle` and `extract_indexed_particle` calls with valid list and slot
indices, in which every appended record has an id that no stored record has at that time
(whichever `resize` calls report a reallocation), runs to the end, and afterwards every
stored record is returned by `get_local_particle_data(its id)` at its current slot, every
stored id resolves to a record with that identity, ids are unique, and the id of every
extracted record that is not stored again maps to no slot. -/
theorem local_index_consistency_invariant (st : LocalState) (ops : List Op)
    (_huniq : UniqueIds st) (hinv : Consistent st) (hvalid : ValidRun st ops) :
    ∃ st' extracted, run st ops = some (st', extracted) ∧
      (∀ c k q, st'.part c k = some q →
        get_local_particle_data st' q.p.identity = some ⟨c, k⟩) ∧
      (∀ id, Stored st' id → ∃ ptr q, get_local_particle_data st' id = some ptr ∧
        st'.deref ptr = some q ∧ q.p.identity = id) ∧
      UniqueIds st' ∧
      (∀ x ∈ extracted, ¬ Stored st' x.p.identity →
        get_local_particle_data st' x.p.identity = none) := by
  obtain ⟨st', ex, hrun, hinv', _, hex⟩ := run_Consistent ops st hinv hvalid
  refine ⟨st', ex, hrun, hinv', ?_, Consistent.unique st' hinv', hex⟩
  rintro id ⟨c, k, q, hq, hid⟩
  exact ⟨⟨c, k⟩, q, hid ▸ hinv' c k q hq, hq, hid⟩

theorem exampleStore_Consistent : Consistent exampleStore :=
  Consistent_of_check exampleStore (by decide)

/-- Instance of C1: the example sequence of calls on the example storage. -/
theorem local_index_consistency_invariant_witness :
    (UniqueIds exampleStore ∧ Consistent exampleStore ∧ ValidRun exampleStore exampleOps) ∧
    ∃ st' extracted, run exampleStore exampleOps = some (st', extracted) ∧
      (∀ c k q, st'.part c k = some q →
        get_local_particle_data st' q.p.identity = some ⟨c, k⟩) ∧
      (∀ id, Stored st' id → ∃ ptr q, get_local_particle_data st' id = some ptr ∧
        st'.deref ptr = some q ∧ q.p.identity = id) ∧
      UniqueIds st' ∧
      (∀ x ∈ extracted, ¬ Stored st' x.p.identity →
        get_local_particle_data st' x.p.identity = none) :=
  ⟨⟨Consistent.unique _ exampleStore_Consistent, exampleStore_Consistent,
      ValidRun_of_check exampleOps exampleStore (by decide)⟩,
    local_index_consistency_invariant exampleStore exampleOps
      (Consistent.unique _ exampleStore_Consistent) exampleStore_Consistent
      (ValidRun_of_check exampleOps exampleStore (by decide))⟩

/-! ## Lemmas on the directory and on the transport -/

theorem Directory.find_le_max_key_aux (d : Directory) (id v : Int) :
    ∀ m : Int, d.find id = some v → id ≤ d.foldl (fun m kv => max m kv.1) m := by
  induction d with
  | nil => intro m h; simp [Directory.find] at h
  | cons kv rest ih =>
    intro m h
    obtain ⟨k, w⟩ := kv
    simp only [Directory.find] at h
    simp only [List.foldl_cons]
    by_cases hk : k = id
    · subst hk
      have hmono : ∀ (l : Directory) (a : Int), a ≤ l.foldl (fun m kv => max m kv.1) a := by
        intro l
        induction l with
        | nil => intro a; exact le_refl a
        | cons x xs ihx =>
          intro a
          simp only [List.foldl_cons]
          exact le_trans (le_max_left a x.1) (ihx _)
      exact le_trans (le_max_right m k) (hmono rest _)
    · simp only [hk, if_false] at h
      exact ih _ h

theorem Directory.find_le_max_key (d : Directory) (id v : Int) (h : d.find id = some v) :
    id ≤ d.max_key :=
  Directory.find_le_max_key_aux d id v (-1) h

theorem Directory.not_isEmpty_of_find (d : Directory) (id v : Int) (h : d.find id = some v) :
    d.isEmpty = false := by
  cases d with
  | nil => simp [Directory.find] at h
  | cons a as => rfl

theorem build_if_empty_of_find (sys : System) (id v : Int)
    (h : sys.master.particle_node.find id = some v) : build_if_empty sys = sys := by
  unfold build_if_empty
  rw [Directory.not_isEmpty_of_find _ id v h]
  rfl

/-- An id of the directory that is not negative is resolved without communication. -/
theorem get_particle_node_of_find (sys : System) (id v : Int) (hid : 0 ≤ id)
    (h : sys.master.particle_node.find id = some v) :
    get_particle_node sys id = (.ok v, sys) := by
  unfold get_particle_node get_maximal_particle_id
  have hmax := Directory.find_le_max_key _ id v h
  simp only [build_if_empty_of_find sys id v h]
  rw [if_neg (not_lt.mpr hid), if_neg (not_lt.mpr hmax), h]

theorem mapSlaves_spec (f : Int → RankState → Option RankState) :
    ∀ (l : List RankState) (n : Nat),
      (∀ i rs, l[i]? = some rs → ∃ rs1, f ((n + i : Nat) : Int) rs = some rs1) →
      ∃ l1, mapSlaves f n l = some l1 ∧ l1.length = l.length ∧
        ∀ i rs, l[i]? = some rs → ∃ rs1, l1[i]? = some rs1 ∧ f ((n + i : Nat) : Int) rs = some rs1 := by
  intro l
  induction l with
  | nil =>
    intro n _
    exact ⟨[], rfl, rfl, fun i rs h => by simp at h⟩
  | cons a as ih =>
    intro n h
    obtain ⟨a1, ha1⟩ := h 0 a (by simp)
    simp only [Nat.add_zero] at ha1
    obtain ⟨as1, has1, hlen, hget⟩ := ih (n + 1) (fun i rs hi => by
      have := h (i + 1) rs (by simpa using hi)
      rwa [show n + (i + 1) = n + 1 + i by omega] at this)
    refine ⟨a1 :: as1, ?_, by simp [hlen], ?_⟩
    · simp [mapSlaves, ha1, has1]
    · intro i rs hi
      cases i with
      | zero =>
        simp at hi
        subst hi
        exact ⟨a1, by simp, by simpa using ha1⟩
      | succ i =>
        have hi' : as[i]? = some rs := by simpa using hi
        obtain ⟨rs1, h1, h2⟩ := hget i rs hi'
        refine ⟨rs1, by simpa using h1, ?_⟩
        rwa [show n + (i + 1) = n + 1 + i by omega]

theorem part_setList_set (st : LocalState) (c k c1 k1 : Nat) (x p : Particle)
    (hp : st.part c k = some p) :
    (st.setList c ((st.list c).set k x)).part c1 k1 =
      if c1 = c ∧ k1 = k then some x else st.part c1 k1 := by
  have hc := part_lt_cells st c k p hp
  have hk : k < (st.list c).length := (List.getElem?_eq_some.mp hp).1
  unfold LocalState.part
  rw [list_setList]
  by_cases h1 : c1 = c
  · subst h1
    simp only [hc, and_self, if_true, true_and]
    rw [List.getElem?_set]
    by_cases h2 : k = k1
    · subst h2; simp [hk]
    · have : ¬ k1 = k := fun e => h2 e.symm
      simp [h2, this]
  · simp [h1]

/-- The visitor replaces the record of `id` by the result of the message and touches
nothing else. -/
theorem UpdateVisitor_spec (num : Int → Nat) (id : Int) (msg : UpdateMessage)
    (st : LocalState) (c k : Nat) (p : Particle) (hcons : Consistent st)
    (hp : st.part c k = some p) (hpid : p.p.identity = id) :
    ∃ st', UpdateVisitor num id msg st = some st' ∧
      st'.part c k = some (msg.apply num p) ∧
      (∀ c1 k1, ¬ (c1 = c ∧ k1 = k) → st'.part c1 k1 = st.part c1 k1) ∧
      st'.local_particles = st.local_particles ∧ st'.cells.length = st.cells.length := by
  have hidx := hcons c k p hp
  rw [hpid] at hidx
  refine ⟨st.setList c ((st.list c).set k (msg.apply num p)), ?_, ?_, ?_, rfl, ?_⟩
  · unfold UpdateVisitor
    rw [hidx]
    simp only [LocalState.deref]
    rw [hp]
  · rw [part_setList_set st c k c k _ p hp]
    simp
  · intro c1 k1 hne
    rw [part_setList_set st c k c1 k1 _ p hp, if_neg hne]
  · exact length_setList _ _ _

theorem rank_succ (sys : System) (j : Nat) : sys.rank (j + 1) = sys.slaves[j]? := rfl

theorem rank_zero (sys : System) : sys.rank 0 = some sys.master := rfl

/-- The effect of `mpi_send_update_message` on an id that the directory maps to the rank
that stores its record. -/
theorem mpi_send_update_message_spec (num : Int → Nat) (sys : System) (id : Int)
    (msg : UpdateMessage) (r : Nat) (rs : RankState) (c k : Nat) (p : Particle)
    (hid : 0 ≤ id) (hdir : sys.master.particle_node.find id = some (r : Int))
    (hrank : sys.rank r = some rs) (hcons : Consistent rs.store)
    (hp : rs.store.part c k = some p) (hpid : p.p.identity = id) :
    ∃ sys', mpi_send_update_message num sys id msg = (.ok (), sys') ∧
      (∃ rs', sys'.rank r = some rs' ∧
        rs'.store.part c k = some (msg.apply num p) ∧
        (∀ c1 k1, ¬ (c1 = c ∧ k1 = k) → rs'.store.part c1 k1 = rs.store.part c1 k1) ∧
        rs'.store.local_particles = rs.store.local_particles) ∧
      (∀ r1 rs0, r1 ≠ r → sys.rank r1 = some rs0 →
        ∃ rs1, sys'.rank r1 = some rs1 ∧ rs1.store = rs0.store) ∧
      sys'.master.particle_node = sys.master.particle_node ∧
      sys'.master.particle_fetch_cache.entries = [] ∧
      sys'.slaves.length = sys.slaves.length := by
  have hnode := get_particle_node_of_find sys id r hid hdir
  obtain ⟨st', hvis, hslot, hother, hlp, _⟩ := UpdateVisitor_spec num id msg rs.store c k p hcons hp hpid
  -- every other rank runs the callback
  have hslaves : ∀ i rs0, sys.slaves[i]? = some rs0 →
      ∃ rs1, mpi_update_particle_slave num msg r id ((1 + i : Nat) : Int) rs0 = some rs1 := by
    intro i rs0 hi
    unfold mpi_update_particle_slave
    by_cases hri : (r : Int) = ((1 + i : Nat) : Int)
    · have hr : r = i + 1 := by omega
      subst hr
      rw [rank_succ, hi] at hrank
      have : rs0 = rs := Option.some.inj hrank
      subst this
      rw [if_pos hri, hvis]
      exact ⟨_, rfl⟩
    · rw [if_neg hri]
      exact ⟨_, rfl⟩
  obtain ⟨slaves', hmap, hlen, hget⟩ :=
    mapSlaves_spec (mpi_update_particle_slave num msg r id) sys.slaves 1 hslaves
  have hs2 : (sys.log (.call .mpi_update_particle_slave)).slaves = sys.slaves := rfl
  unfold mpi_send_update_message
  rw [hnode]
  simp only [hs2, hmap]
  cases r with
  | zero =>
    have hrs : rs = sys.master := (Option.some.inj hrank).symm
    subst hrs
    simp only [Nat.cast_zero, ne_eq, not_true_eq_false, if_false]
    have hms : (sys.log (.call .mpi_update_particle_slave)).master = sys.master := rfl
    simp only [System.log, hvis]
    refine ⟨_, rfl, ⟨_, rfl, hslot, hother, hlp⟩, ?_, rfl, rfl, hlen⟩
    intro r1 rs0 hr1 hrank1
    cases r1 with
    | zero => exact absurd rfl hr1
    | succ j =>
      rw [rank_succ] at hrank1
      obtain ⟨rs1, h1, h2⟩ := hget j rs0 hrank1
      refine ⟨rs1, h1, ?_⟩
      unfold mpi_update_particle_slave at h2
      have hne : ¬ ((0 : Nat) : Int) = ((1 + j : Nat) : Int) := by omega
      rw [if_neg hne] at h2
      rw [← Option.some.inj h2]
      rfl
  | succ j =>
    have hj : sys.slaves[j]? = some rs := hrank
    have hjlt : j < sys.slaves.length := (List.getElem?_eq_some.mp hj).1
    have hne : ((j + 1 : Nat) : Int) ≠ 0 := by omega
    have hrange : 0 < ((j + 1 : Nat) : Int) ∧ ((j + 1 : Nat) : Int) < (sys.n_nodes : Int) := by
      unfold System.n_nodes
      omega
    simp only [ne_eq, hne, not_false_eq_true, if_true, hrange, and_self]
    refine ⟨_, rfl, ?_, ?_, rfl, rfl, hlen⟩
    · obtain ⟨rs1, h1, h2⟩ := hget j rs hj
      refine ⟨rs1, h1, ?_⟩
      unfold mpi_update_particle_slave at h2
      have he : ((j + 1 : Nat) : Int) = ((1 + j : Nat) : Int) := by omega
      rw [if_pos he, hvis] at h2
      rw [← Option.some.inj h2]
      exact ⟨hslot, hother, hlp⟩
    · intro r1 rs0 hr1 hrank1
      cases r1 with
      | zero =>
        rw [rank_zero] at hrank1
        refine ⟨_, rfl, ?_⟩
        rw [← Option.some.inj hrank1]
        rfl
      | succ i =>
        rw [rank_succ] at hrank1
        obtain ⟨rs1, h1, h2⟩ := hget i rs0 hrank1
        refine ⟨rs1, h1, ?_⟩
        unfold mpi_update_particle_slave at h2
        have hne2 : ¬ ((j + 1 : Nat) : Int) = ((1 + i : Nat) : Int) := by omega
        rw [if_neg hne2] at h2
        rw [← Option.some.inj h2]
        rfl

theorem FieldUpdate.apply_holds (num : Int → Nat) (p : Particle) (u : FieldUpdate) :
    u.holds (u.message.apply num p) := by
  cases u <;> rfl

theorem rank_eq_getElem? (sys : System) (r : Nat) :
    sys.rank r = (sys.master :: sys.slaves)[r]? := by
  cases r <;> simp [System.rank]

theorem filterMap_unique (f : RankState → Option Particle) (q : Particle) :
    ∀ (l : List RankState) (j : Nat) (rs : RankState), l[j]? = some rs → f rs = some q →
      (∀ i rs1, i ≠ j → l[i]? = some rs1 → f rs1 = none) → l.filterMap f = [q] := by
  intro l
  induction l with
  | nil => intro j rs h; simp at h
  | cons a as ih =>
    intro j rs hj hf hothers
    cases j with
    | zero =>
      simp at hj
      subst hj
      rw [List.filterMap_cons_some hf]
      congr 1
      rw [List.filterMap_eq_nil_iff]
      intro x hx
      obtain ⟨i, hi⟩ := List.mem_iff_getElem?.mp hx
      exact hothers (i + 1) x (by omega) (by simpa using hi)
    | succ j =>
      have ha : f a = none := hothers 0 a (by omega) (by simp)
      rw [List.filterMap_cons_none ha]
      exact ih j rs (by simpa using hj) hf
        (fun i rs1 hi h => hothers (i + 1) rs1 (by omega) (by simpa using h))

/-- On a rank with a well-formed storage that does not store `id`, the local lookup of
`id` finds nothing. -/
theorem get_particle_data_local_none (rs : RankState) (id : Int)
    (hclean : Clean rs.store id) (hns : ¬ Stored rs.store id) :
    get_particle_data_local rs id = none := by
  unfold get_particle_data_local
  rw [hclean hns]

theorem get_particle_data_local_some (rs : RankState) (id : Int) (c k : Nat) (p : Particle)
    (hidx : get_local_particle_data rs.store id = some ⟨c, k⟩)
    (hp : rs.store.part c k = some p) (hghost : p.l.ghost = false) :
    get_particle_data_local rs id = some p := by
  unfold get_particle_data_local
  rw [hidx]
  simp only [LocalState.deref]
  rw [hp]
  simp [hghost]

/-- What a well-formed system knows about an id of its directory. -/
theorem SystemWF.owner (sys : System) (hwf : SystemWF sys) (id node : Int)
    (hdir : sys.master.particle_node.find id = some node) :
    0 ≤ id ∧ ∃ (r : Nat) (rs : RankState) (c k : Nat) (p : Particle), node = (r : Int) ∧
      sys.rank r = some rs ∧ RankWF rs ∧ rs.store.part c k = some p ∧ p.p.identity = id := by
  obtain ⟨hranks, _, hsound⟩ := hwf
  obtain ⟨r, rs, hnode, hrank, c, k, p, hp, hpid⟩ := hsound id node hdir
  have hid : 0 ≤ id := hpid ▸ ((hranks r rs hrank).2.2 c k p hp).2
  exact ⟨hid, r, rs, c, k, p, hnode, hrank, hranks r rs hrank, hp, hpid⟩

/-! ## Claim C4: a mutation is applied exactly once and only to its target -/

/-- C4: on a well-formed system of any number of ranks, for every id present in the
directory and every update message, `mpi_send_update_message(id, msg)` succeeds; the
record with that id on its owning rank (the head node or another rank) becomes `msg`
applied once to its previous value, and every other record on every rank is unchanged. -/
theorem mpi_send_update_message_applied_once (num : Int → Nat) (sys : System) (id node : Int)
    (msg : UpdateMessage) (hwf : SystemWF sys)
    (hdir : sys.master.particle_node.find id = some node) :
    ∃ (r : Nat) (rs : RankState) (c k : Nat) (p : Particle) (sys' : System) (rs' : RankState),
      node = (r : Int) ∧ sys.rank r = some rs ∧
      rs.store.part c k = some p ∧ p.p.identity = id ∧
      mpi_send_update_message num sys id msg = (.ok (), sys') ∧
      sys'.rank r = some rs' ∧
      rs'.store.part c k = some (msg.apply num p) ∧
      (∀ c1 k1, ¬ (c1 = c ∧ k1 = k) → rs'.store.part c1 k1 = rs.store.part c1 k1) ∧
      rs'.store.local_particles = rs.store.local_particles ∧
      (∀ r1 rs0, r1 ≠ r → sys.rank r1 = some rs0 →
        ∃ rs1, sys'.rank r1 = some rs1 ∧ rs1.store = rs0.store) := by
  obtain ⟨hid, r, rs, c, k, p, hnode, hrank, hrwf, hp, hpid⟩ :=
    SystemWF.owner sys hwf id node hdir
  rw [hnode] at hdir
  obtain ⟨sys', hsend, ⟨rs', hrank', hslot, hslots, hlp⟩, hothers, _⟩ :=
    mpi_send_update_message_spec num sys id msg r rs c k p hid hdir hrank hrwf.1 hp hpid
  exact ⟨r, rs, c, k, p, sys', rs', hnode, hrank, hp, hpid, hsend, hrank', hslot, hslots, hlp,
    hothers⟩

/-! ## Claim C5: mutate/read round trip -/

theorem Stored_iff_mem_local_ids (st : LocalState) (id : Int) :
    Stored st id ↔ id ∈ local_ids st := by
  rw [Stored_iff_check]
  unfold LocalState.checkStored local_ids
  simp only [List.any_eq_true, decide_eq_true_eq, List.mem_map, List.mem_flatten]
  constructor
  · rintro ⟨l, hl, q, hq, hid⟩
    exact ⟨q, ⟨l, hl, hq⟩, hid⟩
  · rintro ⟨q, ⟨l, hl, hq⟩, hid⟩
    exact ⟨l, hl, q, hq, hid⟩

theorem noGhost_of_check (st : LocalState) (h : st.checkNoGhost = true) :
    ∀ c k q, st.part c k = some q → q.l.ghost = false ∧ 0 ≤ q.p.identity := by
  intro c k q hq
  have hc := part_lt_cells st c k q hq
  unfold LocalState.checkNoGhost at h
  rw [List.all_eq_true] at h
  have hmem : st.list c ∈ st.cells := by
    unfold LocalState.list
    rw [List.getD_eq_getElem?_getD, List.getElem?_eq_getElem hc]
    exact List.getElem_mem hc
  have h1 := h _ hmem
  rw [List.all_eq_true] at h1
  have h2 := h1 q (List.getElem?_mem hq)
  simpa using h2

theorem exampleStore_RankWF (d : Directory) (cache : List (Int × Particle)) :
    RankWF (exampleRank exampleStore d cache) := by
  have hg : exampleStore.checkNoGhost = true := by decide
  refine ⟨exampleStore_Consistent, ?_, noGhost_of_check exampleStore hg⟩
  intro id hns
  rw [Stored_iff_mem_local_ids] at hns
  have h : id ∉ [(0 : Int), 1, 2, 3] := hns
  simp only [List.mem_cons, List.mem_singleton, List.not_mem_nil, or_false, not_or] at h
  obtain ⟨h0, h1, h2, h3⟩ := h
  simp [get_local_particle_data, exampleRank, exampleStore, h0, h1, h2, h3]

theorem exampleStore1_RankWF (d : Directory) (cache : List (Int × Particle)) :
    RankWF (exampleRank exampleStore1 d cache) := by
  have hc : exampleStore1.checkConsistent = true := by decide
  have hg : exampleStore1.checkNoGhost = true := by decide
  refine ⟨Consistent_of_check exampleStore1 hc, ?_, noGhost_of_check exampleStore1 hg⟩
  intro id hns
  rw [Stored_iff_mem_local_ids] at hns
  have h : id ∉ [(4 : Int), 5] := hns
  simp only [List.mem_cons, List.mem_singleton, List.not_mem_nil, or_false, not_or] at h
  obtain ⟨h0, h1⟩ := h
  simp [get_local_particle_data, exampleRank, exampleStore1, h0, h1]

theorem twoRanks_rank (d : Directory) (cache : List (Int × Particle)) (r : Nat)
    (rs : RankState) (h : (twoRanks d cache).rank r = some rs) :
    (r = 0 ∧ rs = exampleRank exampleStore d cache) ∨
      (r = 1 ∧ rs = exampleRank exampleStore1 [] []) := by
  cases r with
  | zero => exact Or.inl ⟨rfl, (Option.some.inj h).symm⟩
  | succ j =>
    cases j with
    | zero => exact Or.inr ⟨rfl, (Option.some.inj h).symm⟩
    | succ i => simp [System.rank, twoRanks] at h

theorem twoRanks_RankWF (d : Directory) (cache : List (Int × Particle)) (r : Nat)
    (rs : RankState) (h : (twoRanks d cache).rank r = some rs) : RankWF rs := by
  rcases twoRanks_rank d cache r rs h with ⟨_, h2⟩ | ⟨_, h2⟩
  · rw [h2]; exact exampleStore_RankWF _ _
  · rw [h2]; exact exampleStore1_RankWF _ _

theorem twoRanks_DisjointIds (d : Directory) (cache : List (Int × Particle)) :
    DisjointIds (twoRanks d cache) := by
  intro r1 r2 rs1 rs2 id h1 h2 hs1 hs2
  rw [Stored_iff_mem_local_ids] at hs1 hs2
  rcases twoRanks_rank d cache r1 rs1 h1 with ⟨e1, f1⟩ | ⟨e1, f1⟩ <;>
    rcases twoRanks_rank d cache r2 rs2 h2 with ⟨e2, f2⟩ | ⟨e2, f2⟩
  · rw [e1, e2]
  · exfalso
    rw [f1] at hs1
    rw [f2] at hs2
    have a : id ∈ [(0 : Int), 1, 2, 3] := hs1
    have b : id ∈ [(4 : Int), 5] := hs2
    simp only [List.mem_cons, List.mem_singleton, List.not_mem_nil, or_false] at a b
    omega
  · exfalso
    rw [f1] at hs1
    rw [f2] at hs2
    have a : id ∈ [(4 : Int), 5] := hs1
    have b : id ∈ [(0 : Int), 1, 2, 3] := hs2
    simp only [List.mem_cons, List.mem_singleton, List.not_mem_nil, or_false] at a b
    omega
  · rw [e1, e2]

theorem exampleSystem_WF : SystemWF exampleSystem := by
  refine ⟨twoRanks_RankWF _ _, twoRanks_DisjointIds _ _, ?_⟩
  · intro id node h
    have hd : exampleSystem.master.particle_node =
        [(0, 0), (1, 0), (2, 0), (3, 0), (4, 1), (5, 1)] := rfl
    rw [hd] at h
    simp only [Directory.find] at h
    have hS0 : ∀ i, i ∈ [(0 : Int), 1, 2, 3] → Stored exampleSystem.master.store i :=
      fun i hi => (Stored_iff_mem_local_ids _ i).mpr hi
    have hS1 : ∀ i, i ∈ [(4 : Int), 5] → Stored (exampleRank exampleStore1 [] []).store i :=
      fun i hi => (Stored_iff_mem_local_ids _ i).mpr hi
    split_ifs at h with h0 h1 h2 h3 h4 h5
    all_goals first
      | (have hn := (Option.some.inj h).symm
         subst hn
         first
          | (subst h0; exact ⟨0, _, rfl, rfl, hS0 _ (by decide)⟩)
          | (subst h1; exact ⟨0, _, rfl, rfl, hS0 _ (by decide)⟩)
          | (subst h2; exact ⟨0, _, rfl, rfl, hS0 _ (by decide)⟩)
          | (subst h3; exact ⟨0, _, rfl, rfl, hS0 _ (by decide)⟩)
          | (subst h4; exact ⟨1, _, rfl, rfl, hS1 _ (by decide)⟩)
          | (subst h5; exact ⟨1, _, rfl, rfl, hS1 _ (by decide)⟩))

/-- Instance of C4: the momentum of particle 5, owned by rank 1, is set. -/
theorem mpi_send_update_message_applied_once_witness :
    (SystemWF exampleSystem ∧ exampleSystem.master.particle_node.find 5 = some 1) ∧
    ∃ (r : Nat) (rs : RankState) (c k : Nat) (p : Particle) (sys' : System) (rs' : RankState),
      (1 : Int) = (r : Int) ∧ exampleSystem.rank r = some rs ∧
      rs.store.part c k = some p ∧ p.p.identity = 5 ∧
      mpi_send_update_message exampleNum exampleSystem 5 (.momentum (.v (1, 2, 3)))
        = (.ok (), sys') ∧
      sys'.rank r = some rs' ∧
      rs'.store.part c k = some ((UpdateMessage.momentum (.v (1, 2, 3))).apply exampleNum p) ∧
      (∀ c1 k1, ¬ (c1 = c ∧ k1 = k) → rs'.store.part c1 k1 = rs.store.part c1 k1) ∧
      rs'.store.local_particles = rs.store.local_particles ∧
      (∀ r1 rs0, r1 ≠ r → exampleSystem.rank r1 = some rs0 →
        ∃ rs1, sys'.rank r1 = some rs1 ∧ rs1.store = rs0.store) :=
  ⟨⟨exampleSystem_WF, rfl⟩,
    mpi_send_update_message_applied_once exampleNum exampleSystem 5 1
      (.momentum (.v (1, 2, 3))) exampleSystem_WF rfl⟩

theorem Directory.find_erase (d : Directory) (k id : Int) :
    (d.erase k).find id = if k = id then none else d.find id := by
  induction d with
  | nil => simp [Directory.erase, Directory.find]
  | cons kv rest ih =>
    obtain ⟨a, b⟩ := kv
    unfold Directory.erase at ih ⊢
    by_cases ha : a = k
    · subst ha
      simp only [List.filter_cons, ne_eq, not_true_eq_false, decide_False, Bool.false_eq_true,
        if_false, Directory.find]
      rw [ih]
      by_cases h : a = id <;> simp [h]
    · simp only [List.filter_cons, ne_eq, ha, not_false_eq_true, decide_True, if_true,
        Directory.find]
      rw [ih]
      by_cases h : k = id
      · subst h; simp [ha]
      · simp [h]

theorem Directory.find_set (d : Directory) (k v id : Int) :
    (d.set k v).find id = if k = id then some v else d.find id := by
  unfold Directory.set
  simp only [Directory.find]
  rw [Directory.find_erase]
  by_cases h : k = id <;> simp [h]

theorem Directory.find_foldl_set (ids : List Int) (v id : Int) :
    ∀ d : Directory, (ids.foldl (fun d i => d.set i v) d).find id =
      if id ∈ ids then some v else d.find id := by
  induction ids with
  | nil => intro d; simp
  | cons a as ih =>
    intro d
    simp only [List.foldl_cons]
    rw [ih, Directory.find_set]
    by_cases h1 : id ∈ as
    · simp [h1]
    · by_cases h2 : a = id
      · subst h2; simp
      · have : ¬ id = a := fun e => h2 e.symm
        simp [h1, h2, this]

theorem cells_get_n_particles_eq (st : LocalState) :
    cells_get_n_particles st = (local_ids st).length := by
  unfold cells_get_n_particles local_ids
  rw [List.length_map, List.length_flatten]

/-- One step of the loop of `mpi_who_has` enters the identities of the rank. -/
theorem mpi_who_has_loop_cons (pnode : Nat) (rs : RankState) (rest : List RankState)
    (d : Directory) (tr : List Comm) :
    ∃ tr1, mpi_who_has_loop pnode (rs :: rest) (d, tr) =
      mpi_who_has_loop (pnode + 1) rest
        ((local_ids rs.store).foldl (fun d id => d.set id pnode) d, tr1) := by
  simp only [mpi_who_has_loop, mpi_who_has_slave]
  by_cases h : cells_get_n_particles rs.store = 0
  · have hnil : local_ids rs.store = [] := by
      rw [cells_get_n_particles_eq] at h
      exact List.length_eq_zero.mp h
    simp only [h, if_true, gt_iff_lt, lt_self_iff_false, if_false, hnil, List.foldl_nil]
    exact ⟨tr, rfl⟩
  · have hpos : cells_get_n_particles rs.store > 0 := Nat.pos_of_ne_zero h
    simp only [h, if_false, hpos, if_true]
    exact ⟨_, rfl⟩

/-- An id that no visited rank stores keeps its entry. -/
theorem mpi_who_has_loop_other (id : Int) (rest : List RankState) :
    ∀ (pnode : Nat) (d : Directory) (tr : List Comm),
      (∀ rs ∈ rest, id ∉ local_ids rs.store) →
      (mpi_who_has_loop pnode rest (d, tr)).1.find id = d.find id := by
  induction rest with
  | nil => intro pnode d tr _; rfl
  | cons rs rest ih =>
    intro pnode d tr h
    obtain ⟨tr1, hstep⟩ := mpi_who_has_loop_cons pnode rs rest d tr
    rw [hstep, ih _ _ _ (fun r hr => h r (List.mem_cons_of_mem _ hr)),
      Directory.find_foldl_set, if_neg (h rs (List.mem_cons_self _ _))]

/-- The last visited rank that stores an id gives the entry of the id. -/
theorem mpi_who_has_loop_last (id : Int) (rest : List RankState) :
    ∀ (pnode : Nat) (d : Directory) (tr : List Comm) (j : Nat) (rs : RankState),
      rest[j]? = some rs → id ∈ local_ids rs.store →
      (∀ i rs1, j < i → rest[i]? = some rs1 → id ∉ local_ids rs1.store) →
      (mpi_who_has_loop pnode rest (d, tr)).1.find id = some ((pnode + j : Nat) : Int) := by
  induction rest with
  | nil => intro pnode d tr j rs h; simp at h
  | cons a rest ih =>
    intro pnode d tr j rs hj hmem hlater
    obtain ⟨tr1, hstep⟩ := mpi_who_has_loop_cons pnode a rest d tr
    rw [hstep]
    cases j with
    | zero =>
      simp at hj
      subst hj
      rw [mpi_who_has_loop_other id rest _ _ _ (fun r hr => by
        obtain ⟨i, hi⟩ := List.mem_iff_getElem?.mp hr
        exact hlater (i + 1) r (by omega) (by simpa using hi)),
        Directory.find_foldl_set, if_pos hmem]
      rfl
    | succ j =>
      rw [ih (pnode + 1) _ tr1 j rs (by simpa using hj) hmem
        (fun i rs1 hi h => hlater (i + 1) rs1 (by omega) (by simpa using h))]
      congr 2
      omega

/-- An entry after the loop of `mpi_who_has` is an old entry or names a rank that stores
the id. -/
theorem mpi_who_has_loop_sound (id node : Int) (rest : List RankState) :
    ∀ (pnode : Nat) (d : Directory) (tr : List Comm),
      (mpi_who_has_loop pnode rest (d, tr)).1.find id = some node →
      d.find id = some node ∨
        ∃ j rs, rest[j]? = some rs ∧ id ∈ local_ids rs.store ∧ node = ((pnode + j : Nat) : Int) := by
  induction rest with
  | nil => intro pnode d tr h; exact Or.inl h
  | cons a rest ih =>
    intro pnode d tr h
    obtain ⟨tr1, hstep⟩ := mpi_who_has_loop_cons pnode a rest d tr
    rw [hstep] at h
    rcases ih _ _ _ h with h1 | ⟨j, rs, hj, hmem, hnode⟩
    · rw [Directory.find_foldl_set] at h1
      by_cases hm : id ∈ local_ids a.store
      · rw [if_pos hm] at h1
        exact Or.inr ⟨0, a, by simp, hm, by simpa using (Option.some.inj h1).symm⟩
      · rw [if_neg hm] at h1
        exact Or.inl h1
    · exact Or.inr ⟨j + 1, rs, by simpa using hj, hmem, by rw [hnode]; congr 1; omega⟩

theorem build_particle_node_master (sys : System) :
    ∃ tr, (build_particle_node sys).master.particle_node =
        (mpi_who_has_loop 1 sys.slaves
          ((local_ids sys.master.store).foldl (fun d id => d.set id 0) sys.master.particle_node,
            tr)).1 ∧
      (build_particle_node sys).master.store = sys.master.store ∧
      (build_particle_node sys).slaves = sys.slaves := by
  exact ⟨_, rfl, rfl, rfl⟩

/-- Counterexample to C6 as stated, on the two-rank system whose ranks hold disjoint ids.
With an empty table on the head node, `build_particle_node()` leaves the table of rank 1
empty while the head node maps particle 4 to rank 1, so the ranks do not hold the same
map. With a stale entry for id 9 in the table of the head node, the table still maps
id 9, which is stored nowhere, to rank 0 after the call. -/
theorem build_particle_node_not_replicated :
    (DisjointIds emptyDirSystem ∧
      ¬ SameMapOnEveryRank (build_particle_node emptyDirSystem)) ∧
    (DisjointIds staleSystem ∧ ¬ MapIsOwnership (build_particle_node staleSystem)) := by
  refine ⟨⟨twoRanks_DisjointIds _ _, ?_⟩, ⟨twoRanks_DisjointIds _ _, ?_⟩⟩
  · intro h
    have h1 := h 1 (exampleRank exampleStore1 [] []) 4 rfl
    have h2 : (build_particle_node emptyDirSystem).master.particle_node.find 4 = some 1 := by
      decide
    rw [h2] at h1
    exact Option.noConfusion h1
  · intro h
    have h1 : (build_particle_node staleSystem).master.particle_node.find 9
        = some ((0 : Nat) : Int) := by decide
    obtain ⟨rs, hrs, hst⟩ := (h 9 0).mp h1
    have hrs' : rs = (build_particle_node staleSystem).master := (Option.some.inj hrs).symm
    rw [hrs', Stored_iff_check] at hst
    revert hst
    decide

/-- C6, amended: on a system whose ranks hold disjoint sets of particle ids and whose head
node has an empty table (the state in which the code calls it), after
`build_particle_node()` the table of the head node sends an id to rank `r` exactly when
the local cells of rank `r` hold a record with that identity, so no id is missing and no
id that is stored nowhere is present; the storage of the head node and the whole state of
every other rank, its own table included, are unchanged. -/
theorem build_particle_node_head_node_map (sys : System) (hdis : DisjointIds sys)
    (hempty : sys.master.particle_node = []) :
    (∀ (id : Int) (r : Nat),
      (build_particle_node sys).master.particle_node.find id = some (r : Int) ↔
        ∃ rs, sys.rank r = some rs ∧ Stored rs.store id) ∧
    (∀ id node, (build_particle_node sys).master.particle_node.find id = some node →
      ∃ r : Nat, node = (r : Int)) ∧
    (build_particle_node sys).master.store = sys.master.store ∧
    (build_particle_node sys).slaves = sys.slaves := by
  obtain ⟨tr, hmaster, hstore, hslaves⟩ := build_particle_node_master sys
  rw [hmaster, hempty]
  have hd0 : ∀ id, Directory.find ((local_ids sys.master.store).foldl
      (fun (d : Directory) i => Directory.set d i 0) ([] : Directory)) id =
        if id ∈ local_ids sys.master.store then some 0 else none := by
    intro id
    rw [Directory.find_foldl_set]
    rfl
  -- every entry names a rank that stores the id
  have hsound : ∀ id node,
      (mpi_who_has_loop 1 sys.slaves ((local_ids sys.master.store).foldl
        (fun (d : Directory) i => Directory.set d i 0) ([] : Directory), tr)).1.find id
          = some node →
      ∃ (r : Nat) (rs : RankState), node = (r : Int) ∧ sys.rank r = some rs ∧
        Stored rs.store id := by
    intro id node h
    rcases mpi_who_has_loop_sound id node sys.slaves 1 _ tr h with h1 | ⟨j, rs, hj, hmem, hnode⟩
    · rw [hd0] at h1
      by_cases hm : id ∈ local_ids sys.master.store
      · rw [if_pos hm] at h1
        refine ⟨0, sys.master, ?_, rfl, (Stored_iff_mem_local_ids _ id).mpr hm⟩
        exact (Option.some.inj h1).symm
      · rw [if_neg hm] at h1
        exact Option.noConfusion h1
    · refine ⟨j + 1, rs, ?_, hj, (Stored_iff_mem_local_ids _ id).mpr hmem⟩
      rw [hnode]; congr 1; omega
  refine ⟨?_, ?_, hstore, hslaves⟩
  · intro id r
    constructor
    · intro h
      obtain ⟨r1, rs, hnode, hrank, hst⟩ := hsound id r h
      have : r = r1 := by omega
      subst this
      exact ⟨rs, hrank, hst⟩
    · rintro ⟨rs, hrank, hst⟩
      cases r with
      | zero =>
        have hrs : rs = sys.master := (Option.some.inj hrank).symm
        subst hrs
        rw [mpi_who_has_loop_other id sys.slaves 1 _ tr, hd0,
          if_pos ((Stored_iff_mem_local_ids _ id).mp hst)]
        · rfl
        · intro rs1 hrs1 hmem
          obtain ⟨i, hi⟩ := List.mem_iff_getElem?.mp hrs1
          have := hdis (i + 1) 0 rs1 sys.master id hi rfl
            ((Stored_iff_mem_local_ids _ id).mpr hmem) hst
          omega
      | succ j =>
        rw [mpi_who_has_loop_last id sys.slaves 1 _ tr j rs hrank
          ((Stored_iff_mem_local_ids _ id).mp hst)]
        · congr 2; omega
        · intro i rs1 hi hrs1 hmem
          have := hdis (i + 1) (j + 1) rs1 rs id hrs1 hrank
            ((Stored_iff_mem_local_ids _ id).mpr hmem) hst
          omega
  · intro id node h
    obtain ⟨r1, _, hnode, _, _⟩ := hsound id node h
    exact ⟨r1, hnode⟩

/-- Instance of the amended C6 on the two-rank system with an empty table. -/
theorem build_particle_node_head_node_map_witness :
    (DisjointIds emptyDirSystem ∧ emptyDirSystem.master.particle_node = []) ∧
    (∀ (id : Int) (r : Nat),
      (build_particle_node emptyDirSystem).master.particle_node.find id = some (r : Int) ↔
        ∃ rs, emptyDirSystem.rank r = some rs ∧ Stored rs.store id) ∧
    (∀ id node, (build_particle_node emptyDirSystem).master.particle_node.find id = some node →
      ∃ r : Nat, node = (r : Int)) ∧
    (build_particle_node emptyDirSystem).master.store = emptyDirSystem.master.store ∧
    (build_particle_node emptyDirSystem).slaves = emptyDirSystem.slaves :=
  ⟨⟨twoRanks_DisjointIds _ _, rfl⟩,
    build_particle_node_head_node_map emptyDirSystem (twoRanks_DisjointIds _ _) rfl⟩

/-! ## Lemmas on placing a particle -/

theorem local_place_particle_new_none (dec : Decomposition) (re : Bool) (this_node : Int)
    (st : LocalState) (id : Int) (pos : Vector3d)
    (h : dec.particle_to_cell this_node (new_particle dec id pos) = none) :
    local_place_particle dec re this_node st id pos true = some (none, st) := by
  simp [local_place_particle, h]

theorem local_place_particle_new_some (dec : Decomposition) (re : Bool) (this_node : Int)
    (st : LocalState) (id : Int) (pos : Vector3d) (cell : Nat)
    (h : dec.particle_to_cell this_node (new_particle dec id pos) = some cell)
    (hc : cell < st.cells.length) :
    local_place_particle dec re this_node st id pos true =
      some (some ⟨cell, st.n cell⟩, push_index st cell (new_particle dec id pos) re) := by
  simp [local_place_particle, h, append_indexed_eq, hc]

theorem new_particle_identity (dec : Decomposition) (id : Int) (pos : Vector3d) :
    (new_particle dec id pos).p.identity = id := rfl

theorem placing_ranks_none (dec : Decomposition) (re : Bool) (id : Int) (pos : Vector3d) :
    ∀ (l : List RankState) (n : Nat),
      (∀ i : Nat, i < l.length →
        dec.particle_to_cell ((n + i : Nat) : Int) (new_particle dec id pos) = none) →
      placing_ranks dec re id pos n l = [] := by
  intro l
  induction l with
  | nil => intro n _; rfl
  | cons a as ih =>
    intro n h
    have h0 := h 0 (by simp)
    simp only [Nat.add_zero] at h0
    simp only [placing_ranks]
    rw [local_place_particle_new_none dec re _ _ id pos h0]
    exact ih (n + 1) (fun i hi => by
      have := h (i + 1) (by simpa using hi)
      rwa [show n + (i + 1) = n + 1 + i by omega] at this)

theorem placing_ranks_unique (dec : Decomposition) (re : Bool) (id : Int) (pos : Vector3d) :
    ∀ (l : List RankState) (n j : Nat) (rs : RankState) (cell : Nat), l[j]? = some rs →
      dec.particle_to_cell ((n + j : Nat) : Int) (new_particle dec id pos) = some cell →
      cell < rs.store.cells.length →
      (∀ i : Nat, i ≠ j → i < l.length →
        dec.particle_to_cell ((n + i : Nat) : Int) (new_particle dec id pos) = none) →
      placing_ranks dec re id pos n l = [((n + j : Nat) : Int)] := by
  intro l
  induction l with
  | nil => intro n j rs cell h; simp at h
  | cons a as ih =>
    intro n j rs cell hj hcell hlt hothers
    cases j with
    | zero =>
      simp at hj
      subst hj
      simp only [Nat.add_zero] at hcell
      simp only [placing_ranks]
      have hst : (added_particle a id).store = a.store := rfl
      rw [local_place_particle_new_some dec re _ _ id pos cell hcell (by rw [hst]; exact hlt)]
      simp only [Nat.add_zero]
      congr 1
      exact placing_ranks_none dec re id pos as (n + 1) (fun i hi => by
        have := hothers (i + 1) (by omega) (by simpa using hi)
        rwa [show n + (i + 1) = n + 1 + i by omega] at this)
    | succ j =>
      have h0 := hothers 0 (by omega) (by simp)
      simp only [Nat.add_zero] at h0
      simp only [placing_ranks]
      rw [local_place_particle_new_none dec re _ _ id pos h0]
      have := ih (n + 1) j rs cell (by simpa using hj)
        (by rwa [show n + 1 + j = n + (j + 1) by omega]) hlt
        (fun i hi hlen => by
          have := hothers (i + 1) (by omega) (by simpa using hlen)
          rwa [show n + (i + 1) = n + 1 + i by omega] at this)
      rw [this, show n + 1 + j = n + (j + 1) by omega]

/-- What `mpi_place_new_particle_slave` does on a rank, by the decision of the
decomposition. -/
theorem mpi_place_new_particle_slave_spec (dec : Decomposition) (re : Bool) (id : Int)
    (pos : Vector3d) (this_node : Int) (rs : RankState)
    (hvalid : ∀ cell, dec.particle_to_cell this_node (new_particle dec id pos) = some cell →
      cell < rs.store.cells.length) :
    ∃ rs1, mpi_place_new_particle_slave dec re id pos this_node rs = some rs1 ∧
      rs1.particle_node = rs.particle_node ∧
      (dec.particle_to_cell this_node (new_particle dec id pos) = none →
        rs1.store = rs.store) ∧
      ((dec.particle_to_cell this_node (new_particle dec id pos)).isSome →
        Stored rs1.store id) := by
  unfold mpi_place_new_particle_slave
  have hst : (added_particle rs id).store = rs.store := rfl
  dsimp only
  cases hc : dec.particle_to_cell this_node (new_particle dec id pos) with
  | none =>
    rw [local_place_particle_new_none dec re _ _ id pos hc]
    exact ⟨_, rfl, rfl, fun _ => rfl, fun h => by simp at h⟩
  | some cell =>
    have hlt := hvalid cell hc
    rw [local_place_particle_new_some dec re _ _ id pos cell hc (by rw [hst]; exact hlt)]
    refine ⟨_, rfl, rfl, fun h => by simp at h, fun _ => ?_⟩
    show Stored (push_index rs.store cell (new_particle dec id pos) re) id
    rw [Stored_push_index _ _ _ _ _ hlt]
    exact Or.inr rfl

/-- The function `mpi_place_new_particle` succeeds when the decomposition places the particle on
exactly one rank; it returns that rank, creates the record there and leaves the
directory alone. -/
theorem mpi_place_new_particle_spec (dec : Decomposition) (re : Bool) (sys : System)
    (id : Int) (pos : Vector3d) (r : Nat) (hplaced : PlacedOn dec sys id pos r) :
    ∃ s2, mpi_place_new_particle dec re sys id pos = (.ok (r : Int), s2) ∧
      s2.master.particle_node = sys.master.particle_node ∧
      (∃ rs, s2.rank r = some rs ∧ Stored rs.store id) := by
  obtain ⟨⟨rs, cell, hrank, hcell, hlt⟩, hothers⟩ := hplaced
  have hrlt : r < sys.n_nodes := by
    rw [rank_eq_getElem?] at hrank
    have := (List.getElem?_eq_some.mp hrank).1
    simpa [System.n_nodes] using this
  -- the decomposition names cells that exist
  have hvalid : ∀ (r1 : Nat) (rs1 : RankState), sys.rank r1 = some rs1 →
      ∀ c, dec.particle_to_cell (r1 : Int) (new_particle dec id pos) = some c →
        c < rs1.store.cells.length := by
    intro r1 rs1 hr1 c hc
    by_cases he : r1 = r
    · subst he
      rw [hcell] at hc
      rw [hrank] at hr1
      rw [← Option.some.inj hc, ← Option.some.inj hr1]
      exact hlt
    · have hr1lt : r1 < sys.n_nodes := by
        rw [rank_eq_getElem?] at hr1
        have := (List.getElem?_eq_some.mp hr1).1
        simpa [System.n_nodes] using this
      rw [hothers r1 he hr1lt] at hc
      exact Option.noConfusion hc
  have hslaves : ∀ i rs0, sys.slaves[i]? = some rs0 →
      ∃ rs1, mpi_place_new_particle_slave dec re id pos ((1 + i : Nat) : Int) rs0 = some rs1 := by
    intro i rs0 hi
    obtain ⟨rs1, h1, _⟩ := mpi_place_new_particle_slave_spec dec re id pos ((1 + i : Nat) : Int)
      rs0 (hvalid (1 + i) rs0 (by rw [Nat.add_comm, rank_succ]; exact hi))
    exact ⟨rs1, h1⟩
  obtain ⟨slaves', hmap, _, hget⟩ :=
    mapSlaves_spec (mpi_place_new_particle_slave dec re id pos) sys.slaves 1 hslaves
  obtain ⟨master', hm, hmpn, _, hmstored⟩ :=
    mpi_place_new_particle_slave_spec dec re id pos ((0 : Nat) : Int) sys.master
      (hvalid 0 sys.master rfl)
  have hranks : placing_ranks dec re id pos 0 (sys.master :: sys.slaves) = [((0 + r : Nat) : Int)] := by
    apply placing_ranks_unique dec re id pos (sys.master :: sys.slaves) 0 r rs cell
    · rw [← rank_eq_getElem?]; exact hrank
    · rw [Nat.zero_add]; exact hcell
    · exact hlt
    · intro i hi hlen
      rw [Nat.zero_add]
      exact hothers i hi (by simpa [System.n_nodes] using hlen)
  rw [Nat.zero_add] at hranks
  unfold mpi_place_new_particle
  have hs1 : (sys.log (.call .mpi_place_new_particle_slave)).slaves = sys.slaves := rfl
  have hs2 : (sys.log (.call .mpi_place_new_particle_slave)).master = sys.master := rfl
  simp only [hs1, hs2, hmap]
  have hm' : mpi_place_new_particle_slave dec re id pos 0 sys.master = some master' := by
    simpa using hm
  simp only [hm', hranks]
  refine ⟨_, rfl, hmpn, ?_⟩
  cases r with
  | zero =>
    exact ⟨master', rfl, hmstored (by rw [hcell]; rfl)⟩
  | succ j =>
    have hj : sys.slaves[j]? = some rs := hrank
    obtain ⟨rs1, h1, h2⟩ := hget j rs hj
    refine ⟨rs1, h1, ?_⟩
    obtain ⟨rs2, h3, _, _, h4⟩ := mpi_place_new_particle_slave_spec dec re id pos
      ((1 + j : Nat) : Int) rs (hvalid (1 + j) rs (by rw [Nat.add_comm, rank_succ]; exact hj))
    rw [h2] at h3
    rw [Option.some.inj h3]
    apply h4
    rw [show ((1 + j : Nat) : Int) = ((j + 1 : Nat) : Int) by omega, hcell]
    rfl

/-- The function `mpi_place_particle_slave` succeeds on a rank that is not the owner, and on the owner
when its index knows the particle; the table of the rank is not written. -/
theorem mpi_place_particle_slave_spec (dec : Decomposition) (re : Bool) (pnode id : Int)
    (pos : Vector3d) (this_node : Int) (rs : RankState)
    (howner : pnode = this_node → ∃ c k p, rs.store.part c k = some p ∧
      get_local_particle_data rs.store id = some ⟨c, k⟩) :
    ∃ rs1, mpi_place_particle_slave dec re pnode id pos this_node rs = some rs1 ∧
      rs1.particle_node = rs.particle_node := by
  unfold mpi_place_particle_slave
  by_cases h : pnode = this_node
  · obtain ⟨c, k, p, hp, hidx⟩ := howner h
    rw [if_pos h]
    simp only [local_place_particle, Bool.false_eq_true, if_false, hidx, LocalState.deref, hp]
    exact ⟨_, rfl, rfl⟩
  · rw [if_neg h]
    exact ⟨_, rfl, rfl⟩

/-- The function `mpi_place_particle` on an id of the directory of a well-formed system succeeds and
leaves the directory alone. -/
theorem mpi_place_particle_spec (dec : Decomposition) (re : Bool) (sys : System)
    (id node : Int) (pos : Vector3d) (hwf : SystemWF sys)
    (hdir : sys.master.particle_node.find id = some node) :
    ∃ s3, mpi_place_particle dec re sys node id pos = (.ok (), s3) ∧
      s3.master.particle_node = sys.master.particle_node := by
  obtain ⟨_, r, rs, c, k, p, hnode, hrank, hrwf, hp, hpid⟩ :=
    SystemWF.owner sys hwf id node hdir
  have howner : ∀ (r1 : Nat) (rs1 : RankState), sys.rank r1 = some rs1 → node = (r1 : Int) →
      ∃ c k p, rs1.store.part c k = some p ∧
        get_local_particle_data rs1.store id = some ⟨c, k⟩ := by
    intro r1 rs1 hr1 he
    have : r1 = r := by omega
    subst this
    rw [hrank] at hr1
    rw [← Option.some.inj hr1]
    exact ⟨c, k, p, hp, hpid ▸ hrwf.1 c k p hp⟩
  have hslaves : ∀ i rs0, sys.slaves[i]? = some rs0 →
      ∃ rs1, mpi_place_particle_slave dec re node id pos ((1 + i : Nat) : Int) rs0 = some rs1 := by
    intro i rs0 hi
    obtain ⟨rs1, h1, _⟩ := mpi_place_particle_slave_spec dec re node id pos
      ((1 + i : Nat) : Int) rs0
      (howner (1 + i) rs0 (by rw [Nat.add_comm, rank_succ]; exact hi))
    exact ⟨rs1, h1⟩
  obtain ⟨slaves', hmap, _, _⟩ :=
    mapSlaves_spec (mpi_place_particle_slave dec re node id pos) sys.slaves 1 hslaves
  obtain ⟨master', hm, hmpn⟩ := mpi_place_particle_slave_spec dec re node id pos
    ((0 : Nat) : Int) sys.master (howner 0 sys.master rfl)
  have hm' : mpi_place_particle_slave dec re node id pos 0 sys.master = some master' := by
    simpa using hm
  unfold mpi_place_particle
  have hs1 : (sys.log (.call .mpi_place_particle_slave)).slaves = sys.slaves := rfl
  have hs2 : (sys.log (.call .mpi_place_particle_slave)).master = sys.master := rfl
  simp only [hs1, hs2, hmap, hm']
  exact ⟨_, rfl, hmpn⟩

theorem build_if_empty_frame (sys : System) :
    (build_if_empty sys).master.store = sys.master.store ∧
      (build_if_empty sys).slaves = sys.slaves := by
  unfold build_if_empty
  split
  · exact ⟨rfl, rfl⟩
  · exact ⟨rfl, rfl⟩

theorem PlacedOn_build_if_empty (dec : Decomposition) (sys : System) (id : Int)
    (pos : Vector3d) (r : Nat) (h : PlacedOn dec sys id pos r) :
    PlacedOn dec (build_if_empty sys) id pos r := by
  obtain ⟨hstore, hslaves⟩ := build_if_empty_frame sys
  obtain ⟨⟨rs, cell, hrank, hcell, hlt⟩, hothers⟩ := h
  refine ⟨?_, ?_⟩
  · cases r with
    | zero =>
      refine ⟨(build_if_empty sys).master, cell, rfl, hcell, ?_⟩
      rw [hstore]
      rw [← Option.some.inj hrank] at hlt
      exact hlt
    | succ j =>
      refine ⟨rs, cell, ?_, hcell, hlt⟩
      rw [rank_succ, hslaves]
      exact hrank
  · intro r1 hne hlt1
    apply hothers r1 hne
    unfold System.n_nodes at hlt1 ⊢
    rw [hslaves] at hlt1
    exact hlt1

/-! ## The placement of a new particle in the example system -/

theorem examplePlaced : PlacedOn exampleDec exampleSystem 7 (1, 0, 0) 1 := by
  refine ⟨⟨exampleRank exampleStore1 [] [], 0, rfl, by decide, by decide⟩, ?_⟩
  intro r1 hne hlt
  have h0 : r1 = 0 := by
    have : exampleSystem.n_nodes = 2 := rfl
    omega
  subst h0
  decide

/-! ## Lemmas on removing a particle -/

theorem list_mapRecords (f : Particle → Particle) (st : LocalState) (c : Nat) :
    (mapRecords f st).list c = (st.list c).map f := by
  unfold mapRecords LocalState.list
  simp only [List.getD_eq_getElem?_getD, List.getElem?_map]
  cases st.cells[c]? <;> rfl

theorem part_mapRecords (f : Particle → Particle) (st : LocalState) (c k : Nat) :
    (mapRecords f st).part c k = (st.part c k).map f := by
  unfold LocalState.part
  rw [list_mapRecords, List.getElem?_map]

theorem Stored_mapRecords (f : Particle → Particle) (st : LocalState)
    (hf : ∀ p, (f p).p.identity = p.p.identity) (id : Int) :
    Stored (mapRecords f st) id ↔ Stored st id := by
  constructor
  · rintro ⟨c, k, q, hq, hid⟩
    rw [part_mapRecords] at hq
    cases h : st.part c k with
    | none => rw [h] at hq; exact Option.noConfusion hq
    | some q0 =>
      rw [h] at hq
      have : f q0 = q := Option.some.inj hq
      exact ⟨c, k, q0, h, by rw [← hf q0, this, hid]⟩
  · rintro ⟨c, k, q, hq, hid⟩
    exact ⟨c, k, f q, by rw [part_mapRecords, hq]; rfl, by rw [hf q, hid]⟩

theorem Consistent_mapRecords (f : Particle → Particle) (st : LocalState)
    (hf : ∀ p, (f p).p.identity = p.p.identity) (h : Consistent st) :
    Consistent (mapRecords f st) := by
  intro c k q hq
  rw [part_mapRecords] at hq
  cases h0 : st.part c k with
  | none => rw [h0] at hq; exact Option.noConfusion hq
  | some q0 =>
    rw [h0] at hq
    have : f q0 = q := Option.some.inj hq
    rw [← this, hf q0]
    exact h c k q0 h0

theorem Clean_mapRecords (f : Particle → Particle) (st : LocalState)
    (hf : ∀ p, (f p).p.identity = p.p.identity) (id : Int) (h : Clean st id) :
    Clean (mapRecords f st) id := by
  intro hns
  exact h (fun hs => hns ((Stored_mapRecords f st hf id).mpr hs))

theorem remove_all_bonds_to_p (num : Int → Nat) (p : Particle) (id : Int) :
    (remove_all_bonds_to num p id).p = p.p ∧ (remove_all_bonds_to num p id).l = p.l :=
  ⟨rfl, rfl⟩

/-- Records that do not have the identity are skipped by the search of
`local_remove_particle`. -/
theorem find_in_other (part : Int) (c : Nat) (l : List Particle) :
    ∀ (i : Nat) (pos : Option Ptr), (∀ q ∈ l, q.p.identity ≠ part) →
      local_remove_particle_find_in part c l i pos = pos := by
  induction l with
  | nil => intro i pos _; rfl
  | cons a as ih =>
    intro i pos h
    have ha : ¬ a.identity = part := h a (List.mem_cons_self _ _)
    simp only [local_remove_particle_find_in, ha, if_false]
    exact ih _ _ (fun q hq => h q (List.mem_cons_of_mem _ hq))

/-- The search of `local_remove_particle` in a cell ends with the last slot that holds the
identity. -/
theorem find_in_last (part : Int) (c : Nat) (l : List Particle) :
    ∀ (i : Nat) (pos : Option Ptr) (k : Nat) (q : Particle), l[k]? = some q →
      q.p.identity = part →
      (∀ j r, k < j → l[j]? = some r → r.p.identity ≠ part) →
      local_remove_particle_find_in part c l i pos = some ⟨c, i + k⟩ := by
  induction l with
  | nil => intro i pos k q h; simp at h
  | cons a as ih =>
    intro i pos k q hk hid hlater
    cases k with
    | zero =>
      simp at hk
      subst hk
      have ha : a.identity = part := hid
      simp only [local_remove_particle_find_in, ha, if_true]
      rw [find_in_other part c as _ _ (fun r hr => by
        obtain ⟨j, hj⟩ := List.mem_iff_getElem?.mp hr
        exact hlater (j + 1) r (by omega) (by simpa using hj))]
      rfl
    | succ k =>
      have hrec := ih (i + 1) (if a.identity = part then some ⟨c, i⟩ else pos) k q
        (by simpa using hk) hid
        (fun j r hj hr => hlater (j + 1) r (by omega) (by simpa using hr))
      have hgoal : local_remove_particle_find_in part c (a :: as) i pos =
          local_remove_particle_find_in part c as (i + 1)
            (if a.identity = part then some ⟨c, i⟩ else pos) := by
        simp only [local_remove_particle_find_in]
        split <;> rfl
      rw [hgoal, hrec]
      congr 2
      omega

theorem find_other (part : Int) (ls : List ParticleList) :
    ∀ (c : Nat) (pos : Option Ptr), (∀ l ∈ ls, ∀ q ∈ l, q.p.identity ≠ part) →
      local_remove_particle_find part ls c pos = pos := by
  induction ls with
  | nil => intro c pos _; rfl
  | cons a as ih =>
    intro c pos h
    simp only [local_remove_particle_find]
    rw [find_in_other part c a 0 pos (h a (List.mem_cons_self _ _))]
    exact ih _ _ (fun l hl => h l (List.mem_cons_of_mem _ hl))

theorem find_last (part : Int) (ls : List ParticleList) :
    ∀ (c0 : Nat) (pos : Option Ptr) (c k : Nat) (l : List Particle) (q : Particle),
      ls[c]? = some l → l[k]? = some q → q.p.identity = part →
      (∀ j r, k < j → l[j]? = some r → r.p.identity ≠ part) →
      (∀ c1 l1, c < c1 → ls[c1]? = some l1 → ∀ r ∈ l1, r.p.identity ≠ part) →
      local_remove_particle_find part ls c0 pos = some ⟨c0 + c, k⟩ := by
  induction ls with
  | nil => intro c0 pos c k l q h; simp at h
  | cons a as ih =>
    intro c0 pos c k l q hc hk hid hlater hlists
    simp only [local_remove_particle_find]
    cases c with
    | zero =>
      simp at hc
      subst hc
      rw [find_in_last part c0 a 0 pos k q hk hid hlater, find_other part as _ _
        (fun l1 hl1 => by
          obtain ⟨j, hj⟩ := List.mem_iff_getElem?.mp hl1
          exact hlists (j + 1) l1 (by omega) (by simpa using hj))]
      simp
    | succ c =>
      have := ih (c0 + 1) (local_remove_particle_find_in part c0 a 0 pos) c k l q
        (by simpa using hc) hk hid hlater
        (fun c1 l1 h1 h2 => hlists (c1 + 1) l1 (by omega) (by simpa using h2))
      rw [this]
      congr 2
      omega

/-- With unique ids the search of `local_remove_particle` finds the slot of the record. -/
theorem local_remove_particle_find_unique (st : LocalState) (part : Int) (c k : Nat)
    (p : Particle) (huniq : UniqueIds st) (hp : st.part c k = some p)
    (hpid : p.p.identity = part) :
    local_remove_particle_find part st.cells 0 none = some ⟨c, k⟩ := by
  have hc := part_lt_cells st c k p hp
  have hl : st.cells[c]? = some (st.list c) := by
    unfold LocalState.list
    rw [List.getD_eq_getElem?_getD, List.getElem?_eq_getElem hc]
    rfl
  have := find_last part st.cells 0 none c k (st.list c) p hl hp hpid
    (fun j r hj hr hid => by
      have := huniq c j r c k p hr hp (hid.trans hpid.symm)
      omega)
    (fun c1 l1 hc1 hl1 r hr hid => by
      obtain ⟨j, hj⟩ := List.mem_iff_getElem?.mp hr
      have hr' : st.part c1 j = some r := by
        unfold LocalState.part LocalState.list
        rw [List.getD_eq_getElem?_getD, hl1]
        exact hj
      have := huniq c1 j r c k p hr' hp (hid.trans hpid.symm)
      omega)
  rw [this, Nat.zero_add]

theorem remove_bonds_unless_p (num : Int → Nat) (part : Int) (p : Particle) :
    (if p.identity = part then p else remove_all_bonds_to num p part).p = p.p ∧
      (if p.identity = part then p else remove_all_bonds_to num p part).l = p.l := by
  split
  · exact ⟨rfl, rfl⟩
  · exact remove_all_bonds_to_p num p part

/-- The function `local_remove_particle` on a consistently indexed storage that holds the particle:
the record is removed and unmapped, every other record stays (up to its bond list), and
the index stays consistent. -/
theorem local_remove_particle_spec (num : Int → Nat) (st : LocalState) (part : Int)
    (re : Bool) (c k : Nat) (p : Particle) (hcons : Consistent st)
    (hp : st.part c k = some p) (hpid : p.p.identity = part) :
    ∃ st', local_remove_particle num st part re = some st' ∧ Consistent st' ∧
      (∀ id, Stored st' id ↔ Stored st id ∧ id ≠ part) ∧
      get_local_particle_data st' part = none ∧
      (∀ id, Clean st id → Clean st' id) ∧
      (∀ c1 k1 q, st'.part c1 k1 = some q →
        ∃ c0 k0 q0, st.part c0 k0 = some q0 ∧ q.p = q0.p ∧ q.l = q0.l) := by
  have hfind := local_remove_particle_find_unique st part c k p (Consistent.unique st hcons) hp hpid
  let g : Particle → Particle :=
    fun q => if q.identity = part then q else remove_all_bonds_to num q part
  have hg : ∀ q, (g q).p.identity = q.p.identity := fun q => by
    have := (remove_bonds_unless_p num part q).1
    show (if q.identity = part then q else remove_all_bonds_to num q part).p.identity = _
    rw [this]
  have hcons1 : Consistent (mapRecords g st) := Consistent_mapRecords g st hg hcons
  have hgp : g p = p := by
    show (if p.identity = part then p else remove_all_bonds_to num p part) = p
    have hpid' : p.identity = part := hpid
    rw [if_pos hpid']
  have hp1 : (mapRecords g st).part c k = some p := by
    rw [part_mapRecords, hp]
    show some (g p) = some p
    rw [hgp]
  obtain ⟨st', hex, hcons', hlists, hstored, hnull, hframe⟩ :=
    extract_indexed_Consistent (mapRecords g st) c k p re hcons1 hp1
  have hstored' : ∀ id, Stored st' id ↔ Stored st id ∧ id ≠ part := by
    intro id
    rw [hstored id, Stored_mapRecords g st hg id, hpid]
  refine ⟨st', ?_, hcons', hstored', hpid ▸ hnull, ?_, ?_⟩
  · unfold local_remove_particle
    rw [hfind]
    show (extract_indexed_particle (mapRecords g st) c k re).map Prod.snd = some st'
    rw [hex]
    rfl
  · intro id hclean hns
    by_cases hid : id = part
    · rw [hid, ← hpid]; exact hnull
    · have hns0 : ¬ Stored st id := fun h => hns ((hstored' id).mpr ⟨h, hid⟩)
      unfold get_local_particle_data
      rw [hframe id hns (by rw [hpid]; exact hid)]
      exact hclean hns0
  · intro c1 k1 q hq
    have hi : k < ((mapRecords g st).list c).length := (List.getElem?_eq_some.mp hp1).1
    have hsrc : ∃ k0, (mapRecords g st).part c1 k0 = some q := by
      unfold LocalState.part at hq
      rw [hlists c1] at hq
      by_cases hc : c1 = c
      · subst hc
        simp only [if_true] at hq
        obtain ⟨k0, h1, _⟩ := swap_remove_source _ k k1 q hi hq
        exact ⟨k0, h1⟩
      · simp only [hc, if_false] at hq
        exact ⟨k1, hq⟩
    obtain ⟨k0, hk0⟩ := hsrc
    rw [part_mapRecords] at hk0
    cases h0 : st.part c1 k0 with
    | none => rw [h0] at hk0; exact Option.noConfusion hk0
    | some q0 =>
      rw [h0] at hk0
      have hq0 : g q0 = q := Option.some.inj hk0
      refine ⟨c1, k0, q0, h0, ?_, ?_⟩
      · rw [← hq0]; exact (remove_bonds_unless_p num part q0).1
      · rw [← hq0]; exact (remove_bonds_unless_p num part q0).2

/-- The function `mpi_remove_particle_slave` on a well-formed rank: on the owner the record is removed
and unmapped, on every rank the other records stay and the storage stays well formed; the
table of the rank is not written. -/
theorem mpi_remove_particle_slave_spec (num : Int → Nat) (re : Bool) (pnode part : Int)
    (this_node : Int) (rs : RankState) (hpart : 0 ≤ part) (hwf : RankWF rs)
    (howner : pnode = this_node → Stored rs.store part)
    (hother : pnode ≠ this_node → ¬ Stored rs.store part) :
    ∃ rs1, mpi_remove_particle_slave num re pnode part this_node rs = some rs1 ∧
      RankWF rs1 ∧ (∀ id, Stored rs1.store id ↔ Stored rs.store id ∧ id ≠ part) ∧
      get_local_particle_data rs1.store part = none ∧
      rs1.particle_node = rs.particle_node := by
  have hne : part ≠ -1 := by omega
  unfold mpi_remove_particle_slave
  rw [if_pos hne]
  by_cases h : pnode = this_node
  · obtain ⟨c, k, p, hp, hpid⟩ := howner h
    obtain ⟨st', hrem, hcons', hstored, hnull, hclean, hfrom⟩ :=
      local_remove_particle_spec num rs.store part re c k p hwf.1 hp hpid
    simp only [h, if_true, hrem]
    refine ⟨_, rfl, ⟨hcons', fun id => hclean id (hwf.2.1 id), ?_⟩, hstored, hnull, rfl⟩
    intro c1 k1 q hq
    obtain ⟨c0, k0, q0, hq0, hqp, hql⟩ := hfrom c1 k1 q hq
    rw [hqp, hql]
    exact hwf.2.2 c0 k0 q0 hq0
  · have hns := hother h
    simp only [h, if_false]
    have hf : ∀ q, (remove_all_bonds_to num q part).p.identity = q.p.identity := fun _ => rfl
    have heq : remove_all_bonds_to_all num rs.store part =
        mapRecords (fun q => remove_all_bonds_to num q part) rs.store := rfl
    have hst : ∀ id, Stored (remove_all_bonds_to_all num rs.store part) id ↔
        Stored rs.store id := by
      intro id
      rw [heq]
      exact Stored_mapRecords _ rs.store hf id
    refine ⟨_, rfl, ⟨?_, ?_, ?_⟩, ?_, ?_, rfl⟩
    · show Consistent (remove_all_bonds_to_all num rs.store part)
      rw [heq]
      exact Consistent_mapRecords _ rs.store hf hwf.1
    · intro id
      show Clean (remove_all_bonds_to_all num rs.store part) id
      rw [heq]
      exact Clean_mapRecords _ rs.store hf id (hwf.2.1 id)
    · intro c1 k1 q hq
      have hq' : (mapRecords (fun q => remove_all_bonds_to num q part) rs.store).part c1 k1
          = some q := hq
      rw [part_mapRecords] at hq'
      cases h0 : rs.store.part c1 k1 with
      | none => rw [h0] at hq'; exact Option.noConfusion hq'
      | some q0 =>
        rw [h0] at hq'
        rw [← Option.some.inj hq']
        exact hwf.2.2 c1 k1 q0 h0
    · intro id
      show Stored (remove_all_bonds_to_all num rs.store part) id ↔ _
      rw [hst id]
      constructor
      · intro hs
        exact ⟨hs, fun he => hns (he ▸ hs)⟩
      · exact fun hs => hs.1
    · show get_local_particle_data (remove_all_bonds_to_all num rs.store part) part = none
      have hcl : Clean (remove_all_bonds_to_all num rs.store part) part := by
        rw [heq]
        exact Clean_mapRecords _ rs.store hf part (hwf.2.1 part)
      exact hcl (fun hs => hns ((hst part).mp hs))

/-- The function `mpi_remove_particle` on a system with well-formed ranks and disjoint ids, for the
particle `id` stored on rank `r`: it succeeds, removes and unmaps the record, keeps every
other record and every rank well formed, and does not write the directory. -/
theorem mpi_remove_particle_spec (num : Int → Nat) (re : Bool) (sys : System) (id : Int)
    (r : Nat) (rs : RankState) (hid : 0 ≤ id)
    (hranks : ∀ r1 rs1, sys.rank r1 = some rs1 → RankWF rs1) (hdis : DisjointIds sys)
    (hrank : sys.rank r = some rs) (hstored : Stored rs.store id) :
    ∃ s5, mpi_remove_particle num re sys (r : Int) id = (.ok (), s5) ∧
      s5.master.particle_node = sys.master.particle_node ∧
      s5.slaves.length = sys.slaves.length ∧
      ∀ r1 rs0, sys.rank r1 = some rs0 → ∃ rs1, s5.rank r1 = some rs1 ∧ RankWF rs1 ∧
        (∀ id1, Stored rs1.store id1 ↔ Stored rs0.store id1 ∧ id1 ≠ id) ∧
        get_local_particle_data rs1.store id = none := by
  have hslave : ∀ (r1 : Nat) (rs0 : RankState), sys.rank r1 = some rs0 →
      ∃ rs1, mpi_remove_particle_slave num re (r : Int) id (r1 : Int) rs0 = some rs1 ∧
        RankWF rs1 ∧ (∀ id1, Stored rs1.store id1 ↔ Stored rs0.store id1 ∧ id1 ≠ id) ∧
        get_local_particle_data rs1.store id = none ∧
        rs1.particle_node = rs0.particle_node := by
    intro r1 rs0 hr1
    apply mpi_remove_particle_slave_spec num re (r : Int) id (r1 : Int) rs0 hid (hranks r1 rs0 hr1)
    · intro he
      have : r1 = r := by omega
      subst this
      rw [hrank] at hr1
      rw [← Option.some.inj hr1]
      exact hstored
    · intro hne hs
      apply hne
      have := hdis r r1 rs rs0 id hrank hr1 hstored hs
      rw [this]
  have hslaves : ∀ i rs0, sys.slaves[i]? = some rs0 →
      ∃ rs1, mpi_remove_particle_slave num re (r : Int) id ((1 + i : Nat) : Int) rs0 = some rs1 := by
    intro i rs0 hi
    obtain ⟨rs1, h1, _⟩ := hslave (1 + i) rs0 (by rw [Nat.add_comm, rank_succ]; exact hi)
    exact ⟨rs1, h1⟩
  obtain ⟨slaves', hmap, hlen, hget⟩ :=
    mapSlaves_spec (mpi_remove_particle_slave num re (r : Int) id) sys.slaves 1 hslaves
  obtain ⟨master', hm, hmwf, hmst, hmnull, hmpn⟩ := hslave 0 sys.master rfl
  have hm' : mpi_remove_particle_slave num re (r : Int) id 0 sys.master = some master' := by
    simpa using hm
  unfold mpi_remove_particle
  have hs1 : (sys.log (.call .mpi_remove_particle_slave)).slaves = sys.slaves := rfl
  have hs2 : (sys.log (.call .mpi_remove_particle_slave)).master = sys.master := rfl
  simp only [hs1, hs2, hmap, hm']
  refine ⟨_, rfl, hmpn, hlen, ?_⟩
  intro r1 rs0 hr1
  cases r1 with
  | zero =>
    rw [← Option.some.inj hr1]
    exact ⟨master', rfl, hmwf, hmst, hmnull⟩
  | succ j =>
    have hj : sys.slaves[j]? = some rs0 := hr1
    obtain ⟨rs1, h1, h2⟩ := hget j rs0 hj
    obtain ⟨rs2, h3, hwf2, hst2, hnull2, _⟩ := hslave (j + 1) rs0 hr1
    rw [show ((1 + j : Nat) : Int) = ((j + 1 : Nat) : Int) by omega, h3] at h2
    rw [← Option.some.inj h2] at h1
    exact ⟨rs2, h1, hwf2, hst2, hnull2⟩

theorem StoreEquiv.refl (s : System) : StoreEquiv s s := fun _ => rfl

theorem StoreEquiv.trans (s s1 s2 : System) (h1 : StoreEquiv s s1) (h2 : StoreEquiv s1 s2) :
    StoreEquiv s s2 := fun r => (h2 r).trans (h1 r)

theorem StoreEquiv.symm (s s1 : System) (h : StoreEquiv s s1) : StoreEquiv s1 s :=
  fun r => (h r).symm

theorem StoreEquiv.of_eq (s s1 : System) (hm : s1.master.store = s.master.store)
    (hs : s1.slaves = s.slaves) : StoreEquiv s s1 := by
  intro r
  cases r with
  | zero => simp [System.rank, hm]
  | succ j => simp [System.rank, hs]

theorem StoreEquiv.rank (s s1 : System) (h : StoreEquiv s s1) (r : Nat) (rs : RankState)
    (hr : s.rank r = some rs) : ∃ rs1, s1.rank r = some rs1 ∧ rs1.store = rs.store := by
  have := h r
  rw [hr] at this
  cases h1 : s1.rank r with
  | none => rw [h1] at this; exact Option.noConfusion this
  | some rs1 =>
    rw [h1] at this
    exact ⟨rs1, rfl, Option.some.inj this⟩

theorem StoreEquiv.build_if_empty (s : System) : StoreEquiv s (build_if_empty s) :=
  StoreEquiv.of_eq s _ (build_if_empty_frame s).1 (build_if_empty_frame s).2

theorem StoreEquiv.bcast (s : System) : StoreEquiv s (mpi_bcast_parameter_maxpart s) := by
  intro r
  cases r with
  | zero => rfl
  | succ j =>
    simp only [System.rank, mpi_bcast_parameter_maxpart, System.log, List.getElem?_map,
      Option.map_map]
    cases s.slaves[j]? <;> rfl

theorem RankWF_of_store_eq (rs rs1 : RankState) (h : rs1.store = rs.store) (hwf : RankWF rs) :
    RankWF rs1 := by
  unfold RankWF at hwf ⊢
  rw [h]
  exact hwf

theorem StoreEquiv.ranksWF (s s1 : System) (h : StoreEquiv s s1)
    (hwf : ∀ r rs, s.rank r = some rs → RankWF rs) :
    ∀ r rs, s1.rank r = some rs → RankWF rs := by
  intro r rs hr
  obtain ⟨rs0, h0, h1⟩ := StoreEquiv.rank s1 s (StoreEquiv.symm s s1 h) r rs hr
  exact RankWF_of_store_eq rs0 rs h1.symm (hwf r rs0 h0)

theorem StoreEquiv.disjoint (s s1 : System) (h : StoreEquiv s s1) (hd : DisjointIds s) :
    DisjointIds s1 := by
  intro r1 r2 rs1 rs2 id h1 h2 hs1 hs2
  obtain ⟨a, ha, ha'⟩ := StoreEquiv.rank s1 s (StoreEquiv.symm s s1 h) r1 rs1 h1
  obtain ⟨b, hb, hb'⟩ := StoreEquiv.rank s1 s (StoreEquiv.symm s s1 h) r2 rs2 h2
  exact hd r1 r2 a b id ha hb (ha' ▸ hs1) (hb' ▸ hs2)

/-- The function `get_particle_data` on an id of the directory of a well-formed system succeeds; it
changes neither a storage nor the directory. -/
theorem get_particle_data_ok (sys : System) (id node : Int) (hwf : SystemWF sys)
    (hdir : sys.master.particle_node.find id = some node) :
    ∃ q s1, get_particle_data sys id = (.ok q, s1) ∧ StoreEquiv sys s1 ∧
      s1.master.particle_node = sys.master.particle_node ∧
      s1.master.type_list_enable = sys.master.type_list_enable := by
  obtain ⟨hid, r, rs, c, k, p, hnode, hrank, hrwf, hp, hpid⟩ :=
    SystemWF.owner sys hwf id node hdir
  rw [hnode] at hdir
  have hidx : get_local_particle_data rs.store id = some ⟨c, k⟩ := hpid ▸ hrwf.1 c k p hp
  unfold get_particle_data
  rw [get_particle_node_of_find sys id r hid hdir]
  cases r with
  | zero =>
    have hm : rs = sys.master := (Option.some.inj hrank).symm
    subst hm
    simp only [Nat.cast_zero, if_true, hidx, LocalState.deref, hp]
    exact ⟨_, _, rfl, StoreEquiv.refl _, rfl, rfl⟩
  | succ j =>
    have hne : ¬ ((j + 1 : Nat) : Int) = 0 := by omega
    simp only [hne, if_false]
    cases hget : sys.master.particle_fetch_cache.get id with
    | mk o c1 =>
      cases o with
      | some q =>
        exact ⟨_, _, rfl, StoreEquiv.of_eq _ _ rfl rfl, rfl, rfl⟩
      | none =>
        have hone : call_one_rank (fun rs => get_particle_data_local rs id)
            (sys.log (.call .get_particle_data_local)) = some p := by
          unfold call_one_rank
          have hl : (sys.log (.call .get_particle_data_local)).master ::
              (sys.log (.call .get_particle_data_local)).slaves = sys.master :: sys.slaves := rfl
          rw [hl, filterMap_unique _ p _ (j + 1) rs]
          · rw [← rank_eq_getElem?]
            exact hrank
          · exact get_particle_data_local_some rs id c k p hidx hp (hrwf.2.2 c k p hp).1
          · intro i rs1 hi hrs1
            rw [← rank_eq_getElem?] at hrs1
            apply get_particle_data_local_none rs1 id ((hwf.1 i rs1 hrs1).2.1 id)
            intro hs
            exact hi (hwf.2.1 i (j + 1) rs1 rs id hrs1 hrank hs ⟨c, k, p, hp, hpid⟩)
        simp only [hone]
        exact ⟨_, _, rfl, StoreEquiv.of_eq _ _ rfl rfl, rfl, rfl⟩

/-- An entry of the directory after `build_particle_node` is an old entry or names a rank
that stores the id. -/
theorem build_particle_node_sound (sys : System) (id node : Int)
    (h : (build_particle_node sys).master.particle_node.find id = some node) :
    sys.master.particle_node.find id = some node ∨
      ∃ (r : Nat) (rs : RankState), node = (r : Int) ∧ sys.rank r = some rs ∧
        Stored rs.store id := by
  obtain ⟨tr, hmaster, _, _⟩ := build_particle_node_master sys
  rw [hmaster] at h
  rcases mpi_who_has_loop_sound id node sys.slaves 1 _ tr h with h1 | ⟨j, rs, hj, hmem, hn⟩
  · rw [Directory.find_foldl_set] at h1
    by_cases hm : id ∈ local_ids sys.master.store
    · rw [if_pos hm] at h1
      exact Or.inr ⟨0, sys.master, (Option.some.inj h1).symm, rfl,
        (Stored_iff_mem_local_ids _ id).mpr hm⟩
    · rw [if_neg hm] at h1
      exact Or.inl h1
  · exact Or.inr ⟨j + 1, rs, by rw [hn]; congr 1; omega, hj,
      (Stored_iff_mem_local_ids _ id).mpr hmem⟩

theorem build_if_empty_sound (sys : System) (id node : Int)
    (h : (build_if_empty sys).master.particle_node.find id = some node) :
    sys.master.particle_node.find id = some node ∨
      ∃ (r : Nat) (rs : RankState), node = (r : Int) ∧ sys.rank r = some rs ∧
        Stored rs.store id := by
  unfold build_if_empty at h
  split at h
  · exact build_particle_node_sound sys id node h
  · exact Or.inl h

theorem Directory.isEmpty_find (d : Directory) (h : d.isEmpty = true) (id : Int) :
    d.find id = none := by
  cases d with
  | nil => rfl
  | cons a as => simp at h

/-- The effect of `remove_particle` on an id of the directory of a well-formed system. -/
theorem remove_particle_spec (num : Int → Nat) (re : Bool) (sys : System) (id node : Int)
    (hwf : SystemWF sys) (hdir : sys.master.particle_node.find id = some node) :
    ∃ sys', remove_particle num re sys id = (.ok ES_OK, sys') ∧
      (∀ r1 rs0, sys.rank r1 = some rs0 → ∃ rs1, sys'.rank r1 = some rs1 ∧ RankWF rs1 ∧
        (∀ id1, Stored rs1.store id1 ↔ Stored rs0.store id1 ∧ id1 ≠ id) ∧
        get_local_particle_data rs1.store id = none) ∧
      sys'.slaves.length = sys.slaves.length ∧
      sys'.master.particle_node.find id = none ∧
      (∀ id1 n, id1 ≠ id → sys.master.particle_node.find id1 = some n →
        sys'.master.particle_node.find id1 = some n) ∧
      (∀ id1 n, sys'.master.particle_node.find id1 = some n →
        sys.master.particle_node.find id1 = some n ∨
          ∃ (r : Nat) (rs : RankState), n = (r : Int) ∧ sys'.rank r = some rs ∧
            Stored rs.store id1) := by
  obtain ⟨hid, r, rs, c, k, p, hnode, hrank, hrwf, hp, hpid⟩ :=
    SystemWF.owner sys hwf id node hdir
  -- get_particle_data
  obtain ⟨q, s1, hgpd, heq1, hpn1, _⟩ := get_particle_data_ok sys id node hwf hdir
  -- the type map
  obtain ⟨s2, hs2def, heq2, hpn2⟩ : ∃ s2 : System,
      s2 = (if s1.master.type_list_enable then
        { s1 with master := { s1.master with
            particle_type_map :=
              remove_id_from_map s1.master.particle_type_map id q.p.type } }
        else s1) ∧ StoreEquiv s1 s2 ∧ s2.master.particle_node = s1.master.particle_node := by
    refine ⟨_, rfl, ?_, ?_⟩
    · split
      · exact StoreEquiv.of_eq _ _ rfl rfl
      · exact StoreEquiv.refl _
    · split <;> rfl
  have hdir2 : s2.master.particle_node.find id = some node := by rw [hpn2, hpn1]; exact hdir
  have hnode2 := get_particle_node_of_find s2 id node hid hdir2
  -- particle_node[p_id] = -1
  obtain ⟨s4, hs4def⟩ : ∃ s4 : System, s4 = { s2 with master := { s2.master with
      particle_node := s2.master.particle_node.set id (-1) } } := ⟨_, rfl⟩
  have heq4 : StoreEquiv sys s4 := by
    refine StoreEquiv.trans _ _ _ (StoreEquiv.trans _ _ _ heq1 heq2) ?_
    rw [hs4def]
    exact StoreEquiv.of_eq _ _ rfl rfl
  obtain ⟨rs4, hrank4, hstore4⟩ := StoreEquiv.rank sys s4 heq4 r rs hrank
  -- mpi_remove_particle
  obtain ⟨s5, hrem, hpn5, hlen5, hranks5⟩ := mpi_remove_particle_spec num re s4 id r rs4 hid
    (StoreEquiv.ranksWF sys s4 heq4 hwf.1) (StoreEquiv.disjoint sys s4 heq4 hwf.2.1)
    hrank4 (hstore4 ▸ ⟨c, k, p, hp, hpid⟩)
  -- particle_node.erase(p_id)
  obtain ⟨s6, hs6def⟩ : ∃ s6 : System, s6 = { s5 with master := { s5.master with
      particle_node := s5.master.particle_node.erase id } } := ⟨_, rfl⟩
  have heq56 : StoreEquiv s5 s6 := by
    rw [hs6def]
    exact StoreEquiv.of_eq _ _ rfl rfl
  have hfind6 : ∀ id1, s6.master.particle_node.find id1 =
      if id = id1 then none else sys.master.particle_node.find id1 := by
    intro id1
    rw [hs6def]
    show (s5.master.particle_node.erase id).find id1 = _
    rw [Directory.find_erase, hpn5, hs4def]
    show (if id = id1 then none else (s2.master.particle_node.set id (-1)).find id1) = _
    rw [Directory.find_set, hpn2, hpn1]
    by_cases h : id = id1 <;> simp [h]
  -- the ranks of `s6` against those of `sys`
  have hranks6 : ∀ r1 rs0, sys.rank r1 = some rs0 → ∃ rs1, s6.rank r1 = some rs1 ∧ RankWF rs1 ∧
      (∀ id1, Stored rs1.store id1 ↔ Stored rs0.store id1 ∧ id1 ≠ id) ∧
      get_local_particle_data rs1.store id = none := by
    intro r1 rs0 hr1
    obtain ⟨a, ha, hast⟩ := StoreEquiv.rank sys s4 heq4 r1 rs0 hr1
    obtain ⟨b, hb, hbwf, hbst, hbnull⟩ := hranks5 r1 a ha
    obtain ⟨d, hd, hdst⟩ := StoreEquiv.rank s5 s6 heq56 r1 b hb
    refine ⟨d, hd, RankWF_of_store_eq b d hdst hbwf, ?_, ?_⟩
    · intro id1
      rw [hdst, hbst id1, hast]
    · rw [hdst]; exact hbnull
  have hlen6 : s6.slaves.length = sys.slaves.length := by
    have h4 : s4.slaves.length = sys.slaves.length := by
      have hl := heq4
      by_contra hne
      rcases Nat.lt_or_gt_of_ne hne with hlt | hgt
      · have h1 := hl (s4.slaves.length + 1)
        simp only [System.rank] at h1
        rw [List.getElem?_eq_none (le_refl _), List.getElem?_eq_getElem hlt] at h1
        exact Option.noConfusion h1
      · have h1 := hl (sys.slaves.length + 1)
        simp only [System.rank] at h1
        rw [List.getElem?_eq_none (le_refl _), List.getElem?_eq_getElem hgt] at h1
        exact Option.noConfusion h1
    rw [hs6def]
    show s5.slaves.length = _
    rw [hlen5, h4]
  -- nobody stores the id any more
  have hnobody : ∀ (r1 : Nat) (rs1 : RankState), s6.rank r1 = some rs1 → ¬ Stored rs1.store id := by
    intro r1 rs1 hr1 hs
    have hex : ∃ rs0, sys.rank r1 = some rs0 := by
      rw [rank_eq_getElem?] at hr1 ⊢
      have hlt := (List.getElem?_eq_some.mp hr1).1
      have : r1 < (sys.master :: sys.slaves).length := by
        simp only [List.length_cons] at hlt ⊢
        omega
      exact ⟨_, List.getElem?_eq_getElem this⟩
    obtain ⟨rs0, hrs0⟩ := hex
    obtain ⟨d, hd, _, hdst, _⟩ := hranks6 r1 rs0 hrs0
    rw [hr1] at hd
    rw [← Option.some.inj hd] at hdst
    exact ((hdst id).mp hs).2 rfl
  -- the final state
  have hfinal : ∃ sys', remove_particle num re sys id = (.ok ES_OK, sys') ∧
      StoreEquiv (build_if_empty s6) sys' ∧
      sys'.master.particle_node = (build_if_empty s6).master.particle_node ∧
      sys'.slaves.length = (build_if_empty s6).slaves.length := by
    unfold remove_particle
    rw [hgpd]
    simp only [← hs2def, hnode2, ← hs4def]
    rw [hnode, hrem]
    simp only [← hs6def, get_maximal_particle_id]
    split
    · refine ⟨_, rfl, ?_, rfl, ?_⟩
      · refine StoreEquiv.trans _ _ _ ?_ (StoreEquiv.bcast _)
        exact StoreEquiv.of_eq _ _ rfl rfl
      · simp [mpi_bcast_parameter_maxpart, System.log]
    · exact ⟨_, rfl, StoreEquiv.refl _, rfl, rfl⟩
  obtain ⟨sys', hres, heqf, hpnf, hlenf⟩ := hfinal
  have heq6f : StoreEquiv s6 sys' := StoreEquiv.trans _ _ _ (StoreEquiv.build_if_empty s6) heqf
  refine ⟨sys', hres, ?_, ?_, ?_, ?_, ?_⟩
  · intro r1 rs0 hr1
    obtain ⟨d, hd, hdwf, hdst, hdnull⟩ := hranks6 r1 rs0 hr1
    obtain ⟨e, he, hest⟩ := StoreEquiv.rank s6 sys' heq6f r1 d hd
    refine ⟨e, he, RankWF_of_store_eq d e hest hdwf, ?_, ?_⟩
    · intro id1; rw [hest]; exact hdst id1
    · rw [hest]; exact hdnull
  · rw [hlenf, (build_if_empty_frame s6).2, hlen6]
  · rw [hpnf]
    cases hf : (build_if_empty s6).master.particle_node.find id with
    | none => rfl
    | some x =>
      exfalso
      rcases build_if_empty_sound s6 id x hf with h1 | ⟨r1, rs1, _, hr1, hs1⟩
      · rw [hfind6 id, if_pos rfl] at h1
        exact Option.noConfusion h1
      · exact hnobody r1 rs1 hr1 hs1
  · intro id1 n hne h
    have h6 : s6.master.particle_node.find id1 = some n := by
      rw [hfind6 id1, if_neg (Ne.symm hne)]
      exact h
    rw [hpnf, build_if_empty_of_find s6 id1 n h6]
    exact h6
  · intro id1 n h
    rw [hpnf] at h
    rcases build_if_empty_sound s6 id1 n h with h1 | ⟨r1, rs1, hn, hr1, hs1⟩
    · left
      rw [hfind6 id1] at h1
      by_cases he : id = id1
      · rw [if_pos he] at h1; exact Option.noConfusion h1
      · rw [if_neg he] at h1; exact h1
    · right
      obtain ⟨e, he, hest⟩ := StoreEquiv.rank s6 sys' heq6f r1 rs1 hr1
      exact ⟨r1, e, hn, he, hest ▸ hs1⟩

theorem Directory.max_key_nil : Directory.max_key [] = -1 := rfl

theorem build_if_empty_of_nonempty (s : System)
    (h : s.master.particle_node.isEmpty = false) : build_if_empty s = s := by
  unfold build_if_empty
  rw [h]
  rfl

theorem build_if_empty_idem (sys : System)
    (h : 0 ≤ (build_if_empty sys).master.particle_node.max_key) :
    build_if_empty (build_if_empty sys) = build_if_empty sys := by
  have hne : (build_if_empty sys).master.particle_node.isEmpty = false := by
    cases hd : (build_if_empty sys).master.particle_node with
    | nil =>
      rw [hd, Directory.max_key_nil] at h
      omega
    | cons a as => rfl
  exact build_if_empty_of_nonempty _ hne

/-- The outcome of `get_particle_node`, by the directory after the lazy rebuild. -/
theorem get_particle_node_eq (sys : System) (id : Int) :
    get_particle_node sys id =
      if id < 0 then (.error .InvalidId, sys)
      else if id > (build_if_empty sys).master.particle_node.max_key then
        (.error .InvalidId, build_if_empty sys)
      else
        match (build_if_empty sys).master.particle_node.find id with
        | none => (.error (.UnknownId id), build_if_empty sys)
        | some node => (.ok node, build_if_empty sys) := by
  unfold get_particle_node get_maximal_particle_id
  by_cases h1 : id < 0
  · simp only [h1, if_true]
  · simp only [h1, if_false]
    by_cases h2 : id > (build_if_empty sys).master.particle_node.max_key
    · simp only [h2, if_true]
    · simp only [h2, if_false]
      rw [build_if_empty_idem sys (by omega)]

/-- Counterexample to C10 as stated: on a system of one rank the particles 0 and 1 are
placed, so 1 is the highest particle id ever assigned (and the value of
`max_seen_particle`), and particle 1 is removed; then `get_particle_node(1)` raises
`InvalidId` although 1 is neither negative nor above the highest id ever assigned. -/
theorem get_particle_node_invalid_below_highest :
    (place_particle allOnHead false oneRank 0 (0, 0, 0)).1 = .ok ES_PART_CREATED ∧
    (place_particle allOnHead false (place_particle allOnHead false oneRank 0 (0, 0, 0)).2
      1 (0, 0, 0)).1 = .ok ES_PART_CREATED ∧
    (remove_particle exampleNum false placedTwo 1).1 = .ok ES_OK ∧
    removedHighest.master.max_seen_particle = 1 ∧
    (get_particle_node removedHighest 1).1 = .error .InvalidId ∧
    ¬ InvalidIdExactlyAbove removedHighest 1 1 := by
  have h : (get_particle_node removedHighest 1).1 = .error .InvalidId := rfl
  refine ⟨rfl, rfl, rfl, rfl, h, ?_⟩
  intro hc
  have := hc.mp h
  omega

/-- C10, amended: `get_particle_node(id)` raises `InvalidId` exactly when `id` is negative
or above the largest id that is in the directory (rebuilt first when it is empty; `-1`
for an empty directory); an id within that range that is not in the directory raises
`UnknownId`, and an id within that range that is in the directory returns its mapped
rank. -/
theorem get_particle_node_errors (sys : System) (id : Int) :
    ((get_particle_node sys id).1 = .error .InvalidId ↔
      (id < 0 ∨ id > (build_if_empty sys).master.particle_node.max_key)) ∧
    (0 ≤ id → id ≤ (build_if_empty sys).master.particle_node.max_key →
      (build_if_empty sys).master.particle_node.find id = none →
      (get_particle_node sys id).1 = .error (.UnknownId id)) ∧
    (∀ node, 0 ≤ id → (build_if_empty sys).master.particle_node.find id = some node →
      (get_particle_node sys id).1 = .ok node) := by
  refine ⟨?_, ?_, ?_⟩
  · rw [get_particle_node_eq]
    by_cases h1 : id < 0
    · simp [h1]
    · by_cases h2 : id > (build_if_empty sys).master.particle_node.max_key
      · simp [h1, h2]
      · simp only [h1, h2, if_false, false_or, iff_false]
        cases (build_if_empty sys).master.particle_node.find id with
        | none => intro h; cases h
        | some node => intro h; cases h
  · intro h0 hmax hnone
    rw [get_particle_node_eq, if_neg (by omega), if_neg (by omega), hnone]
  · intro node h0 hfind
    have hmax := Directory.find_le_max_key _ id node hfind
    rw [get_particle_node_eq, if_neg (by omega), if_neg (by omega), hfind]

/-- Instance of the amended C10 on the system from which the highest particle was
removed: id 1 is above the largest id of the directory, id 0 is in the directory. -/
theorem get_particle_node_errors_witness :
    (get_particle_node removedHighest 1).1 = .error .InvalidId ∧
    (get_particle_node removedHighest 0).1 = .ok 0 :=
  ⟨((get_particle_node_errors removedHighest 1).1).mpr (Or.inr (by decide)),
    (get_particle_node_errors removedHighest 0).2.2 0 (by decide) rfl⟩

/-! ## Lemmas on the state after a directory query -/

/-- The state after `get_particle_node`: the lazy rebuild is reached unless the id is negative. -/
theorem get_particle_node_state (sys : System) (id : Int) :
    (get_particle_node sys id).2 = if id < 0 then sys else build_if_empty sys := by
  rw [get_particle_node_eq]
  by_cases h1 : id < 0
  · simp only [h1, if_true]
  · simp only [h1, if_false]
    by_cases h2 : id > (build_if_empty sys).master.particle_node.max_key
    · simp only [h2, if_true]
    · simp only [h2, if_false]
      cases (build_if_empty sys).master.particle_node.find id <;> rfl

/-- A successful `get_particle_node` found the id in the directory after the lazy rebuild. -/
theorem get_particle_node_ok (sys : System) (id node : Int) (s1 : System)
    (h : get_particle_node sys id = (.ok node, s1)) :
    0 ≤ id ∧ s1 = build_if_empty sys ∧
      (build_if_empty sys).master.particle_node.find id = some node := by
  rw [get_particle_node_eq] at h
  by_cases h1 : id < 0
  · simp only [h1, if_true] at h
    exact absurd (congrArg Prod.fst h) (by simp)
  · simp only [h1, if_false] at h
    by_cases h2 : id > (build_if_empty sys).master.particle_node.max_key
    · simp only [h2, if_true] at h
      exact absurd (congrArg Prod.fst h) (by simp)
    · simp only [h2, if_false] at h
      cases hf : (build_if_empty sys).master.particle_node.find id with
      | none =>
        rw [hf] at h
        exact absurd (congrArg Prod.fst h) (by simp)
      | some v =>
        rw [hf] at h
        have h3 := congrArg Prod.fst h
        have h4 := congrArg Prod.snd h
        simp only [Except.ok.injEq] at h3
        exact ⟨not_lt.mp h1, h4.symm, by rw [h3]⟩

/-- An id that the directory holds after the lazy rebuild is resolved, and the state is
the one after the lazy rebuild. -/
theorem get_particle_node_of_exists (sys : System) (id node : Int) (hid : 0 ≤ id)
    (h : (build_if_empty sys).master.particle_node.find id = some node) :
    get_particle_node sys id = (.ok node, build_if_empty sys) := by
  rw [get_particle_node_eq, if_neg (not_lt.mpr hid),
    if_neg (not_lt.mpr (Directory.find_le_max_key _ id node h)), h]

/-- The two errors of `get_particle_node`. -/
theorem get_particle_node_error (sys : System) (id : Int) (e : Err)
    (h : (get_particle_node sys id).1 = .error e) : e = .InvalidId ∨ e = .UnknownId id := by
  rw [get_particle_node_eq] at h
  by_cases h1 : id < 0
  · simp only [h1, if_true, Except.error.injEq] at h
    exact Or.inl h.symm
  · simp only [h1, if_false] at h
    by_cases h2 : id > (build_if_empty sys).master.particle_node.max_key
    · simp only [h2, if_true, Except.error.injEq] at h
      exact Or.inl h.symm
    · simp only [h2, if_false] at h
      cases hf : (build_if_empty sys).master.particle_node.find id with
      | none =>
        rw [hf] at h
        simp only [Except.error.injEq] at h
        exact Or.inr h.symm
      | some v =>
        rw [hf] at h
        exact absurd h (by simp)

/-! ## Lemmas on the transport operations of `build_particle_node` -/

/-- The loop of `mpi_who_has` issues receives only, and the table it builds does not depend on
the transport log. -/
theorem mpi_who_has_loop_trace (l : List RankState) :
    ∀ (pnode : Nat) (d : Directory) (tr : List Comm),
      ∃ recvs : List Comm, (mpi_who_has_loop pnode l (d, tr)).2 = tr ++ recvs ∧
        (∀ c ∈ recvs, ∃ n, c = Comm.recv n) ∧
        ∀ tr1, (mpi_who_has_loop pnode l (d, tr1)).1 = (mpi_who_has_loop pnode l (d, tr)).1 := by
  induction l with
  | nil =>
    intro pnode d tr
    exact ⟨[], by simp [mpi_who_has_loop], by simp, fun _ => rfl⟩
  | cons rs rest ih =>
    intro pnode d tr
    simp only [mpi_who_has_loop]
    by_cases h : (mpi_who_has_slave rs).1 > 0
    · simp only [h, if_true]
      obtain ⟨recvs, h1, h2, h3⟩ := ih (pnode + 1)
        ((mpi_who_has_slave rs).2.foldl (fun d id => d.set id pnode) d)
        (tr ++ [Comm.recv pnode])
      refine ⟨Comm.recv pnode :: recvs, ?_, ?_, ?_⟩
      · rw [h1]; simp
      · intro c hc
        rcases List.mem_cons.mp hc with hc | hc
        · exact ⟨_, hc⟩
        · exact h2 c hc
      · intro tr1
        obtain ⟨_, _, _, h4⟩ := ih (pnode + 1)
          ((mpi_who_has_slave rs).2.foldl (fun d id => d.set id pnode) d)
          (tr1 ++ [Comm.recv pnode])
        rw [h4 (tr ++ [Comm.recv pnode])]
    · simp only [h, if_false]
      obtain ⟨recvs, h1, h2, h3⟩ := ih (pnode + 1) d tr
      exact ⟨recvs, h1, h2, h3⟩

/-- The function `build_particle_node` writes the table of the head node and the transport log: one
`mpi_call(mpi_who_has_slave)`, one gather and receives. -/
theorem build_particle_node_eq (sys : System) :
    ∃ (d : Directory) (recvs : List Comm),
      build_particle_node sys =
        { sys with master := { sys.master with particle_node := d },
                   trace := sys.trace ++ Comm.call .mpi_who_has_slave :: Comm.gather :: recvs } ∧
      (∀ c ∈ recvs, ∃ n, c = Comm.recv n) := by
  obtain ⟨recvs, h1, h2, _⟩ := mpi_who_has_loop_trace sys.slaves 1
    ((local_ids sys.master.store).foldl (fun d id => d.set id 0) sys.master.particle_node)
    ((sys.trace ++ [Comm.call .mpi_who_has_slave]) ++ [Comm.gather])
  refine ⟨(mpi_who_has_loop 1 sys.slaves
    ((local_ids sys.master.store).foldl (fun d id => d.set id 0) sys.master.particle_node,
      (sys.trace ++ [Comm.call .mpi_who_has_slave]) ++ [Comm.gather])).1, recvs, ?_, h2⟩
  unfold build_particle_node mpi_who_has
  simp only [System.log]
  rw [show sys.trace ++ Comm.call .mpi_who_has_slave :: Comm.gather :: recvs =
    ((sys.trace ++ [Comm.call .mpi_who_has_slave]) ++ [Comm.gather]) ++ recvs by simp, ← h1]

/-- Every call of `build_particle_node` is counted. -/
theorem n_builds_build_particle_node (sys : System) :
    n_builds (build_particle_node sys) = n_builds sys + 1 := by
  obtain ⟨d, recvs, h, hr⟩ := build_particle_node_eq sys
  rw [h]
  unfold n_builds
  simp only [List.count_append, List.count_cons, List.count_nil]
  have h0 : recvs.count (Comm.call .mpi_who_has_slave) = 0 := by
    apply List.count_eq_zero.mpr
    intro hc
    obtain ⟨n, hn⟩ := hr _ hc
    exact Comm.noConfusion hn
  rw [h0]
  simp

/-- The lazy rebuild leaves everything but the table of the head node and the transport
log as it is. -/
theorem build_if_empty_eq (sys : System) :
    ∃ (d : Directory) (tr : List Comm),
      build_if_empty sys =
        { sys with master := { sys.master with particle_node := d },
                   trace := sys.trace ++ tr } := by
  unfold build_if_empty
  split
  · obtain ⟨d, recvs, h, _⟩ := build_particle_node_eq sys
    exact ⟨d, _, h⟩
  · exact ⟨sys.master.particle_node, [], by simp⟩

/-! ## Lemmas on the errors of the id validation -/

/-- The loop of `mpi_get_particles` leaves the state as it is or as the lazy rebuild leaves it. -/
theorem group_ids_per_node_state (ids : List Int) :
    ∀ (s : System) (node_ids : List (List Int)),
      (group_ids_per_node ids s node_ids).2 = s ∨
        (group_ids_per_node ids s node_ids).2 = build_if_empty s := by
  induction ids with
  | nil => intro s n; exact Or.inl rfl
  | cons id ids ih =>
    intro s n
    unfold group_ids_per_node
    cases h : get_particle_node s id with
    | mk r s1 =>
      cases r with
      | error e =>
        have hst := get_particle_node_state s id
        rw [h] at hst
        simp only at hst ⊢
        rw [hst]
        split
        · exact Or.inl rfl
        · exact Or.inr rfl
      | ok pnode =>
        obtain ⟨_, hs1, hf⟩ := get_particle_node_ok s id pnode s1 h
        simp only
        split
        · rcases ih s1 (n.set pnode.toNat (n.getD pnode.toNat [] ++ [id])) with h1 | h1
          · exact Or.inr (h1.trans hs1)
          · refine Or.inr (h1.trans ?_)
            rw [hs1, build_if_empty_of_find _ id pnode hf]
        · exact Or.inr hs1

/-- An error of `mpi_send_update_message` that is one of the two errors of the id validation is
the error of its call of `get_particle_node`, with the state that call leaves. -/
theorem mpi_send_update_message_id_error (num : Int → Nat) (sys : System) (id : Int)
    (msg : UpdateMessage) (e : Err)
    (h : (mpi_send_update_message num sys id msg).1 = .error e)
    (he : e = .InvalidId ∨ ∃ i, e = .UnknownId i) :
    (mpi_send_update_message num sys id msg).2 = (get_particle_node sys id).2 := by
  unfold mpi_send_update_message at h ⊢
  cases hg : get_particle_node sys id with
  | mk r s1 =>
    cases r with
    | error e1 => rfl
    | ok pnode =>
      exfalso
      rw [hg] at h
      simp only at h
      have hne : e ≠ .assertion ∧ e ≠ .transport := by
        rcases he with he | ⟨i, he⟩ <;> rw [he] <;> exact ⟨by simp, by simp⟩
      split at h
      · simp only [Except.error.injEq] at h
        exact hne.1 h.symm
      · split at h
        · split at h
          · exact absurd h (by simp)
          · simp only [Except.error.injEq] at h
            exact hne.2 h.symm
        · split at h
          · simp only [Except.error.injEq] at h
            exact hne.1 h.symm
          · exact absurd h (by simp)

/-- An error of `mpi_get_particles` that is one of the two errors of the id validation is raised in
the loop over the ids, after the `mpi_call`. -/
theorem mpi_get_particles_id_error (sys : System) (ids : List Int) (e : Err)
    (h : (mpi_get_particles sys ids).1 = .error e)
    (he : e = .InvalidId ∨ ∃ i, e = .UnknownId i) :
    (mpi_get_particles sys ids).2 = sys.log (.call .mpi_get_particles_slave) ∨
      (mpi_get_particles sys ids).2 =
        build_if_empty (sys.log (.call .mpi_get_particles_slave)) := by
  have hst := group_ids_per_node_state ids (sys.log (.call .mpi_get_particles_slave))
    (List.replicate (sys.log (.call .mpi_get_particles_slave)).n_nodes [])
  unfold mpi_get_particles at h ⊢
  simp only at h ⊢
  cases hg : group_ids_per_node ids (sys.log (.call .mpi_get_particles_slave))
      (List.replicate (sys.log (.call .mpi_get_particles_slave)).n_nodes []) with
  | mk r s1 =>
    rw [hg] at h hst
    cases r with
    | error e1 => exact hst
    | ok node_ids =>
      exfalso
      simp only at h
      split at h
      · simp only [Except.error.injEq] at h
        rcases he with he | ⟨i, he⟩ <;> rw [he] at h <;> exact Err.noConfusion h
      · exact absurd h (by simp)

/-! ## Claim C11: id-validation errors and communication -/

/-- Counterexample to C11 as stated, on the two-rank systems. With an empty directory,
`get_particle_node(7)` and `mpi_send_update_message(7, msg)` raise `InvalidId` after the
directory-rebuild exchange was issued; with the directory built (a well-formed system),
`mpi_get_particles({7})` raises `InvalidId` after its `mpi_call` was issued. -/
theorem id_error_after_communication :
    ¬ ErrorWithoutCommunication emptyDirSystem (get_particle_node emptyDirSystem 7) ∧
    ¬ ErrorWithoutCommunication emptyDirSystem
      (mpi_send_update_message exampleNum emptyDirSystem 7 (.bond .RemoveBonds)) ∧
    (SystemWF exampleSystem ∧
      ¬ ErrorWithoutCommunication exampleSystem (mpi_get_particles exampleSystem [7])) := by
  refine ⟨?_, ?_, exampleSystem_WF, ?_⟩
  · intro h
    exact absurd (h .InvalidId rfl (Or.inl rfl)) (by decide)
  · intro h
    exact absurd (h .InvalidId rfl (Or.inl rfl)) (by decide)
  · intro h
    exact absurd (h .InvalidId rfl (Or.inl rfl)) (by decide)

/-- C11, amended: an id-validation error of `get_particle_node(id)` or of
`mpi_send_update_message(id, msg)` leaves the state, and so the transport log, untouched
when `id` is negative or the directory of the head node is not empty; with an empty
directory and `id ≥ 0` the state is the one after `build_particle_node()`, whose exchange
has been issued before the error is raised. -/
theorem id_validation_error_transport (num : Int → Nat) (sys : System) (id : Int)
    (msg : UpdateMessage) :
    (∀ e, (get_particle_node sys id).1 = .error e →
      (get_particle_node sys id).2 = if id < 0 then sys else build_if_empty sys) ∧
    (∀ e, (mpi_send_update_message num sys id msg).1 = .error e →
      (e = .InvalidId ∨ ∃ i, e = .UnknownId i) →
      (mpi_send_update_message num sys id msg).2 =
        if id < 0 then sys else build_if_empty sys) ∧
    (sys.master.particle_node.isEmpty = false → build_if_empty sys = sys) ∧
    (sys.master.particle_node.isEmpty = true →
      build_if_empty sys = build_particle_node sys ∧
        n_builds (build_if_empty sys) = n_builds sys + 1) := by
  refine ⟨?_, ?_, ?_, ?_⟩
  · intro e _
    exact get_particle_node_state sys id
  · intro e h he
    rw [mpi_send_update_message_id_error num sys id msg e h he]
    exact get_particle_node_state sys id
  · intro h
    exact build_if_empty_of_nonempty sys h
  · intro h
    have hb : build_if_empty sys = build_particle_node sys := by
      unfold build_if_empty
      rw [if_pos h]
    exact ⟨hb, by rw [hb]; exact n_builds_build_particle_node sys⟩

/-- Instance of the amended C11 on the example system, whose directory is built: the
errors for the id 7 leave the state untouched. -/
theorem id_validation_error_transport_witness :
    (get_particle_node exampleSystem 7).2 = exampleSystem ∧
    (mpi_send_update_message exampleNum exampleSystem 7 (.bond .RemoveBonds)).2
      = exampleSystem := by
  obtain ⟨h1, h2, h3, _⟩ := id_validation_error_transport exampleNum exampleSystem 7
    (.bond .RemoveBonds)
  have h5 := h3 rfl
  refine ⟨?_, ?_⟩
  · rw [h1 .InvalidId rfl, h5]
    rfl
  · rw [h2 .InvalidId rfl (Or.inl rfl), h5]
    rfl

/-! ## Lemmas on the lazy rebuild -/

/-- The state after a directory query is the state after the lazy rebuild, when the query
reaches it. -/
theorem DirectoryQuery.run_eq (q : DirectoryQuery) (sys : System) :
    q.run sys = if q.reaches_build = true then build_if_empty sys else sys := by
  cases q with
  | get_particle_node id =>
    simp only [DirectoryQuery.run, DirectoryQuery.reaches_build, decide_eq_true_eq]
    rw [get_particle_node_state]
    by_cases h : id < 0
    · rw [if_pos h, if_neg (by omega)]
    · rw [if_neg h, if_pos (by omega)]
  | particle_exists id => rfl
  | get_particle_ids => rfl
  | get_maximal_particle_id => rfl

/-- With a directory that is not empty, no query changes the state. -/
theorem foldl_run_of_nonempty (qs : List DirectoryQuery) (s : System)
    (h : s.master.particle_node.isEmpty = false) : qs.foldl DirectoryQuery.run s = s := by
  induction qs with
  | nil => rfl
  | cons q qs ih =>
    rw [List.foldl_cons, DirectoryQuery.run_eq, build_if_empty_of_nonempty s h, ite_self]
    exact ih

/-- An id that a visited rank stores, or that was in the table, is in the table after the
loop of `mpi_who_has`. -/
theorem mpi_who_has_loop_isSome (id : Int) (rest : List RankState) :
    ∀ (pnode : Nat) (d : Directory) (tr : List Comm),
      ((d.find id).isSome = true ∨ ∃ rs ∈ rest, id ∈ local_ids rs.store) →
      ((mpi_who_has_loop pnode rest (d, tr)).1.find id).isSome = true := by
  induction rest with
  | nil =>
    intro pnode d tr h
    rcases h with h | ⟨rs, hrs, _⟩
    · exact h
    · simp at hrs
  | cons a rest ih =>
    intro pnode d tr h
    obtain ⟨tr1, hstep⟩ := mpi_who_has_loop_cons pnode a rest d tr
    rw [hstep]
    apply ih
    by_cases hm : id ∈ local_ids a.store
    · left
      rw [Directory.find_foldl_set, if_pos hm]
      rfl
    · rcases h with h | ⟨rs, hrs, hmem⟩
      · left
        rw [Directory.find_foldl_set, if_neg hm]
        exact h
      · rcases List.mem_cons.mp hrs with he | he
        · exact absurd (he ▸ hmem) hm
        · exact Or.inr ⟨rs, he, hmem⟩

/-- When some rank stores a particle, the table is not empty after `build_particle_node()`. -/
theorem build_particle_node_nonempty (sys : System) (h : HoldsParticle sys) :
    (build_particle_node sys).master.particle_node.isEmpty = false := by
  obtain ⟨r, rs, id, hr, hst⟩ := h
  obtain ⟨tr, hmaster, _, _⟩ := build_particle_node_master sys
  have hsome : ((build_particle_node sys).master.particle_node.find id).isSome = true := by
    rw [hmaster]
    apply mpi_who_has_loop_isSome
    cases r with
    | zero =>
      left
      have hrs : rs = sys.master := (Option.some.inj hr).symm
      subst hrs
      rw [Directory.find_foldl_set, if_pos ((Stored_iff_mem_local_ids _ id).mp hst)]
      rfl
    | succ j =>
      right
      exact ⟨rs, List.getElem?_mem hr, (Stored_iff_mem_local_ids _ id).mp hst⟩
  cases hd : (build_particle_node sys).master.particle_node with
  | nil =>
    rw [hd] at hsome
    simp [Directory.find] at hsome
  | cons a as => rfl

/-- The loop of `mpi_who_has` over ranks without particles leaves the table as it is. -/
theorem mpi_who_has_loop_no_particle (rest : List RankState) :
    ∀ (pnode : Nat) (d : Directory) (tr : List Comm),
      (∀ rs ∈ rest, local_ids rs.store = []) →
      (mpi_who_has_loop pnode rest (d, tr)).1 = d := by
  induction rest with
  | nil => intro pnode d tr _; rfl
  | cons a rest ih =>
    intro pnode d tr h
    obtain ⟨tr1, hstep⟩ := mpi_who_has_loop_cons pnode a rest d tr
    rw [hstep, ih _ _ _ (fun rs hrs => h rs (List.mem_cons_of_mem _ hrs)),
      h a (List.mem_cons_self _ _)]
    rfl

/-- When no rank stores a particle, `build_particle_node()` leaves the table as it is. -/
theorem build_particle_node_no_particle (sys : System) (h : HoldsNoParticle sys) :
    (build_particle_node sys).master.particle_node = sys.master.particle_node := by
  obtain ⟨tr, hmaster, _, _⟩ := build_particle_node_master sys
  rw [hmaster, mpi_who_has_loop_no_particle, h 0 sys.master rfl]
  · rfl
  · intro rs hrs
    obtain ⟨i, hi⟩ := List.mem_iff_getElem?.mp hrs
    exact h (i + 1) rs hi

theorem HoldsNoParticle_of_equiv (s s1 : System) (he : StoreEquiv s s1)
    (h : HoldsNoParticle s) : HoldsNoParticle s1 := by
  intro r rs hr
  obtain ⟨rs0, h0, h1⟩ := StoreEquiv.rank s1 s (StoreEquiv.symm s s1 he) r rs hr
  rw [← h1]
  exact h r rs0 h0

/-- When no rank stores a particle, every query that reaches the lazy rebuild performs a
`build_particle_node()`. -/
theorem n_builds_no_particle (qs : List DirectoryQuery) :
    ∀ s : System, s.master.particle_node = [] → HoldsNoParticle s →
      n_builds (qs.foldl DirectoryQuery.run s) =
        n_builds s + (qs.filter DirectoryQuery.reaches_build).length := by
  induction qs with
  | nil => intro s _ _; rfl
  | cons q qs ih =>
    intro s hd hn
    rw [List.foldl_cons, DirectoryQuery.run_eq]
    by_cases hq : q.reaches_build = true
    · have hb : build_if_empty s = build_particle_node s := by
        unfold build_if_empty
        rw [hd]
        rfl
      rw [if_pos hq, hb, ih (build_particle_node s)
        ((build_particle_node_no_particle s hn).trans hd)
        (HoldsNoParticle_of_equiv s _ (hb ▸ StoreEquiv.build_if_empty s) hn),
        n_builds_build_particle_node, List.filter_cons_of_pos hq, List.length_cons]
      omega
    · rw [if_neg hq, ih s hd hn, List.filter_cons_of_neg hq]

/-! ## Claim C12: the lazy rebuild of the directory -/

/-- Counterexample to C12 as stated. On the system of one rank that holds no particle,
after `clear_particle_node()` and a first `get_maximal_particle_id()` the second
`get_maximal_particle_id()` performs another `build_particle_node()`, because the rebuilt
table is empty again. On the example system, `get_particle_node(-1)` as the first query
after `clear_particle_node()` performs no `build_particle_node()`. -/
theorem rebuild_not_once :
    (HoldsNoParticle oneRank ∧
      ¬ RebuildsOnce oneRank .get_maximal_particle_id [.get_maximal_particle_id]) ∧
    ¬ RebuildsOnce exampleSystem (.get_particle_node (-1)) [] := by
  refine ⟨⟨?_, ?_⟩, ?_⟩
  · intro r rs hr
    cases r with
    | zero => rw [← Option.some.inj hr]; rfl
    | succ j => exact Option.noConfusion hr
  · intro h
    exact absurd h.2 (by decide)
  · intro h
    exact absurd h.1 (by decide)

/-- C12, amended: after `clear_particle_node()`, a first directory query other than
`get_particle_node` with a negative id performs exactly one `build_particle_node()`; when
some rank stores a particle, every further query performs none; when no rank stores a
particle, every further query that reaches the lazy rebuild performs one more, because
the rebuilt table is empty again. The query `get_particle_node` with a negative id throws
before the rebuild and leaves the state as it is. -/
theorem rebuild_lazy (sys : System) (q : DirectoryQuery) (qs : List DirectoryQuery) :
    (q.reaches_build = true →
      n_builds (q.run (clear_particle_node sys)) = n_builds (clear_particle_node sys) + 1) ∧
    (q.reaches_build = true → HoldsParticle sys → RebuildsOnce sys q qs) ∧
    (q.reaches_build = true → HoldsNoParticle sys →
      n_builds (qs.foldl DirectoryQuery.run (q.run (clear_particle_node sys))) =
        n_builds (q.run (clear_particle_node sys)) +
          (qs.filter DirectoryQuery.reaches_build).length) ∧
    (q.reaches_build = false → q.run (clear_particle_node sys) = clear_particle_node sys) := by
  have hb : build_if_empty (clear_particle_node sys) =
      build_particle_node (clear_particle_node sys) := rfl
  have hequiv : StoreEquiv sys (clear_particle_node sys) := StoreEquiv.of_eq _ _ rfl rfl
  have hone : q.reaches_build = true →
      n_builds (q.run (clear_particle_node sys)) = n_builds (clear_particle_node sys) + 1 := by
    intro hq
    rw [DirectoryQuery.run_eq, if_pos hq, hb, n_builds_build_particle_node]
  refine ⟨hone, ?_, ?_, ?_⟩
  · intro hq hp
    refine ⟨hone hq, ?_⟩
    rw [foldl_run_of_nonempty]
    rw [DirectoryQuery.run_eq, if_pos hq, hb]
    apply build_particle_node_nonempty
    obtain ⟨r, rs, id, hr, hst⟩ := hp
    obtain ⟨rs1, hr1, hs1⟩ := StoreEquiv.rank sys _ hequiv r rs hr
    exact ⟨r, rs1, id, hr1, hs1 ▸ hst⟩
  · intro hq hn
    have hn1 : HoldsNoParticle (clear_particle_node sys) :=
      HoldsNoParticle_of_equiv sys _ hequiv hn
    rw [DirectoryQuery.run_eq, if_pos hq, hb]
    exact n_builds_no_particle qs _
      ((build_particle_node_no_particle _ hn1).trans rfl)
      (HoldsNoParticle_of_equiv _ _ (hb ▸ StoreEquiv.build_if_empty _) hn1)
  · intro hq
    rw [DirectoryQuery.run_eq, hq]
    rfl

/-- Instance of the amended C12 on the example system, which holds particles: after
`clear_particle_node()` the query `get_particle_node(5)` rebuilds once and the four queries
after it do not rebuild. -/
theorem rebuild_lazy_witness :
    HoldsParticle exampleSystem ∧
    RebuildsOnce exampleSystem (.get_particle_node 5)
      [.particle_exists 7, .get_particle_ids, .get_maximal_particle_id,
        .get_particle_node (-1)] :=
  have hp : HoldsParticle exampleSystem :=
    ⟨0, exampleSystem.master, 0, rfl, (Stored_iff_check _ 0).mpr (by decide)⟩
  ⟨hp, (rebuild_lazy exampleSystem (.get_particle_node 5) _).2.1 rfl hp⟩

/-! ## Claim C13: the directory after `place_particle` and `remove_particle` -/

/-- Counterexample to C13 as stated, on the example system (well formed, directory built):
after `place_particle(7, pos)` has created particle 7, and after `remove_particle(5)` has
removed particle 5, the id-to-rank map of the head node is not empty. -/
theorem directory_not_cleared :
    SystemWF exampleSystem ∧
    (∃ s, place_particle exampleDec false exampleSystem 7 (1, 0, 0)
        = (.ok ES_PART_CREATED, s) ∧ ¬ DirectoryCleared s) ∧
    (∃ s, remove_particle exampleNum false exampleSystem 5 = (.ok ES_OK, s) ∧
      ¬ DirectoryCleared s) := by
  refine ⟨exampleSystem_WF, ⟨(place_particle exampleDec false exampleSystem 7 (1, 0, 0)).2,
    rfl, ?_⟩, ⟨(remove_particle exampleNum false exampleSystem 5).2, rfl, ?_⟩⟩
  · intro h
    exact absurd (show List.isEmpty _ = true from h) (by decide)
  · intro h
    exact absurd (show List.isEmpty _ = true from h) (by decide)

/-- C13, amended: `place_particle` and `remove_particle` patch the directory of the head
node. When `place_particle(id, pos)` creates the particle on rank `r`, the map afterwards
is the map after the lazy rebuild with the entry `id -> r` set, so it is not empty. When
`remove_particle(id)` removes a particle of a well-formed system whose directory holds
another id `id1`, the map afterwards has no entry for `id`, still maps `id1` to its rank
and is not empty, and `get_particle_node(id1)` answers from it without a rebuild. -/
theorem place_remove_patch_directory (dec : Decomposition) (num : Int → Nat) (re : Bool)
    (sys : System) (id : Int) (pos : Vector3d) (hwf : SystemWF sys) :
    (∀ r : Nat, (particle_exists sys id).1 = false → PlacedOn dec sys id pos r →
      ∃ sys', place_particle dec re sys id pos = (.ok ES_PART_CREATED, sys') ∧
        sys'.master.particle_node = (build_if_empty sys).master.particle_node.set id r ∧
        ¬ DirectoryCleared sys') ∧
    (∀ node id1 node1, sys.master.particle_node.find id = some node → id1 ≠ id →
      sys.master.particle_node.find id1 = some node1 →
      ∃ sys', remove_particle num re sys id = (.ok ES_OK, sys') ∧
        sys'.master.particle_node.find id = none ∧
        sys'.master.particle_node.find id1 = some node1 ∧
        ¬ DirectoryCleared sys' ∧
        get_particle_node sys' id1 = (.ok node1, sys')) := by
  constructor
  · intro r hex hplaced
    have hex' : particle_exists sys id = (false, build_if_empty sys) := by
      unfold particle_exists at hex ⊢
      simp only at hex ⊢
      rw [hex]
    obtain ⟨s2, hnew, hpn, _⟩ :=
      mpi_place_new_particle_spec dec re (build_if_empty sys) id pos r
        (PlacedOn_build_if_empty dec sys id pos r hplaced)
    unfold place_particle
    rw [hex']
    simp only [hnew]
    refine ⟨_, rfl, ?_, ?_⟩
    · simp only [hpn]
    · intro h
      exact absurd (show List.isEmpty _ = true from h) (by simp [Directory.set])
  · intro node id1 node1 hdir hne hdir1
    obtain ⟨sys', hres, _, _, hgone, hkept, _⟩ :=
      remove_particle_spec num re sys id node hwf hdir
    have h1 := hkept id1 node1 hne hdir1
    refine ⟨sys', hres, hgone, h1, ?_, ?_⟩
    · intro h
      have h2 := Directory.not_isEmpty_of_find _ id1 node1 h1
      exact absurd ((show List.isEmpty _ = true from h).symm.trans h2) (by decide)
    · exact get_particle_node_of_find sys' id1 node1
        (SystemWF.owner sys hwf id1 node1 hdir1).1 h1

/-- Instance of the amended C13 on the example system: particle 7 is created on rank 1,
and particle 5 is removed while particle 0 stays in the directory. -/
theorem place_remove_patch_directory_witness :
    SystemWF exampleSystem ∧
    (∃ sys', place_particle exampleDec false exampleSystem 7 (1, 0, 0)
        = (.ok ES_PART_CREATED, sys') ∧
      sys'.master.particle_node
        = (build_if_empty exampleSystem).master.particle_node.set 7 ((1 : Nat) : Int) ∧
      ¬ DirectoryCleared sys') ∧
    (∃ sys', remove_particle exampleNum false exampleSystem 5 = (.ok ES_OK, sys') ∧
      sys'.master.particle_node.find 5 = none ∧
      sys'.master.particle_node.find 0 = some 0 ∧
      ¬ DirectoryCleared sys' ∧
      get_particle_node sys' 0 = (.ok 0, sys')) :=
  ⟨exampleSystem_WF,
    (place_remove_patch_directory exampleDec exampleNum false exampleSystem 7 (1, 0, 0)
      exampleSystem_WF).1 1 rfl examplePlaced,
    (place_remove_patch_directory exampleDec exampleNum false exampleSystem 5 (1, 0, 0)
      exampleSystem_WF).2 1 0 0 rfl (by decide) rfl⟩

/-! ## Claim C16: a locally owned particle is read from the local store -/

/-- The lazy rebuild keeps a system well formed. -/
theorem SystemWF_build_if_empty (sys : System) (hwf : SystemWF sys) :
    SystemWF (build_if_empty sys) := by
  have he := StoreEquiv.build_if_empty sys
  refine ⟨StoreEquiv.ranksWF sys _ he hwf.1, StoreEquiv.disjoint sys _ he hwf.2.1, ?_⟩
  intro id node h
  rcases build_if_empty_sound sys id node h with h1 | ⟨r, rs, hn, hr, hst⟩
  · obtain ⟨r, rs, hn, hr, hst⟩ := hwf.2.2 id node h1
    obtain ⟨rs1, hr1, hs1⟩ := StoreEquiv.rank sys _ he r rs hr
    exact ⟨r, rs1, hn, hr1, hs1 ▸ hst⟩
  · obtain ⟨rs1, hr1, hs1⟩ := StoreEquiv.rank sys _ he r rs hr
    exact ⟨r, rs1, hn, hr1, hs1 ▸ hst⟩

/-- The lazy rebuild does not read the fetch cache. -/
theorem build_if_empty_setFetchCache (sys : System) (c : Cache) :
    build_if_empty (sys.setFetchCache c) = (build_if_empty sys).setFetchCache c := by
  unfold build_if_empty
  have h : (sys.setFetchCache c).master.particle_node = sys.master.particle_node := rfl
  rw [h]
  split
  · rfl
  · rfl

/-- The function `get_particle_node` does not read the fetch cache. -/
theorem get_particle_node_setFetchCache (sys : System) (c : Cache) (id : Int) :
    get_particle_node (sys.setFetchCache c) id =
      ((get_particle_node sys id).1, (get_particle_node sys id).2.setFetchCache c) := by
  rw [get_particle_node_eq, get_particle_node_eq, build_if_empty_setFetchCache]
  have h : ((build_if_empty sys).setFetchCache c).master.particle_node =
      (build_if_empty sys).master.particle_node := rfl
  rw [h]
  by_cases h1 : id < 0
  · simp only [h1, if_true]
  · simp only [h1, if_false]
    by_cases h2 : id > (build_if_empty sys).master.particle_node.max_key
    · simp only [h2, if_true]
    · simp only [h2, if_false]
      cases (build_if_empty sys).master.particle_node.find id <;> rfl

/-- C16: on a well-formed system, when `get_particle_node(part)` answers the calling rank
(the head node, rank 0), `get_particle_data(part)` returns the record with identity
`part` of the local cells of the head node, and leaves the state as `get_particle_node`
left it: the fetch cache is the one before the call, and with any other fetch cache in
its place the call returns the same record and leaves that cache in place. -/
theorem local_particle_bypasses_cache (sys : System) (part : Int) (s1 : System)
    (hwf : SystemWF sys) (hnode : get_particle_node sys part = (.ok 0, s1)) :
    ∃ c k p, sys.master.store.part c k = some p ∧ p.p.identity = part ∧
      get_particle_data sys part = (.ok p, s1) ∧
      s1.master.store = sys.master.store ∧
      s1.master.particle_fetch_cache = sys.master.particle_fetch_cache ∧
      ∀ cache : Cache,
        get_particle_data (sys.setFetchCache cache) part = (.ok p, s1.setFetchCache cache) := by
  obtain ⟨hid, hs1, hf⟩ := get_particle_node_ok sys part 0 s1 hnode
  obtain ⟨_, r, rs, c, k, p, hn, hrank, hrwf, hp, hpid⟩ :=
    SystemWF.owner _ (SystemWF_build_if_empty sys hwf) part 0 hf
  have hr0 : r = 0 := by omega
  subst hr0
  have hrs : rs = (build_if_empty sys).master := (Option.some.inj hrank).symm
  subst hrs
  have hstore : (build_if_empty sys).master.store = sys.master.store :=
    (build_if_empty_frame sys).1
  have hidx : get_local_particle_data (build_if_empty sys).master.store part = some ⟨c, k⟩ :=
    hpid ▸ hrwf.1 c k p hp
  obtain ⟨d, tr, hbe⟩ := build_if_empty_eq sys
  subst hs1
  refine ⟨c, k, p, hstore ▸ hp, hpid, ?_, hstore, ?_, ?_⟩
  · unfold get_particle_data
    rw [hnode]
    simp only [if_true, hidx, LocalState.deref, hp]
  · rw [hbe]
  · intro cache
    unfold get_particle_data
    rw [get_particle_node_setFetchCache, hnode]
    have hst2 : ((build_if_empty sys).setFetchCache cache).master.store =
        (build_if_empty sys).master.store := rfl
    simp only [if_true, hst2, hidx, LocalState.deref, hp]

/-- Instance of C16 on the example system: particle 2 is owned by the head node. -/
theorem local_particle_bypasses_cache_witness :
    (SystemWF exampleSystem ∧ get_particle_node exampleSystem 2 = (.ok 0, exampleSystem)) ∧
    ∃ c k p, exampleSystem.master.store.part c k = some p ∧ p.p.identity = 2 ∧
      get_particle_data exampleSystem 2 = (.ok p, exampleSystem) ∧
      exampleSystem.master.store = exampleSystem.master.store ∧
      exampleSystem.master.particle_fetch_cache = exampleSystem.master.particle_fetch_cache ∧
      ∀ cache : Cache,
        get_particle_data (exampleSystem.setFetchCache cache) 2
          = (.ok p, exampleSystem.setFetchCache cache) :=
  ⟨⟨exampleSystem_WF, rfl⟩,
    local_particle_bypasses_cache exampleSystem 2 exampleSystem exampleSystem_WF rfl⟩

/-! ## Lemmas on `mpi_get_particles` -/

theorem SystemWF_log (sys : System) (c : Comm) (hwf : SystemWF sys) : SystemWF (sys.log c) := by
  have he : StoreEquiv sys (sys.log c) := StoreEquiv.of_eq _ _ rfl rfl
  refine ⟨StoreEquiv.ranksWF sys _ he hwf.1, StoreEquiv.disjoint sys _ he hwf.2.1, ?_⟩
  intro id node h
  obtain ⟨r, rs, hn, hr, hst⟩ := hwf.2.2 id node h
  obtain ⟨rs1, hr1, hs1⟩ := StoreEquiv.rank sys _ he r rs hr
  exact ⟨r, rs1, hn, hr1, hs1 ▸ hst⟩

/-- The table that `build_particle_node` builds depends on the storage of the ranks and on the
table before the call only. -/
theorem build_particle_node_congr (s t : System) (hstore : t.master.store = s.master.store)
    (hslaves : t.slaves = s.slaves)
    (hpn : t.master.particle_node = s.master.particle_node) :
    (build_particle_node t).master.particle_node =
      (build_particle_node s).master.particle_node := by
  obtain ⟨tr1, hm1, _, _⟩ := build_particle_node_master t
  obtain ⟨tr2, hm2, _, _⟩ := build_particle_node_master s
  obtain ⟨_, _, _, hindep⟩ := mpi_who_has_loop_trace s.slaves 1
    ((local_ids s.master.store).foldl (fun d id => d.set id 0) s.master.particle_node) tr2
  rw [hm1, hm2, hstore, hslaves, hpn]
  exact hindep tr1

theorem build_if_empty_of_empty (s : System) (h : s.master.particle_node.isEmpty = true) :
    build_if_empty s = build_particle_node s := by
  unfold build_if_empty
  rw [if_pos h]

theorem SameView_refl (s : System) : SameView s s := ⟨rfl, rfl, rfl, rfl⟩

theorem SameView_trans (s t u : System) (h1 : SameView s t) (h2 : SameView t u) :
    SameView s u :=
  ⟨h2.1.trans h1.1, h2.2.1.trans h1.2.1, h2.2.2.1.trans h1.2.2.1, h2.2.2.2.trans h1.2.2.2⟩

/-- The lazy rebuild keeps the view: a second rebuild builds the same table. -/
theorem SameView_build_if_empty (s : System) : SameView s (build_if_empty s) := by
  obtain ⟨hstore, hslaves⟩ := build_if_empty_frame s
  obtain ⟨d, tr, hbe⟩ := build_if_empty_eq s
  refine ⟨hstore, hslaves, by rw [hbe], ?_⟩
  cases he : (Espresso.build_if_empty s).master.particle_node.isEmpty with
  | false => rw [build_if_empty_of_nonempty _ he]
  | true =>
    have hs : s.master.particle_node.isEmpty = true := by
      cases h : s.master.particle_node.isEmpty with
      | true => rfl
      | false =>
        rw [build_if_empty_of_nonempty s h] at he
        rw [h] at he
        exact he
    have h1 : Espresso.build_if_empty s = build_particle_node s := build_if_empty_of_empty s hs
    have h2 : Espresso.build_if_empty (Espresso.build_if_empty s) =
        build_particle_node (Espresso.build_if_empty s) := build_if_empty_of_empty _ he
    rw [h2]
    conv => rhs; rw [h1]
    apply build_particle_node_congr s _ hstore hslaves
    rw [List.isEmpty_iff.mp he, List.isEmpty_iff.mp hs]

theorem prefetch_keeps_congr (s t : System) (h : SameView s t) :
    prefetch_keeps t = prefetch_keeps s := by
  funext id
  unfold prefetch_keeps
  rw [h.2.2.2, h.2.2.1]

/-- The `remove_if` of `prefetch_particle_data` keeps the ids that exist, are not owned by the head
node and are not in the fetch cache, in the order of the input. -/
theorem prefetch_remove_if_spec (ids : List Int) :
    ∀ s : System,
      (∀ id node, (build_if_empty s).master.particle_node.find id = some node → 0 ≤ id) →
      ∃ s1, prefetch_remove_if ids s = (.ok (ids.filter (prefetch_keeps s)), s1) ∧
        SameView s s1 := by
  induction ids with
  | nil => intro s _; exact ⟨s, rfl, SameView_refl s⟩
  | cons id ids ih =>
    intro s hnn
    have hview := SameView_build_if_empty s
    obtain ⟨s1, h1, h2⟩ := ih (build_if_empty s) (by
      intro i node hi
      rw [hview.2.2.2] at hi
      exact hnn i node hi)
    rw [prefetch_keeps_congr s _ hview] at h1
    refine ⟨s1, ?_, SameView_trans _ _ _ hview h2⟩
    unfold prefetch_remove_if particle_exists
    simp only
    cases hf : (build_if_empty s).master.particle_node.find id with
    | none =>
      have hk : prefetch_keeps s id = false := by
        simp [prefetch_keeps, Directory.count, hf]
      simp only [Directory.count, hf, Option.isSome_none, List.filter_cons, hk]
      exact h1
    | some node =>
      have hid := hnn id node hf
      have hb : build_if_empty (build_if_empty s) = build_if_empty s :=
        build_if_empty_of_find _ id node hf
      have hg : get_particle_node (build_if_empty s) id = (.ok node, build_if_empty s) := by
        rw [get_particle_node_of_exists (build_if_empty s) id node hid (by rw [hb]; exact hf), hb]
      simp only [Directory.count, hf, Option.isSome_some, hg]
      by_cases hc : node = 0 ∨ (build_if_empty s).master.particle_fetch_cache.has id = true
      · have hk : prefetch_keeps s id = false := by
          simp only [prefetch_keeps, Directory.count, hf, Option.isSome_some, Bool.true_and,
            Option.some.injEq, ← hview.2.2.1]
          rcases hc with hc | hc
          · simp [hc]
          · simp [hc]
        rw [if_pos hc, List.filter_cons, hk]
        exact h1
      · have hk : prefetch_keeps s id = true := by
          simp only [prefetch_keeps, Directory.count, hf, Option.isSome_some, Bool.true_and,
            Option.some.injEq, ← hview.2.2.1]
          have h3 : ¬ node = 0 := fun e => hc (Or.inl e)
          have h4 : (build_if_empty s).master.particle_fetch_cache.has id = false := by
            cases h : (build_if_empty s).master.particle_fetch_cache.has id with
            | false => rfl
            | true => exact absurd (Or.inr h) hc
          simp [h3, h4]
        rw [if_neg hc, List.filter_cons, hk, h1]
        rfl

/-! ## Claim C15: the ids that `prefetch_particle_data` fetches -/

/-- C15: on more than one rank and a well-formed system, the list that
`prefetch_particle_data(ids)` hands to `mpi_get_particles` is the input list without the ids
that do not exist, are owned by the calling rank (the head node) or are in the fetch
cache, in the order of the input, cut to its first `max_size()` elements; its length is
at most `max_size()`, and up to that call the storage and the fetch cache are unchanged.
On a single rank the call returns at once and the state, the cache included, is
unchanged. -/
theorem prefetch_ids_filtered (sys : System) (ids : List Int) :
    (1 < sys.n_nodes → SystemWF sys →
      ∃ s1, prefetch_ids sys ids =
          (.ok ((ids.filter (prefetch_keeps sys)).take
            sys.master.particle_fetch_cache.max_size), s1) ∧
        prefetch_particle_data sys ids =
          prefetch_fetch s1 ((ids.filter (prefetch_keeps sys)).take
            sys.master.particle_fetch_cache.max_size) ∧
        ((ids.filter (prefetch_keeps sys)).take
          sys.master.particle_fetch_cache.max_size).length
            ≤ sys.master.particle_fetch_cache.max_size ∧
        SameView sys s1) ∧
    (sys.n_nodes = 1 → prefetch_particle_data sys ids = (.ok (), sys)) := by
  constructor
  · intro hn hwf
    obtain ⟨s1, h1, hview⟩ := prefetch_remove_if_spec ids sys (fun id node h =>
      (SystemWF.owner _ (SystemWF_build_if_empty sys hwf) id node h).1)
    have hids : prefetch_ids sys ids =
        (.ok ((ids.filter (prefetch_keeps sys)).take
          sys.master.particle_fetch_cache.max_size), s1) := by
      unfold prefetch_ids
      rw [h1]
      simp only [hview.2.2.1]
      split
      · rfl
      · rw [List.take_of_length_le (by omega)]
    refine ⟨s1, hids, ?_, ?_, hview⟩
    · unfold prefetch_particle_data
      rw [if_neg (by omega), hids]
    · rw [List.length_take]
      exact Nat.min_le_left _ _
  · intro hn
    unfold prefetch_particle_data
    rw [if_pos hn]

/-- Instance of C15: on the example system of two ranks, whose cache of capacity 4 holds
particle 5, the ids 4, 4 remain of the nine ids requested; on the system of one rank
nothing happens. -/
theorem prefetch_ids_filtered_witness :
    (1 < exampleSystem.n_nodes ∧ SystemWF exampleSystem ∧ oneRank.n_nodes = 1) ∧
    (∃ s1, prefetch_ids exampleSystem [5, 0, 4, 0, 1, 5, 9, 4, -1] = (.ok [4, 4], s1) ∧
      SameView exampleSystem s1) ∧
    prefetch_particle_data oneRank [0, 1] = (.ok (), oneRank) := by
  obtain ⟨s1, h1, _, _, h2⟩ :=
    (prefetch_ids_filtered exampleSystem [5, 0, 4, 0, 1, 5, 9, 4, -1]).1 (by decide)
      exampleSystem_WF
  exact ⟨⟨by decide, exampleSystem_WF, rfl⟩, ⟨s1, h1, h2⟩,
    (prefetch_ids_filtered oneRank [0, 1]).2 rfl⟩

/-! ## Claim C17: the bound of the fetch cache -/

theorem recency_nodup (hist : List Int) : (recency hist).Nodup := by
  induction hist with
  | nil => exact List.nodup_nil
  | cons id hist ih =>
    simp only [recency, List.nodup_cons, List.mem_filter, decide_eq_true_eq, ne_eq,
      not_true_eq_false, and_false, not_false_eq_true, true_and]
    exact ih.filter _

/-- Removing one id from a list without repetitions removes at most one element. -/
theorem length_filter_ne (id : Int) (l : List Int) (h : l.Nodup) :
    l.length ≤ (l.filter fun x => decide (x ≠ id)).length + 1 ∧
      (id ∈ l → (l.filter fun x => decide (x ≠ id)).length + 1 = l.length) := by
  induction l with
  | nil => simp
  | cons a l ih =>
    obtain ⟨hal, hl⟩ := List.nodup_cons.mp h
    obtain ⟨ih1, ih2⟩ := ih hl
    by_cases ha : a = id
    · subst ha
      have hall : l.filter (fun x => decide (x ≠ a)) = l := by
        apply List.filter_eq_self.mpr
        intro x hx
        simp only [ne_eq, decide_eq_true_eq]
        intro e
        exact hal (e ▸ hx)
      have hp : decide (a ≠ a) = false := by simp
      rw [List.filter_cons, hp]
      simp only [Bool.false_eq_true, if_false, hall, List.length_cons]
      exact ⟨le_refl _, fun _ => trivial⟩
    · have hp : decide (a ≠ id) = true := by simpa using ha
      simp only [List.filter_cons, hp, if_true, List.length_cons, List.mem_cons]
      refine ⟨by omega, ?_⟩
      intro hm
      rcases hm with hm | hm
      · exact absurd hm.symm ha
      · have := ih2 hm
        omega

/-- The filter of a prefix agrees with the prefix of the filter, as far as the prefix
reaches. -/
theorem take_filter_take (id : Int) (l : List Int) (h : l.Nodup) (k : Nat) :
    ((l.take (k + 1)).filter fun x => decide (x ≠ id)).take k =
      (l.filter fun x => decide (x ≠ id)).take k := by
  by_cases hlen : l.length ≤ k + 1
  · rw [List.take_of_length_le hlen]
  · have hsplit : l.filter (fun x => decide (x ≠ id)) =
        (l.take (k + 1)).filter (fun x => decide (x ≠ id)) ++
          (l.drop (k + 1)).filter (fun x => decide (x ≠ id)) := by
      rw [← List.filter_append, List.take_append_drop]
    have hge := (length_filter_ne id (l.take (k + 1)) (h.sublist (List.take_sublist _ _))).1
    rw [List.length_take] at hge
    conv => rhs; rw [hsplit]
    rw [List.take_append_of_le_length (by omega)]

theorem keys_filter (id : Int) (entries : List (Int × Particle)) :
    (entries.filter fun e => decide (e.1 ≠ id)).map Prod.fst =
      (entries.map Prod.fst).filter fun x => decide (x ≠ id) := by
  rw [List.filter_map]
  rfl

theorem keys_put (c : Cache) (id : Int) (v : Particle) :
    (c.put id v).entries.map Prod.fst =
      (id :: (c.entries.map Prod.fst).filter fun x => decide (x ≠ id)).take c.max_size := by
  unfold Cache.put
  simp only [List.map_take, List.map_cons, keys_filter]

theorem has_iff_mem_keys (c : Cache) (id : Int) :
    c.has id = true ↔ id ∈ c.entries.map Prod.fst := by
  unfold Cache.has
  simp only [List.any_eq_true, decide_eq_true_eq, List.mem_map]

theorem get_miss (c : Cache) (id : Int) (h : c.has id = false) : (c.get id).2 = c := by
  unfold Cache.get
  cases hf : c.entries.find? fun kv => decide (kv.1 = id) with
  | none => rfl
  | some kv =>
    exfalso
    have h1 := List.find?_some hf
    have h2 := List.mem_of_find?_eq_some hf
    have h3 : c.has id = true := by
      unfold Cache.has
      exact List.any_eq_true.mpr ⟨kv, h2, h1⟩
    rw [h] at h3
    exact Bool.noConfusion h3

theorem keys_get_hit (c : Cache) (id : Int) (h : c.has id = true) :
    (c.get id).2.entries.map Prod.fst =
      id :: (c.entries.map Prod.fst).filter fun x => decide (x ≠ id) := by
  unfold Cache.get
  cases hf : c.entries.find? fun kv => decide (kv.1 = id) with
  | none =>
    exfalso
    unfold Cache.has at h
    obtain ⟨kv, h1, h2⟩ := List.any_eq_true.mp h
    have := List.find?_eq_none.mp hf kv h1
    exact this h2
  | some kv =>
    have h1 := List.find?_some hf
    simp only [decide_eq_true_eq] at h1
    simp only [List.map_cons, keys_filter, h1]

theorem max_size_get (c : Cache) (id : Int) : (c.get id).2.max_size = c.max_size := by
  unfold Cache.get
  cases c.entries.find? fun kv => decide (kv.1 = id) <;> rfl

theorem max_size_put_range (kvs : List (Int × Particle)) :
    ∀ c : Cache, (c.put_range kvs).max_size = c.max_size := by
  induction kvs with
  | nil => intro c; rfl
  | cons kv kvs ih =>
    intro c
    unfold Cache.put_range at ih ⊢
    rw [List.foldl_cons, ih]
    rfl

/-- A `put` keeps the most recently used ids. -/
theorem CacheInv_put (c : Cache) (hist : List Int) (id : Int) (v : Particle)
    (h : CacheInv (c, hist)) : CacheInv (c.put id v, id :: hist) := by
  unfold CacheInv at h ⊢
  simp only at h ⊢
  rw [keys_put, h, show (c.put id v).max_size = c.max_size from rfl]
  simp only [recency]
  cases c.max_size with
  | zero => rfl
  | succ k =>
    rw [List.take_succ_cons, List.take_succ_cons, take_filter_take id _ (recency_nodup hist)]

/-- A hit keeps the most recently used ids. -/
theorem CacheInv_get_hit (c : Cache) (hist : List Int) (id : Int) (hhit : c.has id = true)
    (h : CacheInv (c, hist)) : CacheInv ((c.get id).2, id :: hist) := by
  unfold CacheInv at h ⊢
  simp only at h ⊢
  have hmem : id ∈ (recency hist).take c.max_size := by
    rw [← h]
    exact (has_iff_mem_keys c id).mp hhit
  rw [keys_get_hit c id hhit, h, max_size_get]
  simp only [recency]
  cases hk : c.max_size with
  | zero =>
    rw [hk] at hmem
    simp at hmem
  | succ k =>
    rw [hk] at hmem
    rw [List.take_succ_cons, ← take_filter_take id _ (recency_nodup hist)]
    have hlen := (length_filter_ne id ((recency hist).take (k + 1))
      ((recency_nodup hist).sublist (List.take_sublist _ _))).2 hmem
    rw [List.length_take] at hlen
    have hM : (((recency hist).take (k + 1)).filter fun x => decide (x ≠ id)).length ≤ k := by
      omega
    rw [List.take_of_length_le hM]

/-- A range `put` keeps the most recently used ids. -/
theorem CacheInv_put_range (kvs : List (Int × Particle)) :
    ∀ (c : Cache) (hist : List Int), CacheInv (c, hist) →
      CacheInv (c.put_range kvs, (kvs.map Prod.fst).reverse ++ hist) := by
  induction kvs with
  | nil => intro c hist h; exact h
  | cons kv kvs ih =>
    intro c hist h
    have h1 := ih (c.put kv.1 kv.2) (kv.1 :: hist) (CacheInv_put c hist kv.1 kv.2 h)
    unfold Cache.put_range at h1 ⊢
    rw [List.foldl_cons, List.map_cons, List.reverse_cons, List.append_assoc]
    exact h1

/-- Every operation keeps the most recently used ids and the capacity. -/
theorem CacheInv_step (s : Cache × List Int) (op : CacheOp) (h : CacheInv s) :
    CacheInv (op.step s) ∧ (op.step s).1.max_size = s.1.max_size := by
  obtain ⟨c, hist⟩ := s
  cases op with
  | get id =>
    refine ⟨?_, max_size_get c id⟩
    unfold CacheOp.step CacheOp.run CacheOp.uses
    simp only
    cases hh : c.has id with
    | true => exact CacheInv_get_hit c hist id hh h
    | false =>
      rw [get_miss c id hh]
      exact h
  | put id v => exact ⟨CacheInv_put c hist id v h, rfl⟩
  | put_range kvs => exact ⟨CacheInv_put_range kvs c hist h, max_size_put_range kvs c⟩

theorem CacheInv_foldl (ops : List CacheOp) :
    ∀ s : Cache × List Int, CacheInv s →
      CacheInv (ops.foldl CacheOp.step s) ∧
        (ops.foldl CacheOp.step s).1.max_size = s.1.max_size := by
  induction ops with
  | nil => intro s h; exact ⟨h, rfl⟩
  | cons op ops ih =>
    intro s h
    obtain ⟨h1, h2⟩ := CacheInv_step s op h
    obtain ⟨h3, h4⟩ := ih (op.step s) h1
    exact ⟨h3, h4.trans h2⟩

theorem length_filter_lt (l : List (Int × Particle)) (p : Int × Particle → Bool)
    (a : Int × Particle) (ha : a ∈ l) (hp : p a = false) :
    (l.filter p).length + 1 ≤ l.length := by
  induction l with
  | nil => simp at ha
  | cons b l ih =>
    rcases List.mem_cons.mp ha with h | h
    · subst h
      rw [List.filter_cons, hp]
      simp only [Bool.false_eq_true, if_false, List.length_cons]
      have := List.length_filter_le p l
      omega
    · have := ih h
      rw [List.filter_cons]
      split
      · simp only [List.length_cons]; omega
      · simp only [List.length_cons]; omega

/-- A `get` adds no entry. -/
theorem length_get_le (c : Cache) (id : Int) :
    (c.get id).2.entries.length ≤ c.entries.length := by
  unfold Cache.get
  cases hf : c.entries.find? fun kv => decide (kv.1 = id) with
  | none => exact le_refl _
  | some kv =>
    have h1 := List.find?_some hf
    have h2 := List.mem_of_find?_eq_some hf
    simp only [decide_eq_true_eq] at h1
    have := length_filter_lt c.entries (fun e => decide (e.1 ≠ id)) kv h2 (by simp [h1])
    simp only [List.length_cons]
    omega

/-- A `put` leaves at most `max_size()` entries. -/
theorem length_put_le (c : Cache) (id : Int) (v : Particle) :
    (c.put id v).entries.length ≤ (c.put id v).max_size := by
  unfold Cache.put
  simp only [List.length_take]
  exact Nat.min_le_left _ _

theorem length_put_range_le (kvs : List (Int × Particle)) :
    ∀ c : Cache, c.entries.length ≤ c.max_size →
      (c.put_range kvs).entries.length ≤ (c.put_range kvs).max_size := by
  induction kvs with
  | nil => intro c h; exact h
  | cons kv kvs ih =>
    intro c _
    unfold Cache.put_range at ih ⊢
    rw [List.foldl_cons]
    exact ih _ (length_put_le c kv.1 kv.2)

/-- The function `get_particle_node` leaves the fetch cache as it is. -/
theorem get_particle_node_cache (sys : System) (id : Int) :
    (get_particle_node sys id).2.master.particle_fetch_cache =
      sys.master.particle_fetch_cache := by
  rw [get_particle_node_state]
  split
  · rfl
  · obtain ⟨d, tr, h⟩ := build_if_empty_eq sys
    rw [h]

/-- The function `mpi_get_particles` leaves the fetch cache as it is. -/
theorem mpi_get_particles_cache (sys : System) (ids : List Int) :
    (mpi_get_particles sys ids).2.master.particle_fetch_cache =
      sys.master.particle_fetch_cache := by
  have hst := group_ids_per_node_state ids (sys.log (.call .mpi_get_particles_slave))
    (List.replicate (sys.log (.call .mpi_get_particles_slave)).n_nodes [])
  unfold mpi_get_particles
  simp only
  cases hg : group_ids_per_node ids (sys.log (.call .mpi_get_particles_slave))
      (List.replicate (sys.log (.call .mpi_get_particles_slave)).n_nodes []) with
  | mk r s1 =>
    rw [hg] at hst
    simp only at hst
    have hc : s1.master.particle_fetch_cache = sys.master.particle_fetch_cache := by
      rcases hst with h | h
      · rw [h]; rfl
      · rw [h]
        obtain ⟨d, tr, hb⟩ := build_if_empty_eq (sys.log (.call .mpi_get_particles_slave))
        rw [hb]
        rfl
    cases r with
    | error e => exact hc
    | ok node_ids =>
      simp only
      split
      · exact hc
      · exact hc

/-- The `remove_if` of `prefetch_particle_data` leaves the fetch cache as it is. -/
theorem prefetch_remove_if_cache (ids : List Int) :
    ∀ s : System, (prefetch_remove_if ids s).2.master.particle_fetch_cache =
      s.master.particle_fetch_cache := by
  induction ids with
  | nil => intro s; rfl
  | cons id ids ih =>
    intro s
    have hb : (build_if_empty s).master.particle_fetch_cache =
        s.master.particle_fetch_cache := by
      obtain ⟨d, tr, h⟩ := build_if_empty_eq s
      rw [h]
    unfold prefetch_remove_if particle_exists
    simp only
    cases hcount : (build_if_empty s).master.particle_node.count id with
    | false =>
      simp only
      rw [ih, hb]
    | true =>
      simp only
      have hg := get_particle_node_cache (build_if_empty s) id
      cases hn : get_particle_node (build_if_empty s) id with
      | mk r s2 =>
        rw [hn] at hg
        simp only at hg
        cases r with
        | error e => exact hg.trans hb
        | ok pnode =>
          simp only
          split
          · rw [ih, hg, hb]
          · have h3 := ih s2
            cases hr : prefetch_remove_if ids s2 with
            | mk r3 s3 =>
              rw [hr] at h3
              cases r3 with
              | error e => exact h3.trans (hg.trans hb)
              | ok kept => exact h3.trans (hg.trans hb)

/-- The bound of the fetch cache is kept by `get_particle_data`, whose miss puts one entry,
and by `prefetch_particle_data`, which puts a range. -/
theorem CacheBounded_kept (sys : System) (h : CacheBounded sys) :
    (∀ part, CacheBounded (get_particle_data sys part).2) ∧
    (∀ ids, CacheBounded (prefetch_particle_data sys ids).2) := by
  constructor
  · intro part
    have hg := get_particle_node_cache sys part
    unfold get_particle_data
    cases hn : get_particle_node sys part with
    | mk r s1 =>
      rw [hn] at hg
      simp only at hg
      have hb1 : CacheBounded s1 := by
        unfold CacheBounded
        rw [hg]
        exact h
      cases r with
      | error e => exact hb1
      | ok pnode =>
        simp only
        split
        · split
          · exact hb1
          · split
            · exact hb1
            · exact hb1
        · split
          · rename_i p c hget
            unfold CacheBounded
            simp only
            have h1 := length_get_le s1.master.particle_fetch_cache part
            have h2 := max_size_get s1.master.particle_fetch_cache part
            rw [hget] at h1 h2
            simp only at h1 h2
            unfold CacheBounded at hb1
            omega
          · split
            · exact hb1
            · unfold CacheBounded
              exact length_put_le _ _ _
  · intro ids
    have h1 := prefetch_remove_if_cache ids sys
    have hstate : (prefetch_ids sys ids).2 = (prefetch_remove_if ids sys).2 := by
      unfold prefetch_ids
      cases hr : prefetch_remove_if ids sys with
      | mk r s1 =>
        cases r with
        | error e => rfl
        | ok ids1 =>
          simp only
          split <;> rfl
    unfold prefetch_particle_data
    split
    · exact h
    · cases hp : prefetch_ids sys ids with
      | mk r s1 =>
        rw [hp] at hstate
        simp only at hstate
        have hb1 : CacheBounded s1 := by
          unfold CacheBounded
          rw [hstate, h1]
          exact h
        cases r with
        | error e => exact hb1
        | ok ids1 =>
          simp only
          have h2 := mpi_get_particles_cache s1 ids1
          unfold prefetch_fetch
          cases hm : mpi_get_particles s1 ids1 with
          | mk r2 s2 =>
            rw [hm] at h2
            simp only at h2
            have hb2 : CacheBounded s2 := by
              unfold CacheBounded
              rw [h2]
              exact hb1
            cases r2 with
            | error e => exact hb2
            | ok parts =>
              unfold CacheBounded
              exact length_put_range_le _ _ hb2

/-- C17: the fetch cache is constructed with the capacity
`max_cache_size = (100 * 1048576) / sizeof(Particle)`, and after every sequence of `get`,
`put` and range `put` operations on it the capacity is unchanged, the number of resident
entries is at most `max_cache_size` (it is the smaller of `max_cache_size` and the number
of distinct ids used), and the resident ids are the `max_cache_size` most recently used
distinct ids, most recent first: every id evicted was used less recently than every id
that is resident. In the program, `get_particle_data` (one `put` per miss) and
`prefetch_particle_data` (a range `put`) keep the cache of the head node within its
capacity. -/
theorem fetch_cache_bounded_lru (sizeof_Particle : Nat) (ops : List CacheOp) :
    max_cache_size sizeof_Particle = 104857600 / sizeof_Particle ∧
    (ops.foldl CacheOp.step (particle_fetch_cache_init sizeof_Particle, [])).1.max_size
      = max_cache_size sizeof_Particle ∧
    (ops.foldl CacheOp.step (particle_fetch_cache_init sizeof_Particle, [])).1.entries.length
      ≤ max_cache_size sizeof_Particle ∧
    (ops.foldl CacheOp.step (particle_fetch_cache_init sizeof_Particle, [])).1.entries.length
      = min (max_cache_size sizeof_Particle)
          (recency (ops.foldl CacheOp.step
            (particle_fetch_cache_init sizeof_Particle, [])).2).length ∧
    (ops.foldl CacheOp.step
        (particle_fetch_cache_init sizeof_Particle, [])).1.entries.map Prod.fst
      = (recency (ops.foldl CacheOp.step (particle_fetch_cache_init sizeof_Particle, [])).2).take
          (max_cache_size sizeof_Particle) ∧
    (∀ sys : System, CacheBounded sys →
      (∀ part, CacheBounded (get_particle_data sys part).2) ∧
      (∀ ids, CacheBounded (prefetch_particle_data sys ids).2)) := by
  have h0 : CacheInv (particle_fetch_cache_init sizeof_Particle, []) := by
    simp [CacheInv, particle_fetch_cache_init, recency]
  obtain ⟨h1, h2⟩ := CacheInv_foldl ops _ h0
  have h3 : (ops.foldl CacheOp.step (particle_fetch_cache_init sizeof_Particle, [])).1.max_size
      = max_cache_size sizeof_Particle := h2
  unfold CacheInv at h1
  rw [h3] at h1
  have h4 := congrArg List.length h1
  rw [List.length_map, List.length_take] at h4
  exact ⟨rfl, h3, by rw [h4]; exact Nat.min_le_left _ _, h4, h1, CacheBounded_kept⟩

/-- Instance of C17 with `sizeof(Particle) = 52428800`, a capacity of two entries: after
`put(1)`, `put(2)`, a hit on 1 and `put(3)` the resident ids are 3 and 1; the id 2, the
least recently used one, was evicted. -/
theorem fetch_cache_bounded_lru_witness :
    max_cache_size 52428800 = 2 ∧
    ([CacheOp.put 1 (Particle.withId 1), .put 2 (Particle.withId 2), .get 1,
        .put 3 (Particle.withId 3)].foldl CacheOp.step
      (particle_fetch_cache_init 52428800, [])).1.entries.map Prod.fst = [3, 1] :=
  ⟨by decide,
    (fetch_cache_bounded_lru 52428800
      [CacheOp.put 1 (Particle.withId 1), .put 2 (Particle.withId 2), .get 1,
        .put 3 (Particle.withId 3)]).2.2.2.2.1.trans (by decide)⟩

/-! ## Claim C18: `try_delete_bond` -/

/-- The loop over the partners runs to the end exactly when every partner from `j` on
matches. -/
theorem try_delete_bond_partners_spec (bond bl : List Int) (i partners : Nat) :
    ∀ (fuel j : Nat), j ≤ partners + 1 → partners + 1 ≤ fuel + j →
      (try_delete_bond_partners bond bl i partners fuel j > partners ↔
        ∀ k, j ≤ k → k ≤ partners → bond.getD k 0 = bl.getD (i + k) 0) := by
  intro fuel
  induction fuel with
  | zero =>
    intro j h1 h2
    simp only [try_delete_bond_partners]
    constructor
    · intro _ k hk1 hk2
      omega
    · intro _
      omega
  | succ fuel ih =>
    intro j h1 h2
    simp only [try_delete_bond_partners]
    by_cases hj : j ≤ partners
    · rw [if_pos hj]
      by_cases hne : bond.getD j 0 ≠ bl.getD (i + j) 0
      · rw [if_pos hne]
        constructor
        · intro h
          omega
        · intro h
          exact absurd (h j (le_refl j) hj) hne
      · rw [if_neg hne, ih (j + 1) (by omega) (by omega)]
        have he : bond.getD j 0 = bl.getD (i + j) 0 := not_not.mp hne
        constructor
        · intro h k hk1 hk2
          by_cases hkj : k = j
          · rw [hkj]
            exact he
          · exact h k (by omega) hk2
        · intro h k hk1 hk2
          exact h k (by omega) hk2
    · rw [if_neg hj]
      constructor
      · intro _ k hk1 hk2
        omega
      · intro _
        omega

/-- The partners of a record of the bond list match those of the bond exactly when the
partner lists are equal. -/
theorem partners_match_iff (pre post ps bps : List Int) (type btype : Int)
    (hlen : bps.length = ps.length) :
    (∀ k, 1 ≤ k → k ≤ ps.length →
      (btype :: bps).getD k 0 = (pre ++ (type :: ps) ++ post).getD (pre.length + k) 0) ↔
      bps = ps := by
  have hget : ∀ k, 1 ≤ k → k ≤ ps.length →
      (pre ++ (type :: ps) ++ post).getD (pre.length + k) 0 = ps.getD (k - 1) 0 ∧
      (btype :: bps).getD k 0 = bps.getD (k - 1) 0 := by
    intro k hk1 hk2
    obtain ⟨m, rfl⟩ : ∃ m, k = m + 1 := ⟨k - 1, by omega⟩
    constructor
    · rw [List.append_assoc, List.getD_append_right _ _ _ _ (by omega)]
      have h1 : pre.length + (m + 1) - pre.length = m + 1 := by omega
      rw [h1, List.cons_append, List.getD_cons_succ, List.getD_append _ _ _ _ (by omega)]
      rfl
    · rfl
  constructor
  · intro h
    apply List.ext_getElem hlen
    intro m h1 h2
    have h3 := h (m + 1) (by omega) (by omega)
    rw [(hget (m + 1) (by omega) (by omega)).1, (hget (m + 1) (by omega) (by omega)).2] at h3
    simp only [Nat.add_sub_cancel, List.getD_eq_getElem?_getD, List.getElem?_eq_getElem h1,
      List.getElem?_eq_getElem h2, Option.getD_some] at h3
    exact h3
  · intro h k hk1 hk2
    rw [(hget k hk1 hk2).1, (hget k hk1 hk2).2, h]

/-- The loop of `try_delete_bond` over a well-formed bond list, started at a record boundary with
enough iterations left: the first record equal to the bond is erased, and without such a
record the loop ends without a match. -/
theorem try_delete_bond_loop_spec (num : Int → Nat) (btype : Int) (bps : List Int)
    (hb : bps.length = num btype) (recs : List (List Int)) :
    ∀ (pre : List Int) (fuel : Nat), (∀ r ∈ recs, IsBondRecord num r) →
      recs.flatten.length ≤ fuel →
      try_delete_bond_loop num (btype :: bps) (pre ++ recs.flatten) fuel pre.length =
        if (btype :: bps) ∈ recs then some (pre ++ (recs.erase (btype :: bps)).flatten)
        else none := by
  induction recs with
  | nil =>
    intro pre fuel _ _
    cases fuel with
    | zero => simp [try_delete_bond_loop]
    | succ f => simp [try_delete_bond_loop]
  | cons r recs ih =>
    intro pre fuel hrec hfuel
    obtain ⟨type, ps, hr, hps⟩ := hrec r (List.mem_cons_self _ _)
    subst hr
    cases fuel with
    | zero => simp at hfuel
    | succ f =>
      have hbl : pre ++ ((type :: ps) :: recs).flatten = pre ++ (type :: ps) ++ recs.flatten := by
        simp
      have hi : pre.length < (pre ++ (type :: ps) ++ recs.flatten).length := by
        simp only [List.length_append, List.length_cons]
        omega
      have htype : (pre ++ (type :: ps) ++ recs.flatten).getD pre.length 0 = type := by
        rw [List.append_assoc, List.getD_append_right _ _ _ _ (le_refl _)]
        simp
      have hnext : pre.length + 1 + num type = (pre ++ (type :: ps)).length := by
        simp only [List.length_append, List.length_cons, hps]
        omega
      have hrecurse := ih (pre ++ (type :: ps)) f
        (fun r hr => hrec r (List.mem_cons_of_mem _ hr))
        (by
          simp only [List.flatten_cons, List.length_append, List.length_cons] at hfuel
          omega)
      rw [← hnext] at hrecurse
      have hskip : (type :: ps) ≠ btype :: bps →
          (if (btype :: bps) ∈ recs then
              some (pre ++ (type :: ps) ++ (recs.erase (btype :: bps)).flatten) else none) =
          (if (btype :: bps) ∈ (type :: ps) :: recs then
              some (pre ++ (((type :: ps) :: recs).erase (btype :: bps)).flatten) else none) := by
        intro hne
        have hne2 : ¬ ((type :: ps) == (btype :: bps)) = true := by
          rw [beq_iff_eq]
          exact hne
        rw [List.erase_cons_tail hne2]
        have hmem : (btype :: bps) ∈ (type :: ps) :: recs ↔ (btype :: bps) ∈ recs := by
          rw [List.mem_cons]
          constructor
          · intro h
            rcases h with h | h
            · exact absurd h.symm hne
            · exact h
          · intro h
            exact Or.inr h
        by_cases hm : (btype :: bps) ∈ recs
        · rw [if_pos hm, if_pos (hmem.mpr hm)]
          simp
        · rw [if_neg hm, if_neg (fun h => hm (hmem.mp h))]
      rw [hbl]
      unfold try_delete_bond_loop
      simp only [hi, if_true, htype]
      by_cases ht : type = btype
      · subst ht
        have hb0 : (type :: bps).getD 0 0 = type := rfl
        rw [hb0]
        simp only [ne_eq, not_true_eq_false, if_false]
        have hpm := partners_match_iff pre recs.flatten ps bps type type (hb.trans hps.symm)
        rw [hps] at hpm
        have hmatch := (try_delete_bond_partners_spec (type :: bps)
          (pre ++ (type :: ps) ++ recs.flatten) pre.length (num type) (num type) 1
          (by omega) (by omega)).trans hpm
        by_cases heq : bps = ps
        · subst heq
          rw [if_pos (hmatch.mpr rfl), if_pos (List.mem_cons_self _ _), List.erase_cons_head]
          congr 1
          rw [hnext, List.append_assoc, List.take_left, ← List.append_assoc, List.drop_left]
        · rw [if_neg (fun h => heq (hmatch.mp h)), hrecurse]
          exact hskip (fun h => heq (List.cons.inj h).2.symm)
      · have hb0 : (btype :: bps).getD 0 0 = btype := rfl
        rw [hb0, if_pos ht, hrecurse]
        exact hskip (fun h => ht (List.cons.inj h).1)

/-- C18: for a particle whose bond list is the concatenation of the records `records`
(each one a bond type followed by its `bonded_ia_params[type].num` partners) and a
non-null `bond` that is such a record itself: when some record equals `bond`,
`try_delete_bond` erases the first such record, keeps all other records in content and
order, and returns `ES_OK`; when no record equals `bond`, it returns `ES_ERROR` and leaves
the particle unchanged. With a null `bond` the whole list is cleared and `ES_OK` is
returned. -/
theorem try_delete_bond_first_match (num : Int → Nat) (part : Particle)
    (records : List (List Int)) (bond : List Int)
    (hrec : ∀ r ∈ records, IsBondRecord num r) (hbl : part.bl = records.flatten)
    (hbond : IsBondRecord num bond) :
    (∀ pre post, records = pre ++ bond :: post → bond ∉ pre →
      try_delete_bond num part (some bond) =
        ({ part with bl := (pre ++ post).flatten }, ES_OK)) ∧
    (bond ∉ records → try_delete_bond num part (some bond) = (part, ES_ERROR)) ∧
    try_delete_bond num part none = ({ part with bl := [] }, ES_OK) := by
  obtain ⟨btype, bps, hb1, hb⟩ := hbond
  subst hb1
  have hloop := try_delete_bond_loop_spec num btype bps hb records [] part.bl.length hrec
    (by rw [hbl])
  rw [List.nil_append, List.length_nil, ← hbl] at hloop
  refine ⟨?_, ?_, rfl⟩
  · intro pre post hsplit hpre
    have hmem : (btype :: bps) ∈ records := by
      rw [hsplit]
      exact List.mem_append_right _ (List.mem_cons_self _ _)
    have herase : records.erase (btype :: bps) = pre ++ post := by
      rw [hsplit, List.erase_append_right _ hpre, List.erase_cons_head]
    unfold try_delete_bond
    simp only [hloop, if_pos hmem, herase, List.nil_append]
  · intro hmem
    unfold try_delete_bond
    simp only [hloop, if_neg hmem]

/-- Instance of C18 with one partner for bond type 0 and two for type 1: of the two
records `[0, 5]` of the example particle the first is erased. -/
theorem try_delete_bond_first_match_witness :
    ((∀ r ∈ [[0, 5], [1, 2, 3], [0, 5], [1, 7, 8]], IsBondRecord exampleNum r) ∧
      bondedParticle.bl = [[0, 5], [1, 2, 3], [0, 5], [1, 7, 8]].flatten ∧
      IsBondRecord exampleNum [0, 5]) ∧
    try_delete_bond exampleNum bondedParticle (some [0, 5]) =
      ({ bondedParticle with bl := [1, 2, 3, 0, 5, 1, 7, 8] }, ES_OK) := by
  have hrec : ∀ r ∈ [[0, 5], [1, 2, 3], [0, 5], [1, 7, 8]], IsBondRecord exampleNum r := by
    intro r hr
    simp only [List.mem_cons, List.mem_singleton, List.not_mem_nil, or_false] at hr
    rcases hr with h | h | h | h <;> rw [h] <;> exact ⟨_, _, rfl, rfl⟩
  have hbond : IsBondRecord exampleNum [0, 5] := ⟨0, [5], rfl, rfl⟩
  exact ⟨⟨hrec, rfl, hbond⟩,
    (try_delete_bond_first_match exampleNum bondedParticle
      [[0, 5], [1, 2, 3], [0, 5], [1, 7, 8]] [0, 5] hrec rfl hbond).1
      [] [[1, 2, 3], [0, 5], [1, 7, 8]] rfl (by simp)⟩

/-! ## Claim C19: `Utils::Factory` -/

theorem find?_filter_ne {T : Type} (m : List (String × Builder T)) (name n : String)
    (h : name ≠ n) :
    (m.filter fun e => decide (e.1 ≠ name)).find? (fun e => decide (e.1 = n)) =
      m.find? fun e => decide (e.1 = n) := by
  induction m with
  | nil => rfl
  | cons a m ih =>
    by_cases ha : a.1 = name
    · subst ha
      have hp : decide (a.1 ≠ a.1) = false := by simp
      have hq : decide (a.1 = n) = false := by simpa using h
      rw [List.filter_cons, hp, List.find?_cons, hq]
      exact ih
    · simp only [List.filter_cons, ne_eq, ha, not_false_eq_true, decide_True, if_true,
        List.find?_cons, ih]

/-- The statement `m_map[name] = b` sets the entry of `name` and no other. -/
theorem Factory.find_register_new {T : Type} (f : Factory T) (name n : String)
    (b : Builder T) :
    (f.register_new name b).find n = if name = n then some b else f.find n := by
  unfold Factory.register_new Factory.find
  by_cases h : name = n
  · simp [h]
  · simp only [List.find?_cons, h, decide_False, if_false]
    rw [find?_filter_ne f.m_map name n h]

theorem Factory.find_foldl {T : Type} (regs : List (String × Builder T)) (name : String) :
    ∀ f : Factory T, name ∉ regs.map Prod.fst →
      (regs.foldl (fun f r => f.register_new r.1 r.2) f).find name = f.find name := by
  induction regs with
  | nil => intro f _; rfl
  | cons r regs ih =>
    intro f h
    simp only [List.map_cons, List.mem_cons, not_or] at h
    rw [List.foldl_cons, ih _ h.2, Factory.find_register_new,
      if_neg (fun e => h.1 e.symm)]

/-- The entry of a name is the builder of its last registration. -/
theorem Factory.find_registered {T : Type} (regs1 regs2 : List (String × Builder T))
    (name : String) (b : Builder T) (h : name ∉ regs2.map Prod.fst) :
    (Factory.registered (regs1 ++ (name, b) :: regs2)).find name = some b := by
  unfold Factory.registered
  rw [List.foldl_append, List.foldl_cons, Factory.find_foldl regs2 name _ h,
    Factory.find_register_new, if_pos rfl]

theorem Factory.has_builder_foldl {T : Type} (regs : List (String × Builder T))
    (name : String) :
    ∀ f : Factory T,
      (regs.foldl (fun f r => f.register_new r.1 r.2) f).has_builder name = true ↔
        (f.has_builder name = true ∨ ∃ b, (name, b) ∈ regs) := by
  induction regs with
  | nil => intro f; simp
  | cons r regs ih =>
    intro f
    rw [List.foldl_cons, ih]
    unfold Factory.has_builder
    rw [Factory.find_register_new]
    by_cases h : r.1 = name
    · simp only [h, if_true, Option.isNone_some, Bool.not_false, true_or, true_iff]
      exact Or.inr ⟨r.2, by rw [← h]; exact List.mem_cons_self _ _⟩
    · simp only [h, if_false, List.mem_cons]
      constructor
      · rintro (h1 | ⟨b, h1⟩)
        · exact Or.inl h1
        · exact Or.inr ⟨b, Or.inr h1⟩
      · rintro (h1 | ⟨b, h1 | h1⟩)
        · exact Or.inl h1
        · exact absurd (congrArg Prod.fst h1).symm h
        · exact Or.inr ⟨b, h1⟩

/-- The behaviour of `Factory::make` after any sequence of `register_new` calls:
`has_builder(name)` is true exactly when some `register_new(name, b)` was performed;
without a builder, `make(name)` throws the domain error "Class '<name>' not found."; with
the builder `b` of the last registration of `name`, `make(name)` returns the instance that
`b` produces and passes on every failure of `b` other than `std::out_of_range`. When `b`
itself throws `std::out_of_range`, `make(name)` throws the same domain error although
`has_builder(name)` is true. -/
theorem factory_make_spec {T : Type} (regs : List (String × Builder T)) (name : String) :
    ((Factory.registered regs).has_builder name = true ↔ ∃ b, (name, b) ∈ regs) ∧
    ((Factory.registered regs).has_builder name = false →
      (Factory.registered regs).make name = .error (not_found name)) ∧
    (∀ regs1 regs2 b, regs = regs1 ++ (name, some b) :: regs2 →
      name ∉ regs2.map Prod.fst →
      (Factory.registered regs).has_builder name = true ∧
      (∀ t, b () = .ok t → (Factory.registered regs).make name = .ok t) ∧
      (∀ e, b () = .error e → e ≠ .out_of_range →
        (Factory.registered regs).make name = .error e) ∧
      (b () = .error .out_of_range →
        (Factory.registered regs).make name = .error (not_found name))) := by
  refine ⟨?_, ?_, ?_⟩
  · unfold Factory.registered
    rw [Factory.has_builder_foldl]
    simp [Factory.has_builder, Factory.find, Factory.empty]
  · intro h
    unfold Factory.has_builder at h
    unfold Factory.make
    cases hf : (Factory.registered regs).find name with
    | none => rfl
    | some b =>
      rw [hf] at h
      simp at h
  · intro regs1 regs2 b hregs hlast
    have hf : (Factory.registered regs).find name = some (some b) := by
      rw [hregs]
      exact Factory.find_registered regs1 regs2 name (some b) hlast
    refine ⟨?_, ?_, ?_, ?_⟩
    · unfold Factory.has_builder
      rw [hf]
      rfl
    · intro t ht
      unfold Factory.make
      simp only [hf, ht]
    · intro e he hne
      unfold Factory.make
      simp only [hf, he]
      cases e with
      | out_of_range => exact absurd rfl hne
      | domain_error w => rfl
      | assertion => rfl
      | other w => rfl
    · intro he
      unfold Factory.make
      simp only [hf, he]

/-- C19, the input on which `make` diverges from the claim: `"c"` is registered in the
example factory, with a builder that throws `std::out_of_range`; `has_builder("c")` is
true and `make("c")` throws the domain error "Class 'c' not found.", while `"b"`, whose
builder returns an instance, is made, and `"d"`, which is not registered, is reported as
not found. -/
theorem factory_not_found_though_registered :
    exampleFactory.has_builder "c" = true ∧
    exampleFactory.make "c" = .error (.domain_error "Class \x27c\x27 not found.") ∧
    exampleFactory.make "b" = .ok 1 ∧
    exampleFactory.has_builder "d" = false ∧
    exampleFactory.make "d" = .error (.domain_error "Class \x27d\x27 not found.") :=
  ⟨by decide, rfl, rfl, by decide, rfl⟩

/-! ## Claim C20: `Utils::int_pow` -/

theorem int_pow_even {α : Type} [Mul α] [One α] (k : Nat) (x : α) (hk : 0 < k) :
    int_pow (2 * k) x = int_pow k (x * x) := by
  rw [int_pow]
  rw [if_neg (by omega), if_neg (by omega), if_pos (by omega)]
  congr 1
  omega

theorem int_pow_odd {α : Type} [Mul α] [One α] (k : Nat) (x : α) (hk : 0 < k) :
    int_pow (2 * k + 1) x = int_pow k (x * x) * x := by
  rw [int_pow]
  rw [if_neg (by omega), if_neg (by omega), if_neg (by omega)]
  congr 2
  omega

theorem int_pow_zero {α : Type} [Mul α] [One α] (x : α) : int_pow 0 x = 1 := by
  rw [int_pow, if_pos rfl]

theorem int_pow_one {α : Type} [Mul α] [One α] (x : α) : int_pow 1 x = x := by
  rw [int_pow, if_neg (by omega), if_pos rfl]

/-- In a monoid the squaring tree computes the power. -/
theorem int_pow_eq_pow {M : Type} [Monoid M] (n : Nat) : ∀ x : M, int_pow n x = x ^ n := by
  induction n using Nat.strong_induction_on with
  | _ n ih =>
    intro x
    by_cases h0 : n = 0
    · subst h0
      rw [int_pow_zero, pow_zero]
    · by_cases h1 : n = 1
      · subst h1
        rw [int_pow_one, pow_one]
      · by_cases h2 : n % 2 = 0
        · obtain ⟨k, rfl⟩ : ∃ k, n = 2 * k := ⟨n / 2, by omega⟩
          rw [int_pow_even k x (by omega), ih k (by omega), ← pow_two, ← pow_mul]
        · obtain ⟨k, rfl⟩ : ∃ k, n = 2 * k + 1 := ⟨n / 2, by omega⟩
          rw [int_pow_odd k x (by omega), ih k (by omega), ← pow_two, ← pow_mul, pow_succ]

/-- C20: in every monoid `int_pow<n>(x)` is the power `x^n`, with `int_pow<0>(x) = 1`; and
for every type with a product and a one, without any law, it is the squaring tree:
`int_pow<1>(x) = x`, `int_pow<2>(x) = x*x`, `int_pow<3>(x) = (x*x)*x`,
`int_pow<4>(x) = (x*x)*(x*x)`, `int_pow<5>(x) = (x*x)*(x*x)*x`, and for `k ≥ 1`,
`int_pow<2k>(x)` is `int_pow<k>(x*x)` and `int_pow<2k+1>(x)` is `int_pow<k>(x*x) * x`. -/
theorem int_pow_squaring_tree :
    (∀ (M : Type) [Monoid M] (n : Nat) (x : M), int_pow n x = x ^ n) ∧
    (∀ (α : Type) [Mul α] [One α] (x : α),
      int_pow 0 x = 1 ∧ int_pow 1 x = x ∧ int_pow 2 x = x * x ∧
      int_pow 3 x = (x * x) * x ∧ int_pow 4 x = (x * x) * (x * x) ∧
      int_pow 5 x = (x * x) * (x * x) * x) ∧
    (∀ (α : Type) [Mul α] [One α] (k : Nat) (x : α), 0 < k →
      int_pow (2 * k) x = int_pow k (x * x) ∧
      int_pow (2 * k + 1) x = int_pow k (x * x) * x) := by
  refine ⟨fun M _ n x => int_pow_eq_pow n x, ?_, fun α _ _ k x hk =>
    ⟨int_pow_even k x hk, int_pow_odd k x hk⟩⟩
  intro α _ _ x
  have h2 : int_pow 2 x = x * x := by
    rw [int_pow_even 1 x (by omega), int_pow_one]
  have h3 : int_pow 3 x = (x * x) * x := by
    rw [int_pow_odd 1 x (by omega), int_pow_one]
  have h4 : int_pow 4 x = (x * x) * (x * x) := by
    rw [int_pow_even 2 x (by omega), int_pow_even 1 (x * x) (by omega), int_pow_one]
  have h5 : int_pow 5 x = (x * x) * (x * x) * x := by
    rw [int_pow_odd 2 x (by omega), int_pow_even 1 (x * x) (by omega), int_pow_one]
  exact ⟨int_pow_zero x, int_pow_one x, h2, h3, h4, h5⟩

/-- Instance of C20 on the integers: `int_pow<5>(3) = 243`, and `int_pow<6>(x)` is
`int_pow<3>(x*x)`. -/
theorem int_pow_squaring_tree_witness :
    int_pow 5 (3 : Int) = 243 ∧ int_pow (2 * 3) (3 : Int) = int_pow 3 ((3 : Int) * 3) :=
  ⟨(int_pow_squaring_tree.1 Int 5 3).trans (by decide),
    (int_pow_squaring_tree.2.2 Int 3 3 (by omega)).1⟩

/-! ## Claim C29: `try_add_exclusion` and `try_delete_exclusion` -/

/-- The loop of `try_add_exclusion` finds `part2` exactly when the list holds it. -/
theorem try_add_exclusion_loop_iff (part2 : Int) (el : List Int) :
    try_add_exclusion_loop part2 el = true ↔ part2 ∈ el := by
  induction el with
  | nil => simp [try_add_exclusion_loop]
  | cons e el ih =>
    simp only [try_add_exclusion_loop, List.mem_cons]
    by_cases h : e = part2
    · simp [h]
    · rw [if_neg h, ih]
      constructor
      · intro h1; exact Or.inr h1
      · rintro (h1 | h1)
        · exact absurd h1.symm h
        · exact h1

theorem try_add_exclusion_of_mem (p : Particle) (x : Int) (h : x ∈ p.el) :
    try_add_exclusion p x = p := by
  unfold try_add_exclusion
  rw [if_pos ((try_add_exclusion_loop_iff x p.el).mpr h)]

theorem try_add_exclusion_of_not_mem (p : Particle) (x : Int) (h : x ∉ p.el) :
    try_add_exclusion p x = { p with el := p.el ++ [x] } := by
  unfold try_add_exclusion
  rw [if_neg (fun h1 => h ((try_add_exclusion_loop_iff x p.el).mp h1))]

theorem try_delete_exclusion_el (p : Particle) (x : Int) :
    (try_delete_exclusion p x).el = p.el.filter fun e => decide (e ≠ x) := by
  unfold try_delete_exclusion erase_remove
  cases h : p.el with
  | nil => simp [h]
  | cons a l => rfl

/-- C29: `try_add_exclusion(p, x)` leaves the record unchanged when `x` is in the exclusion
list and otherwise appends `x` at the end and changes nothing else; applying it twice is
applying it once, and a list without duplicates stays so. After a following
`try_delete_exclusion(p, x)` the list holds no `x` and is the list before the two calls
without its entries `x`, the other entries in their order; no other member of the record
is changed. -/
theorem try_add_exclusion_idempotent (p : Particle) (x : Int) :
    (x ∈ p.el → try_add_exclusion p x = p) ∧
    (x ∉ p.el → try_add_exclusion p x = { p with el := p.el ++ [x] }) ∧
    try_add_exclusion (try_add_exclusion p x) x = try_add_exclusion p x ∧
    (p.el.Nodup → (try_add_exclusion p x).el.Nodup) ∧
    x ∉ (try_delete_exclusion (try_add_exclusion p x) x).el ∧
    try_delete_exclusion (try_add_exclusion p x) x =
      { p with el := p.el.filter fun e => decide (e ≠ x) } := by
  have hmem : x ∈ (try_add_exclusion p x).el := by
    by_cases h : x ∈ p.el
    · rw [try_add_exclusion_of_mem p x h]; exact h
    · rw [try_add_exclusion_of_not_mem p x h]; simp
  have hdel : (try_delete_exclusion (try_add_exclusion p x) x).el =
      p.el.filter fun e => decide (e ≠ x) := by
    rw [try_delete_exclusion_el]
    by_cases h : x ∈ p.el
    · rw [try_add_exclusion_of_mem p x h]
    · rw [try_add_exclusion_of_not_mem p x h]
      simp [List.filter_append]
  refine ⟨try_add_exclusion_of_mem p x, try_add_exclusion_of_not_mem p x,
    try_add_exclusion_of_mem _ x hmem, ?_, ?_, ?_⟩
  · intro hnd
    by_cases h : x ∈ p.el
    · rw [try_add_exclusion_of_mem p x h]; exact hnd
    · rw [try_add_exclusion_of_not_mem p x h]
      simp only
      rw [List.nodup_append]
      refine ⟨hnd, List.nodup_singleton x, ?_⟩
      intro a ha hb
      rw [List.mem_singleton] at hb
      exact h (hb ▸ ha)
  · rw [hdel]
    simp
  · have hne : (try_add_exclusion p x).el.isEmpty = false := by
      cases h : (try_add_exclusion p x).el with
      | nil => rw [h] at hmem; simp at hmem
      | cons a l => rfl
    have hother : ∀ q : Particle, q.el.isEmpty = false →
        try_delete_exclusion q x = { q with el := q.el.filter fun e => decide (e ≠ x) } := by
      intro q hq
      unfold try_delete_exclusion erase_remove
      rw [hq]
      rfl
    rw [hother _ hne]
    by_cases h : x ∈ p.el
    · rw [try_add_exclusion_of_mem p x h]
    · rw [try_add_exclusion_of_not_mem p x h]
      simp [List.filter_append]

/-- Instance of C29: the exclusion 3 is added once to the list 1, 2 and not again, and
deleting it gives the list 1, 2 back. -/
theorem try_add_exclusion_idempotent_witness :
    ((3 : Int) ∉ ({ Particle.init with el := [1, 2] } : Particle).el ∧
      ({ Particle.init with el := [1, 2] } : Particle).el.Nodup) ∧
    try_add_exclusion { Particle.init with el := [1, 2] } 3 =
      { Particle.init with el := [1, 2, 3] } ∧
    (try_add_exclusion { Particle.init with el := [1, 2] } 3).el.Nodup :=
  ⟨⟨by decide, by decide⟩,
    (try_add_exclusion_idempotent { Particle.init with el := [1, 2] } 3).2.1 (by decide),
    (try_add_exclusion_idempotent { Particle.init with el := [1, 2] } 3).2.2.2.1 (by decide)⟩

/-! ## Lemmas on the frame of the update messages -/

/-- The data members of `Field` are all the members of a record. -/
theorem Field_get_ext (p q : Particle) (h : ∀ fld : Field, fld.get p = fld.get q) : p = q := by
  have h1 := h .identity
  have h2 := h .mol_id
  have h3 := h .type
  have h4 := h .r_p
  have h5 := h .m_v
  have h6 := h .f_f
  have h7 := h .l_ghost
  have h8 := h .l_i
  have h9 := h .bl
  have h10 := h .el
  simp only [Field.get, FieldValue.int.injEq, FieldValue.vec.injEq, FieldValue.bool.injEq,
    FieldValue.list.injEq] at h1 h2 h3 h4 h5 h6 h7 h8 h9 h10
  obtain ⟨⟨a1, a2, a3⟩, ⟨b⟩, ⟨c⟩, ⟨d⟩, ⟨e1, e2⟩, f, g⟩ := p
  obtain ⟨⟨a1', a2', a3'⟩, ⟨b'⟩, ⟨c'⟩, ⟨d'⟩, ⟨e1', e2'⟩, f', g'⟩ := q
  simp only at h1 h2 h3 h4 h5 h6 h7 h8 h9 h10
  subst h1 h2 h3 h4 h5 h6 h7 h8 h9 h10
  rfl

/-- A bond message changes the bond list only. -/
theorem UpdateBondMessage_apply_frame (num : Int → Nat) (p : Particle)
    (m : UpdateBondMessage) (fld : Field) (h : fld ≠ .bl) :
    fld.get (m.apply num p) = fld.get p := by
  have hp : ∀ q : Particle, q.p = p.p → q.r = p.r → q.m = p.m → q.f = p.f → q.l = p.l →
      q.el = p.el → fld.get q = fld.get p := by
    intro q h1 h2 h3 h4 h5 h6
    cases fld with
    | bl => exact absurd rfl h
    | identity => simp only [Field.get, h1]
    | mol_id => simp only [Field.get, h1]
    | type => simp only [Field.get, h1]
    | r_p => simp only [Field.get, h2]
    | m_v => simp only [Field.get, h3]
    | f_f => simp only [Field.get, h4]
    | l_ghost => simp only [Field.get, h5]
    | l_i => simp only [Field.get, h5]
    | el => simp only [Field.get, h6]
  cases m with
  | RemoveBond bond =>
    simp only [UpdateBondMessage.apply, try_delete_bond]
    split
    · exact hp _ rfl rfl rfl rfl rfl rfl
    · split
      · exact hp _ rfl rfl rfl rfl rfl rfl
      · rfl
  | RemoveBonds => exact hp _ rfl rfl rfl rfl rfl rfl
  | AddBond bond => exact hp _ rfl rfl rfl rfl rfl rfl

/-- A field update changes the addressed member only. -/
theorem FieldUpdate_apply_frame (num : Int → Nat) (p : Particle) (u : FieldUpdate)
    (fld : Field) (h : fld ≠ u.field) :
    fld.get (u.message.apply num p) = fld.get p := by
  cases u <;> cases fld <;> first | rfl | exact absurd rfl h

/-! ## Claim C25: `get_random_p_id` and the index −1 -/

/-- The behaviour of `get_random_p_id` for a tracked type whose set has fewer than `2 ^ 31`
ids and an `int` index below the largest `int`: an index in the range of the set returns
the element at that position, an index at or above the size and an index of −2 or below
throw the `std::runtime_error`, and the index −1 passes the check and reaches `std::next`
with a negative distance. -/
theorem get_random_p_id_spec (particle_type_map : List (Int × List Int)) (type : Int)
    (e : Int × List Int) (index : Int)
    (htracked : particle_type_map.find? (fun e => decide (e.1 = type)) = some e)
    (hsize : e.2.length < 2 ^ 31) (hlo : -(2 ^ 31) ≤ index) (hhi : index + 1 < 2 ^ 31) :
    (0 ≤ index ∧ index < e.2.length →
      ∃ id, e.2[index.toNat]? = some id ∧ id ∈ e.2 ∧
        get_random_p_id particle_type_map type index = .returns id) ∧
    ((e.2.length : Int) ≤ index ∨ index ≤ -2 →
      get_random_p_id particle_type_map type index = .throws_runtime_error) ∧
    (index = -1 → get_random_p_id particle_type_map type index = .undefined_behaviour) := by
  unfold get_random_p_id
  rw [if_neg (by omega), htracked]
  simp only
  refine ⟨?_, ?_, ?_⟩
  · rintro ⟨h0, h1⟩
    have hlt : index.toNat < e.2.length := by omega
    have hmod : ((index + 1) % 2 ^ 64).toNat = index.toNat + 1 := by
      rw [Int.emod_eq_of_lt (by omega) (by omega)]
      omega
    refine ⟨e.2[index.toNat], List.getElem?_eq_getElem hlt, List.getElem_mem _, ?_⟩
    rw [if_neg (by omega), if_pos h0, List.getElem?_eq_getElem hlt]
  · intro h
    rcases h with h | h
    · have hmod : ((index + 1) % 2 ^ 64).toNat = index.toNat + 1 := by
        rw [Int.emod_eq_of_lt (by omega) (by omega)]
        omega
      rw [if_pos (by omega)]
    · have hmod : (index + 1) % 2 ^ 64 = index + 1 + 2 ^ 64 := by
        rw [← Int.add_emod_self, Int.emod_eq_of_lt (by omega) (by omega)]
      rw [if_pos (by rw [hmod]; omega)]
  · intro h
    subst h
    rw [if_neg (by simp), if_neg (by decide)]

/-- C25, the divergence: for the type map that tracks type 0 with the ids 7 and 8,
`get_random_p_id(0, -1)` raises no error: the check `-1 + 1 > size()` is false and the call
goes on to `std::next(begin, -1)`, whose behaviour is undefined; the indices −2 and 2 throw
the `std::runtime_error` and the indices 0 and 1 return the ids 7 and 8. -/
theorem get_random_p_id_minus_one_not_rejected :
    get_random_p_id exampleTypeMap 0 (-1) = .undefined_behaviour ∧
    get_random_p_id exampleTypeMap 0 (-2) = .throws_runtime_error ∧
    get_random_p_id exampleTypeMap 0 2 = .throws_runtime_error ∧
    get_random_p_id exampleTypeMap 0 0 = .returns 7 ∧
    get_random_p_id exampleTypeMap 0 1 = .returns 8 := by
  refine ⟨?_, ?_, ?_, ?_, ?_⟩ <;> decide

/-! ## Claim C30: the cache of interpolation weights -/

theorem stored_weights_append {α : Type} (ws vs : List (InterpolationWeights α)) :
    stored_weights (ws ++ vs) = stored_weights ws ++ stored_weights vs := by
  induction ws with
  | nil => rfl
  | cons w ws ih => simp [stored_weights, ih]

theorem stored_weights_length {α : Type} (cao : Nat) (ws : List (InterpolationWeights α))
    (hw : ∀ w ∈ ws, w.hasOrder cao) : (stored_weights ws).length = 3 * ws.length * cao := by
  induction ws with
  | nil => simp [stored_weights]
  | cons w ws ih =>
    obtain ⟨h1, h2, h3⟩ := hw w (List.mem_cons_self _ _)
    have ih1 := ih fun v hv => hw v (List.mem_cons_of_mem _ hv)
    simp only [stored_weights, List.length_append, List.length_cons, h1, h2, h3, ih1]
    ring

/-- The calls of `store<cao>` on a cache of order `cao` all pass their assertion and append
the mesh indices and the weights. -/
theorem store_all_eq {α : Type} (cao : Nat) (ws : List (InterpolationWeights α))
    (c : p3m_interpolation_weights α) (hc : c.m_cao = cao) :
    store_all cao c ws = some { m_cao := cao, ca_frac := c.ca_frac ++ stored_weights ws,
                                ca_fmp := c.ca_fmp ++ ws.map fun w => w.ind } := by
  induction ws generalizing c with
  | nil =>
    subst hc
    simp [store_all, stored_weights]
  | cons w ws ih =>
    simp only [store_all, p3m_interpolation_weights.store, hc, if_true]
    rw [ih _ rfl]
    simp [stored_weights]

/-- A span that covers the middle part of a vector reads that part. -/
theorem read_span_middle {α : Type} (a b c : List α) :
    read_span (a ++ b ++ c) a.length b.length = some b := by
  unfold read_span
  rw [if_pos (by simp)]
  simp [List.append_assoc]

/-- The three spans of `load<cao>(i)` lie inside the stored weights and read the arrays of
the struct stored by call `i`. -/
theorem read_span_stored {α : Type} (cao : Nat) (ws : List (InterpolationWeights α))
    (hw : ∀ w ∈ ws, w.hasOrder cao) (i : Nat) (w : InterpolationWeights α)
    (hi : ws[i]? = some w) :
    read_span (stored_weights ws) (3 * i * cao + 0 * cao) cao = some w.w_x ∧
    read_span (stored_weights ws) (3 * i * cao + 1 * cao) cao = some w.w_y ∧
    read_span (stored_weights ws) (3 * i * cao + 2 * cao) cao = some w.w_z := by
  have hil : i < ws.length := by
    rcases Nat.lt_or_ge i ws.length with h | h
    · exact h
    · rw [List.getElem?_eq_none h] at hi; exact absurd hi (by simp)
  have hwi : ws[i] = w := by
    rw [List.getElem?_eq_getElem hil] at hi
    exact Option.some.inj hi
  have hsplit : ws = ws.take i ++ w :: ws.drop (i + 1) := by
    rw [← hwi, ← List.drop_eq_getElem_cons hil, List.take_append_drop]
  obtain ⟨h1, h2, h3⟩ := hw w (List.getElem?_mem hi)
  have hlen : (stored_weights (ws.take i)).length = 3 * i * cao := by
    rw [stored_weights_length cao (ws.take i) fun v hv => hw v (List.mem_of_mem_take hv)]
    rw [List.length_take, Nat.min_eq_left (Nat.le_of_lt hil)]
  have hst : stored_weights ws = stored_weights (ws.take i) ++
      (w.w_x ++ w.w_y ++ w.w_z ++ stored_weights (ws.drop (i + 1))) := by
    conv => lhs; rw [hsplit]
    rw [stored_weights_append]
    rfl
  refine ⟨?_, ?_, ?_⟩
  · have h := read_span_middle (stored_weights (ws.take i)) w.w_x
      (w.w_y ++ w.w_z ++ stored_weights (ws.drop (i + 1)))
    rw [hlen, h1] at h
    rw [hst, ← h]
    simp [List.append_assoc]
  · have h := read_span_middle (stored_weights (ws.take i) ++ w.w_x) w.w_y
      (w.w_z ++ stored_weights (ws.drop (i + 1)))
    rw [List.length_append, hlen, h1, h2] at h
    rw [hst, ← h]
    simp [List.append_assoc]
  · have h := read_span_middle (stored_weights (ws.take i) ++ w.w_x ++ w.w_y) w.w_z
      (stored_weights (ws.drop (i + 1)))
    rw [List.length_append, List.length_append, hlen, h1, h2, h3] at h
    rw [hst, ← h]
    have he : 3 * i * cao + 2 * cao = 3 * i * cao + cao + cao := by ring
    rw [he]
    simp [List.append_assoc]

/-- C30: after `reset(cao)` and the calls `store<cao>(w_0)`, ..., `store<cao>(w_{n-1})` with
arrays of `cao` weights each and `3 * n * cao` below `2 ^ 64`, every call has passed its
assertion, `size()` is `n`, and for every `i < n` the call `load<cao>(i)` passes its
assertions, reads `ca_fmp` and `ca_frac` inside their bounds and returns `w_i`: the same
`ind` and the same weights in `w_x`, `w_y` and `w_z`. -/
theorem store_load_round_trip {α : Type} (cao : Nat) (ws : List (InterpolationWeights α))
    (c0 : p3m_interpolation_weights α) (hw : ∀ w ∈ ws, w.hasOrder cao)
    (hsize : 3 * ws.length * cao < 2 ^ 64) :
    ∃ c, store_all cao (c0.reset cao) ws = some c ∧ c.size = ws.length ∧
      ∀ i w, ws[i]? = some w → c.load cao i = some w := by
  refine ⟨_, store_all_eq cao ws (c0.reset cao) rfl, ?_, ?_⟩
  · simp [p3m_interpolation_weights.size, p3m_interpolation_weights.reset]
  · intro i w hi
    have hil : i < ws.length := by
      rcases Nat.lt_or_ge i ws.length with h | h
      · exact h
      · rw [List.getElem?_eq_none h] at hi; exact absurd hi (by simp)
    obtain ⟨hx, hy, hz⟩ := read_span_stored cao ws hw i w hi
    have hoff : (3 * i * cao) % 2 ^ 64 = 3 * i * cao := by
      apply Nat.mod_eq_of_lt
      have : 3 * i * cao ≤ 3 * ws.length * cao :=
        Nat.mul_le_mul_right _ (Nat.mul_le_mul_left _ (Nat.le_of_lt hil))
      omega
    have hind : (ws.map fun w => w.ind)[i]? = some w.ind := by
      rw [List.getElem?_map, hi]; rfl
    simp only [p3m_interpolation_weights.load, p3m_interpolation_weights.size,
      p3m_interpolation_weights.reset, List.nil_append, List.length_map, hil, and_self,
      if_true, hind, hoff, hx, hy, hz]

/-- Instance of C30: two structs of order 2 are stored and the second is loaded. -/
theorem store_load_round_trip_witness :
    ∃ c, store_all 2 (p3m_interpolation_weights.reset ⟨0, [], []⟩ 2)
        [⟨5, [1, 2], [3, 4], [5, 6]⟩, ⟨7, [11, 12], [13, 14], [15, 16]⟩] = some c ∧
      c.size = 2 ∧
      c.load 2 1 = some (⟨7, [11, 12], [13, 14], [15, 16]⟩ : InterpolationWeights Int) := by
  obtain ⟨c, h1, h2, h3⟩ := store_load_round_trip 2
    [⟨5, [1, 2], [3, 4], [5, 6]⟩, (⟨7, [11, 12], [13, 14], [15, 16]⟩ : InterpolationWeights Int)]
    ⟨0, [], []⟩ (by
      intro w hw
      simp only [List.mem_cons, List.mem_singleton, List.not_mem_nil, or_false] at hw
      rcases hw with rfl | rfl <;> exact ⟨rfl, rfl, rfl⟩) (by decide)
  exact ⟨c, h1, h2, h3 1 _ rfl⟩

/-! ## Claims C21 and C27: appending and moving indexed records -/

/-- The entry of an id after the loop of `update_local_particles` depends on the entry of
that id before the loop only. -/
theorem update_loop_congr (pl : Nat) (ps : List Particle) (id : Int) :
    ∀ (i : Nat) (st st' : LocalState), st.local_particles id = st'.local_particles id →
      (update_local_particles_loop pl ps i st).local_particles id =
        (update_local_particles_loop pl ps i st').local_particles id := by
  induction ps with
  | nil => intro i st st' h; exact h
  | cons p ps ih =>
    intro i st st' h
    simp only [update_local_particles_loop]
    apply ih
    simp only [set_local_particle_data]
    rw [h]

/-- The index after `push_index` with a reallocation is the index after the loop of
`update_local_particles` over the extended list. -/
theorem push_index_realloc (st : LocalState) (l : Nat) (p : Particle)
    (hl : l < st.cells.length) :
    (push_index st l p true).local_particles =
      (update_local_particles_loop l (st.list l ++ [p]) 0
        (st.setList l (st.list l ++ [p]))).local_particles := by
  simp only [push_index, if_true, update_local_particles, list_setList, hl, and_self]

/-- The entry of the id of the appended record points to the new last slot. -/
theorem push_index_self (st : LocalState) (l : Nat) (p : Particle) (re : Bool)
    (hl : l < st.cells.length) :
    (push_index st l p re).local_particles p.p.identity = some ⟨l, st.n l⟩ := by
  cases re with
  | false =>
    simp [push_index, set_local_particle_data, local_particles_setList, LocalState.n,
      list_setList, hl]
  | true =>
    rw [push_index_realloc st l p hl]
    have h := update_loop_last l (st.list l ++ [p]) 0 (st.setList l (st.list l ++ [p]))
      (st.list l).length p (by simp) (by
        intro j r hj hr
        rw [List.getElem?_eq_none (by simp; omega)] at hr
        exact absurd hr (by simp))
    rw [h]
    simp [LocalState.n]

/-- The entry of an id after `push_index` depends on the list and on the entry of that id
before only. -/
theorem push_index_congr (st st' : LocalState) (l : Nat) (p : Particle) (re : Bool) (id : Int)
    (hl : l < st.cells.length) (hl' : l < st'.cells.length)
    (hlist : st.list l = st'.list l)
    (hlp : st.local_particles id = st'.local_particles id) :
    (push_index st l p re).local_particles id = (push_index st' l p re).local_particles id := by
  cases re with
  | false =>
    simp [push_index, set_local_particle_data, local_particles_setList, LocalState.n,
      list_setList, hl, hl', hlist, hlp]
  | true =>
    rw [push_index_realloc st l p hl, push_index_realloc st' l p hl', hlist]
    exact update_loop_congr _ _ _ _ _ _ hlp

/-- The entry of an id after `swap_remove_index` depends on the list and on the entry of
that id before only. -/
theorem swap_remove_index_congr (st st' : LocalState) (sl i : Nat) (p x : Particle)
    (re : Bool) (id : Int) (hx : st.part sl i = some x)
    (hlist : st.list sl = st'.list sl)
    (hlp : st.local_particles id = st'.local_particles id) :
    (swap_remove_index st sl i p re).local_particles id =
      (swap_remove_index st' sl i p re).local_particles id := by
  have hx' : st'.part sl i = some x := by
    unfold LocalState.part at hx ⊢
    rw [← hlist]; exact hx
  have hn : st'.n sl = st.n sl := by unfold LocalState.n; rw [hlist]
  cases re with
  | true =>
    obtain ⟨s4, hs4, hres⟩ := swap_remove_index_realloc st sl i p x hx
    obtain ⟨s4', hs4', hres'⟩ := swap_remove_index_realloc st' sl i p x hx'
    rw [hres, hres', ← hlist]
    apply update_loop_congr
    rw [hs4, hs4', hlp]
  | false =>
    by_cases hie : i = st.n sl - 1
    · have hie' : i = st'.n sl - 1 := by rw [hn]; exact hie
      have h1 : (swap_remove_index st sl i p false).local_particles = st.local_particles := by
        simp [swap_remove_index, ← hie, local_particles_setList]
      have h2 : (swap_remove_index st' sl i p false).local_particles
          = st'.local_particles := by
        simp [swap_remove_index, ← hie', local_particles_setList]
      rw [h1, h2, hlp]
    · have hie' : ¬ i = st'.n sl - 1 := by rw [hn]; exact hie
      have h1 : (swap_remove_index st sl i p false).local_particles =
          fun j => if j = ((st.list sl).getLastD p).p.identity then some ⟨sl, i⟩
            else st.local_particles j := by
        simp [swap_remove_index, hie, local_particles_setList, set_local_particle_data]
      have h2 : (swap_remove_index st' sl i p false).local_particles =
          fun j => if j = ((st'.list sl).getLastD p).p.identity then some ⟨sl, i⟩
            else st'.local_particles j := by
        simp [swap_remove_index, hie', local_particles_setList, set_local_particle_data]
      rw [h1, h2, hlist]
      simp only [hlp]

/-- Two storages with as many lists and the same records in every list are equal. -/
theorem cells_ext (st st' : LocalState) (hlen : st.cells.length = st'.cells.length)
    (h : ∀ c, st.list c = st'.list c) : st.cells = st'.cells := by
  apply List.ext_getElem hlen
  intro c h1 h2
  have hc := h c
  unfold LocalState.list at hc
  rw [List.getD_eq_getElem?_getD, List.getD_eq_getElem?_getD, List.getElem?_eq_getElem h1,
    List.getElem?_eq_getElem h2] at hc
  exact hc

/-- C21: `append_indexed_particle(l, part)` on a list of the rank returns the address of a
new last slot of `l`, which holds the new record; the earlier records of `l` and the
other lists are unchanged, and the index entry of the id of the new record points to the
new slot. When the resize reports no reallocation, the index entry of every other id is
unchanged. When it reports a reallocation, the entry of every id that no record of `l`
carries is unchanged, and the entry of every id that a record of `l` carries is rewritten
to the slot of `l` that holds it (the last such slot, should the id occur twice). -/
theorem append_indexed_particle_effect (st : LocalState) (l : Nat) (part : Particle)
    (re : Bool) (hl : l < st.cells.length) :
    ∃ st', append_indexed_particle st l part re = some (⟨l, st.n l⟩, st') ∧
      st'.list l = st.list l ++ [part] ∧
      st'.part l (st.n l) = some part ∧
      (∀ k, k < st.n l → st'.part l k = st.part l k) ∧
      (∀ c, c ≠ l → st'.list c = st.list c) ∧
      get_local_particle_data st' part.p.identity = some ⟨l, st.n l⟩ ∧
      (re = false → ∀ id, id ≠ part.p.identity →
        get_local_particle_data st' id = get_local_particle_data st id) ∧
      (re = true →
        (∀ id, (∀ q ∈ st'.list l, q.p.identity ≠ id) →
          get_local_particle_data st' id = get_local_particle_data st id) ∧
        (∀ k q, st'.part l k = some q →
          (∀ j r, k < j → st'.part l j = some r → r.p.identity ≠ q.p.identity) →
          get_local_particle_data st' q.p.identity = some ⟨l, k⟩)) := by
  have hlist : (push_index st l part re).list l = st.list l ++ [part] := by
    rw [list_push_index]; simp [hl]
  refine ⟨push_index st l part re, ?_, hlist, ?_, ?_, ?_, push_index_self st l part re hl,
    ?_, ?_⟩
  · rw [append_indexed_eq, if_pos hl]
  · unfold LocalState.part LocalState.n
    rw [hlist]
    simp
  · intro k hk
    unfold LocalState.part
    rw [hlist, List.getElem?_append_left hk]
  · intro c hc
    rw [list_push_index]
    simp [hc]
  · intro hre id hid
    subst hre
    simp [get_local_particle_data, push_index, set_local_particle_data,
      local_particles_setList, hid]
  · intro hre
    subst hre
    refine ⟨?_, ?_⟩
    · intro id hid
      rw [hlist] at hid
      exact push_index_frame st l part true id hl
        (hid part (by simp)) (fun r hr => hid r (List.mem_append_left _ hr))
    · intro k q hq hlater
      unfold LocalState.part at hq hlater
      rw [hlist] at hq hlater
      unfold get_local_particle_data
      rw [push_index_realloc st l part hl]
      have h := update_loop_last l (st.list l ++ [part]) 0
        (st.setList l (st.list l ++ [part])) k q hq hlater
      rw [h]
      simp

/-- Instance of C21: a record with id 7 is appended to list 0 of the example storage, with
a reallocation. -/
theorem append_indexed_particle_effect_witness :
    0 < exampleStore.cells.length ∧
    ∃ st', append_indexed_particle exampleStore 0 (Particle.withId 7) true
        = some (⟨0, exampleStore.n 0⟩, st') ∧
      st'.list 0 = exampleStore.list 0 ++ [Particle.withId 7] ∧
      get_local_particle_data st' 7 = some ⟨0, exampleStore.n 0⟩ := by
  refine ⟨by decide, ?_⟩
  obtain ⟨st', h1, h2, _, _, _, h3, _⟩ :=
    append_indexed_particle_effect exampleStore 0 (Particle.withId 7) true (by decide)
  exact ⟨st', h1, h2, h3⟩

/-- The function `move_unindexed_particle` moves the records as the swap-with-last removal
after the append does and leaves the index alone. -/
theorem move_unindexed_eq (st : LocalState) (dl sl i : Nat) :
    move_unindexed_particle st dl sl i =
      if dl < st.cells.length then
        (st.part sl i).map fun p =>
          (⟨dl, st.n dl⟩,
            { cells := (swap_remove_index (st.setList dl (st.list dl ++ [p])) sl i p false).cells
              local_particles := st.local_particles })
      else none := by
  unfold move_unindexed_particle
  by_cases h : dl < st.cells.length
  · simp only [h, if_true]
    cases hp : st.part sl i with
    | none => rfl
    | some p =>
      simp only [Option.map_some']
      have hn : (st.setList dl (st.list dl ++ [p])).n dl - 1 = st.n dl := by
        simp [LocalState.n, list_setList, h]
      rw [hn]
      congr 2
      unfold swap_remove_index
      by_cases hie : i = (st.setList dl (st.list dl ++ [p])).n sl - 1
      · simp only [hie, ne_eq, not_true_eq_false, if_false]
        rfl
      · simp only [hie, ne_eq, not_false_eq_true, if_true]
        rfl
  · simp [h]

/-- C27: for distinct lists `dl` and `sl` of a rank with unique ids and `i < sl.n`,
`extract_indexed_particle(sl, i)` returns a record and a state, on which
`append_indexed_particle(dl, ...)` returns an address and a state, and
`move_indexed_particle(dl, sl, i)` returns the same address and the same state: the same
lists and the same index. The function `move_unindexed_particle(dl, sl, i)` returns that
address too and leaves the same lists. -/
theorem move_indexed_is_extract_append (st : LocalState) (dl sl i : Nat)
    (re_dl re_sl : Bool) (hne : dl ≠ sl) (hdl : dl < st.cells.length) (hu : UniqueIds st)
    (hi : i < st.n sl) :
    ∃ p st1 q st',
      extract_indexed_particle st sl i re_sl = some (p, st1) ∧
      append_indexed_particle st1 dl p re_dl = some (q, st') ∧
      (∃ stm, move_indexed_particle st dl sl i re_dl re_sl = some (q, stm) ∧
        stm.cells = st'.cells ∧ stm.local_particles = st'.local_particles) ∧
      ∃ stu, move_unindexed_particle st dl sl i = some (q, stu) ∧ stu.cells = st'.cells := by
  obtain ⟨p, hp⟩ := part_of_lt st sl i hi
  have hil : i < (st.list sl).length := hi
  -- the three intermediate states
  let stA := set_local_particle_data st p.p.identity none
  let stS := swap_remove_index stA sl i p re_sl
  let stP := push_index st dl p re_dl
  have hpA : stA.part sl i = some p := hp
  have hpP : stP.part sl i = some p := by
    show (push_index st dl p re_dl).part sl i = some p
    unfold LocalState.part
    rw [list_push_index]
    simp only [Ne.symm hne, false_and, if_false]
    exact hp
  have hlenS : stS.cells.length = st.cells.length := by
    show (swap_remove_index stA sl i p re_sl).cells.length = st.cells.length
    rw [length_swap_remove_index]; rfl
  have hdlS : dl < stS.cells.length := by rw [hlenS]; exact hdl
  have hlistS : ∀ c, stS.list c = if c = sl then swap_remove (st.list sl) i else st.list c :=
    fun c => list_swap_remove_index stA sl i c p p re_sl hpA
  have hlistS_dl : stS.list dl = st.list dl := by rw [hlistS]; simp [hne]
  have hnS : stS.n dl = st.n dl := by unfold LocalState.n; rw [hlistS_dl]
  have hlistP_sl : stP.list sl = st.list sl := by
    show (push_index st dl p re_dl).list sl = st.list sl
    rw [list_push_index]; simp [Ne.symm hne]
  -- the lists of the two final states
  have hlist1 : ∀ c, (push_index stS dl p re_dl).list c =
      if c = sl then swap_remove (st.list sl) i
        else if c = dl then st.list dl ++ [p] else st.list c := by
    intro c
    rw [list_push_index, hlistS_dl, hlistS c]
    by_cases hc : c = sl
    · subst hc; simp [Ne.symm hne]
    · by_cases hc2 : c = dl
      · subst hc2; simp [hne, hdlS]
      · simp [hc, hc2]
  have hlist2 : ∀ c, (swap_remove_index stP sl i p re_sl).list c =
      if c = sl then swap_remove (st.list sl) i
        else if c = dl then st.list dl ++ [p] else st.list c := by
    intro c
    rw [list_swap_remove_index stP sl i c p p re_sl hpP, hlistP_sl]
    show (if c = sl then swap_remove (st.list sl) i else (push_index st dl p re_dl).list c) = _
    rw [list_push_index]
    by_cases hc : c = sl
    · simp [hc]
    · simp [hc, hdl]
  have hlen1 : (push_index stS dl p re_dl).cells.length = st.cells.length := by
    rw [length_push_index, hlenS]
  have hlen2 : ∀ r1 r2, (swap_remove_index (push_index st dl p r1) sl i p r2).cells.length
      = st.cells.length := by
    intro r1 r2
    rw [length_swap_remove_index, length_push_index]
  have hcells : (swap_remove_index stP sl i p re_sl).cells
      = (push_index stS dl p re_dl).cells := by
    apply cells_ext _ _ (by rw [hlen1]; exact hlen2 re_dl re_sl)
    intro c
    rw [hlist1, hlist2]
  -- ids of the records that stay in `sl` differ from the id of `p` and from the ids in `dl`
  have hsl_ne : ∀ r ∈ swap_remove (st.list sl) i, r.p.identity ≠ p.p.identity ∧
      ∀ q ∈ st.list dl, q.p.identity ≠ r.p.identity := by
    intro r hr
    obtain ⟨k, hk⟩ := List.getElem?_of_mem hr
    obtain ⟨k0, hk0, hne0, _, _⟩ := swap_remove_source (st.list sl) i k r hil hk
    refine ⟨?_, ?_⟩
    · intro hid
      exact hne0 (hu sl k0 r sl i p hk0 hp hid).2
    · intro q hq hid
      obtain ⟨j, hj⟩ := mem_list_part st dl q hq
      exact hne (hu dl j q sl k0 r hj hk0 hid).1
  have hdl_ne : ∀ q ∈ st.list dl, q.p.identity ≠ p.p.identity := by
    intro q hq hid
    obtain ⟨j, hj⟩ := mem_list_part st dl q hq
    exact hne (hu dl j q sl i p hj hp hid).1
  have hindex : (swap_remove_index stP sl i p re_sl).local_particles
      = (push_index stS dl p re_dl).local_particles := by
    funext id
    by_cases hin : ∃ r ∈ swap_remove (st.list sl) i, r.p.identity = id
    · -- an id that stays in `sl`
      obtain ⟨r, hr, hrid⟩ := hin
      obtain ⟨h1, h2⟩ := hsl_ne r hr
      have hfr : (push_index stS dl p re_dl).local_particles id = stS.local_particles id := by
        apply push_index_frame stS dl p re_dl id hdlS
        · rw [← hrid]; exact Ne.symm h1
        · rw [hlistS_dl, ← hrid]; exact h2
      rw [hfr]
      show _ = (swap_remove_index stA sl i p re_sl).local_particles id
      apply swap_remove_index_congr stP stA sl i p p re_sl id hpP hlistP_sl
      show (push_index st dl p re_dl).local_particles id = _
      rw [push_index_frame st dl p re_dl id hdl (by rw [← hrid]; exact Ne.symm h1)
        (by rw [← hrid]; exact h2)]
      show st.local_particles id = if id = p.p.identity then none else st.local_particles id
      rw [if_neg (by rw [← hrid]; exact h1)]
    · -- an id that `sl` does not hold afterwards
      have hnot : ∀ r ∈ swap_remove (st.list sl) i, r.p.identity ≠ id :=
        fun r hr hid => hin ⟨r, hr, hid⟩
      have hfr : (swap_remove_index stP sl i p re_sl).local_particles id
          = stP.local_particles id := by
        apply swap_remove_index_frame stP sl i p p re_sl id hpP
        rw [hlistP_sl]; exact hnot
      rw [hfr]
      by_cases hidp : id = p.p.identity
      · subst hidp
        show (push_index st dl p re_dl).local_particles p.p.identity = _
        rw [push_index_self st dl p re_dl hdl, push_index_self stS dl p re_dl hdlS, hnS]
      · show (push_index st dl p re_dl).local_particles id = _
        apply push_index_congr st stS dl p re_dl id hdl hdlS hlistS_dl.symm
        have hS : stS.local_particles id = stA.local_particles id :=
          swap_remove_index_frame stA sl i p p re_sl id hpA hnot
        rw [hS]
        show st.local_particles id = if id = p.p.identity then none else st.local_particles id
        rw [if_neg hidp]
  refine ⟨p, stS, ⟨dl, st.n dl⟩, push_index stS dl p re_dl, ?_, ?_, ?_, ?_⟩
  · rw [extract_indexed_eq, hp]; rfl
  · rw [append_indexed_eq, if_pos hdlS, hnS]
  · refine ⟨swap_remove_index stP sl i p re_sl, ?_, hcells, hindex⟩
    rw [move_indexed_eq, if_pos hdl, hp]; rfl
  · refine ⟨⟨(swap_remove_index (st.setList dl (st.list dl ++ [p])) sl i p false).cells,
      st.local_particles⟩, ?_, ?_⟩
    · rw [move_unindexed_eq, if_pos hdl, hp]; rfl
    · show (swap_remove_index (st.setList dl (st.list dl ++ [p])) sl i p false).cells = _
      rw [← hcells]
      have hl0 : ∀ c, (st.setList dl (st.list dl ++ [p])).list c
          = if c = dl then st.list dl ++ [p] else st.list c := by
        intro c
        rw [list_setList]
        by_cases hc : c = dl
        · simp [hc, hdl]
        · simp [hc]
      have hp0 : (st.setList dl (st.list dl ++ [p])).part sl i = some p := by
        unfold LocalState.part
        rw [hl0, if_neg (Ne.symm hne)]
        exact hp
      apply cells_ext _ _ (by rw [hlen2, length_swap_remove_index, length_setList])
      intro c
      rw [hlist2, list_swap_remove_index _ sl i c p p false hp0, hl0, hl0,
        if_neg (Ne.symm hne)]

/-- Instance of C27: the first record of list 0 of the example storage is moved to
list 1. -/
theorem move_indexed_is_extract_append_witness :
    ((1 : Nat) ≠ 0 ∧ 1 < exampleStore.cells.length ∧ 0 < exampleStore.n 0) ∧
    ∃ p st1 q st',
      extract_indexed_particle exampleStore 0 0 false = some (p, st1) ∧
      append_indexed_particle st1 1 p true = some (q, st') ∧
      (∃ stm, move_indexed_particle exampleStore 1 0 0 true false = some (q, stm) ∧
        stm.cells = st'.cells ∧ stm.local_particles = st'.local_particles) ∧
      ∃ stu, move_unindexed_particle exampleStore 1 0 0 = some (q, stu) ∧
        stu.cells = st'.cells :=
  ⟨⟨by decide, by decide, by decide⟩,
    move_indexed_is_extract_append exampleStore 1 0 0 true false (by decide) (by decide)
      (Consistent.unique _ (Consistent_of_check _ (by decide))) (by decide)⟩

/-! ## Claim C28: the sorted ids of the directory -/

theorem Directory.mem_keys_iff (d : Directory) (id : Int) :
    id ∈ d.keys ↔ d.count id = true := by
  unfold Directory.keys Directory.count
  induction d with
  | nil => simp [Directory.find]
  | cons kv rest ih =>
    obtain ⟨k, v⟩ := kv
    simp only [List.map_cons, List.mem_cons, Directory.find]
    by_cases hk : k = id
    · simp [hk]
    · rw [if_neg hk, ← ih]
      constructor
      · rintro (h | h)
        · exact absurd h.symm hk
        · exact h
      · exact Or.inr

/-- The statement `particle_node[id] = node` keeps the keys of the map distinct. -/
theorem Directory.keys_set_nodup (d : Directory) (k v : Int) (h : d.keys.Nodup) :
    (d.set k v).keys.Nodup := by
  have hsub : (d.erase k).keys.Sublist d.keys :=
    List.Sublist.map _ (List.filter_sublist _)
  have hnot : k ∉ (d.erase k).keys := by
    rw [Directory.mem_keys_iff]
    unfold Directory.count
    rw [Directory.find_erase, if_pos rfl]
    simp
  show (k :: (d.erase k).keys).Nodup
  exact List.nodup_cons.mpr ⟨hnot, h.sublist hsub⟩

theorem Directory.keys_foldl_set_nodup (ids : List Int) (v : Int) :
    ∀ d : Directory, d.keys.Nodup → (ids.foldl (fun d i => d.set i v) d).keys.Nodup := by
  induction ids with
  | nil => intro d h; exact h
  | cons a as ih => intro d h; exact ih _ (Directory.keys_set_nodup d a v h)

theorem mpi_who_has_loop_nodup (rest : List RankState) :
    ∀ (pnode : Nat) (d : Directory) (tr : List Comm), d.keys.Nodup →
      (mpi_who_has_loop pnode rest (d, tr)).1.keys.Nodup := by
  induction rest with
  | nil => intro pnode d tr h; exact h
  | cons a rest ih =>
    intro pnode d tr h
    obtain ⟨tr1, hstep⟩ := mpi_who_has_loop_cons pnode a rest d tr
    rw [hstep]
    exact ih _ _ _ (Directory.keys_foldl_set_nodup _ _ _ h)

/-- Building the directory keeps its keys distinct. -/
theorem build_if_empty_nodup (sys : System) (h : sys.master.particle_node.keys.Nodup) :
    (build_if_empty sys).master.particle_node.keys.Nodup := by
  unfold build_if_empty
  split
  · obtain ⟨tr, hd, _, _⟩ := build_particle_node_master sys
    rw [hd]
    exact mpi_who_has_loop_nodup _ _ _ _ (Directory.keys_foldl_set_nodup _ _ _ h)
  · exact h

/-- The fold of `get_maximal_particle_id` gives its start value or a key of the map. -/
theorem Directory.max_key_aux_mem (d : Directory) :
    ∀ m : Int, d.foldl (fun m kv => max m kv.1) m = m ∨
      d.foldl (fun m kv => max m kv.1) m ∈ d.keys := by
  induction d with
  | nil => intro m; exact Or.inl rfl
  | cons kv rest ih =>
    intro m
    simp only [List.foldl_cons, Directory.keys, List.map_cons, List.mem_cons]
    rcases ih (max m kv.1) with h | h
    · rw [h]
      rcases le_total m kv.1 with hle | hle
      · rw [max_eq_right hle]; exact Or.inr (Or.inl rfl)
      · rw [max_eq_left hle]; exact Or.inl rfl
    · exact Or.inr (Or.inr h)

/-- Every element of an ascending list is at most its last element. -/
theorem le_getLast_of_sorted (l : List Int) (h : l.Sorted (fun a b => a ≤ b)) (x last : Int)
    (hx : x ∈ l) (hlast : l.getLast? = some last) : x ≤ last := by
  have hl : l = l.dropLast ++ [last] := by
    have := List.dropLast_append_getLast? last hlast
    exact this.symm
  rw [hl] at h hx
  rcases List.mem_append.mp hx with hm | hm
  · exact (List.pairwise_append.mp h).2.2 x hm last (by simp)
  · simp at hm
    rw [hm]

/-- C28: on a well-formed system whose directory has distinct keys (it is a map),
`get_particle_ids()` returns a list in strictly ascending order, without duplicates, that
holds exactly the ids for which `particle_exists` returns true, and
`get_maximal_particle_id()` returns the last element of that list, or -1 when the list is
empty, which is when `particle_exists` is false for every id. -/
theorem get_particle_ids_sorted (sys : System) (hwf : SystemWF sys)
    (hmap : sys.master.particle_node.keys.Nodup) :
    (∀ id, id ∈ (get_particle_ids sys).1 ↔ (particle_exists sys id).1 = true) ∧
    (get_particle_ids sys).1.Nodup ∧
    (get_particle_ids sys).1.Sorted (fun a b => a < b) ∧
    (get_maximal_particle_id sys).1 = (get_particle_ids sys).1.getLast?.getD (-1) ∧
    ((get_particle_ids sys).1 = [] ↔ ∀ id, (particle_exists sys id).1 = false) := by
  have hperm : ((build_if_empty sys).master.particle_node.keys.insertionSort
      (fun a b => a ≤ b)).Perm (build_if_empty sys).master.particle_node.keys :=
    List.perm_insertionSort _ _
  have hnd := build_if_empty_nodup sys hmap
  have hsorted : ((build_if_empty sys).master.particle_node.keys.insertionSort
      (fun a b => a ≤ b)).Sorted (fun a b => a ≤ b) :=
    List.sorted_insertionSort (fun a b : Int => a ≤ b) _
  have hmem : ∀ id, id ∈ (get_particle_ids sys).1 ↔ (particle_exists sys id).1 = true := by
    intro id
    show id ∈ List.insertionSort _ _ ↔ (build_if_empty sys).master.particle_node.count id = true
    rw [hperm.mem_iff, Directory.mem_keys_iff]
  have hnd2 : (get_particle_ids sys).1.Nodup := hperm.nodup_iff.mpr hnd
  refine ⟨hmem, hnd2, ?_, ?_, ?_⟩
  · have hpw : List.Pairwise (fun a b : Int => a ≤ b) (get_particle_ids sys).1 := hsorted
    have hne : List.Pairwise (fun a b : Int => a ≠ b) (get_particle_ids sys).1 := hnd2
    exact (hpw.and hne).imp fun h => lt_of_le_of_ne h.1 h.2
  · show (build_if_empty sys).master.particle_node.max_key = _
    cases hlast : (get_particle_ids sys).1.getLast? with
    | none =>
      have hnil : (get_particle_ids sys).1 = [] := List.getLast?_eq_none_iff.mp hlast
      have hk : (build_if_empty sys).master.particle_node.keys = [] := by
        have := hperm.length_eq
        have h0 : ((get_particle_ids sys).1).length = 0 := by rw [hnil]; rfl
        exact List.length_eq_zero.mp (this ▸ h0)
      have hd : (build_if_empty sys).master.particle_node = [] := by
        unfold Directory.keys at hk
        exact List.map_eq_nil_iff.mp hk
      rw [hd]
      rfl
    | some last =>
      simp only [Option.getD_some]
      have hlmem : last ∈ (get_particle_ids sys).1 := by
        rw [← List.dropLast_append_getLast? last hlast]
        simp
      have hlk : last ∈ (build_if_empty sys).master.particle_node.keys := hperm.mem_iff.mp hlmem
      have hcount := (Directory.mem_keys_iff _ _).mp hlk
      unfold Directory.count at hcount
      obtain ⟨node, hnode⟩ := Option.isSome_iff_exists.mp hcount
      have hle := Directory.find_le_max_key _ last node hnode
      have h0 := (SystemWF.owner _ (SystemWF_build_if_empty sys hwf) last node hnode).1
      rcases Directory.max_key_aux_mem (build_if_empty sys).master.particle_node (-1) with h | h
      · have : (build_if_empty sys).master.particle_node.max_key = -1 := h
        omega
      · have hm : (build_if_empty sys).master.particle_node.max_key
            ∈ (get_particle_ids sys).1 := hperm.mem_iff.mpr h
        have := le_getLast_of_sorted _ hsorted _ last hm hlast
        omega
  · constructor
    · intro hnil id
      have := hmem id
      rw [hnil] at this
      cases hc : (particle_exists sys id).1 with
      | false => rfl
      | true => exact absurd (this.mpr hc) (by simp)
    · intro hall
      apply List.eq_nil_iff_forall_not_mem.mpr
      intro id hid
      have := (hmem id).mp hid
      rw [hall id] at this
      exact absurd this (by simp)

/-- Instance of C28: the example system of two ranks with the particles 0 to 5. -/
theorem get_particle_ids_sorted_witness :
    (get_particle_ids exampleSystem).1 = [0, 1, 2, 3, 4, 5] ∧
    (get_particle_ids exampleSystem).1.Sorted (fun a b => a < b) ∧
    (get_maximal_particle_id exampleSystem).1
      = (get_particle_ids exampleSystem).1.getLast?.getD (-1) :=
  ⟨by decide,
    (get_particle_ids_sorted exampleSystem exampleSystem_WF (by decide)).2.2.1,
    (get_particle_ids_sorted exampleSystem exampleSystem_WF (by decide)).2.2.2.1⟩

/-! ## Claim C22: the counter `max_seen_particle` on removal -/

/-- C22, the divergence: on the system of one rank with the particles 0 and 1, where 1 is
the maximal particle id and the value of `max_seen_particle`, the call `remove_particle(1)`
succeeds and removes the particle with the maximal id, and `max_seen_particle` is still 1
afterwards: the comparison `p_id == get_maximal_particle_id()` comes after
`particle_node.erase(p_id)`, where the maximal id is 0 already. -/
theorem remove_particle_max_seen_not_decreased :
    (get_maximal_particle_id placedTwo).1 = 1 ∧
    placedTwo.master.max_seen_particle = 1 ∧
    (remove_particle exampleNum false placedTwo 1).1 = .ok ES_OK ∧
    (particle_exists (remove_particle exampleNum false placedTwo 1).2 1).1 = false ∧
    (get_maximal_particle_id (remove_particle exampleNum false placedTwo 1).2).1 = 0 ∧
    (remove_particle exampleNum false placedTwo 1).2.master.max_seen_particle = 1 :=
  ⟨rfl, rfl, rfl, rfl, rfl, rfl⟩

theorem build_if_empty_max_seen (sys : System) :
    (build_if_empty sys).master.max_seen_particle = sys.master.max_seen_particle := by
  obtain ⟨d, tr, h⟩ := build_if_empty_eq sys
  rw [h]

theorem get_particle_node_max_seen (sys : System) (id : Int) :
    (get_particle_node sys id).2.master.max_seen_particle = sys.master.max_seen_particle := by
  rw [get_particle_node_state]
  split
  · rfl
  · exact build_if_empty_max_seen sys

theorem get_particle_data_max_seen (sys : System) (id : Int) :
    (get_particle_data sys id).2.master.max_seen_particle = sys.master.max_seen_particle := by
  have hn := get_particle_node_max_seen sys id
  unfold get_particle_data
  split
  · next e s1 heq => rw [heq] at hn; exact hn
  · next pnode s1 heq =>
    rw [heq] at hn
    split
    · split
      · exact hn
      · split
        · exact hn
        · exact hn
    · split
      · exact hn
      · simp only
        split
        · exact hn
        · exact hn

theorem mpi_remove_particle_max_seen (num : Int → Nat) (re : Bool) (sys : System)
    (pnode part : Int) (hpart : part ≠ -1) :
    (mpi_remove_particle num re sys pnode part).2.master.max_seen_particle
      = sys.master.max_seen_particle := by
  unfold mpi_remove_particle
  simp only
  split
  · rfl
  · split
    · rfl
    · next master hm =>
      unfold mpi_remove_particle_slave at hm
      rw [if_pos hpart] at hm
      simp only at hm
      split at hm
      · split at hm
        · exact Option.noConfusion hm
        · rw [← Option.some.inj hm]; rfl
      · rw [← Option.some.inj hm]; rfl

/-- The counter `max_seen_particle` of the head node after `remove_particle(p_id)`: it is
unchanged, unless the call succeeds through the branch `p_id == get_maximal_particle_id()`,
where `p_id` is the largest key of the directory after the call. -/
theorem remove_particle_max_seen_cases (num : Int → Nat) (re : Bool) (sys : System)
    (p_id : Int) (hid : 0 ≤ p_id) :
    (remove_particle num re sys p_id).2.master.max_seen_particle
        = sys.master.max_seen_particle ∨
      ((remove_particle num re sys p_id).2.master.max_seen_particle
          = sys.master.max_seen_particle - 1 ∧
        p_id = (remove_particle num re sys p_id).2.master.particle_node.max_key) := by
  have h1 := get_particle_data_max_seen sys p_id
  unfold remove_particle
  split
  · next e s1 heq => rw [heq] at h1; exact Or.inl h1
  · next cur_par s1 heq =>
    rw [heq] at h1
    simp only
    generalize hs2 : (if s1.master.type_list_enable = true then
        ({ s1 with master := { s1.master with
            particle_type_map :=
              remove_id_from_map s1.master.particle_type_map p_id cur_par.p.type } } : System)
        else s1) = s2
    have h2 : s2.master.max_seen_particle = sys.master.max_seen_particle := by
      rw [← hs2, ← h1]
      split <;> rfl
    have h3 := get_particle_node_max_seen s2 p_id
    split
    · next e s3 heq3 => rw [heq3] at h3; exact Or.inl (h3.trans h2)
    · next pnode s3 heq3 =>
      rw [heq3] at h3
      have h5 := mpi_remove_particle_max_seen num re
        { s3 with master := { s3.master with
            particle_node := s3.master.particle_node.set p_id (-1) } } pnode p_id (by omega)
      split
      · next e s5 heq5 => rw [heq5] at h5; exact Or.inl (h5.trans (h3.trans h2))
      · next u s5 heq5 =>
        rw [heq5] at h5
        have h5' : s5.master.max_seen_particle = sys.master.max_seen_particle :=
          h5.trans (h3.trans h2)
        simp only [get_maximal_particle_id]
        split
        · next hmax =>
          refine Or.inr ⟨?_, hmax⟩
          show (build_if_empty _).master.max_seen_particle - 1 = _
          rw [build_if_empty_max_seen]
          show s5.master.max_seen_particle - 1 = _
          rw [h5']
        · refine Or.inl ?_
          rw [build_if_empty_max_seen]
          exact h5'

/-- On a well-formed system `remove_particle(p_id)` never changes `max_seen_particle`: for
an id of the directory, the maximal id included, the call succeeds and the counter of the
head node is what it was. -/
theorem remove_particle_max_seen_unchanged (num : Int → Nat) (re : Bool) (sys : System)
    (p_id node : Int) (hwf : SystemWF sys)
    (hdir : sys.master.particle_node.find p_id = some node) :
    (remove_particle num re sys p_id).1 = .ok ES_OK ∧
    (remove_particle num re sys p_id).2.master.max_seen_particle
      = sys.master.max_seen_particle := by
  obtain ⟨sys', hrem, _, _, hnone, _, _⟩ := remove_particle_spec num re sys p_id node hwf hdir
  have hid := (SystemWF.owner sys hwf p_id node hdir).1
  refine ⟨by rw [hrem], ?_⟩
  rcases remove_particle_max_seen_cases num re sys p_id hid with h | ⟨_, hmax⟩
  · exact h
  · exfalso
    rw [hrem] at hmax
    simp only at hmax
    rcases Directory.max_key_aux_mem sys'.master.particle_node (-1) with hm | hm
    · have : sys'.master.particle_node.max_key = -1 := hm
      omega
    · have hk : p_id ∈ sys'.master.particle_node.keys := by
        rw [hmax]; exact hm
      have := (Directory.mem_keys_iff _ _).mp hk
      unfold Directory.count at this
      rw [hnone] at this
      exact absurd this (by simp)

/-! ## Claim C23: `remove_all_bonds_to` -/

/-- The loop over the partners in `remove_all_bonds_to` is left with `j <= partners` exactly
when some partner slot from `j` on holds `id`. -/
theorem remove_all_bonds_to_partners_spec (bl : List Int) (id : Int) (i partners : Nat) :
    ∀ (fuel j : Nat), j ≤ partners + 1 → partners + 1 ≤ fuel + j →
      (remove_all_bonds_to_partners bl id i partners fuel j ≤ partners ↔
        ∃ k, j ≤ k ∧ k ≤ partners ∧ bl.getD (i + k) 0 = id) := by
  intro fuel
  induction fuel with
  | zero =>
    intro j h1 h2
    simp only [remove_all_bonds_to_partners]
    constructor
    · intro h; omega
    · rintro ⟨k, hk1, hk2, _⟩; omega
  | succ fuel ih =>
    intro j h1 h2
    simp only [remove_all_bonds_to_partners]
    by_cases hj : j ≤ partners
    · rw [if_pos hj]
      by_cases he : bl.getD (i + j) 0 = id
      · rw [if_pos he]
        exact ⟨fun _ => ⟨j, le_refl j, hj, he⟩, fun _ => hj⟩
      · rw [if_neg he, ih (j + 1) (by omega) (by omega)]
        constructor
        · rintro ⟨k, hk1, hk2, hk3⟩
          exact ⟨k, by omega, hk2, hk3⟩
        · rintro ⟨k, hk1, hk2, hk3⟩
          have hne : k ≠ j := fun h => he (h ▸ hk3)
          exact ⟨k, by omega, hk2, hk3⟩
    · rw [if_neg hj]
      constructor
      · intro h; exact absurd h hj
      · rintro ⟨k, hk1, hk2, _⟩; omega

/-- Some partner slot of a record holds `id` exactly when `id` is among its partners. -/
theorem partner_slot_iff (pre post ps : List Int) (type id : Int) :
    (∃ k, 1 ≤ k ∧ k ≤ ps.length ∧
      (pre ++ (type :: ps) ++ post).getD (pre.length + k) 0 = id) ↔ id ∈ ps := by
  have hget : ∀ m, m < ps.length →
      (pre ++ (type :: ps) ++ post).getD (pre.length + (m + 1)) 0 = ps[m]?.getD 0 := by
    intro m hm
    rw [List.append_assoc, List.getD_append_right _ _ _ _ (by omega)]
    have h1 : pre.length + (m + 1) - pre.length = m + 1 := by omega
    rw [h1, List.cons_append, List.getD_cons_succ, List.getD_append _ _ _ _ (by omega),
      List.getD_eq_getElem?_getD]
  constructor
  · rintro ⟨k, hk1, hk2, hk3⟩
    obtain ⟨m, rfl⟩ : ∃ m, k = m + 1 := ⟨k - 1, by omega⟩
    have hm : m < ps.length := by omega
    rw [hget m hm, List.getElem?_eq_getElem hm] at hk3
    simp only [Option.getD_some] at hk3
    rw [← hk3]
    exact List.getElem_mem hm
  · intro hmem
    obtain ⟨m, hm, hm2⟩ := List.getElem_of_mem hmem
    refine ⟨m + 1, by omega, by omega, ?_⟩
    rw [hget m hm, List.getElem?_eq_getElem hm]
    exact hm2

/-- The loop of `remove_all_bonds_to` on a list of bond records, started at the first of
the records `recs` with at least one unit of fuel for each of them: it keeps the entries
before the index and the records that do not have `id` among their partners, and it is
left with the index at the end of the list. -/
theorem remove_all_bonds_to_loop_spec (num : Int → Nat) (id : Int) (recs : List (List Int)) :
    ∀ (pre : List Int) (fuel : Nat), (∀ r ∈ recs, IsBondRecord num r) →
      recs.length ≤ fuel →
      remove_all_bonds_to_loop num id fuel (pre ++ recs.flatten) pre.length =
        (pre ++ (recs.filter fun r => decide (id ∉ r.tail)).flatten,
          (pre ++ (recs.filter fun r => decide (id ∉ r.tail)).flatten).length) := by
  induction recs with
  | nil =>
    intro pre fuel _ _
    cases fuel with
    | zero => simp [remove_all_bonds_to_loop]
    | succ f => simp [remove_all_bonds_to_loop]
  | cons r recs ih =>
    intro pre fuel hrec hfuel
    obtain ⟨type, ps, hr, hps⟩ := hrec r (List.mem_cons_self _ _)
    subst hr
    have hrest : ∀ r ∈ recs, IsBondRecord num r := fun r hr => hrec r (List.mem_cons_of_mem _ hr)
    cases fuel with
    | zero => simp at hfuel
    | succ f =>
      have hf : recs.length ≤ f := by
        simp only [List.length_cons] at hfuel
        omega
      have hbl : pre ++ ((type :: ps) :: recs).flatten = pre ++ (type :: ps) ++ recs.flatten := by
        simp
      have hi : pre.length < (pre ++ (type :: ps) ++ recs.flatten).length := by
        simp only [List.length_append, List.length_cons]
        omega
      have htype : (pre ++ (type :: ps) ++ recs.flatten).getD pre.length 0 = type := by
        rw [List.append_assoc, List.getD_append_right _ _ _ _ (le_refl _)]
        simp
      rw [hbl]
      simp only [remove_all_bonds_to_loop, hi, if_true, htype, ← hps]
      have hj := remove_all_bonds_to_partners_spec (pre ++ (type :: ps) ++ recs.flatten) id
        pre.length ps.length ps.length 1 (by omega) (by omega)
      rw [partner_slot_iff pre recs.flatten ps type id] at hj
      by_cases hmem : id ∈ ps
      · rw [if_pos (hj.mpr hmem)]
        have htake : (pre ++ (type :: ps) ++ recs.flatten).take pre.length ++
            (pre ++ (type :: ps) ++ recs.flatten).drop (pre.length + 1 + ps.length)
            = pre ++ recs.flatten := by
          have h1 : (pre ++ (type :: ps) ++ recs.flatten).take pre.length = pre := by
            rw [List.append_assoc, List.take_left]
          have h2 : (pre ++ (type :: ps) ++ recs.flatten).drop (pre.length + 1 + ps.length)
              = recs.flatten := by
            have hl : (pre ++ (type :: ps)).length = pre.length + 1 + ps.length := by
              simp only [List.length_append, List.length_cons]
              omega
            rw [← hl, List.drop_left]
          rw [h1, h2]
        rw [htake, ih pre f hrest hf]
        have hkeep : decide (id ∉ (type :: ps).tail) = false := by
          simp [hmem]
        have hfil : (((type :: ps) :: recs).filter fun r => decide (id ∉ r.tail))
            = recs.filter fun r => decide (id ∉ r.tail) :=
          List.filter_cons_of_neg (by rw [hkeep]; simp)
        rw [hfil]
      · rw [if_neg (fun h => hmem (hj.mp h))]
        have hl : (pre ++ (type :: ps)).length = pre.length + 1 + ps.length := by
          simp only [List.length_append, List.length_cons]
          omega
        rw [← hl, ih (pre ++ (type :: ps)) f hrest hf]
        have hkeep : decide (id ∉ (type :: ps).tail) = true := by
          simp [hmem]
        have hfil : (((type :: ps) :: recs).filter fun r => decide (id ∉ r.tail))
            = (type :: ps) :: recs.filter fun r => decide (id ∉ r.tail) :=
          List.filter_cons_of_pos hkeep
        rw [hfil]
        simp

/-- The function `remove_all_bonds_to` on a well-formed bond list. -/
theorem remove_all_bonds_to_bl (num : Int → Nat) (p : Particle) (id : Int)
    (recs : List (List Int)) (hrec : ∀ r ∈ recs, IsBondRecord num r)
    (hbl : p.bl = recs.flatten) :
    (remove_all_bonds_to num p id).bl = (recs.filter fun r => decide (id ∉ r.tail)).flatten := by
  have hlen : recs.length ≤ recs.flatten.length := by
    clear hbl
    induction recs with
    | nil => simp
    | cons r recs ih =>
      obtain ⟨type, ps, hr, _⟩ := hrec r (List.mem_cons_self _ _)
      have := ih fun r hr => hrec r (List.mem_cons_of_mem _ hr)
      subst hr
      simp only [List.flatten_cons, List.length_append, List.length_cons]
      omega
  have h := remove_all_bonds_to_loop_spec num id recs [] recs.flatten.length hrec hlen
  simp only [List.nil_append, List.length_nil] at h
  show (remove_all_bonds_to_loop num id p.bl.length p.bl 0).1 = _
  rw [hbl, h]

/-- The records that remain after `local_remove_particle(part)` are the records of the other
particles after `remove_all_bonds_to(p, part)`. -/
theorem local_remove_particle_records (num : Int → Nat) (st : LocalState) (part : Int)
    (re : Bool) (c k : Nat) (p : Particle) (hcons : Consistent st)
    (hp : st.part c k = some p) (hpid : p.p.identity = part) :
    ∃ st', local_remove_particle num st part re = some st' ∧
      ∀ c1 k1 q, st'.part c1 k1 = some q →
        ∃ k0 q0, st.part c1 k0 = some q0 ∧ q0.p.identity ≠ part ∧
          q = remove_all_bonds_to num q0 part := by
  have huniq := Consistent.unique st hcons
  have hfind := local_remove_particle_find_unique st part c k p huniq hp hpid
  let g : Particle → Particle :=
    fun q => if q.identity = part then q else remove_all_bonds_to num q part
  have hg : ∀ q, (g q).p.identity = q.p.identity := fun q => by
    have := (remove_bonds_unless_p num part q).1
    show (if q.identity = part then q else remove_all_bonds_to num q part).p.identity = _
    rw [this]
  have hcons1 : Consistent (mapRecords g st) := Consistent_mapRecords g st hg hcons
  have hgp : g p = p := by
    show (if p.identity = part then p else remove_all_bonds_to num p part) = p
    have hpid' : p.identity = part := hpid
    rw [if_pos hpid']
  have hp1 : (mapRecords g st).part c k = some p := by
    rw [part_mapRecords, hp]
    show some (g p) = some p
    rw [hgp]
  obtain ⟨st', hex, _, hlists, _, _, _⟩ :=
    extract_indexed_Consistent (mapRecords g st) c k p re hcons1 hp1
  refine ⟨st', ?_, ?_⟩
  · unfold local_remove_particle
    rw [hfind]
    show (extract_indexed_particle (mapRecords g st) c k re).map Prod.snd = some st'
    rw [hex]
    rfl
  · intro c1 k1 q hq
    have hi : k < ((mapRecords g st).list c).length := (List.getElem?_eq_some.mp hp1).1
    have hsrc : ∃ k0, (mapRecords g st).part c1 k0 = some q ∧ ¬ (c1 = c ∧ k0 = k) := by
      unfold LocalState.part at hq
      rw [hlists c1] at hq
      by_cases hc : c1 = c
      · subst hc
        simp only [if_true] at hq
        obtain ⟨k0, h1, h2, _⟩ := swap_remove_source _ k k1 q hi hq
        exact ⟨k0, h1, fun h => h2 h.2⟩
      · simp only [hc, if_false] at hq
        exact ⟨k1, hq, fun h => hc h.1⟩
    obtain ⟨k0, hk0, hne⟩ := hsrc
    rw [part_mapRecords] at hk0
    cases h0 : st.part c1 k0 with
    | none => rw [h0] at hk0; exact Option.noConfusion hk0
    | some q0 =>
      rw [h0] at hk0
      have hq0 : g q0 = q := Option.some.inj hk0
      have hid : q0.p.identity ≠ part := by
        intro h
        exact hne (huniq c1 k0 q0 c k p h0 hp (h.trans hpid.symm))
      refine ⟨k0, q0, h0, hid, ?_⟩
      rw [← hq0]
      show (if q0.identity = part then q0 else remove_all_bonds_to num q0 part) = _
      have hid' : ¬ q0.identity = part := hid
      rw [if_neg hid']

/-- C23: on a bond list that is a sequence of bond records, the loop of
`remove_all_bonds_to(p, id)` is left, within the iterations the function has and with any
larger number, with the scan index at the end of the list (`i == bl->n`), and it leaves
exactly the records that do not have `id` among their partners, in their order; a record
whose type number is `id` and whose partners do not contain `id` is kept. Consequently, on a
consistently indexed storage with such bond lists that holds the particle `part`,
`local_remove_particle(part)` succeeds and every remaining record has a bond list that is a
sequence of bond records none of which has `part` among its partners. -/
theorem remove_all_bonds_to_exact (num : Int → Nat) :
    (∀ (id : Int) (p : Particle) (recs : List (List Int)), WellFormedBonds num p.bl recs →
      (∀ fuel, p.bl.length ≤ fuel →
        remove_all_bonds_to_loop num id fuel p.bl 0 =
          ((recs.filter fun r => decide (id ∉ r.tail)).flatten,
            (recs.filter fun r => decide (id ∉ r.tail)).flatten.length)) ∧
      (remove_all_bonds_to num p id).bl
        = (recs.filter fun r => decide (id ∉ r.tail)).flatten ∧
      (∀ r ∈ recs, (r ∈ recs.filter fun r => decide (id ∉ r.tail)) ↔ id ∉ r.tail) ∧
      (∀ ps, id :: ps ∈ recs → id ∉ ps →
        id :: ps ∈ recs.filter fun r => decide (id ∉ r.tail))) ∧
    (∀ (st : LocalState) (part : Int) (re : Bool) (c k : Nat) (p : Particle),
      Consistent st → st.part c k = some p → p.p.identity = part →
      (∀ c1 k1 q, st.part c1 k1 = some q → ∃ recs, WellFormedBonds num q.bl recs) →
      ∃ st', local_remove_particle num st part re = some st' ∧
        ∀ c1 k1 q, st'.part c1 k1 = some q →
          ∃ recs, WellFormedBonds num q.bl recs ∧ ∀ r ∈ recs, part ∉ r.tail) := by
  refine ⟨?_, ?_⟩
  · rintro id p recs ⟨hrec, hbl⟩
    have hlen : recs.length ≤ recs.flatten.length := by
      clear hbl
      induction recs with
      | nil => simp
      | cons r recs ih =>
        obtain ⟨type, ps, hr, _⟩ := hrec r (List.mem_cons_self _ _)
        have := ih fun r hr => hrec r (List.mem_cons_of_mem _ hr)
        subst hr
        simp only [List.flatten_cons, List.length_append, List.length_cons]
        omega
    refine ⟨?_, remove_all_bonds_to_bl num p id recs hrec hbl, ?_, ?_⟩
    · intro fuel hfuel
      rw [hbl] at hfuel ⊢
      have h := remove_all_bonds_to_loop_spec num id recs [] fuel hrec (by omega)
      simp only [List.nil_append, List.length_nil] at h
      exact h
    · intro r hr
      simp [List.mem_filter, hr]
    · intro ps hps hnot
      simp [List.mem_filter, hps, hnot]
  · intro st part re c k p hcons hp hpid hwf
    obtain ⟨st', hrem, hrecs⟩ := local_remove_particle_records num st part re c k p hcons hp hpid
    refine ⟨st', hrem, ?_⟩
    intro c1 k1 q hq
    obtain ⟨k0, q0, hq0, _, hqeq⟩ := hrecs c1 k1 q hq
    obtain ⟨recs, hrec, hbl⟩ := hwf c1 k0 q0 hq0
    refine ⟨recs.filter fun r => decide (part ∉ r.tail), ⟨?_, ?_⟩, ?_⟩
    · intro r hr
      exact hrec r (List.mem_filter.mp hr).1
    · rw [hqeq]
      exact remove_all_bonds_to_bl num q0 part recs hrec hbl
    · intro r hr
      have := (List.mem_filter.mp hr).2
      simpa using this

/-- Instance of C23: the particle 1 is removed from the storage with the particles 0 and 1,
where particle 0 has the bonds `[0, 1]`, `[1, 0, 2]` and `[1, 1, 2]`; the record
`[1, 0, 2]`, whose type number is 1, stays. -/
theorem remove_all_bonds_to_exact_witness :
    (remove_all_bonds_to exampleNum bondedTo1 1).bl = [1, 0, 2] ∧
    remove_all_bonds_to_loop exampleNum 1 8 bondedTo1.bl 0 = ([1, 0, 2], 3) ∧
    ∃ st', local_remove_particle exampleNum bondedStore 1 false = some st' ∧
      ∀ c1 k1 q, st'.part c1 k1 = some q →
        ∃ recs, WellFormedBonds exampleNum q.bl recs ∧ ∀ r ∈ recs, (1 : Int) ∉ r.tail := by
  have hwf0 : WellFormedBonds exampleNum bondedTo1.bl [[0, 1], [1, 0, 2], [1, 1, 2]] := by
    refine ⟨?_, rfl⟩
    intro r hr
    simp only [List.mem_cons, List.mem_singleton, List.not_mem_nil, or_false] at hr
    rcases hr with rfl | rfl | rfl
    · exact ⟨0, [1], rfl, rfl⟩
    · exact ⟨1, [0, 2], rfl, rfl⟩
    · exact ⟨1, [1, 2], rfl, rfl⟩
  have h1 := (remove_all_bonds_to_exact exampleNum).1 1 bondedTo1 _ hwf0
  refine ⟨h1.2.1, h1.1 8 (by decide), ?_⟩
  apply (remove_all_bonds_to_exact exampleNum).2 bondedStore 1 false 0 1 (Particle.withId 1)
    (Consistent_of_check bondedStore (by decide)) rfl rfl
  intro c1 k1 q hq
  match c1, k1, hq with
  | 0, 0, hq =>
    have : q = bondedTo1 := (Option.some.inj hq).symm
    rw [this]
    exact ⟨_, hwf0⟩
  | 0, 1, hq =>
    have : q = Particle.withId 1 := (Option.some.inj hq).symm
    rw [this]
    exact ⟨[], fun r hr => absurd hr (List.not_mem_nil r), rfl⟩
  | 0, k + 2, hq => exact Option.noConfusion hq
  | c + 1, k, hq =>
    have hnil : bondedStore.list (c + 1) = [] := by
      unfold LocalState.list bondedStore
      simp
    unfold LocalState.part at hq
    rw [hnil] at hq
    exact Option.noConfusion hq

/-! ## Claim C24: the calls of `auto_exclusions` -/

/-- The calls that the last loop of `auto_exclusions` issues for the particle `id`: one
call `change_exclusion(id, e, 0)` for every entry `e` of `partners[id]` above `id`, at an
even or an odd position. -/
theorem setup_exclusions_loop_mem (id : Int) (il : List Int) (a b d : Int) :
    (a, b, d) ∈ setup_exclusions_loop id il ↔ a = id ∧ b ∈ il ∧ id < b ∧ d = 0 := by
  induction il with
  | nil => simp [setup_exclusions_loop]
  | cons e il ih =>
    simp only [setup_exclusions_loop, List.mem_cons]
    by_cases h : id < e
    · rw [if_pos h, List.mem_cons, ih]
      constructor
      · rintro (h1 | ⟨h1, h2, h3, h4⟩)
        · have ha : a = id := (Prod.mk.inj h1).1
          have hb : b = e := (Prod.mk.inj (Prod.mk.inj h1).2).1
          have hd : d = 0 := (Prod.mk.inj (Prod.mk.inj h1).2).2
          exact ⟨ha, Or.inl hb, hb ▸ h, hd⟩
        · exact ⟨h1, Or.inr h2, h3, h4⟩
      · rintro ⟨h1, h2 | h2, h3, h4⟩
        · exact Or.inl (by rw [h1, h2, h4])
        · exact Or.inr ⟨h1, h2, h3, h4⟩
    · rw [if_neg h, ih]
      constructor
      · rintro ⟨h1, h2, h3, h4⟩
        exact ⟨h1, Or.inr h2, h3, h4⟩
      · rintro ⟨h1, h2 | h2, h3, h4⟩
        · exact absurd (h2 ▸ h3) h
        · exact ⟨h1, h2, h3, h4⟩

/-- C24, the divergence: for the particles 0, 1 and 2 with one bond from 0 to 2 (a bond
type with one partner) `auto_exclusions(1)` finds the partner 2 at distance 1 for
particle 0, so `partners[0]` is the interleaved list `2, 1` with the one partner id 2, and
it issues `change_exclusion(0, 2, 0)` and then `change_exclusion(0, 1, 0)`: the last loop
steps through the list with `j++`, so the stored distance 1 is passed as a particle id,
although particle 1 is no partner of particle 0. -/
theorem auto_exclusions_distance_as_partner :
    (auto_exclusions exampleNum bondedCfg 1 4).map (fun r => (r.1 0, r.1 1, r.1 2, r.2))
      = some ([2, 1], [], [0, 1], [(0, 2, 0), (0, 1, 0)]) ∧
    partner_ids [2, 1] = [2] ∧
    (1 : Int) ∉ partner_ids [2, 1] :=
  ⟨rfl, rfl, by decide⟩

/-! ## Claim C1: the invariant as stated -/

/-- A valid sequence of calls has valid list and slot indices. -/
theorem ValidSlotsRun_of_ValidRun (ops : List Op) :
    ∀ st : LocalState, ValidRun st ops → ValidSlotsRun st ops := by
  induction ops with
  | nil => intro st _; trivial
  | cons op ops ih =>
    intro st h
    refine ⟨?_, fun st1 x hstep => ih st1 (h.2 st1 x hstep)⟩
    cases op with
    | append l part re => exact h.1.1
    | move dl sl i re_dl re_sl => exact h.1
    | extract sl i re => exact h.1

/-- Counterexample to C1 as stated: on the example storage, whose ids are unique and whose
records are indexed to their slots, the record of slot 0 of list 0 is extracted and
appended to list 1, with valid indices and an id that no stored record has at that time;
afterwards the id of the extracted record maps to slot 1 of list 1, not to no slot. And
when a record with the id 0 is appended to list 1 while list 0 holds the record 0, with a
valid list index, the record 0 of list 0 is no longer returned at its slot. -/
theorem extracted_id_mapped_again :
    (UniqueIds exampleStore ∧ Consistent exampleStore) ∧
    (ValidRun exampleStore reinsertOps ∧ ValidSlotsRun exampleStore reinsertOps ∧
      ∃ st', run exampleStore reinsertOps = some (st', [Particle.withId 0]) ∧
        get_local_particle_data st' 0 = some ⟨1, 1⟩ ∧
        ¬ IndexedAndExtractedUnmapped exampleStore reinsertOps) ∧
    (ValidSlotsRun exampleStore duplicateOps ∧
      ∃ st', run exampleStore duplicateOps = some (st', []) ∧
        st'.part 0 0 = some (Particle.withId 0) ∧
        get_local_particle_data st' 0 = some ⟨1, 1⟩ ∧
        ¬ IndexedAndExtractedUnmapped exampleStore duplicateOps) := by
  have hc : Consistent exampleStore := Consistent_of_check exampleStore (by decide)
  have hv : ValidRun exampleStore reinsertOps :=
    ValidRun_of_check reinsertOps exampleStore (by decide)
  refine ⟨⟨Consistent.unique _ hc, hc⟩, ⟨hv, ValidSlotsRun_of_ValidRun _ _ hv, ?_⟩, ?_, ?_⟩
  · refine ⟨_, rfl, rfl, ?_⟩
    rintro ⟨st', ex, hrun, _, hex⟩
    have hrun0 : run exampleStore reinsertOps = some (_, [Particle.withId 0]) := rfl
    rw [hrun0] at hrun
    have hst := (Prod.mk.inj (Option.some.inj hrun)).1
    have hexs := (Prod.mk.inj (Option.some.inj hrun)).2
    have h0 := hex (Particle.withId 0) (by rw [← hexs]; simp)
    rw [← hst] at h0
    have h1 : (some ⟨1, 1⟩ : Option Ptr) = none := h0
    exact Option.noConfusion h1
  · refine ⟨?_, fun _ _ _ => trivial⟩
    show 1 < exampleStore.cells.length
    decide
  · refine ⟨_, rfl, rfl, rfl, ?_⟩
    rintro ⟨st', ex, hrun, hidx, _⟩
    have hrun0 : run exampleStore duplicateOps = some (_, []) := rfl
    rw [hrun0] at hrun
    have hst := (Prod.mk.inj (Option.some.inj hrun)).1
    have h0 := hidx 0 0 (Particle.withId 0) (by rw [← hst]; rfl)
    rw [← hst] at h0
    have h1 : (some ⟨1, 1⟩ : Option Ptr) = some ⟨0, 0⟩ := h0
    exact absurd (Option.some.inj h1) (by decide)

/-! ## Claim C7: the directory after `place_particle` -/

theorem emptyDirSystem_WF : SystemWF emptyDirSystem := by
  refine ⟨twoRanks_RankWF _ _, twoRanks_DisjointIds _ _, ?_⟩
  intro id node h
  exact Option.noConfusion h

/-- Counterexample to C7 as stated: on the example system of two ranks with an invalidated
(empty) directory, particle 5 exists, and `place_particle(5, pos)` returns `ES_PART_OK`;
the directory, empty before the call, holds the six particles of the system afterwards,
since `particle_exists` rebuilds an empty directory. -/
theorem place_existing_rebuilds_directory :
    SystemWF emptyDirSystem ∧
    emptyDirSystem.master.particle_node = [] ∧
    (particle_exists emptyDirSystem 5).1 = true ∧
    (place_particle exampleDec false emptyDirSystem 5 (3, 0, 0)).1 = .ok ES_PART_OK ∧
    (place_particle exampleDec false emptyDirSystem 5 (3, 0, 0)).2.master.particle_node
      = [(5, 1), (4, 1), (3, 0), (2, 0), (1, 0), (0, 0)] ∧
    ¬ PlaceExistingKeepsDirectory exampleDec false emptyDirSystem 5 (3, 0, 0) := by
  have hd : (place_particle exampleDec false emptyDirSystem 5 (3, 0, 0)).2.master.particle_node
      = [(5, 1), (4, 1), (3, 0), (2, 0), (1, 0), (0, 0)] := rfl
  refine ⟨emptyDirSystem_WF, rfl, rfl, rfl, hd, ?_⟩
  intro h
  obtain ⟨sys', h1, h2⟩ := h rfl
  rw [h1] at hd
  simp only at hd
  rw [hd] at h2
  exact List.noConfusion h2

/-- C7, amended: on a well-formed system and for `id ≥ 0`: when the id does not exist and
the decomposition places the new particle on rank `r`, `place_particle(id, pos)` returns
`ES_PART_CREATED`, `get_particle_node(id)` called immediately afterwards succeeds without
changing the state and returns `r`, the rank on which the record was created; when the id
exists, `place_particle` returns `ES_PART_OK` and leaves the directory as `particle_exists`
left it: unchanged when it was not empty, and rebuilt by `build_particle_node` when it was
empty. -/
theorem place_particle_directory (dec : Decomposition) (re : Bool) (sys : System) (id : Int)
    (pos : Vector3d) (hwf : SystemWF sys) (hid : 0 ≤ id) :
    (∀ r : Nat, (particle_exists sys id).1 = false → PlacedOn dec sys id pos r →
      ∃ sys', place_particle dec re sys id pos = (.ok ES_PART_CREATED, sys') ∧
        get_particle_node sys' id = (.ok (r : Int), sys') ∧
        ∃ rs, sys'.rank r = some rs ∧ Stored rs.store id) ∧
    ((particle_exists sys id).1 = true →
      ∃ sys', place_particle dec re sys id pos = (.ok ES_PART_OK, sys') ∧
        sys'.master.particle_node = (particle_exists sys id).2.master.particle_node ∧
        (sys.master.particle_node.isEmpty = false →
          sys'.master.particle_node = sys.master.particle_node) ∧
        (sys.master.particle_node.isEmpty = true →
          sys'.master.particle_node = (build_particle_node sys).master.particle_node)) := by
  constructor
  · intro r hex hplaced
    have hex' : particle_exists sys id = (false, build_if_empty sys) := by
      unfold particle_exists at hex ⊢
      simp only at hex ⊢
      rw [hex]
    obtain ⟨s2, hnew, _, rs, hrank, hstored⟩ :=
      mpi_place_new_particle_spec dec re (build_if_empty sys) id pos r
        (PlacedOn_build_if_empty dec sys id pos r hplaced)
    unfold place_particle
    rw [hex']
    simp only [hnew]
    refine ⟨_, rfl, ?_, ?_⟩
    · apply get_particle_node_of_find _ id r hid
      exact (Directory.find_set _ id r id).trans (if_pos rfl)
    · cases r with
      | zero =>
        refine ⟨_, rfl, ?_⟩
        rw [← Option.some.inj hrank] at hstored
        exact hstored
      | succ j => exact ⟨rs, hrank, hstored⟩
  · intro hex
    have hex' : particle_exists sys id = (true, build_if_empty sys) := by
      unfold particle_exists at hex ⊢
      simp only at hex ⊢
      rw [hex]
    have hcount : (build_if_empty sys).master.particle_node.count id = true := hex
    unfold Directory.count at hcount
    obtain ⟨node, hdir⟩ := Option.isSome_iff_exists.mp hcount
    have hwf1 := SystemWF_build_if_empty sys hwf
    obtain ⟨s3, hplace, hpn⟩ :=
      mpi_place_particle_spec dec re (build_if_empty sys) id node pos hwf1 hdir
    refine ⟨s3, ?_, ?_, ?_, ?_⟩
    · unfold place_particle
      rw [hex']
      simp only [get_particle_node_of_find (build_if_empty sys) id node hid hdir, hplace]
    · rw [hex']
      exact hpn
    · intro hne
      rw [hpn, build_if_empty_of_nonempty sys hne]
    · intro he
      rw [hpn, build_if_empty_of_empty sys he]

/-- Instance of C7 on the example system: particle 7 is new and placed on rank 1;
particle 5 exists, with the directory in place and with an empty directory. -/
theorem place_particle_directory_witness :
    (SystemWF exampleSystem ∧ (0 : Int) ≤ 7 ∧ (0 : Int) ≤ 5) ∧
    (∃ sys', place_particle exampleDec false exampleSystem 7 (1, 0, 0)
        = (.ok ES_PART_CREATED, sys') ∧
      get_particle_node sys' 7 = (.ok ((1 : Nat) : Int), sys') ∧
      ∃ rs, sys'.rank 1 = some rs ∧ Stored rs.store 7) ∧
    (∃ sys', place_particle exampleDec false exampleSystem 5 (3, 0, 0) = (.ok ES_PART_OK, sys') ∧
      sys'.master.particle_node = exampleSystem.master.particle_node) ∧
    (∃ sys', place_particle exampleDec false emptyDirSystem 5 (3, 0, 0) = (.ok ES_PART_OK, sys') ∧
      sys'.master.particle_node = (build_particle_node emptyDirSystem).master.particle_node) := by
  refine ⟨⟨exampleSystem_WF, by decide, by decide⟩,
    (place_particle_directory exampleDec false exampleSystem 7 (1, 0, 0) exampleSystem_WF
      (by decide)).1 1 rfl examplePlaced, ?_, ?_⟩
  · obtain ⟨sys', h1, _, h3, _⟩ :=
      (place_particle_directory exampleDec false exampleSystem 5 (3, 0, 0) exampleSystem_WF
        (by decide)).2 rfl
    exact ⟨sys', h1, h3 rfl⟩
  · obtain ⟨sys', h1, _, _, h4⟩ :=
      (place_particle_directory exampleDec false emptyDirSystem 5 (3, 0, 0) emptyDirSystem_WF
        (by decide)).2 rfl
    exact ⟨sys', h1, h4 rfl⟩

/-! ## Claim C26: no message changes the identity of a particle -/

/-- The data members of `Full.Field` are all the members of a record with every
feature. -/
theorem Full_same_ext {Swimming VsRelative Gamma : Type}
    (a b : Full.Particle Swimming VsRelative Gamma) (h : ∀ fld : Full.Field, fld.same a b) :
    a = b := by
  obtain ⟨⟨a1, a2, a3, a4, a5, a6, a7, a8, a9, a10, a11, a12, a13, a14, a15, a16, a17, a18,
    a19⟩, ⟨b1, b2⟩, ⟨c1, c2⟩, ⟨d1, d2⟩, ⟨e1, e2⟩, f, g⟩ := a
  obtain ⟨⟨a1', a2', a3', a4', a5', a6', a7', a8', a9', a10', a11', a12', a13', a14', a15',
    a16', a17', a18', a19'⟩, ⟨b1', b2'⟩, ⟨c1', c2'⟩, ⟨d1', d2'⟩, ⟨e1', e2'⟩, f', g'⟩ := b
  have h1 : a1 = a1' := h .identity
  have h2 : a2 = a2' := h .mol_id
  have h3 : a3 = a3' := h .type
  have h4 : a4 = a4' := h .mass
  have h5 : a5 = a5' := h .solvation
  have h6 : a6 = a6' := h .rinertia
  have h7 : a7 = a7' := h .rotation
  have h8 : a8 = a8' := h .q
  have h9 : a9 = a9' := h .mu_E
  have h10 : a10 = a10' := h .swim
  have h11 : a11 = a11' := h .dipm
  have h12 : a12 = a12' := h .is_virtual
  have h13 : a13 = a13' := h .vs_relative
  have h14 : a14 = a14' := h .T
  have h15 : a15 = a15' := h .gamma
  have h16 : a16 = a16' := h .gamma_rot
  have h17 : a17 = a17' := h .ext_flag
  have h18 : a18 = a18' := h .ext_force
  have h19 : a19 = a19' := h .ext_torque
  have h20 : b1 = b1' := h .r_p
  have h21 : b2 = b2' := h .r_quat
  have h22 : c1 = c1' := h .m_v
  have h23 : c2 = c2' := h .m_omega
  have h24 : d1 = d1' := h .f_f
  have h25 : d2 = d2' := h .f_torque
  have h26 : e1 = e1' := h .l_ghost
  have h27 : e2 = e2' := h .l_i
  have h28 : f = f' := h .bl
  have h29 : g = g' := h .el
  subst h1 h2 h3 h4 h5 h6 h7 h8 h9 h10 h11 h12 h13 h14 h15 h16 h17 h18 h19 h20
  subst h21 h22 h23 h24 h25 h26 h27 h28 h29
  rfl

/-- A property update sets the addressed member and changes no other member. -/
theorem Full_property_frame {Swimming VsRelative Gamma : Type}
    (p : Full.Particle Swimming VsRelative Gamma)
    (m : Full.UpdatePropertyMessage Swimming VsRelative Gamma) :
    m.holds (m.apply p) ∧ ∀ fld : Full.Field, fld ≠ m.field → fld.same (m.apply p) p := by
  cases m <;> refine ⟨rfl, fun fld h => ?_⟩ <;> cases fld <;>
    first | exact rfl | exact absurd rfl h

/-- A position update sets the addressed member and changes no other member. -/
theorem Full_position_frame {Swimming VsRelative Gamma : Type}
    (p : Full.Particle Swimming VsRelative Gamma) (m : Full.UpdatePositionMessage) :
    m.holds (m.apply p) ∧ ∀ fld : Full.Field, fld ≠ m.field → fld.same (m.apply p) p := by
  cases m <;> refine ⟨rfl, fun fld h => ?_⟩ <;> cases fld <;>
    first | exact rfl | exact absurd rfl h

/-- A momentum update sets the addressed member and changes no other member. -/
theorem Full_momentum_frame {Swimming VsRelative Gamma : Type}
    (p : Full.Particle Swimming VsRelative Gamma) (m : Full.UpdateMomentumMessage) :
    m.holds (m.apply p) ∧ ∀ fld : Full.Field, fld ≠ m.field → fld.same (m.apply p) p := by
  cases m <;> refine ⟨rfl, fun fld h => ?_⟩ <;> cases fld <;>
    first | exact rfl | exact absurd rfl h

/-- A force update sets the addressed member and changes no other member. -/
theorem Full_force_frame {Swimming VsRelative Gamma : Type}
    (p : Full.Particle Swimming VsRelative Gamma) (m : Full.UpdateForceMessage) :
    m.holds (m.apply p) ∧ ∀ fld : Full.Field, fld ≠ m.field → fld.same (m.apply p) p := by
  cases m <;> refine ⟨rfl, fun fld h => ?_⟩ <;> cases fld <;>
    first | exact rfl | exact absurd rfl h

/-- A bond message changes the bond list only, on the record with every feature. -/
theorem Full_bond_frame {Swimming VsRelative Gamma : Type} (num : Int → Nat)
    (p : Full.Particle Swimming VsRelative Gamma) (m : UpdateBondMessage)
    (fld : Full.Field) (h : fld ≠ .bl) :
    fld.same (Full.UpdateBondMessage.apply num p m) p := by
  have hp : ∀ bl : List Int, fld.same ({ p with bl := bl } : Full.Particle _ _ _) p := by
    intro bl
    cases fld <;> first | exact rfl | exact absurd rfl h
  have hrefl : fld.same p p := by
    cases fld <;> exact rfl
  cases m with
  | RemoveBond bond =>
    simp only [Full.UpdateBondMessage.apply, Full.try_delete_bond]
    split
    · exact hp _
    · split
      · exact hp _
      · exact hrefl
  | RemoveBonds => exact hp _
  | AddBond bond => exact hp _

/-- The orientation update changes the orientation only. -/
theorem Full_orientation_frame {Swimming VsRelative Gamma : Type}
    (rotate : Full.Particle Swimming VsRelative Gamma → Vector3d → Int → Vector4d)
    (p : Full.Particle Swimming VsRelative Gamma) (m : Full.UpdateOrientation)
    (fld : Full.Field) (h : fld ≠ .r_quat) : fld.same (m.apply rotate p) p := by
  cases fld <;> first | exact rfl | exact absurd rfl h

/-- C26: no update message changes the identity of a particle. In the build without
feature switches (the messages of `mpi_send_update_message` above) and in the build with
every feature switch on, whose variant types hold the alternatives of every build,
applying a message (a property, position, momentum, force or bond update, or the
orientation update with `local_rotate_particle` as the specification describes it) leaves
`p.p.identity` and the exclusion list `p.el` unchanged; a plain field update
`UpdateParticle<S, s, T, m>` gives the addressed member the value of the message and
changes no other member and neither list; a bond message changes the bond list only and
the orientation update the orientation only. -/
theorem update_message_keeps_identity (num : Int → Nat) :
    (∀ p : Particle,
      (∀ msg : UpdateMessage,
        (msg.apply num p).p.identity = p.p.identity ∧ (msg.apply num p).el = p.el) ∧
      (∀ u : FieldUpdate, u.holds (u.message.apply num p) ∧
        ∀ fld : Field, fld ≠ u.field → fld.get (u.message.apply num p) = fld.get p) ∧
      (∀ (m : UpdateBondMessage) (fld : Field), fld ≠ .bl →
        fld.get ((UpdateMessage.bond m).apply num p) = fld.get p)) ∧
    (∀ (Swimming VsRelative Gamma : Type)
      (rotate : Full.Particle Swimming VsRelative Gamma → Vector3d → Int → Vector4d)
      (p : Full.Particle Swimming VsRelative Gamma),
      (∀ msg : Full.UpdateMessage Swimming VsRelative Gamma,
        (msg.apply num rotate p).p.identity = p.p.identity ∧
          (msg.apply num rotate p).el = p.el) ∧
      (∀ m : Full.UpdatePropertyMessage Swimming VsRelative Gamma, m.holds (m.apply p) ∧
        ∀ fld : Full.Field, fld ≠ m.field → fld.same (m.apply p) p) ∧
      (∀ m : Full.UpdatePositionMessage, m.holds (m.apply p) ∧
        ∀ fld : Full.Field, fld ≠ m.field → fld.same (m.apply p) p) ∧
      (∀ m : Full.UpdateMomentumMessage, m.holds (m.apply p) ∧
        ∀ fld : Full.Field, fld ≠ m.field → fld.same (m.apply p) p) ∧
      (∀ m : Full.UpdateForceMessage, m.holds (m.apply p) ∧
        ∀ fld : Full.Field, fld ≠ m.field → fld.same (m.apply p) p) ∧
      (∀ (m : UpdateBondMessage) (fld : Full.Field), fld ≠ .bl →
        fld.same (Full.UpdateBondMessage.apply num p m) p) ∧
      (∀ (m : Full.UpdateOrientation) (fld : Full.Field), fld ≠ .r_quat →
        fld.same (m.apply rotate p) p)) := by
  refine ⟨fun p => ⟨?_, ?_, ?_⟩, fun Swimming VsRelative Gamma rotate p =>
    ⟨?_, Full_property_frame p, Full_position_frame p, Full_momentum_frame p,
      Full_force_frame p, Full_bond_frame num p, Full_orientation_frame rotate p⟩⟩
  · intro msg
    cases msg with
    | property m => cases m <;> exact ⟨rfl, rfl⟩
    | position m => cases m; exact ⟨rfl, rfl⟩
    | momentum m => cases m; exact ⟨rfl, rfl⟩
    | force m => cases m; exact ⟨rfl, rfl⟩
    | bond m =>
      have h1 := UpdateBondMessage_apply_frame num p m .identity (by decide)
      have h2 := UpdateBondMessage_apply_frame num p m .el (by decide)
      simp only [Field.get, FieldValue.int.injEq, FieldValue.list.injEq] at h1 h2
      exact ⟨h1, h2⟩
  · intro u
    exact ⟨FieldUpdate.apply_holds num p u, FieldUpdate_apply_frame num p u⟩
  · intro m fld h
    exact UpdateBondMessage_apply_frame num p m fld h
  · intro msg
    cases msg with
    | property m => cases m <;> exact ⟨rfl, rfl⟩
    | position m => cases m <;> exact ⟨rfl, rfl⟩
    | momentum m => cases m <;> exact ⟨rfl, rfl⟩
    | force m => cases m <;> exact ⟨rfl, rfl⟩
    | bond m =>
      exact ⟨Full_bond_frame num p m .identity (by decide),
        Full_bond_frame num p m .el (by decide)⟩
    | orientation m => exact ⟨rfl, rfl⟩

/-- Instance of C26: on the example record with every feature, the orientation update
(with a rotation that depends on the record), the update of the member `rotation` and the
removal of the bond `0, 5` leave the identity 3 and the exclusions as they are; the
orientation update changes the orientation and the bond message the bond list. -/
theorem update_message_keeps_identity_witness :
    ((Full.UpdateMessage.orientation ⟨(0, 0, 1), 90⟩).apply exampleNum
        (fun p _ angle => (p.p.identity, angle, 0, 0)) Full.exampleParticle).p.identity = 3 ∧
    ((Full.UpdateMessage.orientation ⟨(0, 0, 1), 90⟩).apply exampleNum
        (fun p _ angle => (p.p.identity, angle, 0, 0)) Full.exampleParticle).r.quat
      = (3, 90, 0, 0) ∧
    ((Full.UpdateMessage.property (.rotation 2)).apply exampleNum
        (fun p _ angle => (p.p.identity, angle, 0, 0)) Full.exampleParticle).el = [1, 2] ∧
    Full.Field.same
      (Full.UpdateBondMessage.apply exampleNum Full.exampleParticle (.RemoveBond [0, 5]))
      Full.exampleParticle .identity ∧
    (Full.UpdateBondMessage.apply exampleNum Full.exampleParticle (.RemoveBond [0, 5])).bl
      = [1, 2, 3, 0, 5, 1, 7, 8] ∧
    ((UpdateMessage.bond (.RemoveBond [0, 5])).apply exampleNum bondedParticle).p.identity
      = bondedParticle.p.identity :=
  ⟨(((update_message_keeps_identity exampleNum).2 Unit Unit Unit
      (fun p _ angle => (p.p.identity, angle, 0, 0)) Full.exampleParticle).1 _).1,
    rfl,
    (((update_message_keeps_identity exampleNum).2 Unit Unit Unit
      (fun p _ angle => (p.p.identity, angle, 0, 0)) Full.exampleParticle).1 _).2,
    ((update_message_keeps_identity exampleNum).2 Unit Unit Unit
      (fun _ _ _ => (1, 0, 0, 0)) Full.exampleParticle).2.2.2.2.2.1 _ .identity (by decide),
    by decide,
    (((update_message_keeps_identity exampleNum).1 bondedParticle).1 _).1⟩

end Espresso
